import Mathlib

/-!
UE5MCPForge — BlueprintAnalyzer: extraction, traversal, references, search

A shallow embedding of `BlueprintDataExtractor.cpp`, `BlueprintSearcher.cpp` and the
lookup and paging code of `MCPHttpServer.cpp`.

Conventions of the embedding

* Engine objects that the source handles through pointers (`UBlueprint*`,
  `UEdGraphNode*`, `UEdGraphPin*`) live in a `World`; a pointer is an
  `Option Nat`: `none` is `nullptr`, `some a` is the address `a`, the index of
  the object in the corresponding table of the world.  An address outside the
  table denotes no object and is treated like `nullptr`.
* Dereferencing a pointer the source does not test first is a failure:
  the functions that do so return `Option`, `none` being the crash.
* `NodeId` / `PinId` are printed by the source with `%lld` from the object
  address; the embedding keeps the address itself.
* `int32` parameters are `Int`; counters compared against them are `Nat`.
* `TMap<FString, FString>` is an association list in insertion order; its keys,
  like object paths and `FName`s, are compared ignoring case.
-/

namespace BlueprintAnalyzer

/-! ## Engine strings -/

namespace FString

/-- Characters of a string after case folding. -/
def lower (s : String) : List Char := s.toList.map Char.toLower

/-- Engine primitive `A.Equals(B, ESearchCase::IgnoreCase)`. -/
def EqualsIgnoreCase (a b : String) : Bool := lower a == lower b

/-- Does `hay` begin with `needle`? -/
def startsWithChars : List Char → List Char → Bool
  | _, [] => true
  | [], _ :: _ => false
  | h :: hs, n :: ns => h == n && startsWithChars hs ns

/-- Does `needle` occur in `hay` as a contiguous run? -/
def containsChars : List Char → List Char → Bool
  | [], needle => needle.isEmpty
  | h :: hs, needle => startsWithChars (h :: hs) needle || containsChars hs needle

/-- Engine primitive `A.Contains(B, ESearchCase::IgnoreCase)` (the default search
case of `FString::Contains`): case-insensitive substring containment. -/
def ContainsIgnoreCase (a b : String) : Bool := containsChars (lower a) (lower b)

/-- Engine primitive `FString::FromInt`. -/
def FromInt (n : Int) : String := toString n

end FString

/-- Comparison of `FName`s (`==`, `!=`): it ignores case. -/
def FName.Equals (a b : String) : Bool := FString.EqualsIgnoreCase a b

/-- The name `NAME_None`. -/
def NAME_None : String := "None"

/-- The pin category `UEdGraphSchema_K2::PC_Exec`. -/
def PC_Exec : String := "exec"

/-- The pin category `UEdGraphSchema_K2::PC_Object`. -/
def PC_Object : String := "object"

/-- The pin category `UEdGraphSchema_K2::PC_Class`. -/
def PC_Class : String := "class"

/-- The pin category `UEdGraphSchema_K2::PC_Interface`. -/
def PC_Interface : String := "interface"

/-- Property flag `CPF_BlueprintVisible`. -/
def CPF_BlueprintVisible : Nat := 0x4

/-- Property flag `CPF_BlueprintReadOnly`. -/
def CPF_BlueprintReadOnly : Nat := 0x10

/-- Property flag `CPF_Net`. -/
def CPF_Net : Nat := 0x20

/-- Type `TMap<FString, FString>` in insertion order. -/
abbrev TMap := List (String × String)

/-- Function `TMap::Add`: replaces the value of an existing key (keys compare
ignoring case, as `FString` keys do), otherwise appends the pair. -/
def TMap.Add (m : TMap) (k v : String) : TMap :=
  if m.any (fun e => FString.EqualsIgnoreCase e.1 k) then
    m.map (fun e => if FString.EqualsIgnoreCase e.1 k then (e.1, v) else e)
  else m ++ [(k, v)]

/-- Function `TMap::Find`. -/
def TMap.Find (m : TMap) (k : String) : Option String :=
  (m.find? (fun e => FString.EqualsIgnoreCase e.1 k)).map (fun e => e.2)

/-! ## Data model (`BlueprintData.h`) -/

/-- Type `EBlueprintDetailLevel`. -/
inductive EBlueprintDetailLevel
  | Basic | Medium | Full | Graph | Events | References
  deriving DecidableEq, Repr

/-- The `uint8` value of a detail level. -/
def EBlueprintDetailLevel.toNat : EBlueprintDetailLevel → Nat
  | .Basic => 0
  | .Medium => 1
  | .Full => 2
  | .Graph => 3
  | .Events => 4
  | .References => 5

/-- Type `EBlueprintReferenceType`. -/
inductive EBlueprintReferenceType
  | Inheritance | FunctionCall | VariableType | DirectReference
  | IndirectReference | EventChain | DataFlow
  deriving DecidableEq, Repr

/-- Type `EBlueprintReferenceDirection`. -/
inductive EBlueprintReferenceDirection
  | Outgoing | Incoming
  deriving DecidableEq, Repr

/-- Type `FBlueprintParamData`. -/
structure FBlueprintParamData where
  Name : String := ""
  Type_ : String := ""
  IsOutput : Bool := false
  DefaultValue : String := ""
  deriving DecidableEq, Repr

/-- Type `FBlueprintFunctionData`. -/
structure FBlueprintFunctionData where
  Name : String := ""
  IsEvent : Bool := false
  Params : List FBlueprintParamData := []
  ReturnType : String := ""
  Description : String := ""
  IsCallable : Bool := false
  IsPure : Bool := false
  deriving DecidableEq, Repr

/-- Type `FBlueprintVariableData`. -/
structure FBlueprintVariableData where
  Name : String := ""
  Type_ : String := ""
  DefaultValue : String := ""
  IsExposed : Bool := false
  IsReadOnly : Bool := false
  IsReplicated : Bool := false
  Category : String := ""
  deriving DecidableEq, Repr

/-- Type `FBlueprintPinData`; `PinId` is the pin's address. -/
structure FBlueprintPinData where
  PinId : Nat := 0
  Name : String := ""
  IsExecution : Bool := false
  DataType : String := ""
  IsConnected : Bool := false
  DefaultValue : String := ""
  IsInput : Bool := true
  deriving DecidableEq, Repr

/-- Type `FBlueprintNodeData`; `NodeId` is the node's address. -/
structure FBlueprintNodeData where
  NodeId : Nat := 0
  NodeType : String := ""
  Title : String := ""
  PositionX : Int := 0
  PositionY : Int := 0
  Comment : String := ""
  InputPins : List FBlueprintPinData := []
  OutputPins : List FBlueprintPinData := []
  Properties : TMap := []
  deriving DecidableEq, Repr

/-- Type `FBlueprintConnectionData`. -/
structure FBlueprintConnectionData where
  SourceNodeId : Nat := 0
  SourcePinId : Nat := 0
  TargetNodeId : Nat := 0
  TargetPinId : Nat := 0
  deriving DecidableEq, Repr

/-- Type `FBlueprintGraphData`. -/
structure FBlueprintGraphData where
  Name : String := ""
  GraphType : String := ""
  Nodes : List FBlueprintNodeData := []
  Connections : List FBlueprintConnectionData := []
  Metadata : TMap := []
  deriving DecidableEq, Repr

/-- Type `FBlueprintReferenceData`. -/
structure FBlueprintReferenceData where
  ReferenceType : EBlueprintReferenceType := .Inheritance
  Direction : EBlueprintReferenceDirection := .Outgoing
  BlueprintPath : String := ""
  BlueprintName : String := ""
  Context : String := ""
  bIsIndirect : Bool := false
  ReferenceChain : List String := []
  Properties : TMap := []
  deriving DecidableEq, Repr

/-- Type `FBlueprintData`. -/
structure FBlueprintData where
  Name : String := ""
  Path : String := ""
  ParentClass : String := ""
  Functions : List FBlueprintFunctionData := []
  Variables : List FBlueprintVariableData := []
  Graphs : List FBlueprintGraphData := []
  References : List FBlueprintReferenceData := []
  Description : String := ""
  Metadata : TMap := []
  deriving DecidableEq, Repr

/-! ## Engine objects -/

/-- A `UClass`: its name, its path name, and the blueprint that generated it
(`Cast<UBlueprint>(ClassGeneratedBy)`, `none` when null or not a blueprint). -/
structure UClass where
  Name : String := ""
  PathName : String := ""
  ClassGeneratedBy : Option Nat := none
  deriving DecidableEq, Repr

/-- A `UFunction`: its name and owner class. -/
structure UFunction where
  Name : String := ""
  OwnerClass : Option UClass := none
  deriving DecidableEq, Repr

/-- Type `EEdGraphPinDirection`. -/
inductive EEdGraphPinDirection
  | EGPD_Input | EGPD_Output
  deriving DecidableEq, Repr

/-- A `UEdGraphPin`.  `LinkedTo` holds pin pointers, `OwningNode` is
`GetOwningNode()`, `DefaultObject` is `Cast<UClass>(DefaultObject)`. -/
structure UEdGraphPin where
  PinName : String := ""
  Direction : EEdGraphPinDirection := .EGPD_Input
  PinCategory : String := ""
  LinkedTo : List (Option Nat) := []
  DefaultValue : String := ""
  DefaultObject : Option UClass := none
  OwningNode : Option Nat := none
  deriving DecidableEq, Repr

/-- What the `Cast<...>` calls of the source see in a node: the subclass of
`UEdGraphNode` it belongs to, with the members the source reads. -/
inductive NodeKind
  | FunctionEntry
  | Event (MemberName : String) (MemberScope : Option UClass)
  | CallFunction (MemberName : String) (TargetFunction : Option UFunction)
  | VariableGet (MemberName : String)
  | VariableSet (MemberName : String)
  | SpawnActor (BlueprintPin : Option Nat)
  | DynamicCast (TargetType : Option UClass)
  | Other
  deriving DecidableEq, Repr

/-- A `UEdGraphNode`.  `ClassName` is `GetClass()->GetName()`, `Title` is
`GetNodeTitle(FullTitle)`, `Pins` holds pin pointers. -/
structure UEdGraphNode where
  ClassName : String := ""
  Title : String := ""
  NodePosX : Int := 0
  NodePosY : Int := 0
  NodeComment : String := ""
  Pins : List (Option Nat) := []
  Kind : NodeKind := .Other
  deriving DecidableEq, Repr

/-- A `UEdGraph`: its name and its node pointers. -/
structure UEdGraph where
  Name : String := ""
  Nodes : List (Option Nat) := []
  deriving DecidableEq, Repr

/-- Type `FBPVariableDescription`.  `TypeText` is
`UEdGraphSchema_K2::TypeToText(VarType)`, `PinSubCategoryObject` is
`Cast<UClass>(VarType.PinSubCategoryObject.Get())`. -/
structure FBPVariableDescription where
  VarName : String := ""
  PinCategory : String := ""
  PinSubCategoryObject : Option UClass := none
  TypeText : String := ""
  PropertyFlags : Nat := 0
  DefaultValue : String := ""
  Category : String := ""
  deriving DecidableEq, Repr

/-- A `UBlueprint`. -/
structure UBlueprint where
  Name : String := ""
  PathName : String := ""
  ParentClass : Option UClass := none
  GeneratedClass : Option UClass := none
  BlueprintDescription : String := ""
  FunctionGraphs : List (Option UEdGraph) := []
  UbergraphPages : List (Option UEdGraph) := []
  NewVariables : List FBPVariableDescription := []
  deriving DecidableEq, Repr

/-- Type `FAssetData` of a blueprint asset: `ParentClassTag` is
`GetTagValue("ParentClass")`, `Asset` is `Cast<UBlueprint>(GetAsset())`. -/
structure FAssetData where
  AssetName : String := ""
  ObjectPath : String := ""
  ParentClassTag : Option String := none
  Asset : Option Nat := none
  deriving DecidableEq, Repr

/-- The engine state the extractor reads: object tables and the asset registry. -/
structure World where
  Blueprints : List UBlueprint := []
  Nodes : List UEdGraphNode := []
  Pins : List UEdGraphPin := []
  AssetRegistry : List FAssetData := []
  deriving Repr

/-- Dereference of a blueprint pointer. -/
def World.blueprint (W : World) : Option Nat → Option UBlueprint
  | none => none
  | some a => W.Blueprints[a]?

/-- Dereference of a node pointer. -/
def World.node (W : World) : Option Nat → Option UEdGraphNode
  | none => none
  | some a => W.Nodes[a]?

/-- Dereference of a pin pointer. -/
def World.pin (W : World) : Option Nat → Option UEdGraphPin
  | none => none
  | some a => W.Pins[a]?

/-- Engine call `LoadObject<UBlueprint>(nullptr, Path)`: the address of the blueprint at
that path, if any.  Object paths are resolved through `FName`s, which ignore case. -/
def World.LoadObject (W : World) (Path : String) : Option Nat :=
  match W.Blueprints.findIdx? (fun b => FString.EqualsIgnoreCase b.PathName Path) with
  | some i => some i
  | none => none

/-- Function `IAssetRegistry::GetAssetByObjectPath`: the asset data at that path (an
invalid `FAssetData` is `none`). -/
def World.GetAssetByObjectPath (W : World) (Path : String) : Option FAssetData :=
  W.AssetRegistry.find? (fun a => FString.EqualsIgnoreCase a.ObjectPath Path)

/-- A non-null pointer into the pin table, with its address. -/
def World.pinAt (W : World) : Option Nat → Option (Nat × UEdGraphPin)
  | none => none
  | some a => (W.Pins[a]?).map (fun P => (a, P))

/-- A non-null pointer into the node table, with its address. -/
def World.nodeAt (W : World) : Option Nat → Option (Nat × UEdGraphNode)
  | none => none
  | some a => (W.Nodes[a]?).map (fun N => (a, N))

/-! ## `ExtractFunctions`, `ExtractVariables` -/

/-- The parameter loop of `ExtractFunctions` (the same for entry nodes and
event nodes): output pins not named `then`.  `Pin->Direction` is read without
a null test. -/
def ExtractFunctions.params (W : World) : List (Option Nat) → Option (List FBlueprintParamData)
  | [] => some []
  | p :: ps =>
    match W.pin p with
    | none => none
    | some Pin =>
      match ExtractFunctions.params W ps with
      | none => none
      | some rest =>
        if Pin.Direction = .EGPD_Output ∧ FName.Equals Pin.PinName "then" = false then
          some ({ Name := Pin.PinName, Type_ := Pin.PinCategory, IsOutput := false } :: rest)
        else some rest

/-- The search for the entry node: the first node of the graph that casts to
`UK2Node_FunctionEntry`. -/
def ExtractFunctions.entryNode (W : World) : List (Option Nat) → Option UEdGraphNode
  | [] => none
  | n :: ns =>
    match W.node n with
    | some N =>
      match N.Kind with
      | .FunctionEntry => some N
      | _ => ExtractFunctions.entryNode W ns
    | none => ExtractFunctions.entryNode W ns

/-- Engine primitive `UEdGraphNode::FindPin(Name, Direction)`. -/
def FindPin (W : World) (N : UEdGraphNode) (PinName : String) (Dir : EEdGraphPinDirection) :
    Option UEdGraphPin :=
  (N.Pins.filterMap W.pin).find? (fun P => FName.Equals P.PinName PinName && P.Direction == Dir)

/-- The body of the function-graph loop of `ExtractFunctions` for one graph. -/
def ExtractFunctions.functionData (W : World) (FunctionGraph : UEdGraph) :
    Option FBlueprintFunctionData :=
  match ExtractFunctions.entryNode W FunctionGraph.Nodes with
  | some EntryNode =>
    match ExtractFunctions.params W EntryNode.Pins with
    | none => none
    | some Params =>
      match FindPin W EntryNode "ReturnValue" .EGPD_Input with
      | some ReturnPin =>
        some { Name := FunctionGraph.Name, Params := Params, ReturnType := ReturnPin.PinCategory }
      | none => some { Name := FunctionGraph.Name, Params := Params }
  | none => some { Name := FunctionGraph.Name }

/-- The function-graph loop of `ExtractFunctions`; `FunctionGraph->GetName()` is
read without a null test. -/
def ExtractFunctions.functionGraphs (W : World) : List (Option UEdGraph) →
    Option (List FBlueprintFunctionData)
  | [] => some []
  | none :: _ => none
  | some FunctionGraph :: rest =>
    match ExtractFunctions.functionData W FunctionGraph with
    | none => none
    | some FunctionData =>
      match ExtractFunctions.functionGraphs W rest with
      | none => none
      | some Functions => some (FunctionData :: Functions)

/-- The node loop of the event-graph part of `ExtractFunctions`. -/
def ExtractFunctions.eventNodes (W : World) : List (Option Nat) →
    Option (List FBlueprintFunctionData)
  | [] => some []
  | n :: ns =>
    match W.node n with
    | some N =>
      match N.Kind with
      | .Event MemberName _ =>
        match ExtractFunctions.params W N.Pins with
        | none => none
        | some Params =>
          match ExtractFunctions.eventNodes W ns with
          | none => none
          | some rest => some ({ Name := MemberName, IsEvent := true, Params := Params } :: rest)
      | _ => ExtractFunctions.eventNodes W ns
    | none => ExtractFunctions.eventNodes W ns

/-- The event-graph loop of `ExtractFunctions`; `EventGraph->Nodes` is read
without a null test. -/
def ExtractFunctions.eventGraphs (W : World) : List (Option UEdGraph) →
    Option (List FBlueprintFunctionData)
  | [] => some []
  | none :: _ => none
  | some EventGraph :: rest =>
    match ExtractFunctions.eventNodes W EventGraph.Nodes with
    | none => none
    | some Events =>
      match ExtractFunctions.eventGraphs W rest with
      | none => none
      | some more => some (Events ++ more)

/-- Function `FBlueprintDataExtractor::ExtractFunctions`. -/
def ExtractFunctions (W : World) (Blueprint : Option Nat) : Option (List FBlueprintFunctionData) :=
  match W.blueprint Blueprint with
  | none => some []
  | some BP =>
    match ExtractFunctions.functionGraphs W BP.FunctionGraphs with
    | none => none
    | some Functions =>
      match ExtractFunctions.eventGraphs W BP.UbergraphPages with
      | none => none
      | some Events => some (Functions ++ Events)

/-- The loop body of `ExtractVariables`. -/
def ExtractVariables.variableData (VarDesc : FBPVariableDescription) : FBlueprintVariableData :=
  { Name := VarDesc.VarName
    Type_ := VarDesc.TypeText
    IsExposed := (VarDesc.PropertyFlags &&& CPF_BlueprintVisible) != 0
    IsReadOnly := (VarDesc.PropertyFlags &&& CPF_BlueprintReadOnly) != 0
    IsReplicated := (VarDesc.PropertyFlags &&& CPF_Net) != 0
    DefaultValue := if VarDesc.DefaultValue.length > 0 then VarDesc.DefaultValue else ""
    Category := if VarDesc.Category.isEmpty then "" else VarDesc.Category }

/-- Function `FBlueprintDataExtractor::ExtractVariables`. -/
def ExtractVariables (W : World) (Blueprint : Option Nat) : List FBlueprintVariableData :=
  match W.blueprint Blueprint with
  | none => []
  | some BP => BP.NewVariables.map ExtractVariables.variableData

/-! ## Reference resolver -/

/-- The outgoing parent reference of `ExtractInheritanceReferences`. -/
def ExtractInheritanceReferences.parent (W : World) (BP : UBlueprint) :
    List FBlueprintReferenceData :=
  match BP.ParentClass with
  | none => []
  | some ParentClass =>
    match W.blueprint ParentClass.ClassGeneratedBy with
    | none => []
    | some ParentBlueprint =>
      [{ ReferenceType := .Inheritance, Direction := .Outgoing
         BlueprintPath := ParentBlueprint.PathName, BlueprintName := ParentBlueprint.Name
         Context := "Parent Class", bIsIndirect := false }]

/-- The child-asset loop of `ExtractInheritanceReferences`;
`Blueprint->GeneratedClass->GetPathName()` is read without a null test, for
every asset that carries a `ParentClass` tag. -/
def ExtractInheritanceReferences.children (W : World) (BP : UBlueprint) :
    List FAssetData → Option (List FBlueprintReferenceData)
  | [] => some []
  | ChildAsset :: rest =>
    match ChildAsset.ParentClassTag with
    | none => ExtractInheritanceReferences.children W BP rest
    | some ParentClassPath =>
      match BP.GeneratedClass with
      | none => none
      | some GeneratedClass =>
        match ExtractInheritanceReferences.children W BP rest with
        | none => none
        | some more =>
          if FString.ContainsIgnoreCase ParentClassPath GeneratedClass.PathName then
            match W.blueprint ChildAsset.Asset with
            | some ChildBlueprint =>
              some ({ ReferenceType := .Inheritance, Direction := .Incoming
                      BlueprintPath := ChildBlueprint.PathName
                      BlueprintName := ChildBlueprint.Name
                      Context := "Child Class", bIsIndirect := false } :: more)
            | none => some more
          else some more

/-- Function `FBlueprintDataExtractor::ExtractInheritanceReferences`. -/
def ExtractInheritanceReferences (W : World) (Blueprint : Option Nat) :
    Option (List FBlueprintReferenceData) :=
  match W.blueprint Blueprint with
  | none => some []
  | some BP =>
    match ExtractInheritanceReferences.children W BP W.AssetRegistry with
    | none => none
    | some Children => some (ExtractInheritanceReferences.parent W BP ++ Children)

/-- The array `AllGraphs` of the reference scans, null graphs skipped. -/
def AllGraphs (BP : UBlueprint) : List UEdGraph :=
  (BP.FunctionGraphs ++ BP.UbergraphPages).filterMap id

/-- The node test of `ExtractFunctionCallReferences`. -/
def ExtractFunctionCallReferences.nodeRefs (W : World) (Blueprint : Option Nat)
    (Graph : UEdGraph) (Node : Option Nat) : List FBlueprintReferenceData :=
  match W.node Node with
  | none => []
  | some N =>
    match N.Kind with
    | .CallFunction _ (some TargetFunction) =>
      match TargetFunction.OwnerClass with
      | none => []
      | some FunctionOwnerClass =>
        match W.blueprint FunctionOwnerClass.ClassGeneratedBy with
        | none => []
        | some TargetBlueprint =>
          if FunctionOwnerClass.ClassGeneratedBy ≠ Blueprint then
            [{ ReferenceType := .FunctionCall, Direction := .Outgoing
               BlueprintPath := TargetBlueprint.PathName, BlueprintName := TargetBlueprint.Name
               Context := "Function: " ++ TargetFunction.Name, bIsIndirect := false
               Properties := (TMap.Add [] "FunctionName" TargetFunction.Name).Add
                 "SourceGraph" Graph.Name }]
          else []
    | _ => []

/-- Function `FBlueprintDataExtractor::ExtractFunctionCallReferences`. -/
def ExtractFunctionCallReferences (W : World) (Blueprint : Option Nat) :
    List FBlueprintReferenceData :=
  match W.blueprint Blueprint with
  | none => []
  | some BP =>
    (AllGraphs BP).flatMap (fun Graph =>
      Graph.Nodes.flatMap (ExtractFunctionCallReferences.nodeRefs W Blueprint Graph))

/-- The loop body of `ExtractVariableTypeReferences`. -/
def ExtractVariableTypeReferences.varRefs (W : World) (Blueprint : Option Nat)
    (VarDesc : FBPVariableDescription) : List FBlueprintReferenceData :=
  let VariableClass : Option UClass :=
    if FName.Equals VarDesc.PinCategory PC_Object || FName.Equals VarDesc.PinCategory PC_Class
        || FName.Equals VarDesc.PinCategory PC_Interface then VarDesc.PinSubCategoryObject
    else none
  match VariableClass with
  | none => []
  | some VC =>
    match W.blueprint VC.ClassGeneratedBy with
    | none => []
    | some VariableBlueprint =>
      if VC.ClassGeneratedBy ≠ Blueprint then
        [{ ReferenceType := .VariableType, Direction := .Outgoing
           BlueprintPath := VariableBlueprint.PathName, BlueprintName := VariableBlueprint.Name
           Context := "Variable: " ++ VarDesc.VarName, bIsIndirect := false
           Properties := TMap.Add [] "VariableName" VarDesc.VarName }]
      else []

/-- Function `FBlueprintDataExtractor::ExtractVariableTypeReferences`. -/
def ExtractVariableTypeReferences (W : World) (Blueprint : Option Nat) :
    List FBlueprintReferenceData :=
  match W.blueprint Blueprint with
  | none => []
  | some BP => BP.NewVariables.flatMap (ExtractVariableTypeReferences.varRefs W Blueprint)

/-- The node test of `ExtractDirectReferences`: spawn-actor nodes with an
unconnected class pin holding a default class, and dynamic-cast nodes. -/
def ExtractDirectReferences.nodeRefs (W : World) (Blueprint : Option Nat)
    (Graph : UEdGraph) (Node : Option Nat) : List FBlueprintReferenceData :=
  match W.node Node with
  | none => []
  | some N =>
    match N.Kind with
    | .SpawnActor BlueprintPin =>
      match W.pin BlueprintPin with
      | none => []
      | some Pin =>
        if Pin.LinkedTo.length > 0 then []
        else
          match Pin.DefaultObject with
          | none => []
          | some SpawnClass =>
            match W.blueprint SpawnClass.ClassGeneratedBy with
            | none => []
            | some SpawnedBlueprint =>
              if SpawnClass.ClassGeneratedBy ≠ Blueprint then
                [{ ReferenceType := .DirectReference, Direction := .Outgoing
                   BlueprintPath := SpawnedBlueprint.PathName
                   BlueprintName := SpawnedBlueprint.Name
                   Context := "Spawn Actor", bIsIndirect := false
                   Properties := (TMap.Add [] "NodeType" "SpawnActor").Add
                     "SourceGraph" Graph.Name }]
              else []
    | .DynamicCast (some TargetType) =>
      match W.blueprint TargetType.ClassGeneratedBy with
      | none => []
      | some CastBlueprint =>
        if TargetType.ClassGeneratedBy ≠ Blueprint then
          [{ ReferenceType := .DirectReference, Direction := .Outgoing
             BlueprintPath := CastBlueprint.PathName, BlueprintName := CastBlueprint.Name
             Context := "Dynamic Cast", bIsIndirect := false
             Properties := (TMap.Add [] "NodeType" "DynamicCast").Add
               "SourceGraph" Graph.Name }]
        else []
    | _ => []

/-- Function `FBlueprintDataExtractor::ExtractDirectReferences`. -/
def ExtractDirectReferences (W : World) (Blueprint : Option Nat) :
    List FBlueprintReferenceData :=
  match W.blueprint Blueprint with
  | none => []
  | some BP =>
    (AllGraphs BP).flatMap (fun Graph =>
      Graph.Nodes.flatMap (ExtractDirectReferences.nodeRefs W Blueprint Graph))

/-- The part of `ExtractReferences` that runs whatever `bIncludeIndirect` is:
the four direct kinds, concatenated.  It is the whole of
`ExtractReferences(Blueprint, false)`. -/
def ExtractReferences.direct (W : World) (Blueprint : Option Nat) :
    Option (List FBlueprintReferenceData) :=
  match W.blueprint Blueprint with
  | none => some []
  | some _ =>
    match ExtractInheritanceReferences W Blueprint with
    | none => none
    | some InheritanceRefs =>
      some (InheritanceRefs ++ ExtractFunctionCallReferences W Blueprint
        ++ ExtractVariableTypeReferences W Blueprint ++ ExtractDirectReferences W Blueprint)

/-- The inner loop of the indirect pass: the outgoing second-level references,
flagged indirect, with the first-level path added to their chain. -/
def ExtractReferences.reemit (Ref : FBlueprintReferenceData)
    (SecondLevelRefs : List FBlueprintReferenceData) : List FBlueprintReferenceData :=
  (SecondLevelRefs.filter (fun SecondRef => SecondRef.Direction = .Outgoing)).map
    (fun SecondRef => { SecondRef with
      bIsIndirect := true
      ReferenceChain := SecondRef.ReferenceChain ++ [Ref.BlueprintPath] })

/-- The outer loop of the indirect pass of `ExtractReferences`; the sub-call is
`ExtractReferences(ReferencedBP, false)`. -/
def ExtractReferences.indirect (W : World) :
    List FBlueprintReferenceData → Option (List FBlueprintReferenceData)
  | [] => some []
  | Ref :: rest =>
    if Ref.Direction = .Outgoing ∧ Ref.bIsIndirect = false then
      match W.LoadObject Ref.BlueprintPath with
      | none => ExtractReferences.indirect W rest
      | some ReferencedBP =>
        match ExtractReferences.direct W (some ReferencedBP) with
        | none => none
        | some SecondLevelRefs =>
          match ExtractReferences.indirect W rest with
          | none => none
          | some more => some (ExtractReferences.reemit Ref SecondLevelRefs ++ more)
    else ExtractReferences.indirect W rest

/-- Function `FBlueprintDataExtractor::ExtractReferences`. -/
def ExtractReferences (W : World) (Blueprint : Option Nat) (bIncludeIndirect : Bool) :
    Option (List FBlueprintReferenceData) :=
  match ExtractReferences.direct W Blueprint with
  | none => none
  | some References =>
    if bIncludeIndirect then
      match ExtractReferences.indirect W References with
      | none => none
      | some IndirectRefs => some (References ++ IndirectRefs)
    else some References

/-- The static `ReferenceCache`: `TMap<FString, TArray<FBlueprintReferenceData>>`,
in insertion order. -/
abbrev ReferenceCache := List (String × List FBlueprintReferenceData)

/-- Lookup in the cache, `ReferenceCache.Contains(Path)` with `ReferenceCache[Path]`. -/
def ReferenceCache.Find (Cache : ReferenceCache) (Path : String) :
    Option (List FBlueprintReferenceData) :=
  (Cache.find? (fun e => FString.EqualsIgnoreCase e.1 Path)).map (fun e => e.2)

/-- Entry update, `ReferenceCache.Add(Path, References)`: replaces the value of
an existing key, otherwise appends the pair. -/
def ReferenceCache.Add (Cache : ReferenceCache) (Path : String)
    (References : List FBlueprintReferenceData) : ReferenceCache :=
  if Cache.any (fun e => FString.EqualsIgnoreCase e.1 Path) then
    Cache.map (fun e => if FString.EqualsIgnoreCase e.1 Path then (e.1, References) else e)
  else Cache ++ [(Path, References)]

/-- The loop of `GetBlueprintReferences` that sets `bNeedToReextract`: it stops
with `false` at the first indirect entry and sets `true` at every direct one. -/
def GetBlueprintReferences.needToReextract :
    List FBlueprintReferenceData → Bool → Bool
  | [], b => b
  | Reference :: rest, _ =>
    if Reference.bIsIndirect then false
    else GetBlueprintReferences.needToReextract rest true

/-- Function `FBlueprintDataExtractor::GetBlueprintReferences`, on an explicit cache: the
result and the cache afterwards. -/
def GetBlueprintReferences (W : World) (Cache : ReferenceCache) (Path : String)
    (bIncludeIndirect : Bool) : Option (List FBlueprintReferenceData × ReferenceCache) :=
  let Cached := Cache.Find Path
  let References : List FBlueprintReferenceData := Cached.getD []
  let bNeedToReextract : Bool :=
    bIncludeIndirect && GetBlueprintReferences.needToReextract References false
  if Cached.isSome ∧ bNeedToReextract = false then
    if bIncludeIndirect = false then
      some (References.filter (fun Reference => !Reference.bIsIndirect), Cache)
    else some (References, Cache)
  else
    match W.LoadObject Path with
    | some Blueprint =>
      match ExtractReferences W (some Blueprint) bIncludeIndirect with
      | none => none
      | some Extracted => some (Extracted, Cache.Add Path Extracted)
    | none => some (References, Cache)

/-- Function `FBlueprintDataExtractor::CacheBlueprintReferences`: the cache afterwards. -/
def CacheBlueprintReferences (W : World) (Cache : ReferenceCache) (Blueprint : Option Nat) :
    Option ReferenceCache :=
  match W.blueprint Blueprint with
  | none => some Cache
  | some BP =>
    match ExtractReferences W Blueprint true with
    | none => none
    | some References => some (Cache.Add BP.PathName References)

/-! ## Graph extractor -/

/-- The pin record built by both node loops of `ExtractGraphs`. -/
def ExtractGraphs.pinData (PinAddr : Nat) (Pin : UEdGraphPin) : FBlueprintPinData :=
  { PinId := PinAddr
    Name := Pin.PinName
    IsExecution := FName.Equals Pin.PinCategory PC_Exec
    DataType := Pin.PinCategory
    IsConnected := decide (Pin.LinkedTo.length > 0)
    DefaultValue := Pin.DefaultValue
    IsInput := decide (Pin.Direction = .EGPD_Input) }

/-- The body of the `LinkedTo` loop of `ExtractGraphs`: one connection per
linked pin that is non-null and has an owning node, oriented output → input. -/
def ExtractGraphs.linkStep (W : World) (NodeId PinId : Nat) (Direction : EEdGraphPinDirection)
    (Connections : List FBlueprintConnectionData) (LinkedPin : Option Nat) :
    List FBlueprintConnectionData :=
  match W.pinAt LinkedPin with
  | none => Connections
  | some (LinkedAddr, LP) =>
    match W.nodeAt LP.OwningNode with
    | none => Connections
    | some (OwnerAddr, _) =>
      if Direction = .EGPD_Output then
        Connections ++ [{ SourceNodeId := NodeId, SourcePinId := PinId
                          TargetNodeId := OwnerAddr, TargetPinId := LinkedAddr }]
      else
        Connections ++ [{ SourceNodeId := OwnerAddr, SourcePinId := LinkedAddr
                          TargetNodeId := NodeId, TargetPinId := PinId }]

/-- The body of the pin loop of `ExtractGraphs`, on the node record under
construction and the graph's connection list. -/
def ExtractGraphs.pinStep (W : World)
    (st : FBlueprintNodeData × List FBlueprintConnectionData) (PinPtr : Option Nat) :
    FBlueprintNodeData × List FBlueprintConnectionData :=
  match W.pinAt PinPtr with
  | none => st
  | some (PinAddr, Pin) =>
    let PinData := ExtractGraphs.pinData PinAddr Pin
    let NodeData : FBlueprintNodeData :=
      if Pin.Direction = .EGPD_Input then
        { st.1 with InputPins := st.1.InputPins ++ [PinData] }
      else
        { st.1 with OutputPins := st.1.OutputPins ++ [PinData] }
    (NodeData, Pin.LinkedTo.foldl (ExtractGraphs.linkStep W st.1.NodeId PinAddr Pin.Direction) st.2)

/-- The node-type-specific properties of `ExtractGraphs`; the `K2Node_Event`
branch exists only in the event-graph copy of the code (`withEvent`). -/
def ExtractGraphs.properties (NodeType : String) (Kind : NodeKind) (withEvent : Bool) : TMap :=
  if FString.ContainsIgnoreCase NodeType "K2Node_CallFunction" then
    match Kind with
    | .CallFunction MemberName _ =>
      if FName.Equals MemberName NAME_None then [] else TMap.Add [] "FunctionName" MemberName
    | _ => []
  else if FString.ContainsIgnoreCase NodeType "K2Node_VariableGet" then
    match Kind with
    | .VariableGet MemberName =>
      if FName.Equals MemberName NAME_None then [] else TMap.Add [] "VariableName" MemberName
    | _ => []
  else if FString.ContainsIgnoreCase NodeType "K2Node_VariableSet" then
    match Kind with
    | .VariableSet MemberName =>
      if FName.Equals MemberName NAME_None then [] else TMap.Add [] "VariableName" MemberName
    | _ => []
  else if withEvent && FString.ContainsIgnoreCase NodeType "K2Node_Event" then
    match Kind with
    | .Event MemberName _ =>
      if FName.Equals MemberName NAME_None then [] else TMap.Add [] "EventName" MemberName
    | _ => []
  else []

/-- One non-null node of `ExtractGraphs`: its record is built, its pins and
their connections are extracted, and the record is added to the graph. -/
def ExtractGraphs.addNode (W : World) (withEvent : Bool) (GraphData : FBlueprintGraphData)
    (NodeAddr : Nat) (Node : UEdGraphNode) : FBlueprintGraphData :=
  let NodeData : FBlueprintNodeData :=
    { NodeId := NodeAddr
      NodeType := Node.ClassName
      Title := Node.Title
      PositionX := Node.NodePosX
      PositionY := Node.NodePosY
      Comment := if Node.NodeComment.length > 0 then Node.NodeComment else "" }
  let st := Node.Pins.foldl (ExtractGraphs.pinStep W) (NodeData, GraphData.Connections)
  { GraphData with
    Nodes := GraphData.Nodes ++
      [{ st.1 with Properties := ExtractGraphs.properties Node.ClassName Node.Kind withEvent }]
    Connections := st.2 }

/-- The node loop of a function graph in `ExtractGraphs`, with its `MaxNodes`
test and `break`. -/
def ExtractGraphs.functionNodes (W : World) (MaxNodes : Int) :
    List (Option Nat) → FBlueprintGraphData → Nat → FBlueprintGraphData
  | [], GraphData, _ => GraphData
  | Node :: rest, GraphData, NodesAdded =>
    if MaxNodes > 0 ∧ (NodesAdded : Int) ≥ MaxNodes then
      { GraphData with
        Metadata := (GraphData.Metadata.Add "Paginated" "true").Add "NodesShown"
          (FString.FromInt NodesAdded) }
    else
      match W.nodeAt Node with
      | none => ExtractGraphs.functionNodes W MaxNodes rest GraphData NodesAdded
      | some (NodeAddr, N) =>
        ExtractGraphs.functionNodes W MaxNodes rest
          (ExtractGraphs.addNode W false GraphData NodeAddr N) (NodesAdded + 1)

/-- The record of one accepted function graph in `ExtractGraphs`. -/
def ExtractGraphs.functionGraph (W : World) (TotalGraphs : Nat) (MaxGraphs MaxNodes : Int)
    (Graph : UEdGraph) : FBlueprintGraphData :=
  let M0 : TMap := TMap.Add [] "TotalGraphs" (FString.FromInt TotalGraphs)
  let M1 : TMap := if MaxGraphs > 0 then M0.Add "MaxGraphs" (FString.FromInt MaxGraphs) else M0
  let M2 : TMap := M1.Add "TotalNodes" (FString.FromInt Graph.Nodes.length)
  let M3 : TMap := if MaxNodes > 0 then M2.Add "MaxNodes" (FString.FromInt MaxNodes) else M2
  ExtractGraphs.functionNodes W MaxNodes Graph.Nodes
    { Name := Graph.Name, GraphType := "Function", Metadata := M3 } 0

/-- The function-graph loop of `ExtractGraphs`.  `GraphsAdded` is the source's
counter: it is tested against `MaxGraphs` and never incremented. -/
def ExtractGraphs.functionGraphs (W : World) (GraphName : String) (TotalGraphs : Nat)
    (MaxGraphs MaxNodes : Int) (GraphsAdded : Nat) :
    List (Option UEdGraph) → List FBlueprintGraphData → List FBlueprintGraphData
  | [], Graphs => Graphs
  | g :: rest, Graphs =>
    if MaxGraphs > 0 ∧ (GraphsAdded : Int) ≥ MaxGraphs then Graphs
    else
      match g with
      | none =>
        ExtractGraphs.functionGraphs W GraphName TotalGraphs MaxGraphs MaxNodes GraphsAdded
          rest Graphs
      | some Graph =>
        if !GraphName.isEmpty && !FString.EqualsIgnoreCase Graph.Name GraphName then
          ExtractGraphs.functionGraphs W GraphName TotalGraphs MaxGraphs MaxNodes GraphsAdded
            rest Graphs
        else
          ExtractGraphs.functionGraphs W GraphName TotalGraphs MaxGraphs MaxNodes GraphsAdded
            rest (Graphs ++ [ExtractGraphs.functionGraph W TotalGraphs MaxGraphs MaxNodes Graph])

/-- The node loop of the event graph in `ExtractGraphs` (no `MaxNodes` test). -/
def ExtractGraphs.eventNodeStep (W : World) (GraphData : FBlueprintGraphData)
    (Node : Option Nat) : FBlueprintGraphData :=
  match W.nodeAt Node with
  | none => GraphData
  | some (NodeAddr, N) => ExtractGraphs.addNode W true GraphData NodeAddr N

/-- The event-graph part of `ExtractGraphs`: the first ubergraph page, when
there is one and it is not null. -/
def ExtractGraphs.eventGraph (W : World) (BP : UBlueprint) : List FBlueprintGraphData :=
  match BP.UbergraphPages with
  | [] => []
  | none :: _ => []
  | some EventGraph :: _ =>
    [EventGraph.Nodes.foldl (ExtractGraphs.eventNodeStep W)
      { Name := EventGraph.Name, GraphType := "EventGraph" }]

/-- Function `FBlueprintDataExtractor::ExtractGraphs`. -/
def ExtractGraphs (W : World) (Blueprint : Option Nat) (GraphName : String)
    (MaxGraphs MaxNodes : Int) : List FBlueprintGraphData :=
  match W.blueprint Blueprint with
  | none => []
  | some BP =>
    ExtractGraphs.functionGraphs W GraphName
      (BP.FunctionGraphs.length + BP.UbergraphPages.length) MaxGraphs MaxNodes 0
      BP.FunctionGraphs [] ++ ExtractGraphs.eventGraph W BP

/-! ## Event nodes and the event subgraph walker -/

/-- The pin loop of `ExtractEventNodes` (pin records without default value). -/
def ExtractEventNodes.pinStep (W : World) (NodeData : FBlueprintNodeData)
    (PinPtr : Option Nat) : FBlueprintNodeData :=
  match W.pinAt PinPtr with
  | none => NodeData
  | some (PinAddr, Pin) =>
    let PinData : FBlueprintPinData :=
      { PinId := PinAddr
        Name := Pin.PinName
        IsExecution := FName.Equals Pin.PinCategory PC_Exec
        DataType := Pin.PinCategory
        IsInput := decide (Pin.Direction = .EGPD_Input)
        IsConnected := decide (Pin.LinkedTo.length > 0) }
    if Pin.Direction = .EGPD_Input then
      { NodeData with InputPins := NodeData.InputPins ++ [PinData] }
    else
      { NodeData with OutputPins := NodeData.OutputPins ++ [PinData] }

/-- The node test of `ExtractEventNodes`: event nodes, matching the filter when
one is given. -/
def ExtractEventNodes.nodeStep (W : World) (BP : UBlueprint) (EventName : String)
    (EventGraph : UEdGraph) (Node : Option Nat) : List FBlueprintNodeData :=
  match W.nodeAt Node with
  | none => []
  | some (NodeAddr, N) =>
    match N.Kind with
    | .Event NodeEventName MemberScope =>
      if !EventName.isEmpty && !FString.EqualsIgnoreCase NodeEventName EventName then []
      else
        let P0 : TMap := TMap.Add [] "GraphName" EventGraph.Name
        let P1 : TMap :=
          match BP.GeneratedClass, MemberScope with
          | some _, some EventScopeClass => P0.Add "EventScope" EventScopeClass.Name
          | _, _ => P0
        [N.Pins.foldl (ExtractEventNodes.pinStep W)
          { NodeId := NodeAddr
            NodeType := N.ClassName
            Title := NodeEventName
            PositionX := N.NodePosX
            PositionY := N.NodePosY
            Properties := P1
            Comment := if N.NodeComment.length > 0 then N.NodeComment else "" }]
    | _ => []

/-- Function `FBlueprintDataExtractor::ExtractEventNodes`. -/
def ExtractEventNodes (W : World) (Blueprint : Option Nat) (EventName : String) :
    List FBlueprintNodeData :=
  match W.blueprint Blueprint with
  | none => []
  | some BP =>
    (BP.UbergraphPages.filterMap id).flatMap (fun EventGraph =>
      EventGraph.Nodes.flatMap (ExtractEventNodes.nodeStep W BP EventName EventGraph))

/-- The local state of the traversal loop of `GetEventGraph`.  The queue
`NodesToProcess` holds non-null node pointers; each entry is kept with the
object it points to. -/
structure GetEventGraph.State where
  GraphData : FBlueprintGraphData
  ProcessedNodes : List Nat
  NodesToProcess : List (Nat × UEdGraphNode)
  NodesAdded : Nat
  deriving Repr

/-- What the pin loop of `GetEventGraph` updates: the node record, the graph's
connections and the queue. -/
structure GetEventGraph.Visit where
  NodeData : FBlueprintNodeData
  Connections : List FBlueprintConnectionData
  NodesToProcess : List (Nat × UEdGraphNode)
  deriving Repr

/-- The body of the `LinkedTo` loop of `GetEventGraph`: a connection from the
current node's pin to the linked pin, and the linked pin's owner is queued. -/
def GetEventGraph.linkStep (W : World) (PinAddr : Nat) (v : GetEventGraph.Visit)
    (LinkedPin : Option Nat) : GetEventGraph.Visit :=
  match W.pinAt LinkedPin with
  | none => v
  | some (LinkedAddr, LP) =>
    match W.nodeAt LP.OwningNode with
    | none => v
    | some (OwnerAddr, Owner) =>
      { v with
        Connections := v.Connections ++
          [{ SourceNodeId := v.NodeData.NodeId, SourcePinId := PinAddr
             TargetNodeId := OwnerAddr, TargetPinId := LinkedAddr }]
        NodesToProcess := v.NodesToProcess ++ [(OwnerAddr, Owner)] }

/-- The body of the pin loop of `GetEventGraph`: the pin is recorded on the
node; only execution pins have their links followed. -/
def GetEventGraph.pinStep (W : World) (v : GetEventGraph.Visit) (PinPtr : Option Nat) :
    GetEventGraph.Visit :=
  match W.pinAt PinPtr with
  | none => v
  | some (PinAddr, Pin) =>
    let PinData : FBlueprintPinData :=
      { PinId := PinAddr
        Name := Pin.PinName
        IsExecution := FName.Equals Pin.PinCategory PC_Exec
        DataType := Pin.PinCategory
        IsInput := decide (Pin.Direction = .EGPD_Input)
        IsConnected := decide (Pin.LinkedTo.length > 0)
        DefaultValue := if Pin.DefaultValue.length > 0 then Pin.DefaultValue else "" }
    let v1 : GetEventGraph.Visit :=
      if Pin.Direction = .EGPD_Input then
        { v with NodeData := { v.NodeData with InputPins := v.NodeData.InputPins ++ [PinData] } }
      else
        { v with NodeData := { v.NodeData with OutputPins := v.NodeData.OutputPins ++ [PinData] } }
    if FName.Equals Pin.PinCategory PC_Exec then
      Pin.LinkedTo.foldl (GetEventGraph.linkStep W PinAddr) v1
    else v1

/-- One iteration of the traversal loop of `GetEventGraph` on a node that was
not processed yet (already removed from the queue). -/
def GetEventGraph.visit (W : World) (st : GetEventGraph.State) (CurrentAddr : Nat)
    (CurrentNode : UEdGraphNode) : GetEventGraph.State :=
  let NodeData : FBlueprintNodeData :=
    { NodeId := CurrentAddr
      NodeType := CurrentNode.ClassName
      Title := CurrentNode.Title
      PositionX := CurrentNode.NodePosX
      PositionY := CurrentNode.NodePosY
      Comment := if CurrentNode.NodeComment.length > 0 then CurrentNode.NodeComment else "" }
  let v := CurrentNode.Pins.foldl (GetEventGraph.pinStep W)
    { NodeData := NodeData, Connections := st.GraphData.Connections
      NodesToProcess := st.NodesToProcess }
  { GraphData := { st.GraphData with
      Nodes := st.GraphData.Nodes ++ [v.NodeData], Connections := v.Connections }
    ProcessedNodes := CurrentAddr :: st.ProcessedNodes
    NodesToProcess := v.NodesToProcess
    NodesAdded := st.NodesAdded + 1 }

/-- The `while (NodesToProcess.Num() > 0)` loop of `GetEventGraph`, run for at
most `fuel` iterations; `none` when the iterations run out. -/
def GetEventGraph.loop (W : World) (MaxNodes : Int) :
    Nat → GetEventGraph.State → Option FBlueprintGraphData
  | 0, _ => none
  | fuel + 1, st =>
    match st.NodesToProcess with
    | [] => some st.GraphData
    | (CurrentAddr, CurrentNode) :: rest =>
      if MaxNodes > 0 ∧ (st.NodesAdded : Int) ≥ MaxNodes then
        some { st.GraphData with
          Metadata := ((st.GraphData.Metadata.Add "Paginated" "true").Add "NodesShown"
            (FString.FromInt st.NodesAdded)).Add "MaxNodes" (FString.FromInt MaxNodes) }
      else if CurrentAddr ∈ st.ProcessedNodes then
        GetEventGraph.loop W MaxNodes fuel { st with NodesToProcess := rest }
      else
        GetEventGraph.loop W MaxNodes fuel
          (GetEventGraph.visit W { st with NodesToProcess := rest } CurrentAddr CurrentNode)

/-- The number of `LinkedTo` entries reachable from the pin pointers of a node. -/
def GetEventGraph.linkCount (W : World) (N : UEdGraphNode) : Nat :=
  (N.Pins.map (fun p => match W.pin p with
    | some Pin => Pin.LinkedTo.length
    | none => 0)).sum

/-- An iteration budget that the traversal cannot exhaust: every iteration
removes one queue entry, the queue starts with one entry, and each node adds
entries (at most one per link of its pins) at most once. -/
def GetEventGraph.fuel (W : World) : Nat :=
  2 + (W.Nodes.map (GetEventGraph.linkCount W)).sum

/-- The search for the target event node in one event graph: the first node
that casts to `UK2Node_Event` and whose event name equals `EventName` ignoring
case. -/
def GetEventGraph.findEvent (W : World) (EventName : String) :
    List (Option Nat) → Option (Nat × UEdGraphNode)
  | [] => none
  | n :: ns =>
    match W.nodeAt n with
    | some (NodeAddr, N) =>
      match N.Kind with
      | .Event NodeEventName _ =>
        if FString.EqualsIgnoreCase NodeEventName EventName then some (NodeAddr, N)
        else GetEventGraph.findEvent W EventName ns
      | _ => GetEventGraph.findEvent W EventName ns
    | none => GetEventGraph.findEvent W EventName ns

/-- The loop of `GetEventGraph` over the ubergraph pages: the first non-null
page that holds the event is traversed and returned. -/
def GetEventGraph.pages (W : World) (EventName : String) (MaxNodes : Int) :
    List (Option UEdGraph) → Option FBlueprintGraphData
  | [] => none
  | none :: rest => GetEventGraph.pages W EventName MaxNodes rest
  | some EventGraph :: rest =>
    match GetEventGraph.findEvent W EventName EventGraph.Nodes with
    | some TargetEventNode =>
      GetEventGraph.loop W MaxNodes (GetEventGraph.fuel W)
        { GraphData :=
            { Name := EventName, GraphType := "Event"
              Metadata := TMap.Add [] "GraphName" EventGraph.Name }
          ProcessedNodes := []
          NodesToProcess := [TargetEventNode]
          NodesAdded := 0 }
    | none => GetEventGraph.pages W EventName MaxNodes rest

/-- Function `FBlueprintDataExtractor::GetEventGraph`; `none` is the unset `TOptional`. -/
def GetEventGraph (W : World) (Blueprint : Option Nat) (EventName : String) (MaxNodes : Int) :
    Option FBlueprintGraphData :=
  match W.blueprint Blueprint with
  | none => none
  | some BP =>
    if EventName.isEmpty then none
    else GetEventGraph.pages W EventName MaxNodes BP.UbergraphPages

/-! ## Detail-level projector -/

/-- The Medium-level simplification loops of `ExtractBlueprintData`. -/
def ExtractBlueprintData.simplify (Data : FBlueprintData) : FBlueprintData :=
  { Data with
    Functions := Data.Functions.map (fun Function =>
      { Function with
        Description := ""
        Params := Function.Params.map (fun Param => { Param with DefaultValue := "" }) })
    Variables := Data.Variables.map (fun Variable =>
      { Variable with DefaultValue := "", Category := "" }) }

/-- The Graph-level block of `ExtractBlueprintData`. -/
def ExtractBlueprintData.graphLevel (W : World) (Blueprint : Option Nat)
    (DetailLevel : EBlueprintDetailLevel) (GraphName : String) (MaxGraphs MaxNodes : Int)
    (Data : FBlueprintData) : FBlueprintData :=
  let M0 := Data.Metadata.Add "DetailLevel" (FString.FromInt DetailLevel.toNat)
  let M1 := if !GraphName.isEmpty then M0.Add "FilteredByGraph" GraphName else M0
  let M2 := if MaxGraphs > 0 then M1.Add "MaxGraphs" (FString.FromInt MaxGraphs) else M1
  let M3 := if MaxNodes > 0 then M2.Add "MaxNodes" (FString.FromInt MaxNodes) else M2
  { Data with
    Graphs := ExtractGraphs W Blueprint GraphName MaxGraphs MaxNodes
    Metadata := M3 }

/-- The Events-level block of `ExtractBlueprintData`. -/
def ExtractBlueprintData.eventsLevel (W : World) (Blueprint : Option Nat)
    (DetailLevel : EBlueprintDetailLevel) (GraphName : String)
    (Data : FBlueprintData) : FBlueprintData :=
  let EventNodes := ExtractEventNodes W Blueprint GraphName
  let EventsGraph : FBlueprintGraphData :=
    { Name := "Events", GraphType := "EventsList", Nodes := EventNodes }
  let M0 := Data.Metadata.Add "DetailLevel" (FString.FromInt DetailLevel.toNat)
  let M1 := M0.Add "EventCount" (FString.FromInt EventNodes.length)
  let M2 := if !GraphName.isEmpty then M1.Add "FilteredByEvent" GraphName else M1
  { Data with Graphs := Data.Graphs ++ [EventsGraph], Metadata := M2 }

/-- The References-level block of `ExtractBlueprintData`. -/
def ExtractBlueprintData.referencesLevel (W : World) (Blueprint : Option Nat)
    (DetailLevel : EBlueprintDetailLevel) (Data : FBlueprintData) : Option FBlueprintData :=
  match ExtractReferences W Blueprint true with
  | none => none
  | some References =>
    some { Data with
      References := References
      Metadata := (Data.Metadata.Add "DetailLevel" (FString.FromInt DetailLevel.toNat)).Add
        "ReferenceCount" (FString.FromInt References.length) }

/-- Function `FBlueprintDataExtractor::ExtractBlueprintData`. -/
def ExtractBlueprintData (W : World) (Blueprint : Option Nat)
    (DetailLevel : EBlueprintDetailLevel) (GraphName : String) (MaxGraphs MaxNodes : Int) :
    Option FBlueprintData :=
  match W.blueprint Blueprint with
  | none => some {}
  | some BP =>
    let Data : FBlueprintData :=
      { Name := BP.Name
        Path := BP.PathName
        ParentClass := match BP.ParentClass with
          | some ParentClass => ParentClass.Name
          | none => "" }
    if DetailLevel = .Basic then
      some { Data with Functions := [], Variables := [], Description := "" }
    else if DetailLevel.toNat ≥ EBlueprintDetailLevel.Medium.toNat then
      match ExtractFunctions W Blueprint with
      | none => none
      | some Functions =>
        let D1 : FBlueprintData :=
          { Data with
            Description :=
              if BP.BlueprintDescription.length > 0 then BP.BlueprintDescription
              else Data.Description
            Functions := Functions
            Variables := ExtractVariables W Blueprint }
        let D2 := if DetailLevel = .Medium then ExtractBlueprintData.simplify D1 else D1
        let D3 :=
          if DetailLevel = .Graph then
            ExtractBlueprintData.graphLevel W Blueprint DetailLevel GraphName MaxGraphs MaxNodes D2
          else D2
        let D4 :=
          if DetailLevel = .Events then
            ExtractBlueprintData.eventsLevel W Blueprint DetailLevel GraphName D3
          else D3
        if DetailLevel = .References then
          ExtractBlueprintData.referencesLevel W Blueprint DetailLevel D4
        else some D4
    else some Data

/-- The single-quote character. -/
def quoteChar : Char := Char.ofNat 39

/-- The text the Basic branches strip from the front of the `ParentClass` tag. -/
def classScriptLead : String := "Class" ++ String.singleton quoteChar ++ "/Script/"

/-- The parent-class clean-up of the Basic branches (`GetAllBlueprints`,
`GetBlueprintByPath`): `RemoveFromStart` (ignoring case), cut at the first
single quote, then keep what follows the first dot, if there is one. -/
def CleanParentClass (ParentClassName : String) : String :=
  let cs := ParentClassName.toList
  let lead := classScriptLead.toList
  let c1 :=
    if FString.startsWithChars (cs.map Char.toLower) (lead.map Char.toLower) then
      cs.drop lead.length
    else cs
  let c2 :=
    match c1.indexOf? quoteChar with
    | some QuoteIndex => c1.take QuoteIndex
    | none => c1
  match c2.indexOf? (Char.ofNat 46) with
  | some DotIndex => String.mk (c2.drop (DotIndex + 1))
  | none => String.mk c2

/-- The record the Basic branches build from asset data alone. -/
def BasicFromAssetData (AssetData : FAssetData) : FBlueprintData :=
  let Data : FBlueprintData :=
    { Name := AssetData.AssetName, Path := AssetData.ObjectPath
      Functions := [], Variables := [], Description := "" }
  match AssetData.ParentClassTag with
  | some ParentClassName => { Data with ParentClass := CleanParentClass ParentClassName }
  | none => Data

/-- Function `FBlueprintDataExtractor::GetBlueprintByPath`.  The outer `Option` is the
failure of an unchecked dereference, the inner one is the `TOptional`. -/
def GetBlueprintByPath (W : World) (Path : String) (DetailLevel : EBlueprintDetailLevel)
    (GraphName : String) (MaxGraphs MaxNodes : Int) : Option (Option FBlueprintData) :=
  match (if DetailLevel = .Basic then W.GetAssetByObjectPath Path else none) with
  | some AssetData => some (some (BasicFromAssetData AssetData))
  | none =>
    match W.LoadObject Path with
    | some Blueprint =>
      match ExtractBlueprintData W (some Blueprint) DetailLevel GraphName MaxGraphs MaxNodes with
      | some Data => some (some Data)
      | none => none
    | none => some none

/-- The asset loop of `FBlueprintDataExtractor::GetAllBlueprints`, over the registry's
blueprint assets. -/
def GetAllBlueprints.assets (W : World) (DetailLevel : EBlueprintDetailLevel) :
    List FAssetData → Option (List FBlueprintData)
  | [] => some []
  | Asset :: rest =>
    match GetAllBlueprints.assets W DetailLevel rest with
    | none => none
    | some more =>
      if DetailLevel = .Basic then some (BasicFromAssetData Asset :: more)
      else
        match W.blueprint Asset.Asset with
        | none => some more
        | some _ =>
          match ExtractBlueprintData W Asset.Asset DetailLevel "" 0 0 with
          | none => none
          | some BlueprintData => some (BlueprintData :: more)

/-- Function `FBlueprintDataExtractor::GetAllBlueprints`. -/
def GetAllBlueprints (W : World) (DetailLevel : EBlueprintDetailLevel) :
    Option (List FBlueprintData) :=
  GetAllBlueprints.assets W DetailLevel W.AssetRegistry

/-! ## Search (`BlueprintSearcher.cpp`) -/

/-- The test one iteration of the filter loop of `SearchWithParameters` applies
to a blueprint, by key; `none` when the key is none of the five known keys. -/
def SearchWithParameters.keyTest (Key Value : String) : Option (FBlueprintData → Bool) :=
  if FString.EqualsIgnoreCase Key "Name" then
    some (fun Blueprint => FString.ContainsIgnoreCase Blueprint.Name Value)
  else if FString.EqualsIgnoreCase Key "ParentClass" then
    some (fun Blueprint => FString.ContainsIgnoreCase Blueprint.ParentClass Value)
  else if FString.EqualsIgnoreCase Key "Function" then
    some (fun Blueprint =>
      Blueprint.Functions.any (fun Function => FString.ContainsIgnoreCase Function.Name Value))
  else if FString.EqualsIgnoreCase Key "Variable" then
    some (fun Blueprint =>
      Blueprint.Variables.any (fun Variable => FString.ContainsIgnoreCase Variable.Name Value))
  else if FString.EqualsIgnoreCase Key "Path" then
    some (fun Blueprint => FString.ContainsIgnoreCase Blueprint.Path Value)
  else none

/-- The body of the filter loop of `SearchWithParameters`: `FilteredResults`
starts empty, the branch of the key fills it, and it replaces `Results`. -/
def SearchWithParameters.filterStep (Results : List FBlueprintData) (Param : String × String) :
    List FBlueprintData :=
  match SearchWithParameters.keyTest Param.1 Param.2 with
  | some test => Results.filter test
  | none => []

/-- The filtering stage of `SearchWithParameters`: the filter loop over the
parameter map, starting from all blueprints. -/
def SearchWithParameters.filterStage (SearchParams : TMap) (AllBlueprints : List FBlueprintData) :
    List FBlueprintData :=
  SearchParams.foldl SearchWithParameters.filterStep AllBlueprints

/-- The detail level `SearchWithParameters` extracts at before filtering. -/
def SearchWithParameters.searchLevel (SearchParams : TMap) : EBlueprintDetailLevel :=
  if SearchParams.any (fun Param =>
      FString.EqualsIgnoreCase Param.1 "Function" || FString.EqualsIgnoreCase Param.1 "Variable")
  then .Medium else .Basic

/-- The second projection pass of the searches: every result whose path
resolves is replaced by `GetBlueprintByPath(path, DetailLevel)`. -/
def upgradeResults (W : World) (DetailLevel : EBlueprintDetailLevel) :
    List FBlueprintData → Option (List FBlueprintData)
  | [] => some []
  | Result :: rest =>
    match GetBlueprintByPath W Result.Path DetailLevel "" 0 0 with
    | none => none
    | some DetailedData =>
      match upgradeResults W DetailLevel rest with
      | none => none
      | some more =>
        match DetailedData with
        | some Detailed => some (Detailed :: more)
        | none => some (Result :: more)

/-- Function `FBlueprintSearcher::SearchWithParameters`. -/
def SearchWithParameters (W : World) (SearchParams : TMap) (DetailLevel : EBlueprintDetailLevel) :
    Option (List FBlueprintData) :=
  let SearchLevel := SearchWithParameters.searchLevel SearchParams
  match GetAllBlueprints W SearchLevel with
  | none => none
  | some AllBlueprints =>
    let Results := SearchWithParameters.filterStage SearchParams AllBlueprints
    if DetailLevel.toNat > SearchLevel.toNat ∧ Results.length > 0 then
      upgradeResults W DetailLevel Results
    else some Results

/-- The upgrade pass of `SearchByName` and `SearchByParentClass`: any level
other than Basic is fetched again per result. -/
def SearchByName.finish (W : World) (DetailLevel : EBlueprintDetailLevel)
    (Results : List FBlueprintData) : Option (List FBlueprintData) :=
  if DetailLevel ≠ .Basic ∧ Results.length > 0 then upgradeResults W DetailLevel Results
  else some Results

/-- Function `FBlueprintSearcher::SearchByName`. -/
def SearchByName (W : World) (NameQuery : String) (DetailLevel : EBlueprintDetailLevel) :
    Option (List FBlueprintData) :=
  match GetAllBlueprints W .Basic with
  | none => none
  | some AllBlueprints =>
    SearchByName.finish W DetailLevel
      (AllBlueprints.filter (fun Blueprint => FString.ContainsIgnoreCase Blueprint.Name NameQuery))

/-- Function `FBlueprintSearcher::SearchByParentClass`. -/
def SearchByParentClass (W : World) (ParentClassName : String)
    (DetailLevel : EBlueprintDetailLevel) : Option (List FBlueprintData) :=
  match GetAllBlueprints W .Basic with
  | none => none
  | some AllBlueprints =>
    SearchByName.finish W DetailLevel
      (AllBlueprints.filter (fun Blueprint =>
        FString.ContainsIgnoreCase Blueprint.ParentClass ParentClassName))

/-- The positional parameter-type loop of `SearchByFunction`: it fails at the
first index that is past the function's parameters or whose type does not
contain the requested type. -/
def SearchByFunction.allParamsMatch : List FBlueprintParamData → List String → Bool
  | _, [] => true
  | [], _ :: _ => false
  | Param :: Params, ParamType :: ParamTypes =>
    FString.ContainsIgnoreCase Param.Type_ ParamType &&
      SearchByFunction.allParamsMatch Params ParamTypes

/-- The test of `SearchByFunction` on one function of a blueprint. -/
def SearchByFunction.functionMatches (FunctionName : String) (ParamTypes : List String)
    (Function : FBlueprintFunctionData) : Bool :=
  FString.ContainsIgnoreCase Function.Name FunctionName &&
    (if ParamTypes.length > 0 then
      decide (Function.Params.length ≥ ParamTypes.length) &&
        SearchByFunction.allParamsMatch Function.Params ParamTypes
    else true)

/-- The upgrade pass of `SearchByFunction` and `SearchByVariable`: results are
fetched again only when the requested level is Full. -/
def SearchByFunction.finish (W : World) (DetailLevel : EBlueprintDetailLevel)
    (Results : List FBlueprintData) : Option (List FBlueprintData) :=
  if DetailLevel = .Full ∧ Results.length > 0 then upgradeResults W DetailLevel Results
  else some Results

/-- Function `FBlueprintSearcher::SearchByFunction`. -/
def SearchByFunction (W : World) (FunctionName : String) (ParamTypes : List String)
    (DetailLevel : EBlueprintDetailLevel) : Option (List FBlueprintData) :=
  match GetAllBlueprints W .Medium with
  | none => none
  | some AllBlueprints =>
    SearchByFunction.finish W DetailLevel
      (AllBlueprints.filter (fun Blueprint =>
        Blueprint.Functions.any (SearchByFunction.functionMatches FunctionName ParamTypes)))

/-- The test of `SearchByVariable` on one variable of a blueprint. -/
def SearchByVariable.variableMatches (VariableName VariableType : String)
    (Variable : FBlueprintVariableData) : Bool :=
  FString.ContainsIgnoreCase Variable.Name VariableName &&
    (if !VariableType.isEmpty then FString.ContainsIgnoreCase Variable.Type_ VariableType
     else true)

/-- Function `FBlueprintSearcher::SearchByVariable`. -/
def SearchByVariable (W : World) (VariableName VariableType : String)
    (DetailLevel : EBlueprintDetailLevel) : Option (List FBlueprintData) :=
  match GetAllBlueprints W .Medium with
  | none => none
  | some AllBlueprints =>
    SearchByFunction.finish W DetailLevel
      (AllBlueprints.filter (fun Blueprint =>
        Blueprint.Variables.any (SearchByVariable.variableMatches VariableName VariableType)))

/-! ## HTTP handlers (`MCPHttpServer.cpp`) -/

/-- Engine primitive `A.Equals(B)` with its default search case,
`ESearchCase::CaseSensitive`. -/
def FString.Equals (a b : String) : Bool := a == b

/-- What a handler passes to `OnComplete`: an error response with its status
code and message, or the JSON rendering of a list of blueprint views. -/
inductive HttpResponse
  | Error (Code : Nat) (Message : String)
  | Json (Blueprints : List FBlueprintData)
  deriving DecidableEq, Repr

/-- The lookup loop of `HandleGetFunctionGraph`: the first graph whose name
equals the function name ignoring case and whose type `Equals("function")`. -/
def HandleGetFunctionGraph.find (Blueprint : FBlueprintData) (FunctionName : String) :
    Option FBlueprintGraphData :=
  Blueprint.Graphs.find? (fun Graph =>
    FString.EqualsIgnoreCase Graph.Name FunctionName && FString.Equals Graph.GraphType "function")

/-- The part of `HandleGetFunctionGraph` that follows the lookup of the blueprint. -/
def HandleGetFunctionGraph.respond (Blueprint : FBlueprintData) (FunctionName : String) :
    HttpResponse :=
  match HandleGetFunctionGraph.find Blueprint FunctionName with
  | none =>
    .Error 404 ("Function " ++ String.singleton quoteChar ++ FunctionName ++
      String.singleton quoteChar ++ " not found in blueprint: " ++ Blueprint.Name)
  | some FunctionGraph => .Json [{ Blueprint with Graphs := [FunctionGraph] }]

/-- Handler `FMCPHttpServer::HandleGetFunctionGraph`, once both query parameters are
present; `none` is the failure of an unchecked dereference in the extraction. -/
def HandleGetFunctionGraph (W : World) (Path FunctionName : String) : Option HttpResponse :=
  match GetBlueprintByPath W Path .Graph "" 0 0 with
  | none => none
  | some none => some (.Error 404 ("Blueprint not found at path: " ++ Path))
  | some (some Blueprint) => some (HandleGetFunctionGraph.respond Blueprint FunctionName)

/-- The value of an `int32` sum: two's-complement wrap-around. -/
def wrapInt32 (x : Int) : Int := (x + 2147483648) % 4294967296 - 2147483648

/-- What `CreateJsonResponseWithMetadata` receives. -/
structure PagedResponse where
  Blueprints : List FBlueprintData
  TotalCount : Int
  Limit : Int
  Offset : Int
  deriving DecidableEq, Repr

/-- The copy loop of the pagination block, `for (i = Offset; i < EndIndex; ++i)`
adding `Blueprints[i]`. -/
def copyRange (Blueprints : List FBlueprintData) (Offset EndIndex : Int) : List FBlueprintData :=
  (List.range' Offset.toNat (EndIndex - Offset).toNat).filterMap (fun i => Blueprints[i]?)

/-- The pagination block of `HandleListAllBlueprints`.  `LimitParam` and
`OffsetParam` are the numbers read from the query (0 when absent); the handler
first raises both to at least 0. -/
def HandleListAllBlueprints.paginate (AllBlueprints : List FBlueprintData)
    (LimitParam OffsetParam : Int) : PagedResponse :=
  let Limit := max 0 LimitParam
  let Offset := max 0 OffsetParam
  let TotalCount : Int := AllBlueprints.length
  if Limit > 0 ∧ (AllBlueprints.length : Int) > 0 then
    let Offset1 := min Offset ((AllBlueprints.length : Int) - 1)
    let EndIndex : Int :=
      if Limit > 0 then min (wrapInt32 (Offset1 + Limit)) AllBlueprints.length
      else AllBlueprints.length
    { Blueprints := copyRange AllBlueprints Offset1 EndIndex
      TotalCount := TotalCount, Limit := Limit, Offset := Offset1 }
  else
    { Blueprints := AllBlueprints, TotalCount := TotalCount, Limit := Limit, Offset := Offset }

/-- The pagination block of `HandleSearchBlueprints`, a second copy of the same
code on the search results. -/
def HandleSearchBlueprints.paginate (Results : List FBlueprintData)
    (LimitParam OffsetParam : Int) : PagedResponse :=
  let Limit := max 0 LimitParam
  let Offset := max 0 OffsetParam
  let TotalCount : Int := Results.length
  if Limit > 0 ∧ (Results.length : Int) > 0 then
    let Offset1 := min Offset ((Results.length : Int) - 1)
    let EndIndex : Int :=
      if Limit > 0 then min (wrapInt32 (Offset1 + Limit)) Results.length
      else Results.length
    { Blueprints := copyRange Results Offset1 EndIndex
      TotalCount := TotalCount, Limit := Limit, Offset := Offset1 }
  else
    { Blueprints := Results, TotalCount := TotalCount, Limit := Limit, Offset := Offset }

/-- A sequence of `GetBlueprintReferences` calls on one cache: each call runs on
the cache the previous one left; the results in call order, and the cache at
the end. -/
def GetBlueprintReferences.run (W : World) :
    ReferenceCache → List (String × Bool) →
      Option (List (List FBlueprintReferenceData) × ReferenceCache)
  | Cache, [] => some ([], Cache)
  | Cache, Call :: rest =>
    match GetBlueprintReferences W Cache Call.1 Call.2 with
    | none => none
    | some (out, Cache1) =>
      match GetBlueprintReferences.run W Cache1 rest with
      | none => none
      | some (outs, Cache2) => some (out :: outs, Cache2)

/-- The dispatch of `HandleSearchBlueprints` on the `type` parameter (`FString`
`==` ignores case); a type that is none of the four named ones becomes the key
of a one-entry parameter map. -/
def HandleSearchBlueprints.search (W : World) (SearchType Query : String)
    (DetailLevel : EBlueprintDetailLevel) : Option (List FBlueprintData) :=
  if FString.EqualsIgnoreCase SearchType "name" then SearchByName W Query DetailLevel
  else if FString.EqualsIgnoreCase SearchType "parentClass" then
    SearchByParentClass W Query DetailLevel
  else if FString.EqualsIgnoreCase SearchType "function" then
    SearchByFunction W Query [] DetailLevel
  else if FString.EqualsIgnoreCase SearchType "variable" then
    SearchByVariable W Query "" DetailLevel
  else SearchWithParameters W (TMap.Add [] SearchType Query) DetailLevel

/-- The node limit of `HandleGetBlueprintByPath` on one graph: a graph with more
than `MaxNodesPerGraph` nodes keeps its first nodes (`SetNum`), keeps the
connections whose two node ids are in the set of kept ids, and gets a
`pagination` entry.  `Serialize` is the engine's `FJsonSerializer::Serialize`
on an object of number fields. -/
def HandleGetBlueprintByPath.limitGraph (Serialize : List (String × Int) → String)
    (MaxNodesPerGraph : Int) (Graph : FBlueprintGraphData) : FBlueprintGraphData :=
  let TotalNodeCount : Int := Graph.Nodes.length
  if (Graph.Nodes.length : Int) > MaxNodesPerGraph then
    let Nodes := Graph.Nodes.take MaxNodesPerGraph.toNat
    let IncludedNodeIds := Nodes.map (fun Node => Node.NodeId)
    let FilteredConnections := Graph.Connections.filter (fun Connection =>
      IncludedNodeIds.contains Connection.SourceNodeId &&
        IncludedNodeIds.contains Connection.TargetNodeId)
    { Graph with
      Nodes := Nodes
      Connections := FilteredConnections
      Metadata := Graph.Metadata.Add "pagination"
        (Serialize [("totalNodes", TotalNodeCount), ("returnedNodes", (Nodes.length : Int)),
          ("maxNodes", MaxNodesPerGraph)]) }
  else Graph

/-- The node-limit step of `HandleGetBlueprintByPath` over the graphs of the
response. -/
def HandleGetBlueprintByPath.limitNodes (Serialize : List (String × Int) → String)
    (MaxNodesPerGraph : Int) (Graphs : List FBlueprintGraphData) : List FBlueprintGraphData :=
  if MaxNodesPerGraph > 0 then
    Graphs.map (HandleGetBlueprintByPath.limitGraph Serialize MaxNodesPerGraph)
  else Graphs

/-! ## Specification-side definitions -/

/-- The Medium projection in the words of the specification: every function's
description, every parameter's default value, every variable's default value
and category become the empty string; everything else is kept. -/
def mediumProjection (View : FBlueprintData) : FBlueprintData :=
  { Name := View.Name
    Path := View.Path
    ParentClass := View.ParentClass
    Functions := View.Functions.map (fun f =>
      { Name := f.Name, IsEvent := f.IsEvent
        Params := f.Params.map (fun q =>
          { Name := q.Name, Type_ := q.Type_, IsOutput := q.IsOutput, DefaultValue := "" })
        ReturnType := f.ReturnType, Description := ""
        IsCallable := f.IsCallable, IsPure := f.IsPure })
    Variables := View.Variables.map (fun x =>
      { Name := x.Name, Type_ := x.Type_, DefaultValue := ""
        IsExposed := x.IsExposed, IsReadOnly := x.IsReadOnly, IsReplicated := x.IsReplicated
        Category := "" })
    Graphs := View.Graphs
    References := View.References
    Description := View.Description
    Metadata := View.Metadata }

/-- Connections of a graph record that touch one of its nodes at an end. -/
def ConnectionsTouchNodes (G : FBlueprintGraphData) : Prop :=
  ∀ c ∈ G.Connections, ∃ n ∈ G.Nodes, n.NodeId = c.SourceNodeId ∨ n.NodeId = c.TargetNodeId

/-- An execution link from node `a` to node `b`, as the traversal follows it:
an execution-type pin of `a` lists a pin whose owning node is `b`. -/
def ExecLink (W : World) (a b : Nat) : Prop :=
  ∃ N, W.Nodes[a]? = some N ∧ ∃ p ∈ N.Pins, ∃ P, W.pin p = some P ∧
    FName.Equals P.PinCategory PC_Exec = true ∧
    ∃ l ∈ P.LinkedTo, ∃ LP, W.pin l = some LP ∧ LP.OwningNode = some b

/-- An execution link whose two pins are both of execution type. -/
def ExecLinkTyped (W : World) (a b : Nat) : Prop :=
  ∃ N, W.Nodes[a]? = some N ∧ ∃ p ∈ N.Pins, ∃ P, W.pin p = some P ∧
    FName.Equals P.PinCategory PC_Exec = true ∧
    ∃ l ∈ P.LinkedTo, ∃ LP, W.pin l = some LP ∧
      FName.Equals LP.PinCategory PC_Exec = true ∧ LP.OwningNode = some b

/-- The engine's schema rule for execution wires: a pin linked from an
execution-type pin is itself of execution type. -/
def LinksTyped (W : World) : Prop :=
  ∀ p P, W.pin p = some P → FName.Equals P.PinCategory PC_Exec = true →
    ∀ l ∈ P.LinkedTo, ∀ LP, W.pin l = some LP → FName.Equals LP.PinCategory PC_Exec = true

/-- Reachability from `root` along links `Link`, through nodes that satisfy
`InResult`: every node a step leaves from is in the result. -/
inductive ExecReach (Link : Nat → Nat → Prop) (InResult : Nat → Prop) (root : Nat) : Nat → Prop
  | root : ExecReach Link InResult root root
  | step {a b : Nat} : ExecReach Link InResult root a → InResult a → Link a b →
      ExecReach Link InResult root b

/-- The node ids of a graph record. -/
def InGraph (G : FBlueprintGraphData) (a : Nat) : Prop := ∃ n ∈ G.Nodes, n.NodeId = a

/-- The invariant of the traversal loop of `GetEventGraph` for reachability:
every emitted node and every queued node is reachable from `root` through
emitted nodes, and every queue entry pairs an address with its object. -/
def WalkInv (W : World) (root : Nat) (st : GetEventGraph.State) : Prop :=
  (∀ n ∈ st.GraphData.Nodes,
    ExecReach (ExecLink W) (InGraph st.GraphData) root n.NodeId) ∧
  (∀ e ∈ st.NodesToProcess, W.Nodes[e.1]? = some e.2 ∧
    ExecReach (ExecLink W) (InGraph st.GraphData) root e.1)

/-- The chain bound of a reference entry: at most one hop, and none on a
direct entry. -/
def ChainBounded (r : FBlueprintReferenceData) : Prop :=
  r.ReferenceChain.length ≤ 1 ∧ (r.bIsIndirect = false → r.ReferenceChain = [])

/-- A direct entry as the four direct scans build it: not indirect, no chain. -/
def IsDirectEntry (r : FBlueprintReferenceData) : Prop :=
  r.bIsIndirect = false ∧ r.ReferenceChain = []

/-- Every list held by the cache satisfies the chain bound. -/
def CacheBounded (Cache : ReferenceCache) : Prop :=
  ∀ e ∈ Cache, ∀ r ∈ e.2, ChainBounded r

/-- The five keys the filter loop of `SearchWithParameters` knows, compared
ignoring case. -/
def KnownKey (Key : String) : Prop :=
  FString.EqualsIgnoreCase Key "Name" = true ∨
  FString.EqualsIgnoreCase Key "ParentClass" = true ∨
  FString.EqualsIgnoreCase Key "Function" = true ∨
  FString.EqualsIgnoreCase Key "Variable" = true ∨
  FString.EqualsIgnoreCase Key "Path" = true

/-- The predicate one search parameter states about a blueprint, in the words
of the specification: under key `Name` (`ParentClass`, `Path`) the name
(parent class, path) contains the value ignoring case; under key `Function`
(`Variable`) some function (variable) name contains the value ignoring case. -/
def Satisfies (Blueprint : FBlueprintData) (Param : String × String) : Prop :=
  (FString.EqualsIgnoreCase Param.1 "Name" = true →
    FString.ContainsIgnoreCase Blueprint.Name Param.2 = true) ∧
  (FString.EqualsIgnoreCase Param.1 "ParentClass" = true →
    FString.ContainsIgnoreCase Blueprint.ParentClass Param.2 = true) ∧
  (FString.EqualsIgnoreCase Param.1 "Function" = true →
    ∃ f ∈ Blueprint.Functions, FString.ContainsIgnoreCase f.Name Param.2 = true) ∧
  (FString.EqualsIgnoreCase Param.1 "Variable" = true →
    ∃ x ∈ Blueprint.Variables, FString.ContainsIgnoreCase x.Name Param.2 = true) ∧
  (FString.EqualsIgnoreCase Param.1 "Path" = true →
    FString.ContainsIgnoreCase Blueprint.Path Param.2 = true)

instance instDecidableKnownKey (Key : String) : Decidable (KnownKey Key) := by
  unfold KnownKey
  infer_instance

instance instDecidableSatisfies (Blueprint : FBlueprintData) (Param : String × String) :
    Decidable (Satisfies Blueprint Param) := by
  unfold Satisfies
  infer_instance

/-- The links still to be followed by the traversal: the link counts of the
nodes of the table (from address `i` on) that are not processed yet. -/
def GetEventGraph.pendingFrom (W : World) (Processed : List Nat) :
    Nat → List UEdGraphNode → Nat
  | _, [] => 0
  | i, N :: rest =>
    (if i ∈ Processed then 0 else GetEventGraph.linkCount W N) +
      GetEventGraph.pendingFrom W Processed (i + 1) rest

/-- The measure that every iteration of the traversal loop decreases: queue
length plus links still to be followed. -/
def GetEventGraph.measure (W : World) (st : GetEventGraph.State) : Nat :=
  st.NodesToProcess.length + GetEventGraph.pendingFrom W st.ProcessedNodes 0 W.Nodes

/-- The reference types that the four direct scans write. -/
def HasDirectType (r : FBlueprintReferenceData) : Prop :=
  r.ReferenceType = .Inheritance ∨ r.ReferenceType = .FunctionCall ∨
  r.ReferenceType = .VariableType ∨ r.ReferenceType = .DirectReference

/-- The indirect entries in the words of the specification: for each outgoing
entry `R` of the direct list `D`, in order, whose target path loads to a
blueprint `T`, the outgoing entries of `ExtractReferences(T, false)`, in order,
each flagged indirect with the reference chain `[R.targetPath]`. -/
def indirectExpansion (W : World) (D : List FBlueprintReferenceData) :
    List FBlueprintReferenceData :=
  (D.filter (fun R => R.Direction = .Outgoing)).flatMap (fun R =>
    match W.LoadObject R.BlueprintPath with
    | none => []
    | some T =>
      (((ExtractReferences W (some T) false).getD []).filter
        (fun S => S.Direction = .Outgoing)).map
        (fun S => { S with bIsIndirect := true, ReferenceChain := [R.BlueprintPath] }))

/-- The parameter record of a pin: its name, its category, not an output. -/
def paramOfPin (P : UEdGraphPin) : FBlueprintParamData :=
  { Name := P.PinName, Type_ := P.PinCategory, IsOutput := false }

/-- The parameters in the words of the specification: the non-execution output
pins of the node, in pin order. -/
def nonExecOutputParams (W : World) (E : UEdGraphNode) : List FBlueprintParamData :=
  ((E.Pins.filterMap W.pin).filter (fun P =>
    decide (P.Direction = .EGPD_Output) && !FName.Equals P.PinCategory PC_Exec)).map paramOfPin

/-- The output pins of the node that are not named `then`, in pin order, as
parameters. -/
def notThenOutputParams (W : World) (E : UEdGraphNode) : List FBlueprintParamData :=
  ((E.Pins.filterMap W.pin).filter (fun P =>
    decide (P.Direction = .EGPD_Output) && !FName.Equals P.PinName "then")).map paramOfPin

/-- On the output pins of the node, being named `then` and being of execution
type coincide. -/
def ThenIsExec (W : World) (E : UEdGraphNode) : Prop :=
  ∀ P ∈ E.Pins.filterMap W.pin, P.Direction = .EGPD_Output →
    FName.Equals P.PinName "then" = FName.Equals P.PinCategory PC_Exec

/-- The object path carried by an export-text path such as
`BlueprintGeneratedClass` + quote + `/Game/Enemy.Enemy_C` + quote: the text
between the first single quote and the next one; a text without a quote is
itself the path. -/
def exportTextObjectPath (Text : String) : List Char :=
  match Text.toList.dropWhile (fun c => c != quoteChar) with
  | [] => Text.toList
  | _ :: rest => rest.takeWhile (fun c => c != quoteChar)

/-- In the words of the specification: the recorded parent-class tag of the
asset identifies the class.  The tag is present and the object path it carries
is the path of the class (paths ignore case). -/
def TagIdentifies (C : FAssetData) (GC : UClass) : Bool :=
  match C.ParentClassTag with
  | none => false
  | some Tag => (exportTextObjectPath Tag).map Char.toLower == FString.lower GC.PathName

/-- The entry the specification expects for a child blueprint at `Path`:
Inheritance, Incoming, not indirect. -/
def IsChildEntryOf (r : FBlueprintReferenceData) (Path : String) : Prop :=
  r.ReferenceType = .Inheritance ∧ r.Direction = .Incoming ∧ r.BlueprintPath = Path ∧
    r.bIsIndirect = false

instance instDecidableIsChildEntryOf (r : FBlueprintReferenceData) (Path : String) :
    Decidable (IsChildEntryOf r Path) := by
  unfold IsChildEntryOf
  infer_instance

/-- The child entry the source builds for a registry asset, if it builds one:
the asset carries a parent-class tag that contains the path of the class
(ignoring case) and its blueprint loads. -/
def childEntryOf (W : World) (GeneratedClass : UClass) (ChildAsset : FAssetData) :
    Option FBlueprintReferenceData :=
  match ChildAsset.ParentClassTag with
  | none => none
  | some ParentClassPath =>
    if FString.ContainsIgnoreCase ParentClassPath GeneratedClass.PathName then
      (W.blueprint ChildAsset.Asset).map (fun ChildBlueprint =>
        { ReferenceType := .Inheritance, Direction := .Incoming
          BlueprintPath := ChildBlueprint.PathName
          BlueprintName := ChildBlueprint.Name
          Context := "Child Class", bIsIndirect := false })
    else none

/-- The export text of an object path under a class name. -/
def exportText (ClassName ObjectPath : String) : String :=
  ClassName ++ String.singleton quoteChar ++ ObjectPath ++ String.singleton quoteChar

/-- In the words of the specification: a fresh `ExtractReferences(load(p), b)`,
the empty list when `p` does not load. -/
def freshReferences (W : World) (Path : String) (bIncludeIndirect : Bool) :
    Option (List FBlueprintReferenceData) :=
  match W.LoadObject Path with
  | none => some []
  | some Blueprint => ExtractReferences W (some Blueprint) bIncludeIndirect

/-- The fresh extractions of a sequence of requests, in order. -/
def freshSequence (W : World) :
    List (String × Bool) → Option (List (List FBlueprintReferenceData))
  | [] => some []
  | Call :: rest =>
    match freshReferences W Call.1 Call.2 with
    | none => none
    | some out =>
      match freshSequence W rest with
      | none => none
      | some outs => some (out :: outs)

/-- Every list of the cache is an extraction of the blueprint its key loads,
with or without the indirect pass. -/
def CacheSound (W : World) (Cache : ReferenceCache) : Prop :=
  ∀ e ∈ Cache, ∃ a b, W.LoadObject e.1 = some a ∧ ExtractReferences W (some a) b = some e.2

/-- No pointer that `ExtractFunctions` follows is null: the graph pointers of the
blueprint and the pin pointers of the nodes. -/
def NoNullPointers (W : World) (BP : UBlueprint) : Prop :=
  (∀ g ∈ BP.FunctionGraphs, g.isSome = true) ∧ (∀ g ∈ BP.UbergraphPages, g.isSome = true) ∧
    ∀ N ∈ W.Nodes, ∀ p ∈ N.Pins, (W.pin p).isSome = true

/-- What one search parameter tests on a blueprint: the test of its key, and
nothing passes under a key that is none of the five known ones. -/
def SearchWithParameters.paramTest (Param : String × String) (Blueprint : FBlueprintData) :
    Bool :=
  match SearchWithParameters.keyTest Param.1 Param.2 with
  | some test => test Blueprint
  | none => false

/-- A parent-class tag of the form `Class` + quote + `/Script/<Module>.<Name>` +
quote. -/
def scriptClassTag (Module Name : String) : String :=
  classScriptLead ++ Module ++ "." ++ Name ++ String.singleton quoteChar

/-- The text holds neither a dot nor a single quote. -/
def PlainName (s : String) : Prop :=
  Char.ofNat 46 ∉ s.toList ∧ quoteChar ∉ s.toList

instance instDecidablePlainName (s : String) : Decidable (PlainName s) := by
  unfold PlainName
  infer_instance

/-- Both node ids of the connection belong to nodes of the list. -/
def BothEndsKept (Nodes : List FBlueprintNodeData) (c : FBlueprintConnectionData) : Prop :=
  (∃ n ∈ Nodes, n.NodeId = c.SourceNodeId) ∧ (∃ n ∈ Nodes, n.NodeId = c.TargetNodeId)

instance instDecidableBothEndsKept (Nodes : List FBlueprintNodeData)
    (c : FBlueprintConnectionData) : Decidable (BothEndsKept Nodes c) := by
  unfold BothEndsKept
  infer_instance

/-- The links the `LinkedTo` loop of `GetEventGraph` follows from one pin, in
order: the linked pins that are not null and have an owning node, each as (pin
address, linked pin address, owner address, owner). -/
def GetEventGraph.linksOfPin (W : World) (PinAddr : Nat) (links : List (Option Nat)) :
    List (Nat × Nat × Nat × UEdGraphNode) :=
  links.filterMap (fun l =>
    match W.pinAt l with
    | none => none
    | some (LinkedAddr, LP) =>
      match W.nodeAt LP.OwningNode with
      | none => none
      | some (OwnerAddr, Owner) => some (PinAddr, LinkedAddr, OwnerAddr, Owner))

/-- The links the pin loop of `GetEventGraph` follows from the pins of a node,
in order: the links of its non-null pins of execution type. -/
def GetEventGraph.linksOfPins (W : World) (pins : List (Option Nat)) :
    List (Nat × Nat × Nat × UEdGraphNode) :=
  pins.flatMap (fun p =>
    match W.pinAt p with
    | none => []
    | some (PinAddr, Pin) =>
      if FName.Equals Pin.PinCategory PC_Exec then
        GetEventGraph.linksOfPin W PinAddr Pin.LinkedTo
      else [])

/-- The connection entry of a followed link, seen from the node `NodeId`. -/
def GetEventGraph.connOf (NodeId : Nat) (x : Nat × Nat × Nat × UEdGraphNode) :
    FBlueprintConnectionData :=
  { SourceNodeId := NodeId, SourcePinId := x.1, TargetNodeId := x.2.2.1, TargetPinId := x.2.1 }

/-- The queue entry of a followed link: the owner of the linked pin. -/
def GetEventGraph.ownerOf (x : Nat × Nat × Nat × UEdGraphNode) : Nat × UEdGraphNode :=
  (x.2.2.1, x.2.2.2)

/-- The initial state of the traversal on the first non-null page that holds
the event. -/
def GetEventGraph.startPages (W : World) (EventName : String) :
    List (Option UEdGraph) → Option GetEventGraph.State
  | [] => none
  | none :: rest => GetEventGraph.startPages W EventName rest
  | some EventGraph :: rest =>
    match GetEventGraph.findEvent W EventName EventGraph.Nodes with
    | some TargetEventNode =>
      some { GraphData :=
               { Name := EventName, GraphType := "Event"
                 Metadata := TMap.Add [] "GraphName" EventGraph.Name }
             ProcessedNodes := []
             NodesToProcess := [TargetEventNode]
             NodesAdded := 0 }
    | none => GetEventGraph.startPages W EventName rest

/-- The state in which `GetEventGraph` enters its traversal loop, when it does:
the blueprint is not null, the name is not empty and a page holds the event. -/
def GetEventGraph.start (W : World) (Blueprint : Option Nat) (EventName : String) :
    Option GetEventGraph.State :=
  match W.blueprint Blueprint with
  | none => none
  | some BP =>
    if EventName.isEmpty then none
    else GetEventGraph.startPages W EventName BP.UbergraphPages

/-- The bookkeeping invariant of the traversal loop of `GetEventGraph`: queue
entries pair an address with its node, the emitted node ids are the processed
addresses in order of processing, no address is processed twice, and
`NodesAdded` counts the emitted nodes. -/
structure GetEventGraph.BaseInv (W : World) (st : GetEventGraph.State) : Prop where
  queue_valid : ∀ e ∈ st.NodesToProcess, W.Nodes[e.1]? = some e.2
  ids : st.GraphData.Nodes.map (fun n => n.NodeId) = st.ProcessedNodes.reverse
  nodup : st.ProcessedNodes.Nodup
  count : st.NodesAdded = st.GraphData.Nodes.length

/-- The invariant of the traversal for its connections: the source of every
connection is emitted, and its target is emitted or waits in the queue. -/
def GetEventGraph.ConnInv (W : World) (st : GetEventGraph.State) : Prop :=
  GetEventGraph.BaseInv W st ∧
  ∀ c ∈ st.GraphData.Connections, c.SourceNodeId ∈ st.ProcessedNodes ∧
    (c.TargetNodeId ∈ st.ProcessedNodes ∨
      c.TargetNodeId ∈ st.NodesToProcess.map (fun e => e.1))

/-- A chain of `d` execution links from `root` to `b`. -/
inductive ExecChain (W : World) (root : Nat) : Nat → Nat → Prop
  | zero : ExecChain W root root 0
  | step {a b d : Nat} : ExecChain W root a d → ExecLink W a b → ExecChain W root b (d + 1)

/-- The distance of `b` from `root`: the length of a shortest chain of
execution links from `root` to `b`. -/
def ExecDist (W : World) (root b d : Nat) : Prop :=
  ExecChain W root b d ∧ ∀ d1, ExecChain W root b d1 → d ≤ d1

/-- Node `x` is not farther from `root` than node `y`. -/
def DistOrdered (W : World) (root x y : Nat) : Prop :=
  ∀ dx dy, ExecDist W root x dx → ExecDist W root y dy → dx ≤ dy

/-- The breadth-first invariant of the traversal loop of `GetEventGraph`.  `LQ`
is the queue with, for each entry, the level at which it was queued (0 for the
event node, one more than the distance of the node it was queued from
otherwise).  The levels are lengths of chains to the entries, ascending along
the queue and at most one apart; every processed node has a distance, at most
the levels in the queue; the processed nodes are in order of distance; every
node linked from a processed node is processed or queued at a level of at most
one more than that node's distance; and the event node is processed or queued
at level 0. -/
structure GetEventGraph.LevelInv (W : World) (root : Nat) (st : GetEventGraph.State)
    (LQ : List ((Nat × UEdGraphNode) × Nat)) : Prop where
  base : GetEventGraph.BaseInv W st
  queue : LQ.map Prod.fst = st.NodesToProcess
  chain : ∀ q ∈ LQ, ExecChain W root q.1.1 q.2
  sorted : LQ.Pairwise (fun p q => p.2 ≤ q.2)
  close : ∀ p ∈ LQ, ∀ q ∈ LQ, q.2 ≤ p.2 + 1
  dist : ∀ a ∈ st.ProcessedNodes, ∃ d, ExecDist W root a d ∧ ∀ q ∈ LQ, d ≤ q.2
  order : st.ProcessedNodes.reverse.Pairwise (DistOrdered W root)
  complete : ∀ a ∈ st.ProcessedNodes, ∀ d, ExecDist W root a d →
    ∀ b B, ExecLink W a b → W.Nodes[b]? = some B →
      b ∈ st.ProcessedNodes ∨ ∃ q ∈ LQ, q.1.1 = b ∧ q.2 ≤ d + 1
  root : root ∈ st.ProcessedNodes ∨ ∃ q ∈ LQ, q.1.1 = root ∧ q.2 = 0

/-- The connection entry the `LinkedTo` loop of `ExtractGraphs` adds for one
linked pin, when it adds one. -/
def ExtractGraphs.linkRecord (W : World) (NodeId PinId : Nat) (Direction : EEdGraphPinDirection)
    (LinkedPin : Option Nat) : Option FBlueprintConnectionData :=
  match W.pinAt LinkedPin with
  | none => none
  | some (LinkedAddr, LP) =>
    match W.nodeAt LP.OwningNode with
    | none => none
    | some (OwnerAddr, _) =>
      some (if Direction = .EGPD_Output then
          { SourceNodeId := NodeId, SourcePinId := PinId
            TargetNodeId := OwnerAddr, TargetPinId := LinkedAddr }
        else
          { SourceNodeId := OwnerAddr, SourcePinId := LinkedAddr
            TargetNodeId := NodeId, TargetPinId := PinId })

/-- The pins of a graph: for each non-null node of the list, in order, each of
its non-null pins, as (node address, pin address, pin). -/
def graphPins (W : World) (nodes : List (Option Nat)) : List (Nat × Nat × UEdGraphPin) :=
  (nodes.filterMap W.nodeAt).flatMap (fun n =>
    (n.2.Pins.filterMap W.pinAt).map (fun p => (n.1, p.1, p.2)))

/-- The connection entries `ExtractGraphs` emits for the pins of a graph, in
order. -/
def ExtractGraphs.pinRecords (W : World) (x : Nat × Nat × UEdGraphPin) :
    List FBlueprintConnectionData :=
  x.2.2.LinkedTo.filterMap (ExtractGraphs.linkRecord W x.1 x.2.1 x.2.2.Direction)

/-- The wires of a graph, one entry each, in the words of the specification:
for each output pin `o` of a node `n` of the graph and each pin `i` it lists,
the entry with source `(n, o)`, the output side, and target `(owner of i, i)`,
the input side. -/
def graphWires (W : World) (Graph : UEdGraph) : List FBlueprintConnectionData :=
  ((graphPins W Graph.Nodes).filter (fun x => decide (x.2.2.Direction = .EGPD_Output))).flatMap
    (fun x => x.2.2.LinkedTo.filterMap (ExtractGraphs.linkRecord W x.1 x.2.1 .EGPD_Output))

/-- The pins of the graph are well formed: every pin is held once, by one node
of the graph, which is its owning node, and lists no pin twice. -/
def WellFormedPins (W : World) (Graph : UEdGraph) : Prop :=
  ((graphPins W Graph.Nodes).map (fun x => x.2.1)).Nodup ∧
  ∀ x ∈ graphPins W Graph.Nodes, x.2.2.OwningNode = some x.1 ∧ x.2.2.LinkedTo.Nodup

/-- The links of the graph are symmetric, join an output pin to an input pin,
and stay in the graph: every pin listed by a pin of the graph is a pin of the
graph, of the other direction, that lists it back. -/
def LinksSymmetric (W : World) (Graph : UEdGraph) : Prop :=
  ∀ x ∈ graphPins W Graph.Nodes, ∀ l ∈ x.2.2.LinkedTo,
    ∃ y ∈ graphPins W Graph.Nodes, l = some y.2.1 ∧
      y.2.2.Direction ≠ x.2.2.Direction ∧ some x.2.1 ∈ y.2.2.LinkedTo

instance instDecidableWellFormedPins (W : World) (Graph : UEdGraph) :
    Decidable (WellFormedPins W Graph) := by
  unfold WellFormedPins
  infer_instance

instance instDecidableLinksSymmetric (W : World) (Graph : UEdGraph) :
    Decidable (LinksSymmetric W Graph) := by
  unfold LinksSymmetric
  infer_instance

/-- The pin record the pin loop of `GetEventGraph` writes for a pin at an
address. -/
def GetEventGraph.pinData (x : Nat × UEdGraphPin) : FBlueprintPinData :=
  { PinId := x.1
    Name := x.2.PinName
    IsExecution := FName.Equals x.2.PinCategory PC_Exec
    DataType := x.2.PinCategory
    IsInput := decide (x.2.Direction = .EGPD_Input)
    IsConnected := decide (x.2.LinkedTo.length > 0)
    DefaultValue := if x.2.DefaultValue.length > 0 then x.2.DefaultValue else "" }

/-- The connection entries the traversal of `GetEventGraph` emits on its visit
of the node at address `a`: one per link followed from the node's pins of
execution type, in order, seen from that node. -/
def GetEventGraph.nodeConnections (W : World) (a : Nat) : List FBlueprintConnectionData :=
  match W.Nodes[a]? with
  | none => []
  | some C => (GetEventGraph.linksOfPins W C.Pins).map (GetEventGraph.connOf a)

/-- The invariant of the traversal for the origin of its connections: the
connections are those of the visits of the emitted nodes, in order, and every
emitted node record holds the record of each pin of its node. -/
def GetEventGraph.OriginInv (W : World) (st : GetEventGraph.State) : Prop :=
  GetEventGraph.BaseInv W st ∧
  st.GraphData.Connections =
    st.GraphData.Nodes.flatMap (fun n => GetEventGraph.nodeConnections W n.NodeId) ∧
  ∀ n ∈ st.GraphData.Nodes, ∃ C, W.Nodes[n.NodeId]? = some C ∧
    ∀ p ∈ C.Pins, ∀ x, W.pinAt p = some x →
      GetEventGraph.pinData x ∈ n.InputPins ++ n.OutputPins

/-! ## Sample worlds -/

/-- A blueprint with one function graph (entry node with a `then` pin and one
parameter pin carrying a default) and one variable with default and category. -/
def sampleWorld : World :=
  { Blueprints :=
      [{ Name := "Enemy", PathName := "/Game/Enemy"
         BlueprintDescription := "An enemy"
         FunctionGraphs := [some { Name := "TakeDamage", Nodes := [some 0] }]
         NewVariables :=
           [{ VarName := "Health", TypeText := "Float", PropertyFlags := 4
              DefaultValue := "100", Category := "Stats" }] }]
    Nodes :=
      [{ ClassName := "K2Node_FunctionEntry", Kind := .FunctionEntry, Pins := [some 0, some 1] }]
    Pins :=
      [{ PinName := "then", Direction := .EGPD_Output, PinCategory := "exec", OwningNode := some 0 },
       { PinName := "Amount", Direction := .EGPD_Output, PinCategory := "int"
         OwningNode := some 0 }]
    AssetRegistry :=
      [{ AssetName := "Enemy", ObjectPath := "/Game/Enemy", Asset := some 0 }] }

/-- A blueprint with two function graphs (`Fire`: entry node 0 wired to call
node 1; `Reload`: entry node 2) and one event graph: event node 3
(`ReceiveBeginPlay`) → call node 4 → call node 5 along execution pins, and a
variable-get node 6 feeding a data pin of node 4. -/
def graphWorld : World :=
  { Blueprints :=
      [{ Name := "BP_Hero", PathName := "/Game/BP_Hero"
         FunctionGraphs :=
           [some { Name := "Fire", Nodes := [some 0, some 1] },
            some { Name := "Reload", Nodes := [some 2] }]
         UbergraphPages :=
           [some { Name := "EventGraph", Nodes := [some 3, some 4, some 5, some 6] }] }]
    Nodes :=
      [{ ClassName := "K2Node_FunctionEntry", Kind := .FunctionEntry, Pins := [some 0] },
       { ClassName := "K2Node_CallFunction", Kind := .CallFunction "PrintString" none
         Pins := [some 1] },
       { ClassName := "K2Node_FunctionEntry", Kind := .FunctionEntry, Pins := [] },
       { ClassName := "K2Node_Event", Kind := .Event "ReceiveBeginPlay" none, Pins := [some 2] },
       { ClassName := "K2Node_CallFunction", Kind := .CallFunction "Fire" none
         Pins := [some 3, some 4, some 6] },
       { ClassName := "K2Node_CallFunction", Kind := .CallFunction "Reload" none
         Pins := [some 5] },
       { ClassName := "K2Node_VariableGet", Kind := .VariableGet "Ammo", Pins := [some 7] }]
    Pins :=
      [{ PinName := "then", Direction := .EGPD_Output, PinCategory := "exec"
         LinkedTo := [some 1], OwningNode := some 0 },
       { PinName := "execute", Direction := .EGPD_Input, PinCategory := "exec"
         LinkedTo := [some 0], OwningNode := some 1 },
       { PinName := "then", Direction := .EGPD_Output, PinCategory := "exec"
         LinkedTo := [some 3], OwningNode := some 3 },
       { PinName := "execute", Direction := .EGPD_Input, PinCategory := "exec"
         LinkedTo := [some 2], OwningNode := some 4 },
       { PinName := "then", Direction := .EGPD_Output, PinCategory := "exec"
         LinkedTo := [some 5], OwningNode := some 4 },
       { PinName := "execute", Direction := .EGPD_Input, PinCategory := "exec"
         LinkedTo := [some 4], OwningNode := some 5 },
       { PinName := "Count", Direction := .EGPD_Input, PinCategory := "int"
         LinkedTo := [some 7], OwningNode := some 4 },
       { PinName := "Ammo", Direction := .EGPD_Output, PinCategory := "int"
         LinkedTo := [some 6], OwningNode := some 6 }]
    AssetRegistry :=
      [{ AssetName := "BP_Hero", ObjectPath := "/Game/BP_Hero", Asset := some 0 }] }

/-- Three blueprints: `A` (address 0) has a variable of class `B_C` and is the
parent of nothing; `B` (address 1) has a variable of class `C_C`; `C`
(address 2) refers to nothing.  So `A → B` and `B → C` are direct references
and `A → C` is an indirect one, through `B`. -/
def refWorld : World :=
  { Blueprints :=
      [{ Name := "A", PathName := "/Game/A"
         GeneratedClass := some { Name := "A_C", PathName := "/Game/A.A_C"
                                  ClassGeneratedBy := some 0 }
         NewVariables :=
           [{ VarName := "Target", PinCategory := "object"
              PinSubCategoryObject := some { Name := "B_C", PathName := "/Game/B.B_C"
                                             ClassGeneratedBy := some 1 } }] },
       { Name := "B", PathName := "/Game/B"
         GeneratedClass := some { Name := "B_C", PathName := "/Game/B.B_C"
                                  ClassGeneratedBy := some 1 }
         NewVariables :=
           [{ VarName := "Next", PinCategory := "object"
              PinSubCategoryObject := some { Name := "C_C", PathName := "/Game/C.C_C"
                                             ClassGeneratedBy := some 2 } }] },
       { Name := "C", PathName := "/Game/C"
         GeneratedClass := some { Name := "C_C", PathName := "/Game/C.C_C"
                                  ClassGeneratedBy := some 2 } }]
    AssetRegistry :=
      [{ AssetName := "A", ObjectPath := "/Game/A", Asset := some 0 },
       { AssetName := "B", ObjectPath := "/Game/B", Asset := some 1 },
       { AssetName := "C", ObjectPath := "/Game/C", Asset := some 2 }] }

/-- Four blueprint views for the search: two have `foo` in their name and a
function with `tick` in its name. -/
def searchSample : List FBlueprintData :=
  [{ Name := "FooActor", Path := "/Game/FooActor", Functions := [{ Name := "Tick" }] },
   { Name := "FooPawn", Path := "/Game/FooPawn", Functions := [{ Name := "Jump" }] },
   { Name := "BarActor", Path := "/Game/BarActor", Functions := [{ Name := "ReceiveTick" }] },
   { Name := "MyFOOD", Path := "/Game/MyFOOD",
     Functions := [{ Name := "Eat" }, { Name := "OnTick" }] }]

/-- Three blueprints with null elements.  Blueprint 0 has a null function graph
before the graph `Fire`; blueprint 1 has a function graph whose entry node
carries a null pin; blueprint 2 has a function graph with a null node before
its entry node. -/
def nullWorld : World :=
  { Blueprints :=
      [{ Name := "NullGraph", PathName := "/Game/NullGraph"
         FunctionGraphs := [none, some { Name := "Fire", Nodes := [some 0] }] },
       { Name := "NullPin", PathName := "/Game/NullPin"
         FunctionGraphs := [some { Name := "Aim", Nodes := [some 1] }] },
       { Name := "NullNode", PathName := "/Game/NullNode"
         FunctionGraphs := [some { Name := "Run", Nodes := [none, some 0] }] }]
    Nodes :=
      [{ ClassName := "K2Node_FunctionEntry", Kind := .FunctionEntry, Pins := [some 0] },
       { ClassName := "K2Node_FunctionEntry", Kind := .FunctionEntry, Pins := [none, some 0] }]
    Pins :=
      [{ PinName := "Speed", Direction := .EGPD_Output, PinCategory := "float"
         OwningNode := some 0 }] }

/-- A blueprint with one function graph whose entry node has three output
pins: the execution pin `then`, a second execution pin `Completed`, and the
integer pin `Amount`. -/
def execPinWorld : World :=
  { Blueprints :=
      [{ Name := "Turret", PathName := "/Game/Turret"
         FunctionGraphs := [some { Name := "Charge", Nodes := [some 0] }] }]
    Nodes :=
      [{ ClassName := "K2Node_FunctionEntry", Kind := .FunctionEntry
         Pins := [some 0, some 1, some 2] }]
    Pins :=
      [{ PinName := "then", Direction := .EGPD_Output, PinCategory := "exec"
         OwningNode := some 0 },
       { PinName := "Completed", Direction := .EGPD_Output, PinCategory := "exec"
         OwningNode := some 0 },
       { PinName := "Amount", Direction := .EGPD_Output, PinCategory := "int"
         OwningNode := some 0 }] }

/-- Two blueprints named `Base`, one at `/Game/Base` (address 0) and one at
`/Game/Mods/Game/Base` (address 1), and the blueprint `Child` (address 2), whose
parent is the second `Base`: its parent class and its recorded parent-class
tag name the class `/Game/Mods/Game/Base.Base_C`. -/
def shadowWorld : World :=
  { Blueprints :=
      [{ Name := "Base", PathName := "/Game/Base"
         GeneratedClass := some { Name := "Base_C", PathName := "/Game/Base.Base_C"
                                  ClassGeneratedBy := some 0 } },
       { Name := "Base", PathName := "/Game/Mods/Game/Base"
         GeneratedClass := some { Name := "Base_C", PathName := "/Game/Mods/Game/Base.Base_C"
                                  ClassGeneratedBy := some 1 } },
       { Name := "Child", PathName := "/Game/Mods/Child"
         ParentClass := some { Name := "Base_C", PathName := "/Game/Mods/Game/Base.Base_C"
                               ClassGeneratedBy := some 1 }
         GeneratedClass := some { Name := "Child_C", PathName := "/Game/Mods/Child.Child_C"
                                  ClassGeneratedBy := some 2 } }]
    AssetRegistry :=
      [{ AssetName := "Base", ObjectPath := "/Game/Base", Asset := some 0
         ParentClassTag := some (exportText "/Script/CoreUObject.Class" "/Script/Engine.Actor") },
       { AssetName := "Base", ObjectPath := "/Game/Mods/Game/Base", Asset := some 1
         ParentClassTag := some (exportText "/Script/CoreUObject.Class" "/Script/Engine.Actor") },
       { AssetName := "Child", ObjectPath := "/Game/Mods/Child", Asset := some 2
         ParentClassTag := some (exportText "/Script/Engine.BlueprintGeneratedClass"
           "/Game/Mods/Game/Base.Base_C") }] }

/-- An event graph with cycles: event node 0 (`Tick`) → node 1 → node 2, node 2
wired back to node 1, and node 2 wired to itself. -/
def cycleWorld : World :=
  { Blueprints :=
      [{ Name := "BP_Loop", PathName := "/Game/BP_Loop"
         UbergraphPages := [some { Name := "EventGraph", Nodes := [some 0, some 1, some 2] }] }]
    Nodes :=
      [{ ClassName := "K2Node_Event", Kind := .Event "Tick" none, Pins := [some 0] },
       { ClassName := "K2Node_CallFunction", Kind := .CallFunction "Step" none
         Pins := [some 1, some 2] },
       { ClassName := "K2Node_CallFunction", Kind := .CallFunction "Again" none
         Pins := [some 3, some 4, some 5, some 6] }]
    Pins :=
      [{ PinName := "then", Direction := .EGPD_Output, PinCategory := "exec"
         LinkedTo := [some 1], OwningNode := some 0 },
       { PinName := "execute", Direction := .EGPD_Input, PinCategory := "exec"
         LinkedTo := [some 0, some 4], OwningNode := some 1 },
       { PinName := "then", Direction := .EGPD_Output, PinCategory := "exec"
         LinkedTo := [some 3], OwningNode := some 1 },
       { PinName := "execute", Direction := .EGPD_Input, PinCategory := "exec"
         LinkedTo := [some 2], OwningNode := some 2 },
       { PinName := "then", Direction := .EGPD_Output, PinCategory := "exec"
         LinkedTo := [some 1], OwningNode := some 2 },
       { PinName := "Loop", Direction := .EGPD_Output, PinCategory := "exec"
         LinkedTo := [some 6], OwningNode := some 2 },
       { PinName := "Retry", Direction := .EGPD_Input, PinCategory := "exec"
         LinkedTo := [some 5], OwningNode := some 2 }] }

/-- An event graph that branches: event node 0 (`Tick`) → node 1, a sequence node
with two execution outputs, the first to node 2 and the second to node 3; node
2 → node 4.  Links are recorded on both of their pins. -/
def branchWorld : World :=
  { Blueprints :=
      [{ Name := "BP_Branch", PathName := "/Game/BP_Branch"
         UbergraphPages :=
           [some { Name := "EventGraph"
                   Nodes := [some 0, some 1, some 2, some 3, some 4] }] }]
    Nodes :=
      [{ ClassName := "K2Node_Event", Kind := .Event "Tick" none, Pins := [some 0] },
       { ClassName := "K2Node_ExecutionSequence", Pins := [some 1, some 2, some 3] },
       { ClassName := "K2Node_CallFunction", Kind := .CallFunction "First" none
         Pins := [some 4, some 6] },
       { ClassName := "K2Node_CallFunction", Kind := .CallFunction "Second" none
         Pins := [some 5] },
       { ClassName := "K2Node_CallFunction", Kind := .CallFunction "Last" none
         Pins := [some 7] }]
    Pins :=
      [{ PinName := "then", Direction := .EGPD_Output, PinCategory := "exec"
         LinkedTo := [some 1], OwningNode := some 0 },
       { PinName := "execute", Direction := .EGPD_Input, PinCategory := "exec"
         LinkedTo := [some 0], OwningNode := some 1 },
       { PinName := "then_0", Direction := .EGPD_Output, PinCategory := "exec"
         LinkedTo := [some 4], OwningNode := some 1 },
       { PinName := "then_1", Direction := .EGPD_Output, PinCategory := "exec"
         LinkedTo := [some 5], OwningNode := some 1 },
       { PinName := "execute", Direction := .EGPD_Input, PinCategory := "exec"
         LinkedTo := [some 2], OwningNode := some 2 },
       { PinName := "execute", Direction := .EGPD_Input, PinCategory := "exec"
         LinkedTo := [some 3], OwningNode := some 3 },
       { PinName := "then", Direction := .EGPD_Output, PinCategory := "exec"
         LinkedTo := [some 7], OwningNode := some 2 },
       { PinName := "execute", Direction := .EGPD_Input, PinCategory := "exec"
         LinkedTo := [some 6], OwningNode := some 4 }] }

/-- A function graph whose output pin lists its linked pin twice: entry node 0
with the execution output pin 0, call node 1 with the execution input pin 1;
pin 0 lists pin 1 twice and pin 1 lists pin 0 once. -/
def dupWorld : World :=
  { Blueprints :=
      [{ Name := "BP_Dup", PathName := "/Game/BP_Dup"
         FunctionGraphs := [some { Name := "Twice", Nodes := [some 0, some 1] }] }]
    Nodes :=
      [{ ClassName := "K2Node_FunctionEntry", Kind := .FunctionEntry, Pins := [some 0] },
       { ClassName := "K2Node_CallFunction", Kind := .CallFunction "PrintString" none
         Pins := [some 1] }]
    Pins :=
      [{ PinName := "then", Direction := .EGPD_Output, PinCategory := "exec"
         LinkedTo := [some 1, some 1], OwningNode := some 0 },
       { PinName := "execute", Direction := .EGPD_Input, PinCategory := "exec"
         LinkedTo := [some 0], OwningNode := some 1 }] }

/-- An event graph whose execution wire ends on a data pin: the execution
output pin 0 of event node 0 (`Tick`) and the `int` input pin 1 of node 1 list
each other; node 1 has no other pin. -/
def mixWorld : World :=
  { Blueprints :=
      [{ Name := "BP_Mix", PathName := "/Game/BP_Mix"
         UbergraphPages := [some { Name := "EventGraph", Nodes := [some 0, some 1] }] }]
    Nodes :=
      [{ ClassName := "K2Node_Event", Kind := .Event "Tick" none, Pins := [some 0] },
       { ClassName := "K2Node_CallFunction", Kind := .CallFunction "SetCount" none
         Pins := [some 1] }]
    Pins :=
      [{ PinName := "then", Direction := .EGPD_Output, PinCategory := "exec"
         LinkedTo := [some 1], OwningNode := some 0 },
       { PinName := "Count", Direction := .EGPD_Input, PinCategory := "int"
         LinkedTo := [some 0], OwningNode := some 1 }] }

/-! ## Theorems -/

/-- C1: at detail level Basic, `ExtractBlueprintData` returns (without failing)
a view whose functions, variables and description are empty, and so does
`GetBlueprintByPath` whenever it returns a view, through either of its two
Basic paths (asset data, or load and extract). -/
theorem basic_level_is_empty (W : World) (Blueprint : Option Nat) (Path GraphName : String)
    (MaxGraphs MaxNodes : Int) :
    (∃ Data, ExtractBlueprintData W Blueprint .Basic GraphName MaxGraphs MaxNodes = some Data ∧
      Data.Functions = [] ∧ Data.Variables = [] ∧ Data.Description = "") ∧
    (∃ r, GetBlueprintByPath W Path .Basic GraphName MaxGraphs MaxNodes = some r ∧
      ∀ Data, r = some Data →
        Data.Functions = [] ∧ Data.Variables = [] ∧ Data.Description = "") := by
  have hE : ∀ B : Option Nat, ∃ Data,
      ExtractBlueprintData W B .Basic GraphName MaxGraphs MaxNodes = some Data ∧
      Data.Functions = [] ∧ Data.Variables = [] ∧ Data.Description = "" := by
    intro B
    unfold ExtractBlueprintData
    cases W.blueprint B with
    | none => exact ⟨_, rfl, rfl, rfl, rfl⟩
    | some BP => exact ⟨_, rfl, rfl, rfl, rfl⟩
  refine ⟨hE Blueprint, ?_⟩
  unfold GetBlueprintByPath
  simp only [if_true]
  cases hA : W.GetAssetByObjectPath Path with
  | some AssetData =>
    refine ⟨_, rfl, ?_⟩
    intro Data hD
    cases hD
    unfold BasicFromAssetData
    cases AssetData.ParentClassTag <;> exact ⟨rfl, rfl, rfl⟩
  | none =>
    cases hL : W.LoadObject Path with
    | none => exact ⟨none, rfl, by intro Data hD; cases hD⟩
    | some a =>
      obtain ⟨D, hD, h1, h2, h3⟩ := hE (some a)
      refine ⟨some D, ?_, ?_⟩
      · simp only [hD]
      · intro Data hEq
        cases hEq
        exact ⟨h1, h2, h3⟩

/-- C1, on the sample world: the lookup by path at Basic level returns a view,
and it is empty in the three fields. -/
theorem basic_level_is_empty_witness :
    ∃ Data, GetBlueprintByPath sampleWorld "/Game/Enemy" .Basic "" 0 0 = some (some Data) ∧
      Data.Functions = [] ∧ Data.Variables = [] ∧ Data.Description = "" := by
  obtain ⟨r, hr, h⟩ := (basic_level_is_empty sampleWorld none "/Game/Enemy" "" 0 0).2
  have hs : GetBlueprintByPath sampleWorld "/Game/Enemy" .Basic "" 0 0 =
      some (some (BasicFromAssetData
        { AssetName := "Enemy", ObjectPath := "/Game/Enemy", Asset := some 0 })) := by
    decide
  rw [hs] at hr
  cases hr
  exact ⟨_, hs, h _ rfl⟩

/-- The source's Medium simplification is the specification's projection. -/
theorem simplify_eq_mediumProjection (Data : FBlueprintData) :
    ExtractBlueprintData.simplify Data = mediumProjection Data := rfl

/-- C2: the Medium view is the Full view with every function description,
parameter default, variable default and variable category emptied, and is
otherwise identical (a failure of the extraction is common to both levels); in
particular no function of the Medium view has a description and no parameter
or variable has a default value. -/
theorem medium_is_stripped_full (W : World) (Blueprint : Option Nat) (GraphName : String)
    (MaxGraphs MaxNodes : Int) :
    ExtractBlueprintData W Blueprint .Medium GraphName MaxGraphs MaxNodes =
      (ExtractBlueprintData W Blueprint .Full GraphName MaxGraphs MaxNodes).map
        mediumProjection ∧
    ∀ View, ExtractBlueprintData W Blueprint .Medium GraphName MaxGraphs MaxNodes = some View →
      (∀ f ∈ View.Functions, f.Description = "" ∧ ∀ q ∈ f.Params, q.DefaultValue = "") ∧
      (∀ x ∈ View.Variables, x.DefaultValue = "" ∧ x.Category = "") := by
  have hEq : ExtractBlueprintData W Blueprint .Medium GraphName MaxGraphs MaxNodes =
      (ExtractBlueprintData W Blueprint .Full GraphName MaxGraphs MaxNodes).map
        mediumProjection := by
    unfold ExtractBlueprintData
    cases W.blueprint Blueprint with
    | none => rfl
    | some BP =>
      cases ExtractFunctions W Blueprint with
      | none => rfl
      | some Functions => rfl
  refine ⟨hEq, ?_⟩
  intro View hV
  rw [hEq] at hV
  cases hF : ExtractBlueprintData W Blueprint .Full GraphName MaxGraphs MaxNodes with
  | none => rw [hF] at hV; cases hV
  | some Full =>
    rw [hF] at hV
    simp only [Option.map_some', Option.some.injEq] at hV
    subst hV
    constructor
    · intro f hf
      simp only [mediumProjection, List.mem_map] at hf
      obtain ⟨g, _, rfl⟩ := hf
      refine ⟨rfl, ?_⟩
      intro q hq
      simp only [List.mem_map] at hq
      obtain ⟨r, _, rfl⟩ := hq
      rfl
    · intro x hx
      simp only [mediumProjection, List.mem_map] at hx
      obtain ⟨y, _, rfl⟩ := hx
      exact ⟨rfl, rfl⟩

/-- C2, on the sample world: the Full view carries the variable default `100`
and category `Stats`; the Medium view is returned and has neither. -/
theorem medium_is_stripped_full_witness :
    (∃ Full, ExtractBlueprintData sampleWorld (some 0) .Full "" 0 0 = some Full ∧
      Full.Variables.map (fun x => (x.DefaultValue, x.Category)) = [("100", "Stats")]) ∧
    (∃ View, ExtractBlueprintData sampleWorld (some 0) .Medium "" 0 0 = some View ∧
      View.Functions.map (fun f => f.Params.map (fun q => q.Name)) = [["Amount"]] ∧
      (∀ f ∈ View.Functions, f.Description = "" ∧ ∀ q ∈ f.Params, q.DefaultValue = "") ∧
      (∀ x ∈ View.Variables, x.DefaultValue = "" ∧ x.Category = "")) := by
  refine ⟨⟨_, rfl, by decide⟩, ?_⟩
  exact ⟨_, rfl, by decide,
    (medium_is_stripped_full sampleWorld (some 0) "" 0 0).2 _ rfl⟩

/-- C3: with `MaxNodes = 1` the two function graphs of the sample blueprint are
cut to one node each, but the event graph comes back with all four of its
nodes: the event-graph loop of `ExtractGraphs` has no `MaxNodes` test. -/
theorem extractGraphs_event_graph_exceeds_maxNodes :
    (ExtractGraphs graphWorld (some 0) "" 0 1).map (fun G => (G.GraphType, G.Nodes.length)) =
      [("Function", 1), ("Function", 1), ("EventGraph", 4)] ∧
    ¬ ∀ G ∈ ExtractGraphs graphWorld (some 0) "" 0 1, (G.Nodes.length : Int) ≤ 1 := by
  decide

/-- The link loop only appends connections that have the current node at one end. -/
theorem ExtractGraphs.linkStep_foldl_mem (W : World) (NodeId PinId : Nat)
    (Direction : EEdGraphPinDirection) (links : List (Option Nat))
    (Connections : List FBlueprintConnectionData) (c : FBlueprintConnectionData)
    (hc : c ∈ links.foldl (ExtractGraphs.linkStep W NodeId PinId Direction) Connections) :
    c ∈ Connections ∨ c.SourceNodeId = NodeId ∨ c.TargetNodeId = NodeId := by
  induction links generalizing Connections with
  | nil => exact Or.inl hc
  | cons l ls ih =>
    rw [List.foldl_cons] at hc
    rcases ih _ hc with h | h
    · unfold ExtractGraphs.linkStep at h
      cases hp : W.pinAt l with
      | none => rw [hp] at h; exact Or.inl h
      | some pr =>
        obtain ⟨la, LP⟩ := pr
        rw [hp] at h
        cases hn : W.nodeAt LP.OwningNode with
        | none => simp only [hn] at h; exact Or.inl h
        | some nr =>
          obtain ⟨oa, ON⟩ := nr
          simp only [hn] at h
          split at h
          · rcases List.mem_append.1 h with h | h
            · exact Or.inl h
            · rw [List.mem_singleton] at h
              subst h
              exact Or.inr (Or.inl rfl)
          · rcases List.mem_append.1 h with h | h
            · exact Or.inl h
            · rw [List.mem_singleton] at h
              subst h
              exact Or.inr (Or.inr rfl)
    · exact Or.inr h

/-- The pin loop keeps the node id and only appends connections that have the
current node at one end. -/
theorem ExtractGraphs.pinStep_foldl_touch (W : World) (pins : List (Option Nat))
    (st : FBlueprintNodeData × List FBlueprintConnectionData) :
    (pins.foldl (ExtractGraphs.pinStep W) st).1.NodeId = st.1.NodeId ∧
    ∀ c ∈ (pins.foldl (ExtractGraphs.pinStep W) st).2,
      c ∈ st.2 ∨ c.SourceNodeId = st.1.NodeId ∨ c.TargetNodeId = st.1.NodeId := by
  induction pins generalizing st with
  | nil => exact ⟨rfl, fun c hc => Or.inl hc⟩
  | cons p ps ih =>
    rw [List.foldl_cons]
    obtain ⟨h1, h2⟩ := ih (ExtractGraphs.pinStep W st p)
    have hstep : (ExtractGraphs.pinStep W st p).1.NodeId = st.1.NodeId ∧
        ∀ c ∈ (ExtractGraphs.pinStep W st p).2,
          c ∈ st.2 ∨ c.SourceNodeId = st.1.NodeId ∨ c.TargetNodeId = st.1.NodeId := by
      unfold ExtractGraphs.pinStep
      cases hp : W.pinAt p with
      | none => exact ⟨rfl, fun c hc => Or.inl hc⟩
      | some pr =>
        obtain ⟨pa, P⟩ := pr
        refine ⟨?_, ?_⟩
        · simp only []
          split <;> rfl
        · intro c hc
          exact ExtractGraphs.linkStep_foldl_mem W _ _ _ _ _ c hc
    refine ⟨h1.trans hstep.1, ?_⟩
    intro c hc
    rcases h2 c hc with h | h | h
    · exact hstep.2 c h
    · exact Or.inr (Or.inl (h.trans hstep.1))
    · exact Or.inr (Or.inr (h.trans hstep.1))

/-- Adding a node keeps every connection attached to a node of the record. -/
theorem ExtractGraphs.addNode_touch (W : World) (withEvent : Bool) (G : FBlueprintGraphData)
    (NodeAddr : Nat) (N : UEdGraphNode) (hG : ConnectionsTouchNodes G) :
    ConnectionsTouchNodes (ExtractGraphs.addNode W withEvent G NodeAddr N) := by
  intro c hc
  unfold ExtractGraphs.addNode at hc ⊢
  simp only [] at hc ⊢
  obtain ⟨hid, hmem⟩ := ExtractGraphs.pinStep_foldl_touch W N.Pins
    ({ NodeId := NodeAddr, NodeType := N.ClassName, Title := N.Title, PositionX := N.NodePosX
       PositionY := N.NodePosY
       Comment := if N.NodeComment.length > 0 then N.NodeComment else "" }, G.Connections)
  rcases hmem c hc with h | h | h
  · obtain ⟨n, hn, hn'⟩ := hG c h
    exact ⟨n, List.mem_append_left _ hn, hn'⟩
  · exact ⟨_, List.mem_append_right _ (List.mem_singleton.2 rfl), Or.inl (hid.trans h.symm)⟩
  · exact ⟨_, List.mem_append_right _ (List.mem_singleton.2 rfl), Or.inr (hid.trans h.symm)⟩

/-- The node loop of a function graph keeps connections attached. -/
theorem ExtractGraphs.functionNodes_touch (W : World) (MaxNodes : Int)
    (nodes : List (Option Nat)) (G : FBlueprintGraphData) (NodesAdded : Nat)
    (hG : ConnectionsTouchNodes G) :
    ConnectionsTouchNodes (ExtractGraphs.functionNodes W MaxNodes nodes G NodesAdded) := by
  induction nodes generalizing G NodesAdded with
  | nil => exact hG
  | cons n ns ih =>
    unfold ExtractGraphs.functionNodes
    split
    · exact hG
    · cases hn : W.nodeAt n with
      | none => exact ih G NodesAdded hG
      | some nr =>
        obtain ⟨a, N⟩ := nr
        exact ih _ _ (ExtractGraphs.addNode_touch W false G a N hG)

/-- Every record the function-graph loop produces keeps connections attached. -/
theorem ExtractGraphs.functionGraphs_touch (W : World) (GraphName : String) (TotalGraphs : Nat)
    (MaxGraphs MaxNodes : Int) (GraphsAdded : Nat) (graphs : List (Option UEdGraph))
    (Graphs : List FBlueprintGraphData) (hG : ∀ G ∈ Graphs, ConnectionsTouchNodes G) :
    ∀ G ∈ ExtractGraphs.functionGraphs W GraphName TotalGraphs MaxGraphs MaxNodes GraphsAdded
      graphs Graphs, ConnectionsTouchNodes G := by
  induction graphs generalizing Graphs with
  | nil => exact hG
  | cons g gs ih =>
    unfold ExtractGraphs.functionGraphs
    split
    · exact hG
    · cases g with
      | none => exact ih Graphs hG
      | some Graph =>
        simp only []
        split
        · exact ih Graphs hG
        · apply ih
          intro G hGm
          rcases List.mem_append.1 hGm with h | h
          · exact hG G h
          · rw [List.mem_singleton] at h
            subst h
            unfold ExtractGraphs.functionGraph
            exact ExtractGraphs.functionNodes_touch W MaxNodes _ _ _
              (fun c hc => by cases hc)

/-- The node loop of the event graph keeps connections attached. -/
theorem ExtractGraphs.eventNodes_touch (W : World) (nodes : List (Option Nat))
    (G : FBlueprintGraphData) (hG : ConnectionsTouchNodes G) :
    ConnectionsTouchNodes (nodes.foldl (ExtractGraphs.eventNodeStep W) G) := by
  induction nodes generalizing G with
  | nil => exact hG
  | cons n ns ih =>
    rw [List.foldl_cons]
    apply ih
    unfold ExtractGraphs.eventNodeStep
    cases hn : W.nodeAt n with
    | none => exact hG
    | some nr =>
      obtain ⟨a, N⟩ := nr
      exact ExtractGraphs.addNode_touch W true G a N hG

/-- C4, as stated, fails: with `MaxNodes = 1` the function graph `Fire` keeps
node 0 only, and its connection from node 0 to node 1 stays in the record. -/
theorem extractGraphs_leaves_dangling_connection :
    ¬ ∀ G ∈ ExtractGraphs graphWorld (some 0) "" 0 1, ∀ c ∈ G.Connections,
        (∃ n ∈ G.Nodes, n.NodeId = c.SourceNodeId) ∧
        (∃ n ∈ G.Nodes, n.NodeId = c.TargetNodeId) := by
  decide

/-- C4, amended: for every `MaxNodes > 0`, in every graph returned by
`ExtractGraphs` each connection has its source node id or its target node id
equal to the id of a node of that graph's node list (the node on whose pin it
was found); the other end is the owner of the linked pin, kept or not. -/
theorem extractGraphs_connections_touch_nodes (W : World) (Blueprint : Option Nat)
    (GraphName : String) (MaxGraphs MaxNodes : Int) (hN : 0 < MaxNodes) :
    ∀ G ∈ ExtractGraphs W Blueprint GraphName MaxGraphs MaxNodes, ∀ c ∈ G.Connections,
      ∃ n ∈ G.Nodes, n.NodeId = c.SourceNodeId ∨ n.NodeId = c.TargetNodeId := by
  have _ := hN
  intro G hG
  unfold ExtractGraphs at hG
  cases hB : W.blueprint Blueprint with
  | none => rw [hB] at hG; cases hG
  | some BP =>
    rw [hB] at hG
    simp only [] at hG
    rcases List.mem_append.1 hG with h | h
    · exact ExtractGraphs.functionGraphs_touch W GraphName _ MaxGraphs MaxNodes 0 _ []
        (fun G hG => by cases hG) G h
    · unfold ExtractGraphs.eventGraph at h
      split at h
      · cases h
      · cases h
      · rw [List.mem_singleton] at h
        subst h
        exact ExtractGraphs.eventNodes_touch W _ _ (fun c hc => by cases hc)

/-- C4 amended, on the sample blueprint with `MaxNodes = 1`: the connection kept
in `Fire` starts at the kept node 0 (and ends at the dropped node 1). -/
theorem extractGraphs_connections_touch_nodes_witness :
    (0 : Int) < 1 ∧
    (ExtractGraphs graphWorld (some 0) "" 0 1).map
      (fun G => (G.Nodes.map (fun n => n.NodeId),
        G.Connections.map (fun c => (c.SourceNodeId, c.TargetNodeId)))) =
      [([0], [(0, 1)]), ([2], []),
       ([3, 4, 5, 6], [(3, 4), (3, 4), (4, 5), (6, 4), (4, 5), (6, 4)])] ∧
    ∀ G ∈ ExtractGraphs graphWorld (some 0) "" 0 1, ∀ c ∈ G.Connections,
      ∃ n ∈ G.Nodes, n.NodeId = c.SourceNodeId ∨ n.NodeId = c.TargetNodeId :=
  ⟨by decide, by decide,
    extractGraphs_connections_touch_nodes graphWorld (some 0) "" 0 1 (by decide)⟩

/-- C5: with `MaxGraphs = 1` the sample blueprint still yields three graphs: the
counter `GraphsAdded` that the loop tests is never incremented, and the event
graph is appended without any test. -/
theorem extractGraphs_exceeds_maxGraphs :
    (ExtractGraphs graphWorld (some 0) "" 1 0).map (fun G => G.Name) =
      ["Fire", "Reload", "EventGraph"] ∧
    ¬ ((ExtractGraphs graphWorld (some 0) "" 1 0).length : Int) ≤ 1 := by
  decide

/-- C6: with the name filter `Fire` the function graph `Reload` is skipped, but
the event graph, named `EventGraph`, is returned all the same. -/
theorem extractGraphs_event_graph_ignores_name_filter :
    (ExtractGraphs graphWorld (some 0) "Fire" 0 0).map (fun G => (G.Name, G.GraphType)) =
      [("Fire", "Function"), ("EventGraph", "EventGraph")] ∧
    ¬ ∀ G ∈ ExtractGraphs graphWorld (some 0) "Fire" 0 0,
        FString.EqualsIgnoreCase G.Name "Fire" = true := by
  decide

/-- The traversal loop only appends to the node list, and keeps the count of
added nodes within a positive `MaxNodes`. -/
theorem GetEventGraph.loop_nodes_le (W : World) (MaxNodes : Int) (hN : 0 < MaxNodes)
    (fuel : Nat) (st : GetEventGraph.State) (G : FBlueprintGraphData)
    (hlen : st.GraphData.Nodes.length = st.NodesAdded)
    (hle : (st.NodesAdded : Int) ≤ MaxNodes)
    (h : GetEventGraph.loop W MaxNodes fuel st = some G) :
    (G.Nodes.length : Int) ≤ MaxNodes := by
  induction fuel generalizing st with
  | zero => simp [GetEventGraph.loop] at h
  | succ k ih =>
    rw [GetEventGraph.loop] at h
    cases hq : st.NodesToProcess with
    | nil =>
      simp only [hq, Option.some.injEq] at h
      subst h
      rw [hlen]; exact hle
    | cons e rest =>
      obtain ⟨a, N⟩ := e
      simp only [hq] at h
      split at h
      · simp only [Option.some.injEq] at h
        subst h
        simp only []
        rw [hlen]; exact hle
      · rename_i hcond
        split at h
        · exact ih { st with NodesToProcess := rest } hlen hle h
        · refine ih _ ?_ ?_ h
          · simp only [GetEventGraph.visit, List.length_append, List.length_singleton, hlen]
          · simp only [GetEventGraph.visit]
            have : ¬ ((st.NodesAdded : Int) ≥ MaxNodes) := fun hge => hcond ⟨hN, hge⟩
            push_cast
            omega

/-- C7: for a positive node budget `MaxNodes`, a graph returned by
`GetEventGraph` has at most `MaxNodes` nodes. -/
theorem getEventGraph_nodes_le_maxNodes (W : World) (Blueprint : Option Nat)
    (EventName : String) (MaxNodes : Int) (G : FBlueprintGraphData) (hN : 0 < MaxNodes)
    (h : GetEventGraph W Blueprint EventName MaxNodes = some G) :
    (G.Nodes.length : Int) ≤ MaxNodes := by
  unfold GetEventGraph at h
  cases hB : W.blueprint Blueprint with
  | none => rw [hB] at h; cases h
  | some BP =>
    rw [hB] at h
    simp only [] at h
    split at h
    · cases h
    · generalize BP.UbergraphPages = pages at h
      induction pages with
      | nil => simp [GetEventGraph.pages] at h
      | cons g gs ih =>
        cases g with
        | none => exact ih (by simpa [GetEventGraph.pages] using h)
        | some EventGraph =>
          rw [GetEventGraph.pages] at h
          cases hf : GetEventGraph.findEvent W EventName EventGraph.Nodes with
          | none => rw [hf] at h; exact ih h
          | some T =>
            rw [hf] at h
            exact GetEventGraph.loop_nodes_le W MaxNodes hN _ _ G rfl (by simpa using hN.le) h

/-- C7, on the sample blueprint: the walk from `ReceiveBeginPlay` reaches three
nodes; with a budget of two it returns exactly nodes 3 and 4. -/
theorem getEventGraph_nodes_le_maxNodes_witness :
    ∃ G, GetEventGraph graphWorld (some 0) "ReceiveBeginPlay" 2 = some G ∧
      G.Nodes.map (fun n => n.NodeId) = [3, 4] ∧ (G.Nodes.length : Int) ≤ 2 := by
  have h : (GetEventGraph graphWorld (some 0) "ReceiveBeginPlay" 2).isSome = true := by decide
  obtain ⟨G, hG⟩ := Option.isSome_iff_exists.1 h
  refine ⟨G, hG, ?_, getEventGraph_nodes_le_maxNodes graphWorld (some 0) "ReceiveBeginPlay" 2 G
    (by decide) hG⟩
  have h2 : (GetEventGraph graphWorld (some 0) "ReceiveBeginPlay" 2).map
      (fun G => G.Nodes.map (fun n => n.NodeId)) = some [3, 4] := by decide
  rw [hG] at h2
  simpa using h2

/-- A pin found with its address is the pin the pointer denotes. -/
theorem World.pin_of_pinAt (W : World) (p : Option Nat) (a : Nat) (P : UEdGraphPin)
    (h : W.pinAt p = some (a, P)) : W.pin p = some P := by
  cases p with
  | none => simp [World.pinAt] at h
  | some b =>
    simp only [World.pinAt, Option.map_eq_some', Prod.mk.injEq] at h
    obtain ⟨Q, hQ, _, rfl⟩ := h
    simpa [World.pin] using hQ

/-- A node found with its address: the pointer is that address, and the node
table holds the node there. -/
theorem World.nodeAt_eq (W : World) (o : Option Nat) (b : Nat) (N : UEdGraphNode)
    (h : W.nodeAt o = some (b, N)) : o = some b ∧ W.Nodes[b]? = some N := by
  cases o with
  | none => simp [World.nodeAt] at h
  | some c =>
    simp only [World.nodeAt, Option.map_eq_some', Prod.mk.injEq] at h
    obtain ⟨M, hM, rfl, rfl⟩ := h
    exact ⟨rfl, hM⟩

/-- Reachability is monotone in the set of result nodes and in the links. -/
theorem ExecReach.mono {L L' : Nat → Nat → Prop} {P Q : Nat → Prop} {root v : Nat}
    (hL : ∀ a b, L a b → L' a b) (hPQ : ∀ a, P a → Q a) (h : ExecReach L P root v) :
    ExecReach L' Q root v := by
  induction h with
  | root => exact ExecReach.root
  | step _ hin hl ih => exact ExecReach.step ih (hPQ _ hin) (hL _ _ hl)

/-- The link loop of the traversal keeps the node record and queues only
owners of pins linked from the current pin. -/
theorem GetEventGraph.linkStep_foldl_queue (W : World) (PinAddr : Nat) (links : List (Option Nat))
    (v : GetEventGraph.Visit) :
    (links.foldl (GetEventGraph.linkStep W PinAddr) v).NodeData = v.NodeData ∧
    ∀ e ∈ (links.foldl (GetEventGraph.linkStep W PinAddr) v).NodesToProcess,
      e ∈ v.NodesToProcess ∨ (W.Nodes[e.1]? = some e.2 ∧
        ∃ l ∈ links, ∃ LP, W.pin l = some LP ∧ LP.OwningNode = some e.1) := by
  induction links generalizing v with
  | nil => exact ⟨rfl, fun e he => Or.inl he⟩
  | cons l ls ih =>
    rw [List.foldl_cons]
    obtain ⟨h1, h2⟩ := ih (GetEventGraph.linkStep W PinAddr v l)
    have hstep : (GetEventGraph.linkStep W PinAddr v l).NodeData = v.NodeData ∧
        ∀ e ∈ (GetEventGraph.linkStep W PinAddr v l).NodesToProcess,
          e ∈ v.NodesToProcess ∨ (W.Nodes[e.1]? = some e.2 ∧
            ∃ LP, W.pin l = some LP ∧ LP.OwningNode = some e.1) := by
      unfold GetEventGraph.linkStep
      split
      · exact ⟨rfl, fun e he => Or.inl he⟩
      · rename_i la LP hp
        split
        · exact ⟨rfl, fun e he => Or.inl he⟩
        · rename_i oa ON hn
          refine ⟨rfl, ?_⟩
          intro e he
          simp only [] at he
          rcases List.mem_append.1 he with he | he
          · exact Or.inl he
          · rw [List.mem_singleton] at he
            subst he
            obtain ⟨hO, hN⟩ := W.nodeAt_eq _ _ _ hn
            exact Or.inr ⟨hN, LP, W.pin_of_pinAt _ _ _ hp, hO⟩
    refine ⟨h1.trans hstep.1, ?_⟩
    intro e he
    rcases h2 e he with h | ⟨hN, l', hl', LP, hLP, hO⟩
    · rcases hstep.2 e h with h | ⟨hN, LP, hLP, hO⟩
      · exact Or.inl h
      · exact Or.inr ⟨hN, l, List.mem_cons_self _ _, LP, hLP, hO⟩
    · exact Or.inr ⟨hN, l', List.mem_cons_of_mem _ hl', LP, hLP, hO⟩

/-- The pin loop of the traversal keeps the node id and queues only owners of
pins linked from an execution-type pin of the pins it walks. -/
theorem GetEventGraph.pinStep_foldl_queue (W : World) (pins : List (Option Nat))
    (v : GetEventGraph.Visit) :
    (pins.foldl (GetEventGraph.pinStep W) v).NodeData.NodeId = v.NodeData.NodeId ∧
    ∀ e ∈ (pins.foldl (GetEventGraph.pinStep W) v).NodesToProcess,
      e ∈ v.NodesToProcess ∨ (W.Nodes[e.1]? = some e.2 ∧
        ∃ p ∈ pins, ∃ P, W.pin p = some P ∧ FName.Equals P.PinCategory PC_Exec = true ∧
          ∃ l ∈ P.LinkedTo, ∃ LP, W.pin l = some LP ∧ LP.OwningNode = some e.1) := by
  induction pins generalizing v with
  | nil => exact ⟨rfl, fun e he => Or.inl he⟩
  | cons p ps ih =>
    rw [List.foldl_cons]
    obtain ⟨h1, h2⟩ := ih (GetEventGraph.pinStep W v p)
    have hstep : (GetEventGraph.pinStep W v p).NodeData.NodeId = v.NodeData.NodeId ∧
        ∀ e ∈ (GetEventGraph.pinStep W v p).NodesToProcess,
          e ∈ v.NodesToProcess ∨ (W.Nodes[e.1]? = some e.2 ∧
            ∃ P, W.pin p = some P ∧ FName.Equals P.PinCategory PC_Exec = true ∧
              ∃ l ∈ P.LinkedTo, ∃ LP, W.pin l = some LP ∧ LP.OwningNode = some e.1) := by
      unfold GetEventGraph.pinStep
      split
      · exact ⟨rfl, fun e he => Or.inl he⟩
      · rename_i pa P hp
        simp only []
        by_cases hx : FName.Equals P.PinCategory PC_Exec = true
        · rw [if_pos hx]
          refine ⟨?_, ?_⟩
          · rw [(GetEventGraph.linkStep_foldl_queue W pa P.LinkedTo _).1]; split <;> rfl
          · intro e he
            rcases (GetEventGraph.linkStep_foldl_queue W pa P.LinkedTo _).2 e he with
              h | ⟨hN, l, hl, LP, hLP, hO⟩
            · left
              revert h
              split <;> exact fun h => h
            · exact Or.inr ⟨hN, P, W.pin_of_pinAt _ _ _ hp, hx, l, hl, LP, hLP, hO⟩
        · rw [if_neg hx]
          refine ⟨by split <;> rfl, ?_⟩
          intro e he
          left
          revert he
          split <;> exact fun h => h
    refine ⟨h1.trans hstep.1, ?_⟩
    intro e he
    rcases h2 e he with h | ⟨hN, p', hp', P, hP, hx, hl⟩
    · rcases hstep.2 e h with h | ⟨hN, P, hP, hx, hl⟩
      · exact Or.inl h
      · exact Or.inr ⟨hN, p, List.mem_cons_self _ _, P, hP, hx, hl⟩
    · exact Or.inr ⟨hN, p', List.mem_cons_of_mem _ hp', P, hP, hx, hl⟩

/-- One visit appends one node record, carrying the visited address, and
queues only nodes that the visited node links to from an execution pin. -/
theorem GetEventGraph.visit_spec (W : World) (st : GetEventGraph.State) (c : Nat)
    (C : UEdGraphNode) (hC : W.Nodes[c]? = some C) :
    (∃ nd, (GetEventGraph.visit W st c C).GraphData.Nodes = st.GraphData.Nodes ++ [nd] ∧
      nd.NodeId = c) ∧
    ∀ e ∈ (GetEventGraph.visit W st c C).NodesToProcess,
      e ∈ st.NodesToProcess ∨ (W.Nodes[e.1]? = some e.2 ∧ ExecLink W c e.1) := by
  unfold GetEventGraph.visit
  simp only []
  refine ⟨⟨_, rfl, (GetEventGraph.pinStep_foldl_queue W C.Pins _).1⟩, ?_⟩
  intro e he
  rcases (GetEventGraph.pinStep_foldl_queue W C.Pins _).2 e he with h | ⟨hN, hl⟩
  · exact Or.inl h
  · exact Or.inr ⟨hN, C, hC, hl⟩

/-- The traversal loop keeps the reachability invariant, and only appends to
the node list. -/
theorem GetEventGraph.loop_reach (W : World) (MaxNodes : Int) (root : Nat) (fuel : Nat)
    (st : GetEventGraph.State) (G : FBlueprintGraphData) (hInv : WalkInv W root st)
    (h : GetEventGraph.loop W MaxNodes fuel st = some G) :
    (∀ n ∈ G.Nodes, ExecReach (ExecLink W) (InGraph G) root n.NodeId) ∧
    ∃ extra, G.Nodes = st.GraphData.Nodes ++ extra := by
  induction fuel generalizing st with
  | zero => simp [GetEventGraph.loop] at h
  | succ k ih =>
    rw [GetEventGraph.loop] at h
    cases hq : st.NodesToProcess with
    | nil =>
      simp only [hq, Option.some.injEq] at h
      subst h
      exact ⟨hInv.1, [], (List.append_nil _).symm⟩
    | cons e rest =>
      obtain ⟨a, N⟩ := e
      simp only [hq] at h
      split at h
      · simp only [Option.some.injEq] at h
        subst h
        exact ⟨fun n hn => (hInv.1 n hn).mono (fun _ _ hl => hl) (fun _ hx => hx),
          [], (List.append_nil _).symm⟩
      · split at h
        · refine ih { st with NodesToProcess := rest } ⟨hInv.1, ?_⟩ h
          intro e he
          exact hInv.2 e (by rw [hq]; exact List.mem_cons_of_mem _ he)
        · obtain ⟨hNa, hRa⟩ := hInv.2 (a, N) (by rw [hq]; exact List.mem_cons_self _ _)
          obtain ⟨⟨nd, hnodes, hid⟩, hqueue⟩ :=
            GetEventGraph.visit_spec W { st with NodesToProcess := rest } a N hNa
          have hmono : ∀ x, InGraph st.GraphData x →
              InGraph (GetEventGraph.visit W { st with NodesToProcess := rest } a N).GraphData
                x := by
            intro x hx
            obtain ⟨m, hm, hmx⟩ := hx
            exact ⟨m, by rw [hnodes]; exact List.mem_append_left _ hm, hmx⟩
          have hin : InGraph
              (GetEventGraph.visit W { st with NodesToProcess := rest } a N).GraphData a :=
            ⟨nd, by rw [hnodes]; exact List.mem_append_right _ (List.mem_singleton.2 rfl), hid⟩
          have hRa' := hRa.mono (fun _ _ hl => hl) hmono
          have hInv' : WalkInv W root
              (GetEventGraph.visit W { st with NodesToProcess := rest } a N) := by
            constructor
            · intro n hn
              rw [hnodes] at hn
              rcases List.mem_append.1 hn with hn | hn
              · exact (hInv.1 n hn).mono (fun _ _ hl => hl) hmono
              · rw [List.mem_singleton] at hn
                subst hn
                rw [hid]; exact hRa'
            · intro e he
              rcases hqueue e he with he | ⟨hNe, hl⟩
              · obtain ⟨h1, h2⟩ := hInv.2 e (by rw [hq]; exact List.mem_cons_of_mem _ he)
                exact ⟨h1, h2.mono (fun _ _ hl => hl) hmono⟩
              · exact ⟨hNe, ExecReach.step hRa' hin hl⟩
          obtain ⟨r1, extra, r2⟩ := ih _ hInv' h
          exact ⟨r1, [nd] ++ extra, by rw [r2, hnodes, List.append_assoc]⟩

/-- What the search for the event node returns: a node of the node table that
is an event node whose name equals the requested one ignoring case. -/
theorem GetEventGraph.findEvent_spec (W : World) (EventName : String)
    (nodes : List (Option Nat)) (a : Nat) (N : UEdGraphNode)
    (h : GetEventGraph.findEvent W EventName nodes = some (a, N)) :
    W.Nodes[a]? = some N ∧ ∃ name scope, N.Kind = .Event name scope ∧
      FString.EqualsIgnoreCase name EventName = true := by
  induction nodes with
  | nil => simp [GetEventGraph.findEvent] at h
  | cons n ns ih =>
    rw [GetEventGraph.findEvent] at h
    split at h
    · rename_i b M hb
      split at h
      · rename_i name scope hk
        split at h
        · rename_i heq
          simp only [Option.some.injEq, Prod.mk.injEq] at h
          obtain ⟨rfl, rfl⟩ := h
          exact ⟨(W.nodeAt_eq _ _ _ hb).2, name, scope, hk, heq⟩
        · exact ih h
      · exact ih h
    · exact ih h

/-- The first iteration of the traversal visits the event node: the returned
node list starts with it. -/
theorem GetEventGraph.loop_head (W : World) (MaxNodes : Int) (fuel : Nat)
    (GraphData : FBlueprintGraphData) (a : Nat) (N : UEdGraphNode) (G : FBlueprintGraphData)
    (hEmpty : GraphData.Nodes = []) (hN : W.Nodes[a]? = some N)
    (h : GetEventGraph.loop W MaxNodes fuel
      { GraphData := GraphData, ProcessedNodes := [], NodesToProcess := [(a, N)]
        NodesAdded := 0 } = some G) :
    (G.Nodes.head?).map (fun n => n.NodeId) = some a := by
  cases fuel with
  | zero => simp [GetEventGraph.loop] at h
  | succ k =>
    rw [GetEventGraph.loop] at h
    simp only [] at h
    have hc : ¬ (MaxNodes > 0 ∧ ((0 : Nat) : Int) ≥ MaxNodes) := by
      rintro ⟨h1, h2⟩
      simp only [Nat.cast_zero] at h2
      omega
    rw [if_neg hc, if_neg (List.not_mem_nil a)] at h
    obtain ⟨⟨nd, hnodes, hid⟩, _⟩ := GetEventGraph.visit_spec W
      { GraphData := GraphData, ProcessedNodes := [], NodesToProcess := []
        NodesAdded := 0 } a N hN
    have hInv : WalkInv W a (GetEventGraph.visit W
        { GraphData := GraphData, ProcessedNodes := [], NodesToProcess := []
          NodesAdded := 0 } a N) := by
      -- any invariant will do here: only the append part of the loop lemma is used
      constructor
      · intro n hn
        rw [hnodes, hEmpty] at hn
        simp only [List.nil_append, List.mem_singleton] at hn
        subst hn
        rw [hid]; exact ExecReach.root
      · intro e he
        rcases (GetEventGraph.visit_spec W
          { GraphData := GraphData, ProcessedNodes := [], NodesToProcess := []
            NodesAdded := 0 } a N hN).2 e he with he | ⟨hNe, hl⟩
        · cases he
        · refine ⟨hNe, ExecReach.step ExecReach.root ⟨nd, ?_, hid⟩ hl⟩
          rw [hnodes]; exact List.mem_append_right _ (List.mem_singleton.2 rfl)
    obtain ⟨_, extra, r2⟩ := GetEventGraph.loop_reach W MaxNodes a k _ G hInv h
    rw [r2, hnodes, hEmpty]
    simp [hid]

/-- When the world obeys the rule that a pin linked from an execution-type pin
is itself of execution type, a chain of links that leave execution-type pins is
a chain of links between execution-type pins. -/
theorem ExecReach.typed_of_linksTyped (W : World) (InResult : Nat → Prop) (root b : Nat)
    (hT : LinksTyped W) (h : ExecReach (ExecLink W) InResult root b) :
    ExecReach (ExecLinkTyped W) InResult root b := by
  refine h.mono ?_ (fun _ hx => hx)
  rintro x y ⟨M, hM, p, hp, P, hP, hx, l, hl, LP, hLP, hO⟩
  exact ⟨M, hM, p, hp, P, hP, hx, l, hl, LP, hLP, hT p P hP hx l hl LP hLP, hO⟩

/-- C8, counterexample: in `mixWorld` the execution output pin of the event
node 0 lists the `int` input pin of node 1.  The walk from `Tick` returns node
1 after node 0, with the connection along that link, although no link between
two execution-type pins ends at node 1 (its only pin is a data pin), so node 1
is not reachable from the event node by a chain of such links. -/
theorem getEventGraph_returns_node_behind_data_pin :
    (GetEventGraph mixWorld (some 0) "Tick" 0).map (fun G =>
      (G.Nodes.map (fun n => n.NodeId),
       G.Connections.map (fun c =>
        (c.SourceNodeId, c.SourcePinId, c.TargetNodeId, c.TargetPinId)))) =
      some ([0, 1], [(0, 0, 1, 1)]) ∧
    (∀ P ∈ mixWorld.Pins, P.OwningNode = some 1 →
      FName.Equals P.PinCategory PC_Exec = false) ∧
    (∀ a, ¬ ExecLinkTyped mixWorld a 1) ∧
    ∀ G, GetEventGraph mixWorld (some 0) "Tick" 0 = some G →
      (∃ n ∈ G.Nodes, n.NodeId = 1 ∧
        ¬ ExecReach (ExecLinkTyped mixWorld) (InGraph G) 0 n.NodeId) ∧
      ¬ (∀ n ∈ G.Nodes, ExecReach (ExecLinkTyped mixWorld) (InGraph G) 0 n.NodeId) := by
  have hpins : ∀ P ∈ mixWorld.Pins, P.OwningNode = some 1 →
      FName.Equals P.PinCategory PC_Exec = false := by decide
  have hno : ∀ a, ¬ ExecLinkTyped mixWorld a 1 := by
    rintro a ⟨N, _, p, _, P, _, _, l, _, LP, hLP, hT, hO⟩
    cases l with
    | none => simp [World.pin] at hLP
    | some b =>
      have hmem : LP ∈ mixWorld.Pins := List.getElem?_mem hLP
      rw [hpins LP hmem hO] at hT
      cases hT
  have hreach : ∀ (I : Nat → Prop) (b : Nat), b = 1 →
      ¬ ExecReach (ExecLinkTyped mixWorld) I 0 b := by
    intro I b hb h
    cases h with
    | root => cases hb
    | step _ _ hl => subst hb; exact hno _ hl
  have hids : (GetEventGraph mixWorld (some 0) "Tick" 0).map (fun G =>
      G.Nodes.map (fun n => n.NodeId)) = some [0, 1] := by decide
  refine ⟨by decide, hpins, hno, ?_⟩
  intro G hG
  rw [hG] at hids
  simp only [Option.map_some', Option.some.injEq] at hids
  have hm : (1 : Nat) ∈ G.Nodes.map (fun n => n.NodeId) := by rw [hids]; simp
  rw [List.mem_map] at hm
  obtain ⟨n, hn, hid⟩ := hm
  exact ⟨⟨n, hn, hid, hreach _ _ hid⟩, fun hall => hreach _ _ hid (hall n hn)⟩

/-- C8, amended: a graph returned by `GetEventGraph` starts with the event node
whose name equals the requested one (ignoring case); every returned node is
reachable from it by a chain of links that each leave an execution-type pin of
a returned node and end on a pin, of any type, of the next node; so every
other returned node is linked from an execution-type pin of a returned node,
and a node that only data pins of the returned nodes link to is not
returned. -/
theorem getEventGraph_exec_reachable (W : World) (Blueprint : Option Nat)
    (EventName : String) (MaxNodes : Int) (G : FBlueprintGraphData)
    (h : GetEventGraph W Blueprint EventName MaxNodes = some G) :
    ∃ root N name scope,
      W.Nodes[root]? = some N ∧ N.Kind = .Event name scope ∧
      FString.EqualsIgnoreCase name EventName = true ∧
      (G.Nodes.head?).map (fun n => n.NodeId) = some root ∧
      (∀ n ∈ G.Nodes, ExecReach (ExecLink W) (InGraph G) root n.NodeId) ∧
      (∀ n ∈ G.Nodes, n.NodeId ≠ root → ∃ m ∈ G.Nodes, ExecLink W m.NodeId n.NodeId) := by
  unfold GetEventGraph at h
  cases hB : W.blueprint Blueprint with
  | none => rw [hB] at h; cases h
  | some BP =>
    rw [hB] at h
    simp only [] at h
    split at h
    · cases h
    · generalize BP.UbergraphPages = pages at h
      induction pages with
      | nil => simp [GetEventGraph.pages] at h
      | cons g gs ih =>
        cases g with
        | none => exact ih (by simpa [GetEventGraph.pages] using h)
        | some EventGraph =>
          rw [GetEventGraph.pages] at h
          cases hf : GetEventGraph.findEvent W EventName EventGraph.Nodes with
          | none => rw [hf] at h; exact ih h
          | some T =>
            obtain ⟨a, N⟩ := T
            rw [hf] at h
            simp only [] at h
            obtain ⟨hN, name, scope, hk, hname⟩ :=
              GetEventGraph.findEvent_spec W EventName _ a N hf
            have hInv : WalkInv W a
                { GraphData :=
                    { Name := EventName, GraphType := "Event"
                      Metadata := TMap.Add [] "GraphName" EventGraph.Name }
                  ProcessedNodes := []
                  NodesToProcess := [(a, N)]
                  NodesAdded := 0 } := by
              constructor
              · intro n hn; cases hn
              · intro e he
                rw [List.mem_singleton] at he
                subst he
                exact ⟨hN, ExecReach.root⟩
            obtain ⟨hreach, _⟩ := GetEventGraph.loop_reach W MaxNodes a _ _ G hInv h
            have hhead := GetEventGraph.loop_head W MaxNodes _ _ a N G rfl hN h
            refine ⟨a, N, name, scope, hN, hk, hname, hhead, hreach, ?_⟩
            intro n hn hne
            cases hreach n hn with
            | root => exact absurd rfl hne
            | step _ hin hl =>
              obtain ⟨m, hm, hma⟩ := hin
              exact ⟨m, hm, by rw [hma]; exact hl⟩

/-- C8 amended, on the sample blueprint: the walk from `ReceiveBeginPlay`
returns the event node 3 first, then nodes 4 and 5 along execution pins; node
6, which only a data pin of node 4 links to, is not returned. -/
theorem getEventGraph_exec_reachable_witness :
    ∃ G, GetEventGraph graphWorld (some 0) "ReceiveBeginPlay" 0 = some G ∧
      G.Nodes.map (fun n => n.NodeId) = [3, 4, 5] ∧
      ∃ root N name scope,
        graphWorld.Nodes[root]? = some N ∧ N.Kind = .Event name scope ∧
        FString.EqualsIgnoreCase name "ReceiveBeginPlay" = true ∧
        (G.Nodes.head?).map (fun n => n.NodeId) = some root ∧
        (∀ n ∈ G.Nodes, ExecReach (ExecLink graphWorld) (InGraph G) root n.NodeId) ∧
        (∀ n ∈ G.Nodes, n.NodeId ≠ root →
          ∃ m ∈ G.Nodes, ExecLink graphWorld m.NodeId n.NodeId) := by
  have h : (GetEventGraph graphWorld (some 0) "ReceiveBeginPlay" 0).isSome = true := by decide
  obtain ⟨G, hG⟩ := Option.isSome_iff_exists.1 h
  refine ⟨G, hG, ?_, getEventGraph_exec_reachable graphWorld (some 0) "ReceiveBeginPlay" 0 G hG⟩
  have h2 : (GetEventGraph graphWorld (some 0) "ReceiveBeginPlay" 0).map
      (fun G => G.Nodes.map (fun n => n.NodeId)) = some [3, 4, 5] := by decide
  rw [hG] at h2
  simpa using h2

/-- The parent reference is a direct entry. -/
theorem ExtractInheritanceReferences.parent_direct (W : World) (BP : UBlueprint) :
    ∀ r ∈ ExtractInheritanceReferences.parent W BP, IsDirectEntry r := by
  intro r hr
  unfold ExtractInheritanceReferences.parent at hr
  repeat' split at hr
  all_goals first
    | (rw [List.mem_singleton] at hr; subst hr; exact ⟨rfl, rfl⟩)
    | cases hr

/-- The child references are direct entries. -/
theorem ExtractInheritanceReferences.children_direct (W : World) (BP : UBlueprint)
    (assets : List FAssetData) (refs : List FBlueprintReferenceData)
    (h : ExtractInheritanceReferences.children W BP assets = some refs) :
    ∀ r ∈ refs, IsDirectEntry r := by
  induction assets generalizing refs with
  | nil =>
    simp only [ExtractInheritanceReferences.children, Option.some.injEq] at h
    subst h
    intro r hr; cases hr
  | cons A rest ih =>
    rw [ExtractInheritanceReferences.children] at h
    split at h
    · exact ih refs h
    · split at h
      · cases h
      · split at h
        · cases h
        · rename_i more hmore
          split at h
          · split at h
            · simp only [Option.some.injEq] at h
              subst h
              intro r hr
              rcases List.mem_cons.1 hr with hr | hr
              · subst hr; exact ⟨rfl, rfl⟩
              · exact ih more hmore r hr
            · simp only [Option.some.injEq] at h
              subst h
              exact ih more hmore
          · simp only [Option.some.injEq] at h
            subst h
            exact ih more hmore

/-- The inheritance references are direct entries. -/
theorem ExtractInheritanceReferences_direct (W : World) (Blueprint : Option Nat)
    (refs : List FBlueprintReferenceData)
    (h : ExtractInheritanceReferences W Blueprint = some refs) :
    ∀ r ∈ refs, IsDirectEntry r := by
  unfold ExtractInheritanceReferences at h
  split at h
  · simp only [Option.some.injEq] at h
    subst h
    intro r hr; cases hr
  · rename_i BP _
    split at h
    · cases h
    · rename_i Children hC
      simp only [Option.some.injEq] at h
      subst h
      intro r hr
      rcases List.mem_append.1 hr with hr | hr
      · exact ExtractInheritanceReferences.parent_direct W BP r hr
      · exact ExtractInheritanceReferences.children_direct W BP _ _ hC r hr

/-- The function-call references are direct entries. -/
theorem ExtractFunctionCallReferences_direct (W : World) (Blueprint : Option Nat) :
    ∀ r ∈ ExtractFunctionCallReferences W Blueprint, IsDirectEntry r := by
  intro r hr
  unfold ExtractFunctionCallReferences at hr
  split at hr
  · cases hr
  · simp only [List.mem_flatMap] at hr
    obtain ⟨Graph, _, Node, _, hr⟩ := hr
    unfold ExtractFunctionCallReferences.nodeRefs at hr
    repeat' split at hr
    all_goals first
      | (rw [List.mem_singleton] at hr; subst hr; exact ⟨rfl, rfl⟩)
      | cases hr

/-- The variable-type references are direct entries. -/
theorem ExtractVariableTypeReferences_direct (W : World) (Blueprint : Option Nat) :
    ∀ r ∈ ExtractVariableTypeReferences W Blueprint, IsDirectEntry r := by
  intro r hr
  unfold ExtractVariableTypeReferences at hr
  split at hr
  · cases hr
  · simp only [List.mem_flatMap] at hr
    obtain ⟨VarDesc, _, hr⟩ := hr
    unfold ExtractVariableTypeReferences.varRefs at hr
    simp only [] at hr
    repeat' split at hr
    all_goals first
      | (rw [List.mem_singleton] at hr; subst hr; exact ⟨rfl, rfl⟩)
      | cases hr

/-- The spawn and cast references are direct entries. -/
theorem ExtractDirectReferences_direct (W : World) (Blueprint : Option Nat) :
    ∀ r ∈ ExtractDirectReferences W Blueprint, IsDirectEntry r := by
  intro r hr
  unfold ExtractDirectReferences at hr
  split at hr
  · cases hr
  · simp only [List.mem_flatMap] at hr
    obtain ⟨Graph, _, Node, _, hr⟩ := hr
    unfold ExtractDirectReferences.nodeRefs at hr
    repeat' split at hr
    all_goals first
      | (rw [List.mem_singleton] at hr; subst hr; exact ⟨rfl, rfl⟩)
      | cases hr

/-- Everything `ExtractReferences(Blueprint, false)` returns is a direct entry. -/
theorem ExtractReferences.direct_direct (W : World) (Blueprint : Option Nat)
    (refs : List FBlueprintReferenceData) (h : ExtractReferences.direct W Blueprint = some refs) :
    ∀ r ∈ refs, IsDirectEntry r := by
  unfold ExtractReferences.direct at h
  split at h
  · simp only [Option.some.injEq] at h
    subst h
    intro r hr; cases hr
  · split at h
    · cases h
    · rename_i Inh hI
      simp only [Option.some.injEq] at h
      subst h
      intro r hr
      simp only [List.mem_append] at hr
      rcases hr with ((hr | hr) | hr) | hr
      · exact ExtractInheritanceReferences_direct W Blueprint _ hI r hr
      · exact ExtractFunctionCallReferences_direct W Blueprint r hr
      · exact ExtractVariableTypeReferences_direct W Blueprint r hr
      · exact ExtractDirectReferences_direct W Blueprint r hr

/-- Re-emitted second-level entries are indirect with a chain of one path. -/
theorem ExtractReferences.reemit_chain (Ref : FBlueprintReferenceData)
    (SecondLevelRefs : List FBlueprintReferenceData)
    (hS : ∀ r ∈ SecondLevelRefs, IsDirectEntry r) :
    ∀ r ∈ ExtractReferences.reemit Ref SecondLevelRefs,
      r.bIsIndirect = true ∧ r.ReferenceChain = [Ref.BlueprintPath] := by
  intro r hr
  simp only [ExtractReferences.reemit, List.mem_map, List.mem_filter] at hr
  obtain ⟨q, ⟨hq, _⟩, rfl⟩ := hr
  exact ⟨rfl, by simp [(hS q hq).2]⟩

/-- Everything the indirect pass returns is indirect with a chain of one path. -/
theorem ExtractReferences.indirect_chain (W : World) (refs out : List FBlueprintReferenceData)
    (h : ExtractReferences.indirect W refs = some out) :
    ∀ r ∈ out, r.bIsIndirect = true ∧ r.ReferenceChain.length = 1 := by
  induction refs generalizing out with
  | nil =>
    simp only [ExtractReferences.indirect, Option.some.injEq] at h
    subst h
    intro r hr; cases hr
  | cons Ref rest ih =>
    rw [ExtractReferences.indirect] at h
    split at h
    · split at h
      · exact ih out h
      · split at h
        · cases h
        · rename_i Second hS
          split at h
          · cases h
          · rename_i more hmore
            simp only [Option.some.injEq] at h
            subst h
            intro r hr
            rcases List.mem_append.1 hr with hr | hr
            · obtain ⟨h1, h2⟩ := ExtractReferences.reemit_chain Ref Second
                (ExtractReferences.direct_direct W _ _ hS) r hr
              exact ⟨h1, by rw [h2]; rfl⟩
            · exact ih more hmore r hr
    · exact ih out h

/-- Everything `ExtractReferences` returns satisfies the chain bound. -/
theorem ExtractReferences_chainBounded (W : World) (Blueprint : Option Nat)
    (bIncludeIndirect : Bool) (refs : List FBlueprintReferenceData)
    (h : ExtractReferences W Blueprint bIncludeIndirect = some refs) :
    ∀ r ∈ refs, ChainBounded r := by
  unfold ExtractReferences at h
  split at h
  · cases h
  · rename_i Direct hD
    have hdir : ∀ r ∈ Direct, ChainBounded r := by
      intro r hr
      obtain ⟨_, h2⟩ := ExtractReferences.direct_direct W Blueprint _ hD r hr
      exact ⟨by rw [h2]; exact Nat.zero_le _, fun _ => h2⟩
    split at h
    · split at h
      · cases h
      · rename_i Ind hI
        simp only [Option.some.injEq] at h
        subst h
        intro r hr
        rcases List.mem_append.1 hr with hr | hr
        · exact hdir r hr
        · obtain ⟨h1, h2⟩ := ExtractReferences.indirect_chain W _ _ hI r hr
          exact ⟨h2.le, fun hf => by rw [h1] at hf; cases hf⟩
    · simp only [Option.some.injEq] at h
      subst h
      exact hdir

/-- Replacing or adding a bounded list keeps the cache bounded. -/
theorem ReferenceCache.Add_bounded (Cache : ReferenceCache) (Path : String)
    (refs : List FBlueprintReferenceData) (hC : CacheBounded Cache)
    (hR : ∀ r ∈ refs, ChainBounded r) : CacheBounded (Cache.Add Path refs) := by
  intro e he
  unfold ReferenceCache.Add at he
  split at he
  · simp only [List.mem_map] at he
    obtain ⟨e0, he0, rfl⟩ := he
    split
    · exact hR
    · exact hC e0 he0
  · rcases List.mem_append.1 he with he | he
    · exact hC e he
    · rw [List.mem_singleton] at he
      subst he
      exact hR

/-- A list found in a bounded cache is bounded. -/
theorem ReferenceCache.Find_bounded (Cache : ReferenceCache) (Path : String)
    (hC : CacheBounded Cache) : ∀ r ∈ (Cache.Find Path).getD [], ChainBounded r := by
  intro r hr
  unfold ReferenceCache.Find at hr
  cases hf : Cache.find? (fun e => FString.EqualsIgnoreCase e.1 Path) with
  | none => rw [hf] at hr; cases hr
  | some e =>
    rw [hf] at hr
    exact hC e (List.mem_of_find?_eq_some hf) r hr

/-- C9: every entry returned by `ExtractReferences(A, true)` has a reference
chain of length at most one, and an empty chain when it is not indirect; and
`GetBlueprintReferences(path, true)`, run on a cache whose lists have this
property (the empty cache, or any cache these functions have filled), returns
only such entries and leaves such a cache. -/
theorem references_chain_at_most_one (W : World) (Blueprint : Option Nat) :
    (∀ refs, ExtractReferences W Blueprint true = some refs →
      ∀ r ∈ refs, r.ReferenceChain.length ≤ 1 ∧
        (r.bIsIndirect = false → r.ReferenceChain = [])) ∧
    ∀ (Cache Cache' : ReferenceCache) (Path : String) (out : List FBlueprintReferenceData),
      CacheBounded Cache → GetBlueprintReferences W Cache Path true = some (out, Cache') →
      (∀ r ∈ out, r.ReferenceChain.length ≤ 1 ∧
        (r.bIsIndirect = false → r.ReferenceChain = [])) ∧ CacheBounded Cache' := by
  refine ⟨fun refs h => ExtractReferences_chainBounded W Blueprint true refs h, ?_⟩
  intro Cache Cache' Path out hC hG
  unfold GetBlueprintReferences at hG
  simp only [] at hG
  split at hG
  · simp only [Bool.true_eq_false, if_false, Option.some.injEq, Prod.mk.injEq] at hG
    obtain ⟨rfl, rfl⟩ := hG
    exact ⟨ReferenceCache.Find_bounded Cache Path hC, hC⟩
  · split at hG
    · split at hG
      · cases hG
      · rename_i Extracted hE
        simp only [Option.some.injEq, Prod.mk.injEq] at hG
        obtain ⟨rfl, rfl⟩ := hG
        have hb := ExtractReferences_chainBounded W _ true _ hE
        exact ⟨hb, ReferenceCache.Add_bounded Cache Path _ hC hb⟩
    · simp only [Option.some.injEq, Prod.mk.injEq] at hG
      obtain ⟨rfl, rfl⟩ := hG
      exact ⟨ReferenceCache.Find_bounded Cache Path hC, hC⟩

/-- C9, on three blueprints `A → B → C`: the references of `A` are the direct
one to `B`, with no chain, and the indirect one to `C`, with chain `[/Game/B]`. -/
theorem references_chain_at_most_one_witness :
    ∃ refs, ExtractReferences refWorld (some 0) true = some refs ∧
      refs.map (fun r => (r.BlueprintPath, r.bIsIndirect, r.ReferenceChain)) =
        [("/Game/B", false, []), ("/Game/C", true, ["/Game/B"])] ∧
      ∀ r ∈ refs, r.ReferenceChain.length ≤ 1 ∧
        (r.bIsIndirect = false → r.ReferenceChain = []) := by
  have h : (ExtractReferences refWorld (some 0) true).isSome = true := by decide
  obtain ⟨refs, hr⟩ := Option.isSome_iff_exists.1 h
  refine ⟨refs, hr, ?_, (references_chain_at_most_one refWorld (some 0)).1 refs hr⟩
  have h2 : (ExtractReferences refWorld (some 0) true).map
      (fun l => l.map (fun r => (r.BlueprintPath, r.bIsIndirect, r.ReferenceChain))) =
      some [("/Game/B", false, []), ("/Game/C", true, ["/Game/B"])] := by decide
  rw [hr] at h2
  simpa using h2

/-- Two keys that equal different constants: a key equal to one constant
(ignoring case) is not equal to a constant that differs from it after folding. -/
theorem FString.equals_exclusive (k a b : String) (hab : FString.lower a ≠ FString.lower b)
    (h : FString.EqualsIgnoreCase k a = true) : FString.EqualsIgnoreCase k b = false := by
  unfold FString.EqualsIgnoreCase at h ⊢
  rw [beq_iff_eq] at h
  rw [beq_eq_false_iff_ne, h]
  exact hab

/-- For a known key, the test the filter loop applies is the predicate the
parameter states. -/
theorem SearchWithParameters.keyTest_spec (Key Value : String) (hK : KnownKey Key) :
    ∃ test, SearchWithParameters.keyTest Key Value = some test ∧
      ∀ Blueprint, test Blueprint = true ↔ Satisfies Blueprint (Key, Value) := by
  unfold Satisfies
  by_cases h1 : FString.EqualsIgnoreCase Key "Name" = true
  · have h2 := FString.equals_exclusive Key "Name" "ParentClass" (by decide) h1
    have h3 := FString.equals_exclusive Key "Name" "Function" (by decide) h1
    have h4 := FString.equals_exclusive Key "Name" "Variable" (by decide) h1
    have h5 := FString.equals_exclusive Key "Name" "Path" (by decide) h1
    have hk : SearchWithParameters.keyTest Key Value =
        some (fun Blueprint => FString.ContainsIgnoreCase Blueprint.Name Value) := by
      simp [SearchWithParameters.keyTest, h1]
    exact ⟨_, hk, fun Blueprint => by simp [h1, h2, h3, h4, h5]⟩
  by_cases h2 : FString.EqualsIgnoreCase Key "ParentClass" = true
  · have h3 := FString.equals_exclusive Key "ParentClass" "Function" (by decide) h2
    have h4 := FString.equals_exclusive Key "ParentClass" "Variable" (by decide) h2
    have h5 := FString.equals_exclusive Key "ParentClass" "Path" (by decide) h2
    have hk : SearchWithParameters.keyTest Key Value =
        some (fun Blueprint => FString.ContainsIgnoreCase Blueprint.ParentClass Value) := by
      simp [SearchWithParameters.keyTest, h1, h2]
    exact ⟨_, hk, fun Blueprint => by simp [h1, h2, h3, h4, h5]⟩
  by_cases h3 : FString.EqualsIgnoreCase Key "Function" = true
  · have h4 := FString.equals_exclusive Key "Function" "Variable" (by decide) h3
    have h5 := FString.equals_exclusive Key "Function" "Path" (by decide) h3
    have hk : SearchWithParameters.keyTest Key Value =
        some (fun Blueprint => Blueprint.Functions.any
          (fun Function => FString.ContainsIgnoreCase Function.Name Value)) := by
      simp [SearchWithParameters.keyTest, h1, h2, h3]
    exact ⟨_, hk, fun Blueprint => by simp [h1, h2, h3, h4, h5]⟩
  by_cases h4 : FString.EqualsIgnoreCase Key "Variable" = true
  · have h5 := FString.equals_exclusive Key "Variable" "Path" (by decide) h4
    have hk : SearchWithParameters.keyTest Key Value =
        some (fun Blueprint => Blueprint.Variables.any
          (fun Variable => FString.ContainsIgnoreCase Variable.Name Value)) := by
      simp [SearchWithParameters.keyTest, h1, h2, h3, h4]
    exact ⟨_, hk, fun Blueprint => by simp [h1, h2, h3, h4, h5]⟩
  by_cases h5 : FString.EqualsIgnoreCase Key "Path" = true
  · have hk : SearchWithParameters.keyTest Key Value =
        some (fun Blueprint => FString.ContainsIgnoreCase Blueprint.Path Value) := by
      simp [SearchWithParameters.keyTest, h1, h2, h3, h4, h5]
    exact ⟨_, hk, fun Blueprint => by simp [h1, h2, h3, h4, h5]⟩
  · rcases hK with h | h | h | h | h <;> contradiction

/-- C10: when every key of the parameter map is one of `Name`, `ParentClass`,
`Function`, `Variable`, `Path` (ignoring case), the filtering stage of
`SearchWithParameters` returns exactly the blueprints of the input list, in
order, that satisfy the predicates of all the parameters at once: a
blueprint is returned if and only if it is in the list and fails none. -/
theorem searchWithParameters_filters_by_conjunction (SearchParams : TMap)
    (AllBlueprints : List FBlueprintData) (hK : ∀ Param ∈ SearchParams, KnownKey Param.1) :
    SearchWithParameters.filterStage SearchParams AllBlueprints =
      AllBlueprints.filter
        (fun Blueprint => decide (∀ Param ∈ SearchParams, Satisfies Blueprint Param)) ∧
    ∀ Blueprint, Blueprint ∈ SearchWithParameters.filterStage SearchParams AllBlueprints ↔
      Blueprint ∈ AllBlueprints ∧ ∀ Param ∈ SearchParams, Satisfies Blueprint Param := by
  have hEq : SearchWithParameters.filterStage SearchParams AllBlueprints =
      AllBlueprints.filter
        (fun Blueprint => decide (∀ Param ∈ SearchParams, Satisfies Blueprint Param)) := by
    unfold SearchWithParameters.filterStage
    induction SearchParams generalizing AllBlueprints with
    | nil => simp
    | cons P Ps ih =>
      rw [List.foldl_cons, ih _ (fun Q hQ => hK Q (List.mem_cons_of_mem _ hQ))]
      obtain ⟨test, ht, hspec⟩ :=
        SearchWithParameters.keyTest_spec P.1 P.2 (hK P (List.mem_cons_self _ _))
      unfold SearchWithParameters.filterStep
      rw [ht]
      simp only [List.filter_filter]
      apply List.filter_congr
      intro Blueprint _
      have := hspec Blueprint
      by_cases hb : test Blueprint = true
      · have hs : Satisfies Blueprint P := this.1 hb
        simp [hb, hs]
      · have hs : ¬ Satisfies Blueprint P := fun hs => hb (this.2 hs)
        simp [hb, hs]
  refine ⟨hEq, ?_⟩
  intro Blueprint
  rw [hEq, List.mem_filter, decide_eq_true_iff]

/-- C10, on four blueprints with the parameters `Name = Foo`, `function = tick`:
exactly the two blueprints with `foo` in the name and a function with `tick`
in its name are returned. -/
theorem searchWithParameters_filters_by_conjunction_witness :
    (SearchWithParameters.filterStage [("Name", "Foo"), ("function", "tick")]
      searchSample).map (fun Blueprint => Blueprint.Name) = ["FooActor", "MyFOOD"] ∧
    SearchWithParameters.filterStage [("Name", "Foo"), ("function", "tick")] searchSample =
      searchSample.filter (fun Blueprint => decide
        (∀ Param ∈ [("Name", "Foo"), ("function", "tick")], Satisfies Blueprint Param)) :=
  ⟨by decide,
    (searchWithParameters_filters_by_conjunction [("Name", "Foo"), ("function", "tick")]
      searchSample (by decide)).1⟩

/-! ### Termination of the traversal within its iteration budget -/

/-- With nothing processed, the pending links are all the links. -/
theorem GetEventGraph.pendingFrom_nil (W : World) (i : Nat) (l : List UEdGraphNode) :
    GetEventGraph.pendingFrom W [] i l = (l.map (GetEventGraph.linkCount W)).sum := by
  induction l generalizing i with
  | nil => rfl
  | cons N rest ih =>
    simp only [GetEventGraph.pendingFrom, List.not_mem_nil, if_false, List.map_cons,
      List.sum_cons, ih]

/-- Processing an address below the range does not change the pending links. -/
theorem GetEventGraph.pendingFrom_below (W : World) (P : List Nat) (a i : Nat)
    (l : List UEdGraphNode) (h : a < i) :
    GetEventGraph.pendingFrom W (a :: P) i l = GetEventGraph.pendingFrom W P i l := by
  induction l generalizing i with
  | nil => rfl
  | cons N rest ih =>
    simp only [GetEventGraph.pendingFrom, List.mem_cons]
    rw [ih (i + 1) (by omega)]
    have hne : i ≠ a := by omega
    simp only [hne, false_or]

/-- Processing a node that was not processed removes its links from the
pending ones. -/
theorem GetEventGraph.pendingFrom_visit (W : World) (P : List Nat) (i k : Nat)
    (l : List UEdGraphNode) (N : UEdGraphNode) (hk : l[k]? = some N) (hP : i + k ∉ P) :
    GetEventGraph.pendingFrom W ((i + k) :: P) i l + GetEventGraph.linkCount W N =
      GetEventGraph.pendingFrom W P i l := by
  induction l generalizing i k with
  | nil => simp at hk
  | cons M rest ih =>
    cases k with
    | zero =>
      simp only [List.getElem?_cons_zero, Option.some.injEq] at hk
      subst hk
      simp only [Nat.add_zero] at hP ⊢
      simp only [GetEventGraph.pendingFrom, List.mem_cons, true_or, if_true, hP, if_false]
      rw [GetEventGraph.pendingFrom_below W P i (i + 1) rest (by omega)]
      omega
    | succ k' =>
      simp only [List.getElem?_cons_succ] at hk
      have e : i + (k' + 1) = (i + 1) + k' := by omega
      rw [e] at hP ⊢
      have := ih (i + 1) k' hk hP
      simp only [GetEventGraph.pendingFrom, List.mem_cons]
      have hne : i ≠ i + 1 + k' := by omega
      simp only [hne, false_or]
      omega

/-- The link loop queues at most one node per link. -/
theorem GetEventGraph.linkStep_foldl_length (W : World) (PinAddr : Nat)
    (links : List (Option Nat)) (v : GetEventGraph.Visit) :
    (links.foldl (GetEventGraph.linkStep W PinAddr) v).NodesToProcess.length ≤
      v.NodesToProcess.length + links.length := by
  induction links generalizing v with
  | nil => simp
  | cons l ls ih =>
    rw [List.foldl_cons]
    have hstep : (GetEventGraph.linkStep W PinAddr v l).NodesToProcess.length ≤
        v.NodesToProcess.length + 1 := by
      unfold GetEventGraph.linkStep
      split
      · omega
      · split
        · omega
        · simp
    have := ih (GetEventGraph.linkStep W PinAddr v l)
    simp only [List.length_cons]
    omega

/-- The pin loop queues at most as many nodes as the pins have links. -/
theorem GetEventGraph.pinStep_foldl_length (W : World) (pins : List (Option Nat))
    (v : GetEventGraph.Visit) :
    (pins.foldl (GetEventGraph.pinStep W) v).NodesToProcess.length ≤
      v.NodesToProcess.length +
        (pins.map (fun p => match W.pin p with
          | some Pin => Pin.LinkedTo.length
          | none => 0)).sum := by
  induction pins generalizing v with
  | nil => simp
  | cons p ps ih =>
    rw [List.foldl_cons]
    have hstep : (GetEventGraph.pinStep W v p).NodesToProcess.length ≤
        v.NodesToProcess.length + (match W.pin p with
          | some Pin => Pin.LinkedTo.length
          | none => 0) := by
      unfold GetEventGraph.pinStep
      split
      · omega
      · rename_i pa P hp
        rw [W.pin_of_pinAt _ _ _ hp]
        simp only []
        split
        · refine (GetEventGraph.linkStep_foldl_length W pa P.LinkedTo _).trans ?_
          split <;> exact le_refl _
        · split <;> exact Nat.le_add_right _ _
    have := ih (GetEventGraph.pinStep W v p)
    simp only [List.map_cons, List.sum_cons]
    omega

/-- One visit marks the node processed and queues at most as many nodes as the
node's pins have links. -/
theorem GetEventGraph.visit_measure (W : World) (st : GetEventGraph.State) (c : Nat)
    (C : UEdGraphNode) :
    (GetEventGraph.visit W st c C).ProcessedNodes = c :: st.ProcessedNodes ∧
    (GetEventGraph.visit W st c C).NodesToProcess.length ≤
      st.NodesToProcess.length + GetEventGraph.linkCount W C := by
  unfold GetEventGraph.visit GetEventGraph.linkCount
  exact ⟨rfl, GetEventGraph.pinStep_foldl_length W C.Pins _⟩

/-- The traversal loop returns whenever its iteration budget exceeds the
measure of the state: the budget is never the reason it stops. -/
theorem GetEventGraph.loop_returns (W : World) (MaxNodes : Int) (fuel : Nat)
    (st : GetEventGraph.State)
    (hQ : ∀ e ∈ st.NodesToProcess, W.Nodes[e.1]? = some e.2)
    (hF : GetEventGraph.measure W st < fuel) :
    ∃ G, GetEventGraph.loop W MaxNodes fuel st = some G := by
  induction fuel generalizing st with
  | zero => omega
  | succ k ih =>
    rw [GetEventGraph.loop]
    cases hq : st.NodesToProcess with
    | nil => exact ⟨_, rfl⟩
    | cons e rest =>
      obtain ⟨a, N⟩ := e
      simp only []
      unfold GetEventGraph.measure at hF
      rw [hq, List.length_cons] at hF
      split
      · exact ⟨_, rfl⟩
      · split
        · apply ih { st with NodesToProcess := rest }
          · intro e he
            exact hQ e (by rw [hq]; exact List.mem_cons_of_mem _ he)
          · unfold GetEventGraph.measure
            simp only []
            omega
        · rename_i hnp
          have hNa : W.Nodes[a]? = some N :=
            hQ (a, N) (by rw [hq]; exact List.mem_cons_self _ _)
          obtain ⟨hproc, hlen⟩ :=
            GetEventGraph.visit_measure W { st with NodesToProcess := rest } a N
          apply ih
          · intro e he
            rcases (GetEventGraph.visit_spec W { st with NodesToProcess := rest } a N hNa).2 e he
              with he | ⟨hNe, _⟩
            · exact hQ e (by rw [hq]; exact List.mem_cons_of_mem _ he)
            · exact hNe
          · unfold GetEventGraph.measure
            rw [hproc]
            show _ + GetEventGraph.pendingFrom W (a :: st.ProcessedNodes) 0 W.Nodes < k
            have hv := GetEventGraph.pendingFrom_visit W st.ProcessedNodes 0 a W.Nodes N hNa
              (by simpa using hnp)
            simp only [Nat.zero_add] at hv
            simp only [] at hlen
            omega

/-- The budget `GetEventGraph.fuel` suffices from the initial state: once the
event node is found, the traversal returns a graph. -/
theorem GetEventGraph.loop_returns_initial (W : World) (MaxNodes : Int)
    (GraphData : FBlueprintGraphData) (a : Nat) (N : UEdGraphNode)
    (hN : W.Nodes[a]? = some N) :
    ∃ G, GetEventGraph.loop W MaxNodes (GetEventGraph.fuel W)
      { GraphData := GraphData, ProcessedNodes := [], NodesToProcess := [(a, N)]
        NodesAdded := 0 } = some G := by
  apply GetEventGraph.loop_returns
  · intro e he
    rw [List.mem_singleton] at he
    subst he
    exact hN
  · unfold GetEventGraph.measure GetEventGraph.fuel
    simp only [List.length_singleton, GetEventGraph.pendingFrom_nil]
    omega

/-- The walker `GetEventGraph` returns a graph as soon as some non-null event graph of a
non-null blueprint holds the event and the requested name is not empty. -/
theorem GetEventGraph.returns_of_found (W : World) (Blueprint : Option Nat)
    (EventName : String) (MaxNodes : Int) (BP : UBlueprint) (EventGraph : UEdGraph)
    (hB : W.blueprint Blueprint = some BP) (hE : EventName.isEmpty = false)
    (hG : some EventGraph ∈ BP.UbergraphPages)
    (hF : (GetEventGraph.findEvent W EventName EventGraph.Nodes).isSome = true) :
    ∃ G, GetEventGraph W Blueprint EventName MaxNodes = some G := by
  unfold GetEventGraph
  rw [hB]
  simp only [hE, Bool.false_eq_true, if_false]
  generalize BP.UbergraphPages = pages at hG
  induction pages with
  | nil => cases hG
  | cons g gs ih =>
    cases g with
    | none =>
      rw [GetEventGraph.pages]
      rcases List.mem_cons.1 hG with h | h
      · cases h
      · exact ih h
    | some EG =>
      rw [GetEventGraph.pages]
      cases hf : GetEventGraph.findEvent W EventName EG.Nodes with
      | some T =>
        obtain ⟨a, N⟩ := T
        simp only []
        exact GetEventGraph.loop_returns_initial W MaxNodes _ a N
          (GetEventGraph.findEvent_spec W EventName _ a N hf).1
      | none =>
        simp only []
        rcases List.mem_cons.1 hG with h | h
        · simp only [Option.some.injEq] at h
          subst h
          rw [hf] at hF
          cases hF
        · exact ih h

/-! ### Claims C11 to C20 -/

/-- C18: `ExtractFunctions` fails on a blueprint whose function-graph list holds
a null graph (blueprint 0) and on one whose entry node carries a null pin
(blueprint 1); only a null node is skipped (blueprint 2).  `ExtractGraphs`, on
the same blueprints, skips the null graph and the null pin. -/
theorem extractFunctions_fails_on_null_graph_or_pin :
    ExtractFunctions nullWorld (some 0) = none ∧
    ExtractFunctions nullWorld (some 1) = none ∧
    (ExtractFunctions nullWorld (some 2)).map
      (fun Fs => Fs.map (fun F => (F.Name, F.Params.map (fun q => q.Name)))) =
      some [("Run", ["Speed"])] ∧
    (ExtractGraphs nullWorld (some 0) "" 0 0).map (fun G => G.Name) = ["Fire"] ∧
    (ExtractGraphs nullWorld (some 1) "" 0 0).map
      (fun G => (G.Name, G.Nodes.map (fun n => n.OutputPins.map (fun q => q.Name)))) =
      [("Aim", [["Speed"]])] := by
  decide

/-- C19: the Graph-level view of the sample blueprint holds the function graph
`Fire`, typed `Function` as `ExtractGraphs` writes it, and the handler asked
for `Fire` answers 404: its lookup compares the type with `function` by a
case-sensitive `Equals`, so no graph of `ExtractGraphs` ever matches. -/
theorem handleGetFunctionGraph_never_finds_function :
    (GetBlueprintByPath graphWorld "/Game/BP_Hero" .Graph "" 0 0).map
      (fun o => o.map (fun View => View.Graphs.map (fun G => (G.Name, G.GraphType)))) =
      some (some [("Fire", "Function"), ("Reload", "Function"), ("EventGraph", "EventGraph")]) ∧
    HandleGetFunctionGraph graphWorld "/Game/BP_Hero" "Fire" =
      some (.Error 404 ("Function " ++ String.singleton quoteChar ++ "Fire" ++
        String.singleton quoteChar ++ " not found in blueprint: BP_Hero")) := by
  decide

/-- C14: asked for the function `TakeDamage` at Graph level, `SearchByFunction`
returns the Medium view of the match (no graph, no metadata, variable default
stripped), not `GetBlueprintByPath(path, Graph)`, which carries the graph;
`SearchByVariable` does the same; at Full level both do upgrade, and
`SearchByName` upgrades at Graph level. -/
theorem searchByFunction_upgrades_only_to_full :
    (SearchByFunction sampleWorld "TakeDamage" [] .Graph).map
      (fun l => l.map (fun View => (View.Path, View.Graphs.length, View.Metadata))) =
      some [("/Game/Enemy", 0, [])] ∧
    (SearchByVariable sampleWorld "Health" "" .Graph).map
      (fun l => l.map (fun View => (View.Path, View.Graphs.length, View.Metadata))) =
      some [("/Game/Enemy", 0, [])] ∧
    (GetBlueprintByPath sampleWorld "/Game/Enemy" .Graph "" 0 0).map
      (fun o => o.map (fun View => (View.Path, View.Graphs.length, View.Metadata))) =
      some (some ("/Game/Enemy", 1, [("DetailLevel", "3")])) ∧
    (SearchByFunction sampleWorld "TakeDamage" [] .Graph ≠
      (GetBlueprintByPath sampleWorld "/Game/Enemy" .Graph "" 0 0).map
        (fun o => o.toList)) ∧
    (SearchByFunction sampleWorld "TakeDamage" [] .Full =
      (GetBlueprintByPath sampleWorld "/Game/Enemy" .Full "" 0 0).map
        (fun o => o.toList)) ∧
    (SearchByName sampleWorld "Enemy" .Graph =
      (GetBlueprintByPath sampleWorld "/Game/Enemy" .Graph "" 0 0).map
        (fun o => o.toList)) := by
  refine ⟨by decide, by decide, by decide, by decide, by decide, by decide⟩

/-- With `bIncludeIndirect = false`, `ExtractReferences` is its direct part. -/
theorem ExtractReferences_false (W : World) (Blueprint : Option Nat) :
    ExtractReferences W Blueprint false = ExtractReferences.direct W Blueprint := by
  unfold ExtractReferences
  cases ExtractReferences.direct W Blueprint <;> simp

/-- With `bIncludeIndirect = true`, `ExtractReferences` is its direct part
followed by the indirect pass over it. -/
theorem ExtractReferences_true (W : World) (Blueprint : Option Nat) :
    ExtractReferences W Blueprint true =
      (ExtractReferences.direct W Blueprint).bind (fun D =>
        (ExtractReferences.indirect W D).map (fun I => D ++ I)) := by
  unfold ExtractReferences
  cases ExtractReferences.direct W Blueprint with
  | none => rfl
  | some D =>
    simp only [if_true, Option.some_bind]
    cases ExtractReferences.indirect W D <;> rfl

/-- Where an entry of the indirect pass comes from: an outgoing entry `R` of
the list, whose path loads to `T`, and an outgoing entry `S` of the direct
references of `T`, re-emitted with the flag set and the path of `R` added to
its chain. -/
theorem ExtractReferences.indirect_mem (W : World) (D I : List FBlueprintReferenceData)
    (h : ExtractReferences.indirect W D = some I) :
    ∀ r ∈ I, ∃ R ∈ D, R.Direction = .Outgoing ∧ ∃ T S2,
      W.LoadObject R.BlueprintPath = some T ∧ ExtractReferences.direct W (some T) = some S2 ∧
      ∃ S ∈ S2, S.Direction = .Outgoing ∧
        r = { S with bIsIndirect := true
                     ReferenceChain := S.ReferenceChain ++ [R.BlueprintPath] } := by
  induction D generalizing I with
  | nil =>
    simp only [ExtractReferences.indirect, Option.some.injEq] at h
    subst h
    intro r hr; cases hr
  | cons Ref rest ih =>
    have lift : ∀ J, ExtractReferences.indirect W rest = some J → ∀ r ∈ J,
        ∃ R ∈ Ref :: rest, R.Direction = .Outgoing ∧ ∃ T S2,
          W.LoadObject R.BlueprintPath = some T ∧
          ExtractReferences.direct W (some T) = some S2 ∧
          ∃ S ∈ S2, S.Direction = .Outgoing ∧
            r = { S with bIsIndirect := true
                         ReferenceChain := S.ReferenceChain ++ [R.BlueprintPath] } := by
      intro J hJ r hr
      obtain ⟨R, hR, rest'⟩ := ih J hJ r hr
      exact ⟨R, List.mem_cons_of_mem _ hR, rest'⟩
    rw [ExtractReferences.indirect] at h
    split at h
    · rename_i hcond
      split at h
      · exact lift I h
      · rename_i T hT
        split at h
        · cases h
        · rename_i Second hS
          split at h
          · cases h
          · rename_i more hmore
            simp only [Option.some.injEq] at h
            subst h
            intro r hr
            rcases List.mem_append.1 hr with hr | hr
            · simp only [ExtractReferences.reemit, List.mem_map, List.mem_filter,
                decide_eq_true_eq] at hr
              obtain ⟨S, ⟨hS1, hS2⟩, rfl⟩ := hr
              exact ⟨Ref, List.mem_cons_self _ _, hcond.1, T, Second, hT, hS, S, hS1, hS2, rfl⟩
            · exact lift more hmore r hr
    · exact lift I h

/-- The parent reference has type Inheritance. -/
theorem ExtractInheritanceReferences.parent_type (W : World) (BP : UBlueprint) :
    ∀ r ∈ ExtractInheritanceReferences.parent W BP, HasDirectType r := by
  intro r hr
  unfold ExtractInheritanceReferences.parent at hr
  repeat' split at hr
  all_goals first
    | (rw [List.mem_singleton] at hr; subst hr; exact Or.inl rfl)
    | cases hr

/-- The child references have type Inheritance. -/
theorem ExtractInheritanceReferences.children_type (W : World) (BP : UBlueprint)
    (assets : List FAssetData) (refs : List FBlueprintReferenceData)
    (h : ExtractInheritanceReferences.children W BP assets = some refs) :
    ∀ r ∈ refs, HasDirectType r := by
  induction assets generalizing refs with
  | nil =>
    simp only [ExtractInheritanceReferences.children, Option.some.injEq] at h
    subst h
    intro r hr; cases hr
  | cons A rest ih =>
    rw [ExtractInheritanceReferences.children] at h
    split at h
    · exact ih refs h
    · split at h
      · cases h
      · split at h
        · cases h
        · rename_i more hmore
          split at h
          · split at h
            · simp only [Option.some.injEq] at h
              subst h
              intro r hr
              rcases List.mem_cons.1 hr with hr | hr
              · subst hr; exact Or.inl rfl
              · exact ih more hmore r hr
            · simp only [Option.some.injEq] at h
              subst h
              exact ih more hmore
          · simp only [Option.some.injEq] at h
            subst h
            exact ih more hmore

/-- Everything `ExtractReferences(Blueprint, false)` returns has one of the four
types of the direct scans. -/
theorem ExtractReferences.direct_type (W : World) (Blueprint : Option Nat)
    (refs : List FBlueprintReferenceData) (h : ExtractReferences.direct W Blueprint = some refs) :
    ∀ r ∈ refs, HasDirectType r := by
  unfold ExtractReferences.direct at h
  split at h
  · simp only [Option.some.injEq] at h
    subst h
    intro r hr; cases hr
  · split at h
    · cases h
    · rename_i Inh hI
      simp only [Option.some.injEq] at h
      subst h
      intro r hr
      simp only [List.mem_append] at hr
      rcases hr with ((hr | hr) | hr) | hr
      · unfold ExtractInheritanceReferences at hI
        split at hI
        · simp only [Option.some.injEq] at hI
          subst hI
          cases hr
        · rename_i BP _
          split at hI
          · cases hI
          · rename_i Children hC
            simp only [Option.some.injEq] at hI
            subst hI
            rcases List.mem_append.1 hr with hr | hr
            · exact ExtractInheritanceReferences.parent_type W BP r hr
            · exact ExtractInheritanceReferences.children_type W BP _ _ hC r hr
      · unfold ExtractFunctionCallReferences at hr
        split at hr
        · cases hr
        · simp only [List.mem_flatMap] at hr
          obtain ⟨Graph, _, Node, _, hr⟩ := hr
          unfold ExtractFunctionCallReferences.nodeRefs at hr
          repeat' split at hr
          all_goals first
            | (rw [List.mem_singleton] at hr; subst hr; exact Or.inr (Or.inl rfl))
            | cases hr
      · unfold ExtractVariableTypeReferences at hr
        split at hr
        · cases hr
        · simp only [List.mem_flatMap] at hr
          obtain ⟨VarDesc, _, hr⟩ := hr
          unfold ExtractVariableTypeReferences.varRefs at hr
          simp only [] at hr
          repeat' split at hr
          all_goals first
            | (rw [List.mem_singleton] at hr; subst hr; exact Or.inr (Or.inr (Or.inl rfl)))
            | cases hr
      · unfold ExtractDirectReferences at hr
        split at hr
        · cases hr
        · simp only [List.mem_flatMap] at hr
          obtain ⟨Graph, _, Node, _, hr⟩ := hr
          unfold ExtractDirectReferences.nodeRefs at hr
          repeat' split at hr
          all_goals first
            | (rw [List.mem_singleton] at hr; subst hr; exact Or.inr (Or.inr (Or.inr rfl)))
            | cases hr

/-- C16, as stated, fails: the one indirect reference of blueprint `A` of the
sample store (to `C`, through `B`) has type VariableType, the type of the
reference of `B` it re-emits, not IndirectReference. -/
theorem indirect_entry_not_typed_indirectReference :
    (ExtractReferences refWorld (some 0) true).map
      (fun l => l.map (fun r => (r.BlueprintPath, r.bIsIndirect, r.ReferenceType))) =
      some [("/Game/B", false, .VariableType), ("/Game/C", true, .VariableType)] ∧
    ¬ ∀ refs ∈ ExtractReferences refWorld (some 0) true, ∀ r ∈ refs,
        r.bIsIndirect = true → r.ReferenceType = .IndirectReference := by
  refine ⟨by decide, ?_⟩
  intro h
  have hE : (ExtractReferences refWorld (some 0) true).isSome = true := by decide
  obtain ⟨refs, hr⟩ := Option.isSome_iff_exists.1 hE
  have h2 : (ExtractReferences refWorld (some 0) true).map
      (fun l => l.map (fun r => (r.bIsIndirect, r.ReferenceType))) =
      some [(false, .VariableType), (true, .VariableType)] := by decide
  have h3 := h refs hr
  rw [hr] at h2
  simp only [Option.map_some', Option.some.injEq] at h2
  match refs, h2, h3 with
  | [a, b], h2, h3 =>
    simp only [List.map_cons, List.map_nil, List.cons.injEq, Prod.mk.injEq, and_true] at h2
    have := h3 b (by simp) h2.2.1
    rw [h2.2.2] at this
    cases this

/-- C16, amended: every entry `r` with `bIsIndirect = true` returned by
`ExtractReferences(A, true)` is a re-emitted direct reference: there are an
outgoing entry `R` of `ExtractReferences(A, false)`, the blueprint `T` that
the path of `R` loads, and an outgoing entry `S` of
`ExtractReferences(T, false)`, itself not indirect, such that `r` is `S` with
the indirect flag set and the reference chain `[R.BlueprintPath]`.  So `r`
carries the reference type of `S`, which is Inheritance, FunctionCall,
VariableType or DirectReference, and never IndirectReference. -/
theorem indirect_entries_keep_direct_type (W : World) (Blueprint : Option Nat)
    (refs : List FBlueprintReferenceData)
    (h : ExtractReferences W Blueprint true = some refs) :
    ∀ r ∈ refs, r.bIsIndirect = true →
      (∃ D, ExtractReferences W Blueprint false = some D ∧
        ∃ R ∈ D, R.Direction = .Outgoing ∧
        ∃ T S2, W.LoadObject R.BlueprintPath = some T ∧
          ExtractReferences W (some T) false = some S2 ∧
          ∃ S ∈ S2, S.Direction = .Outgoing ∧ S.bIsIndirect = false ∧
            r = { S with bIsIndirect := true
                         ReferenceChain := [R.BlueprintPath] } ∧
            r.ReferenceType = S.ReferenceType ∧
            r.BlueprintPath = S.BlueprintPath ∧
            r.ReferenceChain = [R.BlueprintPath]) ∧
      HasDirectType r ∧ r.ReferenceType ≠ .IndirectReference := by
  intro r hr hind
  rw [ExtractReferences_true] at h
  cases hD : ExtractReferences.direct W Blueprint with
  | none => rw [hD] at h; cases h
  | some D =>
    rw [hD] at h
    simp only [Option.some_bind, Option.map_eq_some'] at h
    obtain ⟨I, hI, rfl⟩ := h
    rcases List.mem_append.1 hr with hr | hr
    · have := (ExtractReferences.direct_direct W Blueprint D hD r hr).1
      rw [this] at hind
      cases hind
    · obtain ⟨R, hR, hRo, T, S2, hT, hS2, S, hS, hSo, hrS⟩ :=
        ExtractReferences.indirect_mem W D I hI r hr
      have hty : HasDirectType S := ExtractReferences.direct_type W (some T) S2 hS2 S hS
      have hdir := ExtractReferences.direct_direct W (some T) S2 hS2 S hS
      rw [hdir.2, List.nil_append] at hrS
      subst hrS
      refine ⟨⟨D, by rw [ExtractReferences_false]; exact hD, R, hR, hRo, T, S2, hT,
        by rw [ExtractReferences_false]; exact hS2, S, hS, hSo, hdir.1, rfl, rfl, rfl, rfl⟩,
        hty, ?_⟩
      intro hbad
      have hbad' : S.ReferenceType = .IndirectReference := hbad
      rcases hty with h1 | h1 | h1 | h1 <;> rw [h1] at hbad' <;> cases hbad'

/-- C16 amended, on the sample store: the indirect entry of `A` is the entry of
`B` for `C`, flagged indirect with the chain through `B`; it has the type
VariableType of that entry. -/
theorem indirect_entries_keep_direct_type_witness :
    ∃ refs, ExtractReferences refWorld (some 0) true = some refs ∧
      refs.map (fun r => (r.bIsIndirect, r.ReferenceType, r.BlueprintPath, r.ReferenceChain)) =
        [(false, .VariableType, "/Game/B", []),
         (true, .VariableType, "/Game/C", ["/Game/B"])] ∧
      ∀ r ∈ refs, r.bIsIndirect = true →
        (∃ D, ExtractReferences refWorld (some 0) false = some D ∧
          ∃ R ∈ D, R.Direction = .Outgoing ∧
          ∃ T S2, refWorld.LoadObject R.BlueprintPath = some T ∧
            ExtractReferences refWorld (some T) false = some S2 ∧
            ∃ S ∈ S2, S.Direction = .Outgoing ∧ S.bIsIndirect = false ∧
              r = { S with bIsIndirect := true
                           ReferenceChain := [R.BlueprintPath] } ∧
              r.ReferenceType = S.ReferenceType ∧
              r.BlueprintPath = S.BlueprintPath ∧
              r.ReferenceChain = [R.BlueprintPath]) ∧
        HasDirectType r ∧ r.ReferenceType ≠ .IndirectReference := by
  have hE : (ExtractReferences refWorld (some 0) true).isSome = true := by decide
  obtain ⟨refs, hr⟩ := Option.isSome_iff_exists.1 hE
  refine ⟨refs, hr, ?_, indirect_entries_keep_direct_type refWorld (some 0) refs hr⟩
  have h2 : (ExtractReferences refWorld (some 0) true).map
      (fun l => l.map (fun r =>
        (r.bIsIndirect, r.ReferenceType, r.BlueprintPath, r.ReferenceChain))) =
      some [(false, .VariableType, "/Game/B", []),
            (true, .VariableType, "/Game/C", ["/Game/B"])] := by decide
  rw [hr] at h2
  simpa using h2

/-- The specification's indirect entries, one direct entry at a time. -/
theorem indirectExpansion_cons (W : World) (R : FBlueprintReferenceData)
    (rest : List FBlueprintReferenceData) :
    indirectExpansion W (R :: rest) =
      (if R.Direction = .Outgoing then
        (match W.LoadObject R.BlueprintPath with
          | none => []
          | some T =>
            (((ExtractReferences W (some T) false).getD []).filter
              (fun S => S.Direction = .Outgoing)).map
              (fun S => { S with bIsIndirect := true, ReferenceChain := [R.BlueprintPath] }))
      else []) ++ indirectExpansion W rest := by
  unfold indirectExpansion
  by_cases hR : R.Direction = .Outgoing
  · simp only [List.filter_cons, hR, decide_True, if_true, List.flatMap_cons]
  · simp only [List.filter_cons, hR, decide_False, if_false, List.nil_append]
    rfl

/-- On a list of direct entries, the indirect pass of the source returns the
specification's indirect entries. -/
theorem ExtractReferences.indirect_eq_expansion (W : World)
    (D I : List FBlueprintReferenceData) (hD : ∀ R ∈ D, R.bIsIndirect = false)
    (h : ExtractReferences.indirect W D = some I) : I = indirectExpansion W D := by
  induction D generalizing I with
  | nil =>
    simp only [ExtractReferences.indirect, Option.some.injEq] at h
    subst h
    rfl
  | cons Ref rest ih =>
    have hrest : ∀ R ∈ rest, R.bIsIndirect = false :=
      fun R hR => hD R (List.mem_cons_of_mem _ hR)
    rw [indirectExpansion_cons]
    rw [ExtractReferences.indirect] at h
    split at h
    · rename_i hcond
      rw [if_pos hcond.1]
      split at h
      · simpa using ih I hrest h
      · rename_i T hT
        split at h
        · cases h
        · rename_i Second hS
          split at h
          · cases h
          · rename_i more hmore
            simp only [Option.some.injEq] at h
            subst h
            rw [ih more hrest hmore, ExtractReferences_false, hS]
            congr 1
            simp only [ExtractReferences.reemit, Option.getD_some]
            apply List.map_congr_left
            intro S hS'
            have hmem : S ∈ Second := (List.mem_filter.1 hS').1
            rw [(ExtractReferences.direct_direct W (some T) Second hS S hmem).2]
            rfl
    · rename_i hcond
      have hno : ¬ Ref.Direction = .Outgoing :=
        fun ho => hcond ⟨ho, hD Ref (List.mem_cons_self _ _)⟩
      rw [if_neg hno]
      simpa using ih I hrest h

/-- On a list of direct entries, the indirect pass returns exactly when the
extraction returns for every blueprint an outgoing entry loads. -/
theorem ExtractReferences.indirect_isSome_iff (W : World)
    (D : List FBlueprintReferenceData) (hD : ∀ R ∈ D, R.bIsIndirect = false) :
    (ExtractReferences.indirect W D).isSome = true ↔
      ∀ R ∈ D, R.Direction = .Outgoing → ∀ T, W.LoadObject R.BlueprintPath = some T →
        (ExtractReferences.direct W (some T)).isSome = true := by
  induction D with
  | nil => simp [ExtractReferences.indirect]
  | cons Ref rest ih =>
    have hrest : ∀ R ∈ rest, R.bIsIndirect = false :=
      fun R hR => hD R (List.mem_cons_of_mem _ hR)
    have ih' := ih hrest
    rw [ExtractReferences.indirect]
    simp only [List.forall_mem_cons]
    by_cases ho : Ref.Direction = .Outgoing
    · rw [if_pos ⟨ho, hD Ref (List.mem_cons_self _ _)⟩]
      cases hT : W.LoadObject Ref.BlueprintPath with
      | none =>
        simp only []
        rw [ih']
        constructor
        · intro h
          exact ⟨fun _ T hT' => (by cases hT'), h⟩
        · intro h
          exact h.2
      | some T =>
        simp only []
        cases hS : ExtractReferences.direct W (some T) with
        | none =>
          simp only [Option.isSome_none, Bool.false_eq_true, false_iff, not_and]
          intro h
          have := h ho T rfl
          rw [hS] at this
          cases this
        | some Second =>
          simp only []
          cases hm : ExtractReferences.indirect W rest with
          | none =>
            simp only [Option.isSome_none, Bool.false_eq_true, false_iff, not_and]
            intro _ h
            rw [hm] at ih'
            have := ih'.2 h
            cases this
          | some more =>
            simp only [Option.isSome_some, true_iff]
            rw [hm] at ih'
            refine ⟨?_, ih'.1 rfl⟩
            intro _ T' hT'
            cases hT'
            rw [hS]; rfl
    · have hc : ¬ (Ref.Direction = .Outgoing ∧ Ref.bIsIndirect = false) := fun h => ho h.1
      rw [if_neg hc, ih']
      constructor
      · intro h
        exact ⟨fun hx => absurd hx ho, h⟩
      · intro h
        exact h.2

/-- C15: when `ExtractReferences(A, true)` returns, it returns `D ++ I` with
`D = ExtractReferences(A, false)` and `I` the outgoing entries of
`ExtractReferences(T, false)`, flagged indirect with chain `[R.targetPath]`, for
each outgoing `R` of `D` in order whose path loads to `T`; incoming entries
add nothing.  It returns exactly when the extraction of `D` and of every such
`T` does. -/
theorem extractReferences_true_is_direct_plus_expansion (W : World) (Blueprint : Option Nat) :
    (∀ out, ExtractReferences W Blueprint true = some out →
      ∃ D, ExtractReferences W Blueprint false = some D ∧ out = D ++ indirectExpansion W D) ∧
    ((ExtractReferences W Blueprint true).isSome = true ↔
      ∃ D, ExtractReferences W Blueprint false = some D ∧
        ∀ R ∈ D, R.Direction = .Outgoing → ∀ T, W.LoadObject R.BlueprintPath = some T →
          (ExtractReferences W (some T) false).isSome = true) := by
  simp only [ExtractReferences_true, ExtractReferences_false]
  cases hD : ExtractReferences.direct W Blueprint with
  | none =>
    refine ⟨fun out h => (by cases h), ?_⟩
    simp
  | some D =>
    have hdir : ∀ R ∈ D, R.bIsIndirect = false :=
      fun R hR => (ExtractReferences.direct_direct W Blueprint D hD R hR).1
    simp only [Option.some_bind, Option.map_eq_some', Option.isSome_map', Option.some.injEq,
      exists_eq_left']
    refine ⟨?_, ExtractReferences.indirect_isSome_iff W D hdir⟩
    rintro out ⟨I, hI, rfl⟩
    rw [ExtractReferences.indirect_eq_expansion W D I hdir hI]

/-- C15, on the sample store `A → B → C`: the references of `A` with indirect
ones are its direct reference to `B` followed by the re-emitted reference of
`B` to `C`. -/
theorem extractReferences_true_is_direct_plus_expansion_witness :
    ∃ out D, ExtractReferences refWorld (some 0) true = some out ∧
      ExtractReferences refWorld (some 0) false = some D ∧
      out = D ++ indirectExpansion refWorld D ∧
      D.map (fun r => (r.BlueprintPath, r.bIsIndirect)) = [("/Game/B", false)] ∧
      (indirectExpansion refWorld D).map (fun r => (r.BlueprintPath, r.ReferenceChain)) =
        [("/Game/C", ["/Game/B"])] := by
  have hE : (ExtractReferences refWorld (some 0) true).isSome = true := by decide
  obtain ⟨out, hout⟩ := Option.isSome_iff_exists.1 hE
  obtain ⟨D, hD, hEq⟩ :=
    (extractReferences_true_is_direct_plus_expansion refWorld (some 0)).1 out hout
  refine ⟨out, D, hout, hD, hEq, ?_, ?_⟩
  · have h2 : (ExtractReferences refWorld (some 0) false).map
        (fun l => l.map (fun r => (r.BlueprintPath, r.bIsIndirect))) =
        some [("/Game/B", false)] := by decide
    rw [hD] at h2
    simpa using h2
  · have h3 : (ExtractReferences refWorld (some 0) false).map
        (fun l => (indirectExpansion refWorld l).map
          (fun r => (r.BlueprintPath, r.ReferenceChain))) =
        some [("/Game/C", ["/Game/B"])] := by decide
    rw [hD] at h3
    simpa using h3

/-- An `int32` sum that stays in range is the sum. -/
theorem wrapInt32_of_inRange (x : Int) (h1 : -2147483648 ≤ x) (h2 : x < 2147483648) :
    wrapInt32 x = x := by
  unfold wrapInt32
  omega

/-- Reading the indices `a, a+1, …, a+len-1` of a list that has them all gives
the window of the list that starts at `a` and has `len` entries. -/
theorem filterMap_range'_getElem? {α : Type} (l : List α) (a len : Nat)
    (h : a + len ≤ l.length) :
    (List.range' a len).filterMap (fun i => l[i]?) = (l.drop a).take len := by
  induction len generalizing a with
  | zero => simp
  | succ m ih =>
    have ha : a < l.length := by omega
    rw [List.range'_succ, List.filterMap_cons, List.getElem?_eq_getElem ha]
    simp only []
    rw [ih (a + 1) (by omega), List.drop_eq_getElem_cons ha, List.take_succ_cons]

/-- The copy loop of the pagination block returns the window between its two
bounds when they lie within the list. -/
theorem copyRange_eq_window (Bs : List FBlueprintData) (Offset EndIndex : Int)
    (h0 : 0 ≤ Offset) (h1 : Offset ≤ EndIndex) (h2 : EndIndex ≤ Bs.length) :
    copyRange Bs Offset EndIndex = (Bs.drop Offset.toNat).take (EndIndex - Offset).toNat := by
  unfold copyRange
  apply filterMap_range'_getElem?
  omega

/-- The two handlers paginate with the same code. -/
theorem HandleSearchBlueprints.paginate_eq (Results : List FBlueprintData)
    (LimitParam OffsetParam : Int) :
    HandleSearchBlueprints.paginate Results LimitParam OffsetParam =
      HandleListAllBlueprints.paginate Results LimitParam OffsetParam := rfl

/-- C20, as stated, fails: with four blueprints, limit 1 and offset 5 the page
is not empty; the offset is lowered to 3 and the page holds the last
blueprint. -/
theorem paginate_offset_past_end_returns_last :
    (HandleListAllBlueprints.paginate searchSample 1 5).Blueprints.map
      (fun View => View.Name) = ["MyFOOD"] ∧
    (HandleListAllBlueprints.paginate searchSample 1 5).Offset = 3 ∧
    ¬ (HandleListAllBlueprints.paginate searchSample 1 5).Blueprints =
        (searchSample.drop 5).take 1 := by
  refine ⟨by decide, by decide, by decide⟩

/-- C20, amended: for a limit `L > 0` and an offset `k ≥ 0` (with the `int32` sum
of the effective offset and `L` in range), the page of `HandleListAllBlueprints`
and of `HandleSearchBlueprints` has at most `L` entries and `TotalCount` is the
length `n` of the full list.  When `k < n` the page is the window of the full
list that starts at index `k` and has `min(L, n - k)` entries.  When `k ≥ n`
the offset is lowered to `n - 1` and the page is the last blueprint alone
(the empty page when the list is empty). -/
theorem paginate_is_clamped_window (All : List FBlueprintData) (L k : Int)
    (hL : 0 < L) (hk : 0 ≤ k)
    (hNo : min k ((All.length : Int) - 1) + L < 2147483648) :
    (HandleListAllBlueprints.paginate All L k).TotalCount = All.length ∧
    ((HandleListAllBlueprints.paginate All L k).Blueprints.length : Int) ≤ L ∧
    (k < All.length →
      (HandleListAllBlueprints.paginate All L k).Blueprints =
        (All.drop k.toNat).take L.toNat ∧
      ((HandleListAllBlueprints.paginate All L k).Blueprints.length : Int) =
        min L ((All.length : Int) - k) ∧
      (HandleListAllBlueprints.paginate All L k).Offset = k) ∧
    ((All.length : Int) ≤ k →
      (HandleListAllBlueprints.paginate All L k).Blueprints = All.drop (All.length - 1) ∧
      (0 < All.length →
        (HandleListAllBlueprints.paginate All L k).Blueprints.length = 1 ∧
        (HandleListAllBlueprints.paginate All L k).Offset = (All.length : Int) - 1)) ∧
    HandleSearchBlueprints.paginate All L k = HandleListAllBlueprints.paginate All L k := by
  have hmL : max 0 L = L := max_eq_right hL.le
  have hmk : max 0 k = k := max_eq_right hk
  by_cases hn : All.length = 0
  · have hnil : All = [] := List.length_eq_zero.1 hn
    subst hnil
    have hP : HandleListAllBlueprints.paginate [] L k =
        { Blueprints := [], TotalCount := 0, Limit := L, Offset := k } := by
      unfold HandleListAllBlueprints.paginate
      simp [hmL, hmk]
    refine ⟨by rw [hP]; rfl, ?_, ?_, ?_, rfl⟩
    · rw [hP]
      simpa using hL.le
    · intro hlt
      simp only [List.length_nil, Nat.cast_zero] at hlt
      omega
    · intro _
      rw [hP]
      exact ⟨rfl, fun h => absurd h (by simp)⟩
  · have hpos : (0 : Int) < All.length := by omega
    have hO0 : 0 ≤ min k ((All.length : Int) - 1) := by omega
    have hwrap : wrapInt32 (min k ((All.length : Int) - 1) + L) =
        min k ((All.length : Int) - 1) + L := wrapInt32_of_inRange _ (by omega) hNo
    have hP : HandleListAllBlueprints.paginate All L k =
        { Blueprints := (All.drop (min k ((All.length : Int) - 1)).toNat).take
            (min (min k ((All.length : Int) - 1) + L) All.length -
              min k ((All.length : Int) - 1)).toNat
          TotalCount := All.length, Limit := L
          Offset := min k ((All.length : Int) - 1) } := by
      unfold HandleListAllBlueprints.paginate
      simp only [hmL, hmk, gt_iff_lt]
      rw [if_pos ⟨hL, hpos⟩, if_pos hL, hwrap,
        copyRange_eq_window All _ _ hO0 (by omega) (by omega)]
    refine ⟨by rw [hP], ?_, ?_, ?_, rfl⟩
    · rw [hP]
      simp only []
      rw [List.length_take, List.length_drop]
      omega
    · intro hlt
      rw [hP]
      simp only []
      have e1 : min k ((All.length : Int) - 1) = k := by omega
      rw [e1]
      have e2 : (min (k + L) (All.length : Int) - k).toNat =
          min L.toNat (All.length - k.toNat) := by omega
      refine ⟨?_, ?_, rfl⟩
      · rw [e2, List.take_eq_take]
        simp only [List.length_drop]
        omega
      · rw [List.length_take, List.length_drop]
        omega
    · intro hge
      rw [hP]
      simp only []
      have e1 : min k ((All.length : Int) - 1) = (All.length : Int) - 1 := by omega
      have e3 : ((All.length : Int) - 1).toNat = All.length - 1 := by omega
      have e4 : (min ((All.length : Int) - 1 + L) (All.length : Int) -
          ((All.length : Int) - 1)).toNat = 1 := by omega
      rw [e1, e3, e4]
      have hlen : (All.drop (All.length - 1)).length = 1 := by
        rw [List.length_drop]; omega
      rw [List.take_of_length_le (by omega)]
      exact ⟨rfl, fun _ => ⟨hlen, rfl⟩⟩

/-- C20 amended, on four blueprints: limit 2 and offset 1 give the second and
third blueprint. -/
theorem paginate_is_clamped_window_witness :
    (0 : Int) < 2 ∧ (0 : Int) ≤ 1 ∧
    (HandleListAllBlueprints.paginate searchSample 2 1).Blueprints.map
      (fun View => View.Name) = ["FooPawn", "BarActor"] ∧
    (HandleListAllBlueprints.paginate searchSample 2 1).Blueprints =
      (searchSample.drop 1).take 2 ∧
    (HandleListAllBlueprints.paginate searchSample 2 1).TotalCount = 4 :=
  ⟨by decide, by decide, by decide,
    ((paginate_is_clamped_window searchSample 2 1 (by decide) (by decide)
      (by decide)).2.2.1 (by decide)).1,
    by decide⟩

/-- The pin loop of `ExtractEventNodes` keeps the node id. -/
theorem ExtractEventNodes.pinStep_foldl_id (W : World) (pins : List (Option Nat))
    (NodeData : FBlueprintNodeData) :
    (pins.foldl (ExtractEventNodes.pinStep W) NodeData).NodeId = NodeData.NodeId := by
  induction pins generalizing NodeData with
  | nil => rfl
  | cons p ps ih =>
    rw [List.foldl_cons, ih]
    unfold ExtractEventNodes.pinStep
    split
    · rfl
    · simp only []
      split <;> rfl

/-- Every record of `ExtractEventNodes` is the record of an event node of the
node table, titled with its event name, which equals the filter ignoring case
when a filter is given. -/
theorem ExtractEventNodes_mem (W : World) (Blueprint : Option Nat) (EventName : String) :
    ∀ n ∈ ExtractEventNodes W Blueprint EventName, ∃ N name scope,
      W.Nodes[n.NodeId]? = some N ∧ N.Kind = .Event name scope ∧
      (EventName.isEmpty = false → FString.EqualsIgnoreCase name EventName = true) := by
  intro n hn
  unfold ExtractEventNodes at hn
  split at hn
  · cases hn
  · rename_i BP _
    simp only [List.mem_flatMap] at hn
    obtain ⟨EventGraph, _, Node, _, hn⟩ := hn
    unfold ExtractEventNodes.nodeStep at hn
    split at hn
    · cases hn
    · rename_i a N hN
      split at hn
      · rename_i name scope hk
        split at hn
        · cases hn
        · rename_i hcond
          simp only [List.mem_singleton] at hn
          subst hn
          rw [ExtractEventNodes.pinStep_foldl_id]
          refine ⟨N, name, scope, (W.nodeAt_eq _ _ _ hN).2, hk, ?_⟩
          intro hE
          simp only [hE, Bool.not_false, Bool.true_and, Bool.not_eq_true', Bool.not_eq_true] at hcond
          simpa using hcond
      · cases hn

/-- Rendering a natural number with `FString::FromInt` gives its decimal digits. -/
theorem FString.FromInt_natCast (n : Nat) : FString.FromInt (n : Int) = Nat.repr n := rfl

/-- The metadata of the Events level without a filter, and what it holds. -/
theorem eventsLevel_metadata (d c : String) :
    TMap.Find ((TMap.Add [] "DetailLevel" d).Add "EventCount" c) "EventCount" = some c ∧
    TMap.Find ((TMap.Add [] "DetailLevel" d).Add "EventCount" c) "FilteredByEvent" = none := by
  have e1 : FString.EqualsIgnoreCase "DetailLevel" "EventCount" = false := by decide
  have e2 : FString.EqualsIgnoreCase "EventCount" "EventCount" = true := by decide
  have e3 : FString.EqualsIgnoreCase "DetailLevel" "FilteredByEvent" = false := by decide
  have e4 : FString.EqualsIgnoreCase "EventCount" "FilteredByEvent" = false := by decide
  simp [TMap.Add, TMap.Find, e1, e2, e3, e4]

/-- The metadata of the Events level with a filter, and what it holds. -/
theorem eventsLevel_metadata_filtered (d c f : String) :
    TMap.Find (((TMap.Add [] "DetailLevel" d).Add "EventCount" c).Add "FilteredByEvent" f)
      "EventCount" = some c ∧
    TMap.Find (((TMap.Add [] "DetailLevel" d).Add "EventCount" c).Add "FilteredByEvent" f)
      "FilteredByEvent" = some f := by
  have e1 : FString.EqualsIgnoreCase "DetailLevel" "EventCount" = false := by decide
  have e2 : FString.EqualsIgnoreCase "EventCount" "EventCount" = true := by decide
  have e3 : FString.EqualsIgnoreCase "DetailLevel" "FilteredByEvent" = false := by decide
  have e4 : FString.EqualsIgnoreCase "EventCount" "FilteredByEvent" = false := by decide
  have e5 : FString.EqualsIgnoreCase "FilteredByEvent" "FilteredByEvent" = true := by decide
  have e6 : FString.EqualsIgnoreCase "FilteredByEvent" "EventCount" = false := by decide
  simp [TMap.Add, TMap.Find, e1, e2, e3, e4, e5, e6]

/-- C13: for a non-null blueprint, `ExtractBlueprintData` at level Events with
filter `f` returns a view exactly when `ExtractFunctions` does not fail, and
the view has exactly one graph, named `Events` of type `EventsList`, whose
nodes are `ExtractEventNodes(A, f)` and whose connections are empty; every
node is the record of an event node, matching `f` ignoring case when `f` is
not empty; the metadata entry `EventCount` is the decimal rendering of the
node count, and `FilteredByEvent` is `f` when `f` is not empty and absent
otherwise. -/
theorem events_level_view (W : World) (Blueprint : Option Nat) (BP : UBlueprint)
    (f : String) (MaxGraphs MaxNodes : Int) (hB : W.blueprint Blueprint = some BP) :
    (ExtractBlueprintData W Blueprint .Events f MaxGraphs MaxNodes).isSome =
      (ExtractFunctions W Blueprint).isSome ∧
    ∀ View, ExtractBlueprintData W Blueprint .Events f MaxGraphs MaxNodes = some View →
      View.Graphs =
        [{ Name := "Events", GraphType := "EventsList"
           Nodes := ExtractEventNodes W Blueprint f, Connections := [], Metadata := [] }] ∧
      (∀ n ∈ ExtractEventNodes W Blueprint f, ∃ N name scope,
        W.Nodes[n.NodeId]? = some N ∧ N.Kind = .Event name scope ∧
        (f.isEmpty = false → FString.EqualsIgnoreCase name f = true)) ∧
      TMap.Find View.Metadata "EventCount" =
        some (Nat.repr (ExtractEventNodes W Blueprint f).length) ∧
      TMap.Find View.Metadata "FilteredByEvent" = (if f.isEmpty then none else some f) := by
  constructor
  · unfold ExtractBlueprintData
    rw [hB]
    simp only [EBlueprintDetailLevel.toNat]
    cases hF : ExtractFunctions W Blueprint with
    | none => simp
    | some Fs => simp
  intro View h
  have hView : View.Graphs =
        [{ Name := "Events", GraphType := "EventsList"
           Nodes := ExtractEventNodes W Blueprint f, Connections := [], Metadata := [] }] ∧
      View.Metadata =
        (if f.isEmpty = false then
          ((TMap.Add [] "DetailLevel"
            (FString.FromInt (EBlueprintDetailLevel.Events.toNat : Nat))).Add "EventCount"
            (FString.FromInt ((ExtractEventNodes W Blueprint f).length : Nat))).Add
            "FilteredByEvent" f
        else
          (TMap.Add [] "DetailLevel"
            (FString.FromInt (EBlueprintDetailLevel.Events.toNat : Nat))).Add "EventCount"
            (FString.FromInt ((ExtractEventNodes W Blueprint f).length : Nat))) := by
    unfold ExtractBlueprintData at h
    rw [hB] at h
    simp only [EBlueprintDetailLevel.toNat] at h
    cases hF : ExtractFunctions W Blueprint with
    | none => simp [hF] at h
    | some Fs =>
      simp [hF, ExtractBlueprintData.eventsLevel] at h
      subst h
      exact ⟨rfl, rfl⟩
  refine ⟨hView.1, ExtractEventNodes_mem W Blueprint f, ?_⟩
  rw [hView.2]
  by_cases hf : f.isEmpty = true
  · simp only [hf, Bool.true_eq_false, if_false, if_true]
    rw [← FString.FromInt_natCast]
    exact eventsLevel_metadata _ _
  · have hf' : f.isEmpty = false := by simpa using hf
    simp only [hf', if_true, Bool.false_eq_true, if_false]
    rw [← FString.FromInt_natCast]
    exact eventsLevel_metadata_filtered _ _ _

/-- C13, on the sample blueprint with the filter `receivebeginplay`: the view
holds the one graph `Events` with the event node 3, `EventCount` is `1` and
`FilteredByEvent` is the filter. -/
theorem events_level_view_witness :
    ∃ View, ExtractBlueprintData graphWorld (some 0) .Events "receivebeginplay" 0 0 =
        some View ∧
      View.Graphs.map (fun G => (G.Name, G.GraphType, G.Nodes.map (fun n => n.NodeId),
        G.Connections)) = [("Events", "EventsList", [3], [])] ∧
      TMap.Find View.Metadata "EventCount" = some "1" ∧
      TMap.Find View.Metadata "FilteredByEvent" = some "receivebeginplay" := by
  have hE : (ExtractBlueprintData graphWorld (some 0) .Events "receivebeginplay" 0 0).isSome =
      true := by decide
  obtain ⟨View, hV⟩ := Option.isSome_iff_exists.1 hE
  obtain ⟨h1, _, h3, h4⟩ :=
    (events_level_view graphWorld (some 0) _ "receivebeginplay" 0 0 rfl).2 View hV
  have hN : (ExtractEventNodes graphWorld (some 0) "receivebeginplay").map
      (fun n => n.NodeId) = [3] := by decide
  refine ⟨View, hV, ?_, ?_, ?_⟩
  · rw [h1]
    simp only [List.map_cons, List.map_nil, hN]
  · rw [h3]
    have : (ExtractEventNodes graphWorld (some 0) "receivebeginplay").length = 1 := by
      rw [← List.length_map, hN]; rfl
    rw [this]; rfl
  · rw [h4]; rfl

/-- The parameter loop of `ExtractFunctions` returns the output pins not named
`then`, in pin order. -/
theorem ExtractFunctions.params_eq (W : World) (pins : List (Option Nat))
    (Ps : List FBlueprintParamData) (h : ExtractFunctions.params W pins = some Ps) :
    Ps = ((pins.filterMap W.pin).filter (fun P =>
      decide (P.Direction = .EGPD_Output) && !FName.Equals P.PinName "then")).map
        paramOfPin := by
  induction pins generalizing Ps with
  | nil =>
    simp only [ExtractFunctions.params, Option.some.injEq] at h
    subst h
    rfl
  | cons p ps ih =>
    rw [ExtractFunctions.params] at h
    split at h
    · cases h
    · rename_i Pin hp
      split at h
      · cases h
      · rename_i rest hrest
        have hr := ih rest hrest
        rw [List.filterMap_cons_some hp]
        split at h
        · rename_i hc
          simp only [Option.some.injEq] at h
          subst h
          rw [List.filter_cons_of_pos (by simp [hc.1, hc.2]), List.map_cons, ← hr]
          rfl
        · rename_i hc
          simp only [Option.some.injEq] at h
          subst h
          rw [List.filter_cons_of_neg, ← hr]
          intro hx
          simp only [Bool.and_eq_true, decide_eq_true_eq, Bool.not_eq_true',
            Bool.not_eq_eq_eq_not, Bool.not_true] at hx
          exact hc ⟨hx.1, hx.2⟩

/-- The record of a function graph: its name, and for an entry node the
output pins not named `then` as parameters. -/
theorem ExtractFunctions.functionData_spec (W : World) (FG : UEdGraph)
    (F : FBlueprintFunctionData) (h : ExtractFunctions.functionData W FG = some F) :
    F.Name = FG.Name ∧
    ∀ E, ExtractFunctions.entryNode W FG.Nodes = some E →
      F.Params = notThenOutputParams W E := by
  unfold ExtractFunctions.functionData at h
  split at h
  · rename_i E hE
    split at h
    · cases h
    · rename_i Params hP
      have hPs := ExtractFunctions.params_eq W E.Pins Params hP
      split at h <;>
      · simp only [Option.some.injEq] at h
        subst h
        refine ⟨rfl, ?_⟩
        intro E' hE'
        rw [hE] at hE'
        cases hE'
        exact hPs
  · rename_i hE
    simp only [Option.some.injEq] at h
    subst h
    refine ⟨rfl, ?_⟩
    intro E' hE'
    rw [hE] at hE'
    cases hE'

/-- The function-graph loop of `ExtractFunctions` emits one record per graph,
in order, each the record of its graph. -/
theorem ExtractFunctions.functionGraphs_forall₂ (W : World) (graphs : List (Option UEdGraph))
    (Fs : List FBlueprintFunctionData) (h : ExtractFunctions.functionGraphs W graphs = some Fs) :
    List.Forall₂ (fun g F => ∃ FG, g = some FG ∧ ExtractFunctions.functionData W FG = some F)
      graphs Fs := by
  induction graphs generalizing Fs with
  | nil =>
    simp only [ExtractFunctions.functionGraphs, Option.some.injEq] at h
    subst h
    exact List.Forall₂.nil
  | cons g gs ih =>
    cases g with
    | none => simp [ExtractFunctions.functionGraphs] at h
    | some FG =>
      rw [ExtractFunctions.functionGraphs] at h
      split at h
      · cases h
      · rename_i FD hFD
        split at h
        · cases h
        · rename_i rest hrest
          simp only [Option.some.injEq] at h
          subst h
          exact List.Forall₂.cons ⟨FG, rfl, hFD⟩ (ih rest hrest)

/-- When the output pins named `then` are the execution output pins, the two
selections of parameters agree. -/
theorem notThenOutputParams_eq_nonExec (W : World) (E : UEdGraphNode) (hT : ThenIsExec W E) :
    notThenOutputParams W E = nonExecOutputParams W E := by
  unfold notThenOutputParams nonExecOutputParams
  congr 1
  apply List.filter_congr
  intro P hP
  by_cases hd : P.Direction = .EGPD_Output
  · rw [hT P hP hd]
  · simp [hd]

/-- A node reached through a pointer is a node of the table. -/
theorem World.node_mem (W : World) (n : Option Nat) (N : UEdGraphNode)
    (h : W.node n = some N) : N ∈ W.Nodes := by
  cases n with
  | none => cases h
  | some a => exact List.getElem?_mem h

/-- The entry node found in a graph is a node of the table. -/
theorem ExtractFunctions.entryNode_mem (W : World) (nodes : List (Option Nat))
    (E : UEdGraphNode) (h : ExtractFunctions.entryNode W nodes = some E) : E ∈ W.Nodes := by
  induction nodes with
  | nil => cases h
  | cons n ns ih =>
    rw [ExtractFunctions.entryNode] at h
    split at h
    · rename_i N hN
      split at h
      · simp only [Option.some.injEq] at h
        subst h
        exact W.node_mem n N hN
      · exact ih h
    · exact ih h

/-- The parameter loop returns when no pin pointer is null. -/
theorem ExtractFunctions.params_isSome (W : World) (pins : List (Option Nat))
    (h : ∀ p ∈ pins, (W.pin p).isSome = true) :
    (ExtractFunctions.params W pins).isSome = true := by
  induction pins with
  | nil => rfl
  | cons p ps ih =>
    obtain ⟨Pin, hP⟩ := Option.isSome_iff_exists.1 (h p (List.mem_cons_self _ _))
    obtain ⟨rest, hr⟩ := Option.isSome_iff_exists.1
      (ih (fun q hq => h q (List.mem_cons_of_mem _ hq)))
    rw [ExtractFunctions.params, hP, hr]
    simp only []
    split <;> rfl

/-- The body of the function-graph loop returns when no pin pointer is null. -/
theorem ExtractFunctions.functionData_isSome (W : World) (FG : UEdGraph)
    (h : ∀ N ∈ W.Nodes, ∀ p ∈ N.Pins, (W.pin p).isSome = true) :
    (ExtractFunctions.functionData W FG).isSome = true := by
  unfold ExtractFunctions.functionData
  split
  · rename_i E hE
    obtain ⟨Ps, hPs⟩ := Option.isSome_iff_exists.1
      (ExtractFunctions.params_isSome W E.Pins (h E (ExtractFunctions.entryNode_mem W _ E hE)))
    rw [hPs]
    simp only []
    split <;> rfl
  · rfl

/-- The function-graph loop returns when no graph or pin pointer is null. -/
theorem ExtractFunctions.functionGraphs_isSome (W : World) (graphs : List (Option UEdGraph))
    (hg : ∀ g ∈ graphs, g.isSome = true)
    (h : ∀ N ∈ W.Nodes, ∀ p ∈ N.Pins, (W.pin p).isSome = true) :
    (ExtractFunctions.functionGraphs W graphs).isSome = true := by
  induction graphs with
  | nil => rfl
  | cons g gs ih =>
    cases g with
    | none => exact absurd (hg none (List.mem_cons_self _ _)) (by simp)
    | some FG =>
      obtain ⟨FD, hFD⟩ := Option.isSome_iff_exists.1 (ExtractFunctions.functionData_isSome W FG h)
      obtain ⟨rest, hr⟩ := Option.isSome_iff_exists.1
        (ih (fun q hq => hg q (List.mem_cons_of_mem _ hq)))
      rw [ExtractFunctions.functionGraphs, hFD, hr]
      rfl

/-- The event-node loop returns when no pin pointer is null. -/
theorem ExtractFunctions.eventNodes_isSome (W : World) (nodes : List (Option Nat))
    (h : ∀ N ∈ W.Nodes, ∀ p ∈ N.Pins, (W.pin p).isSome = true) :
    (ExtractFunctions.eventNodes W nodes).isSome = true := by
  induction nodes with
  | nil => rfl
  | cons n ns ih =>
    obtain ⟨rest, hr⟩ := Option.isSome_iff_exists.1 ih
    rw [ExtractFunctions.eventNodes]
    split
    · rename_i N hN
      split
      · obtain ⟨Ps, hPs⟩ := Option.isSome_iff_exists.1
          (ExtractFunctions.params_isSome W N.Pins (h N (W.node_mem n N hN)))
        rw [hPs, hr]
        rfl
      · exact ih
    · exact ih

/-- The event-graph loop returns when no graph or pin pointer is null. -/
theorem ExtractFunctions.eventGraphs_isSome (W : World) (graphs : List (Option UEdGraph))
    (hg : ∀ g ∈ graphs, g.isSome = true)
    (h : ∀ N ∈ W.Nodes, ∀ p ∈ N.Pins, (W.pin p).isSome = true) :
    (ExtractFunctions.eventGraphs W graphs).isSome = true := by
  induction graphs with
  | nil => rfl
  | cons g gs ih =>
    cases g with
    | none => exact absurd (hg none (List.mem_cons_self _ _)) (by simp)
    | some EG =>
      obtain ⟨Ev, hEv⟩ := Option.isSome_iff_exists.1 (ExtractFunctions.eventNodes_isSome W EG.Nodes h)
      obtain ⟨rest, hr⟩ := Option.isSome_iff_exists.1
        (ih (fun q hq => hg q (List.mem_cons_of_mem _ hq)))
      rw [ExtractFunctions.eventGraphs, hEv, hr]
      rfl

/-- Function `ExtractFunctions` returns when no pointer it follows is null. -/
theorem ExtractFunctions_isSome (W : World) (Blueprint : Option Nat) (BP : UBlueprint)
    (hB : W.blueprint Blueprint = some BP) (hN : NoNullPointers W BP) :
    (ExtractFunctions W Blueprint).isSome = true := by
  obtain ⟨Fn, hFn⟩ := Option.isSome_iff_exists.1
    (ExtractFunctions.functionGraphs_isSome W BP.FunctionGraphs hN.1 hN.2.2)
  obtain ⟨Ev, hEv⟩ := Option.isSome_iff_exists.1
    (ExtractFunctions.eventGraphs_isSome W BP.UbergraphPages hN.2.1 hN.2.2)
  unfold ExtractFunctions
  rw [hB]
  simp only []
  rw [hFn, hEv]
  rfl

/-- C12, as stated, fails: the entry node of `Charge` has the execution output
pin `Completed`, and `ExtractFunctions` lists it as a parameter of type
`exec`; the non-execution output pins are `Amount` alone. -/
theorem extractFunctions_lists_exec_pin_as_param :
    (ExtractFunctions execPinWorld (some 0)).map
      (fun Fs => Fs.map (fun F => (F.Name, F.Params.map (fun q => (q.Name, q.Type_))))) =
      some [("Charge", [("Completed", "exec"), ("Amount", "int")])] ∧
    (nonExecOutputParams execPinWorld
      { ClassName := "K2Node_FunctionEntry", Kind := .FunctionEntry
        Pins := [some 0, some 1, some 2] }).map (fun q => (q.Name, q.Type_)) =
      [("Amount", "int")] ∧
    ¬ ∀ Fs ∈ ExtractFunctions execPinWorld (some 0), ∀ F ∈ Fs,
        ∀ q ∈ F.Params, FName.Equals q.Type_ PC_Exec = false := by
  refine ⟨by decide, by decide, ?_⟩
  intro h
  have hE : (ExtractFunctions execPinWorld (some 0)).isSome = true := by decide
  obtain ⟨Fs, hFs⟩ := Option.isSome_iff_exists.1 hE
  have h2 : (ExtractFunctions execPinWorld (some 0)).map
      (fun Fs => Fs.all (fun F => F.Params.all (fun q => !FName.Equals q.Type_ PC_Exec))) =
      some false := by decide
  rw [hFs] at h2
  simp only [Option.map_some', Option.some.injEq] at h2
  have h3 : Fs.all (fun F => F.Params.all (fun q => !FName.Equals q.Type_ PC_Exec)) = true := by
    simp only [List.all_eq_true, Bool.not_eq_true']
    exact h Fs hFs
  rw [h3] at h2
  cases h2

/-- C12, amended: on a non-null blueprint `ExtractFunctions` returns when no
pointer it follows is null, and whenever it returns, its result starts with one
record per function graph, in order, named after the graph; for a graph with an
entry node the parameters are exactly the entry node's output pins whose name
is not `then` (ignoring case), in pin order, each with the pin's name, the
pin's category as type and `IsOutput = false`.  The pin name is tested, not the
pin type: these are the non-execution output pins when, on the entry node's
output pins, being named `then` and being of execution type coincide. -/
theorem extractFunctions_params_are_not_then_outputs (W : World) (Blueprint : Option Nat)
    (BP : UBlueprint) (hB : W.blueprint Blueprint = some BP) :
    (NoNullPointers W BP → (ExtractFunctions W Blueprint).isSome = true) ∧
    ∀ Fs, ExtractFunctions W Blueprint = some Fs →
      ∃ Fn Ev, Fs = Fn ++ Ev ∧
        List.Forall₂ (fun g F => ∃ FG, g = some FG ∧ F.Name = FG.Name ∧
          ∀ E, ExtractFunctions.entryNode W FG.Nodes = some E →
            F.Params = notThenOutputParams W E ∧
            (ThenIsExec W E → F.Params = nonExecOutputParams W E))
          BP.FunctionGraphs Fn := by
  refine ⟨ExtractFunctions_isSome W Blueprint BP hB, ?_⟩
  intro Fs h
  unfold ExtractFunctions at h
  rw [hB] at h
  simp only [] at h
  split at h
  · cases h
  · rename_i Fn hFn
    split at h
    · cases h
    · rename_i Ev hEv
      simp only [Option.some.injEq] at h
      subst h
      refine ⟨Fn, Ev, rfl, ?_⟩
      refine (ExtractFunctions.functionGraphs_forall₂ W _ _ hFn).imp ?_
      rintro g F ⟨FG, rfl, hFD⟩
      obtain ⟨hname, hpar⟩ := ExtractFunctions.functionData_spec W FG F hFD
      refine ⟨FG, rfl, hname, ?_⟩
      intro E hE
      refine ⟨hpar E hE, ?_⟩
      intro hT
      rw [hpar E hE, notThenOutputParams_eq_nonExec W E hT]

/-- C12 amended, on the sample blueprint `Enemy`: the function `TakeDamage` has
the one parameter `Amount`, of type `int`, the entry node's output pin that is
not named `then`. -/
theorem extractFunctions_params_are_not_then_outputs_witness :
    ∃ BP Fs Fn Ev, sampleWorld.blueprint (some 0) = some BP ∧
      ExtractFunctions sampleWorld (some 0) = some Fs ∧ Fs = Fn ++ Ev ∧
      Fs.map (fun F => (F.Name, F.Params.map (fun q => (q.Name, q.Type_, q.IsOutput)))) =
        [("TakeDamage", [("Amount", "int", false)])] ∧
      List.Forall₂ (fun (g : Option UEdGraph) (F : FBlueprintFunctionData) =>
        ∃ FG, g = some FG ∧ F.Name = FG.Name ∧
        ∀ E, ExtractFunctions.entryNode sampleWorld FG.Nodes = some E →
          F.Params = notThenOutputParams sampleWorld E ∧
          (ThenIsExec sampleWorld E → F.Params = nonExecOutputParams sampleWorld E))
        BP.FunctionGraphs Fn := by
  have hE : (ExtractFunctions sampleWorld (some 0)).isSome = true := by decide
  obtain ⟨Fs, hFs⟩ := Option.isSome_iff_exists.1 hE
  have hB : (sampleWorld.blueprint (some 0)).isSome = true := by decide
  obtain ⟨BP, hBP⟩ := Option.isSome_iff_exists.1 hB
  obtain ⟨Fn, Ev, hsplit, hall⟩ :=
    (extractFunctions_params_are_not_then_outputs sampleWorld (some 0) BP hBP).2 Fs hFs
  refine ⟨BP, Fs, Fn, Ev, hBP, hFs, hsplit, ?_, hall⟩
  have h2 : (ExtractFunctions sampleWorld (some 0)).map (fun Fs =>
      Fs.map (fun F => (F.Name, F.Params.map (fun q => (q.Name, q.Type_, q.IsOutput))))) =
      some [("TakeDamage", [("Amount", "int", false)])] := by decide
  rw [hFs] at h2
  simpa using h2

/-- The child loop of `ExtractInheritanceReferences`, when the generated class is
not null: one entry per registry asset for which `childEntryOf` builds one, in
registry order. -/
theorem ExtractInheritanceReferences.children_eq (W : World) (BP : UBlueprint) (GC : UClass)
    (hG : BP.GeneratedClass = some GC) (assets : List FAssetData) :
    ExtractInheritanceReferences.children W BP assets =
      some (assets.filterMap (childEntryOf W GC)) := by
  induction assets with
  | nil => rfl
  | cons C rest ih =>
    rw [ExtractInheritanceReferences.children, ih, hG]
    cases hT : C.ParentClassTag with
    | none =>
      simp only []
      rw [List.filterMap_cons_none]
      simp [childEntryOf, hT]
    | some Tag =>
      simp only []
      by_cases hc : FString.ContainsIgnoreCase Tag GC.PathName = true
      · rw [if_pos hc]
        cases hB : W.blueprint C.Asset with
        | none =>
          simp only []
          rw [List.filterMap_cons_none]
          simp [childEntryOf, hT, hc, hB]
        | some CB =>
          simp only []
          rw [List.filterMap_cons_some]
          simp [childEntryOf, hT, hc, hB]
      · rw [if_neg hc]
        rw [List.filterMap_cons_none]
        simp [childEntryOf, hT, hc]

/-- Function `ExtractInheritanceReferences` on a blueprint whose generated class is
not null: the parent entry, then the child entries of the registry. -/
theorem ExtractInheritanceReferences_eq (W : World) (Blueprint : Option Nat) (BP : UBlueprint)
    (GC : UClass) (hB : W.blueprint Blueprint = some BP) (hG : BP.GeneratedClass = some GC) :
    ExtractInheritanceReferences W Blueprint =
      some (ExtractInheritanceReferences.parent W BP ++
        W.AssetRegistry.filterMap (childEntryOf W GC)) := by
  unfold ExtractInheritanceReferences
  rw [hB]
  simp only []
  rw [ExtractInheritanceReferences.children_eq W BP GC hG]

/-- A text starts with each of its leading parts. -/
theorem FString.startsWithChars_append (m c : List Char) :
    FString.startsWithChars (m ++ c) m = true := by
  induction m with
  | nil => cases c <;> rfl
  | cons x xs ih => simp [FString.startsWithChars, ih]

/-- A text contains each of its leading parts. -/
theorem FString.containsChars_append (m c : List Char) :
    FString.containsChars (m ++ c) m = true := by
  cases hl : m ++ c with
  | nil =>
    have hm : m = [] := (List.append_eq_nil.1 hl).1
    subst hm
    rfl
  | cons x xs =>
    rw [FString.containsChars, ← hl, FString.startsWithChars_append]
    rfl

/-- Containment survives text put in front. -/
theorem FString.containsChars_append_left (a l m : List Char)
    (h : FString.containsChars l m = true) : FString.containsChars (a ++ l) m = true := by
  induction a with
  | nil => exact h
  | cons x xs ih =>
    rw [List.cons_append, FString.containsChars, ih]
    simp

/-- A tag that identifies a class contains the path of that class, ignoring
case: the test of the source accepts every tag that identifies the class. -/
theorem TagIdentifies.contains (C : FAssetData) (GC : UClass) (Tag : String)
    (hT : C.ParentClassTag = some Tag) (h : TagIdentifies C GC = true) :
    FString.ContainsIgnoreCase Tag GC.PathName = true := by
  unfold TagIdentifies at h
  rw [hT] at h
  simp only [beq_iff_eq] at h
  unfold FString.ContainsIgnoreCase
  rw [← h]
  unfold exportTextObjectPath FString.lower
  split
  · have := FString.containsChars_append (List.map Char.toLower Tag.toList) []
    rwa [List.append_nil] at this
  · rename_i q rest hd
    have hsplit : Tag.toList =
        Tag.toList.takeWhile (fun c => c != quoteChar) ++
          (q :: (rest.takeWhile (fun c => c != quoteChar) ++
            rest.dropWhile (fun c => c != quoteChar))) := by
      rw [List.takeWhile_append_dropWhile, ← hd, List.takeWhile_append_dropWhile]
    rw [congrArg (List.map Char.toLower) hsplit, List.map_append, List.map_cons,
      List.map_append]
    apply FString.containsChars_append_left
    exact FString.containsChars_append_left [q.toLower] _ _ (FString.containsChars_append _ _)

/-- The "if" half of C11 holds: when the blueprint and its generated class are
not null, every registry asset that loads and whose tag identifies the
generated class has its Incoming Inheritance entry, not indirect, in the
result of `ExtractInheritanceReferences`, which does return. -/
theorem ExtractInheritanceReferences_lists_identified (W : World) (Blueprint : Option Nat)
    (BP : UBlueprint) (GC : UClass) (C : FAssetData) (CB : UBlueprint)
    (hB : W.blueprint Blueprint = some BP) (hG : BP.GeneratedClass = some GC)
    (hC : C ∈ W.AssetRegistry) (hCB : W.blueprint C.Asset = some CB)
    (hI : TagIdentifies C GC = true) :
    ∃ refs, ExtractInheritanceReferences W Blueprint = some refs ∧
      ∃ r ∈ refs, IsChildEntryOf r CB.PathName := by
  refine ⟨_, ExtractInheritanceReferences_eq W Blueprint BP GC hB hG, ?_⟩
  cases hT : C.ParentClassTag with
  | none => simp [TagIdentifies, hT] at hI
  | some Tag =>
    have hc := TagIdentifies.contains C GC Tag hT hI
    refine ⟨{ ReferenceType := .Inheritance, Direction := .Incoming
              BlueprintPath := CB.PathName, BlueprintName := CB.Name
              Context := "Child Class", bIsIndirect := false }, ?_, rfl, rfl, rfl, rfl⟩
    apply List.mem_append_right
    rw [List.mem_filterMap]
    exact ⟨C, hC, by simp [childEntryOf, hT, hc, hCB]⟩

/-- C11: the child test of `ExtractInheritanceReferences` is substring
containment, so a tag that names another class whose path contains the path of
our class also passes.  In `shadowWorld` the blueprint `Child` derives from
`/Game/Mods/Game/Base`; its tag identifies that class and not the class of
`/Game/Base`, yet the references of `/Game/Base` hold an Incoming Inheritance
entry, not indirect, for `/Game/Mods/Child`, as do those of
`/Game/Mods/Game/Base`. -/
theorem extractInheritanceReferences_child_of_other_class :
    (ExtractInheritanceReferences shadowWorld (some 0)).map
      (fun refs => refs.map (fun r =>
        (r.ReferenceType, r.Direction, r.BlueprintPath, r.bIsIndirect))) =
      some [(.Inheritance, .Incoming, "/Game/Mods/Child", false)] ∧
    (ExtractInheritanceReferences shadowWorld (some 1)).map
      (fun refs => refs.map (fun r =>
        (r.ReferenceType, r.Direction, r.BlueprintPath, r.bIsIndirect))) =
      some [(.Inheritance, .Incoming, "/Game/Mods/Child", false)] ∧
    (∃ A Other C CB GC OtherGC, shadowWorld.blueprint (some 0) = some A ∧
      shadowWorld.blueprint (some 1) = some Other ∧
      shadowWorld.AssetRegistry[2]? = some C ∧ shadowWorld.blueprint C.Asset = some CB ∧
      A.GeneratedClass = some GC ∧ Other.GeneratedClass = some OtherGC ∧
      CB.PathName = "/Game/Mods/Child" ∧ CB.ParentClass = some OtherGC ∧
      TagIdentifies C OtherGC = true ∧ TagIdentifies C GC = false ∧
      ¬ ((∃ refs r, ExtractInheritanceReferences shadowWorld (some 0) = some refs ∧ r ∈ refs ∧
            IsChildEntryOf r CB.PathName) ↔ TagIdentifies C GC = true)) := by
  refine ⟨by decide, by decide, ?_⟩
  refine ⟨_, _, _, _, _, _, rfl, rfl, rfl, rfl, rfl, rfl, rfl, rfl, by decide, by decide, ?_⟩
  intro h
  have hE : (ExtractInheritanceReferences shadowWorld (some 0)).isSome = true := by decide
  obtain ⟨refs, hrefs⟩ := Option.isSome_iff_exists.1 hE
  have hAny : (ExtractInheritanceReferences shadowWorld (some 0)).map
      (fun refs => refs.any (fun r => decide (IsChildEntryOf r "/Game/Mods/Child"))) =
      some true := by decide
  rw [hrefs] at hAny
  simp only [Option.map_some', Option.some.injEq, List.any_eq_true, decide_eq_true_eq] at hAny
  obtain ⟨r, hr, hc⟩ := hAny
  have := h.1 ⟨refs, r, hrefs, hr, hc⟩
  revert this
  decide

/-- Paths that are equal ignoring case load the same object. -/
theorem World.LoadObject_congr (W : World) (k p : String)
    (h : FString.EqualsIgnoreCase k p = true) : W.LoadObject k = W.LoadObject p := by
  have hk : FString.lower k = FString.lower p := by
    unfold FString.EqualsIgnoreCase at h
    exact eq_of_beq h
  have hf : (fun b : UBlueprint => FString.EqualsIgnoreCase b.PathName k) =
      (fun b : UBlueprint => FString.EqualsIgnoreCase b.PathName p) := by
    funext b
    unfold FString.EqualsIgnoreCase
    rw [hk]
  unfold World.LoadObject
  rw [hf]

/-- A list found in a sound cache is an extraction of the blueprint at the
requested path. -/
theorem ReferenceCache.Find_sound (W : World) (Cache : ReferenceCache) (Path : String)
    (L : List FBlueprintReferenceData) (hS : CacheSound W Cache)
    (hF : Cache.Find Path = some L) :
    ∃ a b, W.LoadObject Path = some a ∧ ExtractReferences W (some a) b = some L := by
  unfold ReferenceCache.Find at hF
  cases hfind : Cache.find? (fun e => FString.EqualsIgnoreCase e.1 Path) with
  | none => rw [hfind] at hF; cases hF
  | some e =>
    rw [hfind] at hF
    simp only [Option.map_some', Option.some.injEq] at hF
    subst hF
    obtain ⟨a, b, hl, he⟩ := hS e (List.mem_of_find?_eq_some hfind)
    have hk := List.find?_some hfind
    exact ⟨a, b, (W.LoadObject_congr e.1 Path hk) ▸ hl, he⟩

/-- Storing an extraction of the blueprint at `Path` under `Path` keeps the
cache sound. -/
theorem ReferenceCache.Add_sound (W : World) (Cache : ReferenceCache) (Path : String)
    (L : List FBlueprintReferenceData) (a : Nat) (b : Bool) (hS : CacheSound W Cache)
    (hl : W.LoadObject Path = some a) (he : ExtractReferences W (some a) b = some L) :
    CacheSound W (Cache.Add Path L) := by
  intro e hm
  unfold ReferenceCache.Add at hm
  split at hm
  · rw [List.mem_map] at hm
    obtain ⟨e0, he0, rfl⟩ := hm
    by_cases hk : FString.EqualsIgnoreCase e0.1 Path = true
    · rw [if_pos hk]
      exact ⟨a, b, (W.LoadObject_congr e0.1 Path hk) ▸ hl, he⟩
    · rw [if_neg hk]
      exact hS e0 he0
  · rw [List.mem_append, List.mem_singleton] at hm
    rcases hm with hm | rfl
    · exact hS e hm
    · exact ⟨a, b, hl, he⟩

/-- On a list of direct entries that is not empty the scan of
`GetBlueprintReferences` asks for a re-extraction. -/
theorem GetBlueprintReferences.needToReextract_direct (L : List FBlueprintReferenceData)
    (hD : ∀ r ∈ L, r.bIsIndirect = false) :
    GetBlueprintReferences.needToReextract L true = true := by
  induction L with
  | nil => rfl
  | cons x xs ih =>
    rw [GetBlueprintReferences.needToReextract, hD x (List.mem_cons_self _ _)]
    simp only [Bool.false_eq_true, if_false]
    exact ih (fun r hr => hD r (List.mem_cons_of_mem _ hr))

/-- A list of direct entries on which the scan does not ask for a
re-extraction is empty. -/
theorem GetBlueprintReferences.needToReextract_false (L : List FBlueprintReferenceData)
    (hD : ∀ r ∈ L, r.bIsIndirect = false)
    (h : GetBlueprintReferences.needToReextract L false = false) : L = [] := by
  cases L with
  | nil => rfl
  | cons x xs =>
    rw [GetBlueprintReferences.needToReextract, hD x (List.mem_cons_self _ _)] at h
    simp only [Bool.false_eq_true, if_false] at h
    rw [GetBlueprintReferences.needToReextract_direct xs
      (fun r hr => hD r (List.mem_cons_of_mem _ hr))] at h
    cases h

/-- The entries of the indirect pass are flagged indirect. -/
theorem ExtractReferences.indirect_flag (W : World) (D I : List FBlueprintReferenceData)
    (h : ExtractReferences.indirect W D = some I) : ∀ r ∈ I, r.bIsIndirect = true := by
  intro r hr
  obtain ⟨R, _, _, T, S2, _, _, S, _, _, rfl⟩ := ExtractReferences.indirect_mem W D I h r hr
  rfl

/-- The shape of an extraction: the direct entries, then (with the indirect
pass) the flagged entries of the pass over them. -/
theorem ExtractReferences_shape (W : World) (Blueprint : Option Nat) (b : Bool)
    (L : List FBlueprintReferenceData) (h : ExtractReferences W Blueprint b = some L) :
    ∃ D I, ExtractReferences.direct W Blueprint = some D ∧ L = D ++ I ∧
      (∀ r ∈ D, r.bIsIndirect = false) ∧ (∀ r ∈ I, r.bIsIndirect = true) ∧
      (b = false → I = []) ∧ (b = true → ExtractReferences.indirect W D = some I) := by
  cases b with
  | false =>
    rw [ExtractReferences_false] at h
    exact ⟨L, [], h, (List.append_nil L).symm,
      fun r hr => (ExtractReferences.direct_direct W Blueprint L h r hr).1,
      fun r hr => (by cases hr), fun _ => rfl, fun hb => (by cases hb)⟩
  | true =>
    rw [ExtractReferences_true] at h
    cases hD : ExtractReferences.direct W Blueprint with
    | none => rw [hD] at h; cases h
    | some D =>
      rw [hD] at h
      simp only [Option.some_bind] at h
      cases hI : ExtractReferences.indirect W D with
      | none => rw [hI] at h; cases h
      | some I =>
        rw [hI] at h
        simp only [Option.map_some', Option.some.injEq] at h
        exact ⟨D, I, rfl, h.symm,
          fun r hr => (ExtractReferences.direct_direct W Blueprint D hD r hr).1,
          ExtractReferences.indirect_flag W D I hI, fun hb => (by cases hb), fun _ => hI⟩

/-- Filtering the indirect entries out of an extraction leaves its direct part. -/
theorem ExtractReferences.filter_direct (D I : List FBlueprintReferenceData)
    (hD : ∀ r ∈ D, r.bIsIndirect = false) (hI : ∀ r ∈ I, r.bIsIndirect = true) :
    (D ++ I).filter (fun Reference => !Reference.bIsIndirect) = D := by
  rw [List.filter_append]
  have h1 : D.filter (fun Reference => !Reference.bIsIndirect) = D := by
    rw [List.filter_eq_self]
    intro r hr
    simp [hD r hr]
  have h2 : I.filter (fun Reference => !Reference.bIsIndirect) = [] := by
    rw [List.filter_eq_nil_iff]
    intro r hr
    simp [hI r hr]
  rw [h1, h2, List.append_nil]

/-- One call of `GetBlueprintReferences` on a sound cache: it returns what a
fresh extraction returns (and fails exactly when that fails), and it leaves a
sound cache. -/
theorem GetBlueprintReferences_transparent (W : World) (Cache : ReferenceCache)
    (Path : String) (b : Bool) (hS : CacheSound W Cache) :
    (GetBlueprintReferences W Cache Path b).map Prod.fst = freshReferences W Path b ∧
    ∀ out Cache1, GetBlueprintReferences W Cache Path b = some (out, Cache1) →
      CacheSound W Cache1 := by
  have hmiss : ∀ (R : List FBlueprintReferenceData),
      (W.LoadObject Path = none → R = []) →
      ((match W.LoadObject Path with
        | some Blueprint =>
          match ExtractReferences W (some Blueprint) b with
          | none => none
          | some Extracted => some (Extracted, Cache.Add Path Extracted)
        | none => some (R, Cache)).map Prod.fst = freshReferences W Path b) ∧
      ∀ out Cache1,
        (match W.LoadObject Path with
        | some Blueprint =>
          match ExtractReferences W (some Blueprint) b with
          | none => none
          | some Extracted => some (Extracted, Cache.Add Path Extracted)
        | none => some (R, Cache)) = some (out, Cache1) → CacheSound W Cache1 := by
    intro R hR
    unfold freshReferences
    cases hl : W.LoadObject Path with
    | none =>
      simp only [Option.map_some']
      rw [hR hl]
      refine ⟨rfl, ?_⟩
      intro out Cache1 h
      simp only [Option.some.injEq, Prod.mk.injEq] at h
      rw [← h.2]
      exact hS
    | some a =>
      simp only []
      cases he : ExtractReferences W (some a) b with
      | none =>
        simp only [Option.map_none']
        exact ⟨trivial, fun out Cache1 h => by cases h⟩
      | some E =>
        simp only [Option.map_some']
        refine ⟨trivial, ?_⟩
        intro out Cache1 h
        simp only [Option.some.injEq, Prod.mk.injEq] at h
        rw [← h.2]
        exact ReferenceCache.Add_sound W Cache Path E a b hS hl he
  unfold GetBlueprintReferences
  simp only []
  cases hF : Cache.Find Path with
  | none =>
    simp only [Option.isSome_none, Bool.false_eq_true, false_and, if_false, Option.getD_none]
    exact hmiss [] (fun _ => rfl)
  | some L =>
    obtain ⟨a, b1, hl, he⟩ := ReferenceCache.Find_sound W Cache Path L hS hF
    obtain ⟨D, I, hD, hL, hDd, hIi, hIf, hIt⟩ := ExtractReferences_shape W (some a) b1 L he
    simp only [Option.isSome_some, true_and, Option.getD_some]
    cases b with
    | false =>
      simp only [Bool.false_and, if_true]
      refine ⟨?_, ?_⟩
      · simp only [Option.map_some']
        unfold freshReferences
        rw [hl]
        simp only []
        rw [ExtractReferences_false, hD, hL, ExtractReferences.filter_direct D I hDd hIi]
      · intro out Cache1 h
        simp only [Option.some.injEq, Prod.mk.injEq] at h
        rw [← h.2]
        exact hS
    | true =>
      simp only [Bool.true_and, Bool.true_eq_false, if_false]
      by_cases hn : GetBlueprintReferences.needToReextract L false = false
      · rw [if_pos hn]
        refine ⟨?_, ?_⟩
        · simp only [Option.map_some']
          unfold freshReferences
          rw [hl]
          simp only []
          cases b1 with
          | true => exact he.symm
          | false =>
            have hI0 := hIf rfl
            subst hI0
            rw [List.append_nil] at hL
            subst hL
            have hE := GetBlueprintReferences.needToReextract_false L hDd hn
            subst hE
            rw [ExtractReferences_true, hD]
            rfl
        · intro out Cache1 h
          simp only [Option.some.injEq, Prod.mk.injEq] at h
          rw [← h.2]
          exact hS
      · rw [if_neg hn]
        exact hmiss L (fun h => by rw [hl] at h; cases h)

/-- The fresh extractions of a sequence, one by one. -/
theorem freshSequence_forall₂ (W : World) (calls : List (String × Bool))
    (outs : List (List FBlueprintReferenceData)) (h : freshSequence W calls = some outs) :
    List.Forall₂ (fun c out => freshReferences W c.1 c.2 = some out) calls outs := by
  induction calls generalizing outs with
  | nil =>
    simp only [freshSequence, Option.some.injEq] at h
    subst h
    exact List.Forall₂.nil
  | cons c rest ih =>
    rw [freshSequence] at h
    split at h
    · cases h
    · rename_i out hout
      split at h
      · cases h
      · rename_i more hmore
        simp only [Option.some.injEq] at h
        subst h
        exact List.Forall₂.cons hout (ih more hmore)

/-- A fresh extraction without the indirect pass holds direct entries only. -/
theorem freshReferences_false_direct (W : World) (Path : String)
    (out : List FBlueprintReferenceData) (h : freshReferences W Path false = some out) :
    ∀ r ∈ out, r.bIsIndirect = false := by
  unfold freshReferences at h
  split at h
  · simp only [Option.some.injEq] at h
    subst h
    intro r hr
    cases hr
  · rename_i a _
    rw [ExtractReferences_false] at h
    exact fun r hr => (ExtractReferences.direct_direct W (some a) out h r hr).1

/-- A sequence of calls on a sound cache returns the fresh extractions of its
requests, and fails exactly when one of them fails. -/
theorem GetBlueprintReferences.run_transparent (W : World) (calls : List (String × Bool))
    (Cache : ReferenceCache) (hS : CacheSound W Cache) :
    (GetBlueprintReferences.run W Cache calls).map Prod.fst = freshSequence W calls := by
  induction calls generalizing Cache with
  | nil => rfl
  | cons c rest ih =>
    obtain ⟨h1, h2⟩ := GetBlueprintReferences_transparent W Cache c.1 c.2 hS
    rw [GetBlueprintReferences.run, freshSequence, ← h1]
    cases hG : GetBlueprintReferences W Cache c.1 c.2 with
    | none => rfl
    | some r =>
      obtain ⟨out, Cache1⟩ := r
      simp only [Option.map_some']
      rw [← ih Cache1 (h2 out Cache1 hG)]
      cases GetBlueprintReferences.run W Cache1 rest with
      | none => rfl
      | some q => rfl

/-- C17: from the empty cache, a sequence of `GetBlueprintReferences` calls
returns, call by call, the list a fresh `ExtractReferences(load(p), b)` returns
(the empty list when `p` does not load), and fails exactly when one of these
fresh extractions fails.  So each result equals the fresh one, whatever the
cache holds by then, and a request without indirect entries gets no entry
flagged indirect. -/
theorem getBlueprintReferences_cache_transparent (W : World) (calls : List (String × Bool)) :
    (GetBlueprintReferences.run W [] calls).map Prod.fst = freshSequence W calls ∧
    ∀ outs Cache, GetBlueprintReferences.run W [] calls = some (outs, Cache) →
      List.Forall₂ (fun c out => freshReferences W c.1 c.2 = some out ∧
        (c.2 = false → ∀ r ∈ out, r.bIsIndirect = false)) calls outs := by
  have hrun := GetBlueprintReferences.run_transparent W calls []
    (fun e he => by cases he)
  refine ⟨hrun, ?_⟩
  intro outs Cache h
  rw [h] at hrun
  simp only [Option.map_some'] at hrun
  refine (freshSequence_forall₂ W calls outs hrun.symm).imp ?_
  intro c out hc
  refine ⟨hc, ?_⟩
  intro hb
  rw [hb] at hc
  exact freshReferences_false_direct W c.1 out hc

/-- C17 on `A → B → C`: a direct-only request for `A`, then a request with
indirect entries under another spelling of the path, then a direct-only one
again, then a path that does not load.  The four results are the fresh ones:
`[B]`, `[B, C (indirect)]`, `[B]`, `[]`. -/
theorem getBlueprintReferences_cache_transparent_witness :
    ∃ outs Cache,
      GetBlueprintReferences.run refWorld []
        [("/Game/A", false), ("/game/a", true), ("/Game/A", false), ("/Game/Nope", true)] =
        some (outs, Cache) ∧
      freshSequence refWorld
        [("/Game/A", false), ("/game/a", true), ("/Game/A", false), ("/Game/Nope", true)] =
        some outs ∧
      outs.map (fun out => out.map (fun r => (r.BlueprintPath, r.bIsIndirect))) =
        [[("/Game/B", false)], [("/Game/B", false), ("/Game/C", true)],
         [("/Game/B", false)], []] := by
  have hE : (GetBlueprintReferences.run refWorld []
      [("/Game/A", false), ("/game/a", true), ("/Game/A", false),
       ("/Game/Nope", true)]).isSome = true := by decide
  obtain ⟨⟨outs, Cache⟩, h⟩ := Option.isSome_iff_exists.1 hE
  have hT := (getBlueprintReferences_cache_transparent refWorld
    [("/Game/A", false), ("/game/a", true), ("/Game/A", false), ("/Game/Nope", true)]).1
  have h2 : (GetBlueprintReferences.run refWorld []
      [("/Game/A", false), ("/game/a", true), ("/Game/A", false),
       ("/Game/Nope", true)]).map (fun x =>
        x.1.map (fun out => out.map (fun r => (r.BlueprintPath, r.bIsIndirect)))) =
      some [[("/Game/B", false)], [("/Game/B", false), ("/Game/C", true)],
            [("/Game/B", false)], []] := by decide
  rw [h] at hT h2
  simp only [Option.map_some', Option.some.injEq] at hT h2
  exact ⟨outs, Cache, h, hT.symm, h2⟩

/-! ### Claims C21 to C30 -/

/-- One iteration of the filter loop is a filter by the test of its parameter. -/
theorem SearchWithParameters.filterStep_eq (Results : List FBlueprintData)
    (Param : String × String) :
    SearchWithParameters.filterStep Results Param =
      Results.filter (SearchWithParameters.paramTest Param) := by
  unfold SearchWithParameters.filterStep SearchWithParameters.paramTest
  cases SearchWithParameters.keyTest Param.1 Param.2 with
  | none => simp
  | some test => rfl

/-- The filter loop is one filter by all the parameter tests. -/
theorem SearchWithParameters.filterStage_eq (SearchParams : TMap)
    (AllBlueprints : List FBlueprintData) :
    SearchWithParameters.filterStage SearchParams AllBlueprints =
      AllBlueprints.filter (fun Blueprint =>
        SearchParams.all (fun Param => SearchWithParameters.paramTest Param Blueprint)) := by
  unfold SearchWithParameters.filterStage
  induction SearchParams generalizing AllBlueprints with
  | nil => simp
  | cons Param rest ih =>
    rw [List.foldl_cons, ih, SearchWithParameters.filterStep_eq, List.filter_filter]
    congr 1
    funext Blueprint
    simp only [List.all_cons]
    exact Bool.and_comm _ _

/-- C28: the filtering stage of `SearchWithParameters` gives the same list for
every two orderings of the same key/value pairs, and that list is a sublist of
the input list: relative order kept, nothing duplicated. -/
theorem filterStage_order_independent (P1 P2 : TMap) (AllBlueprints : List FBlueprintData)
    (h : List.Perm P1 P2) :
    SearchWithParameters.filterStage P1 AllBlueprints =
      SearchWithParameters.filterStage P2 AllBlueprints ∧
    List.Sublist (SearchWithParameters.filterStage P1 AllBlueprints) AllBlueprints := by
  rw [SearchWithParameters.filterStage_eq, SearchWithParameters.filterStage_eq]
  refine ⟨?_, List.filter_sublist _⟩
  congr 1
  funext Blueprint
  rw [Bool.eq_iff_iff]
  simp only [List.all_eq_true]
  exact ⟨fun hp x hx => hp x (h.mem_iff.2 hx), fun hp x hx => hp x (h.mem_iff.1 hx)⟩

/-- C28 on the four sample views: `Name = foo` then `Function = tick`, and the
other way round, both keep `FooActor` and `MyFOOD`, in input order. -/
theorem filterStage_order_independent_witness :
    SearchWithParameters.filterStage [("Name", "foo"), ("Function", "tick")] searchSample =
      SearchWithParameters.filterStage [("Function", "tick"), ("Name", "foo")] searchSample ∧
    List.Sublist (SearchWithParameters.filterStage [("Name", "foo"), ("Function", "tick")]
      searchSample) searchSample ∧
    (SearchWithParameters.filterStage [("Function", "tick"), ("Name", "foo")] searchSample).map
      (fun View => View.Name) = ["FooActor", "MyFOOD"] := by
  have h := filterStage_order_independent [("Name", "foo"), ("Function", "tick")]
    [("Function", "tick"), ("Name", "foo")] searchSample (List.Perm.swap _ _ _)
  exact ⟨h.1, h.2, by decide⟩

/-- At Basic level `GetAllBlueprints` returns, without loading anything, the
record built from each registry entry. -/
theorem GetAllBlueprints_basic (W : World) :
    GetAllBlueprints W .Basic = some (W.AssetRegistry.map BasicFromAssetData) := by
  unfold GetAllBlueprints
  induction W.AssetRegistry with
  | nil => rfl
  | cons A rest ih =>
    rw [GetAllBlueprints.assets, ih]
    rfl

/-- Under a key that is none of the five known ones no blueprint passes. -/
theorem SearchWithParameters.paramTest_unknown (Param : String × String)
    (hK : ¬ KnownKey Param.1) (Blueprint : FBlueprintData) :
    SearchWithParameters.paramTest Param Blueprint = false := by
  unfold KnownKey at hK
  simp only [not_or, Bool.not_eq_true] at hK
  obtain ⟨h1, h2, h3, h4, h5⟩ := hK
  unfold SearchWithParameters.paramTest SearchWithParameters.keyTest
  simp [h1, h2, h3, h4, h5]

/-- With a key that is none of the five known ones the filter loop ends with
the empty list. -/
theorem SearchWithParameters.filterStage_unknown (SearchParams : TMap)
    (AllBlueprints : List FBlueprintData) (hU : ∃ p ∈ SearchParams, ¬ KnownKey p.1) :
    SearchWithParameters.filterStage SearchParams AllBlueprints = [] := by
  obtain ⟨p, hp, hK⟩ := hU
  rw [SearchWithParameters.filterStage_eq, List.filter_eq_nil_iff]
  intro Blueprint _
  simp only [List.all_eq_true, Bool.not_eq_true, not_forall]
  exact ⟨p, hp, by simp [SearchWithParameters.paramTest_unknown p hK Blueprint]⟩

/-- What the second projection pass returns: per result, in order, the view
`GetBlueprintByPath` gives at the requested level, or the result itself when
its path does not resolve. -/
theorem upgradeResults_forall₂ (W : World) (DetailLevel : EBlueprintDetailLevel)
    (Results Out : List FBlueprintData) (h : upgradeResults W DetailLevel Results = some Out) :
    List.Forall₂ (fun Result View =>
      GetBlueprintByPath W Result.Path DetailLevel "" 0 0 = some (some View) ∨
      (GetBlueprintByPath W Result.Path DetailLevel "" 0 0 = some none ∧ View = Result))
      Results Out := by
  induction Results generalizing Out with
  | nil =>
    simp only [upgradeResults, Option.some.injEq] at h
    subst h
    exact List.Forall₂.nil
  | cons R rest ih =>
    rw [upgradeResults] at h
    split at h
    · cases h
    · rename_i Detailed hD
      split at h
      · cases h
      · rename_i more hmore
        split at h
        · rename_i View
          simp only [Option.some.injEq] at h
          subst h
          exact List.Forall₂.cons (Or.inl hD) (ih more hmore)
        · simp only [Option.some.injEq] at h
          subst h
          exact List.Forall₂.cons (Or.inr ⟨hD, rfl⟩) (ih more hmore)

/-- C29: when the parameter map holds a key that is none of Name, ParentClass,
Function, Variable, Path (ignoring case), the filter loop of
`SearchWithParameters` ends with the empty list whatever the blueprints and the
other parameters are, and `SearchWithParameters` returns the empty list
whenever its extraction of all blueprints returns (always, when no key is
Function or Variable); so does the search handler for a search type that is
none of the names it knows.  With the empty map nothing is filtered: at Basic
level the result is the record of every registry entry, and at a higher level
it is these records, in order, each replaced by its view at that level when its
path resolves. -/
theorem searchWithParameters_unknown_key_empty (W : World) (SearchParams : TMap)
    (DetailLevel : EBlueprintDetailLevel) :
    ((∃ p ∈ SearchParams, ¬ KnownKey p.1) →
      (∀ AllBlueprints, SearchWithParameters.filterStage SearchParams AllBlueprints = []) ∧
      (SearchWithParameters W SearchParams DetailLevel).isSome =
        (GetAllBlueprints W (SearchWithParameters.searchLevel SearchParams)).isSome ∧
      (∀ Results, SearchWithParameters W SearchParams DetailLevel = some Results →
        Results = []) ∧
      (SearchWithParameters.searchLevel SearchParams = .Basic →
        SearchWithParameters W SearchParams DetailLevel = some [])) ∧
    (∀ SearchType Query, ¬ KnownKey SearchType →
      HandleSearchBlueprints.search W SearchType Query DetailLevel = some []) ∧
    (∀ AllBlueprints, SearchWithParameters.filterStage [] AllBlueprints = AllBlueprints) ∧
    SearchWithParameters W [] .Basic = some (W.AssetRegistry.map BasicFromAssetData) ∧
    (∀ Results, SearchWithParameters W [] DetailLevel = some Results →
      List.Forall₂ (fun Asset View =>
        View = BasicFromAssetData Asset ∨
        GetBlueprintByPath W (BasicFromAssetData Asset).Path DetailLevel "" 0 0 =
          some (some View))
        W.AssetRegistry Results) := by
  have hunk : ∀ P : TMap, (∃ p ∈ P, ¬ KnownKey p.1) →
      (SearchWithParameters W P DetailLevel).isSome =
        (GetAllBlueprints W (SearchWithParameters.searchLevel P)).isSome ∧
      (∀ Results, SearchWithParameters W P DetailLevel = some Results → Results = []) := by
    intro P hU
    unfold SearchWithParameters
    simp only []
    cases hA : GetAllBlueprints W (SearchWithParameters.searchLevel P) with
    | none => exact ⟨rfl, fun R h => by cases h⟩
    | some All =>
      simp only [SearchWithParameters.filterStage_unknown P All hU, List.length_nil,
        gt_iff_lt, lt_self_iff_false, and_false, if_false, Option.isSome_some,
        Option.some.injEq, true_and]
      exact fun R h => h.symm
  have hbasic : ∀ P : TMap, (∃ p ∈ P, ¬ KnownKey p.1) →
      SearchWithParameters.searchLevel P = .Basic →
      SearchWithParameters W P DetailLevel = some [] := by
    intro P hU hL
    obtain ⟨h1, h2⟩ := hunk P hU
    rw [hL, GetAllBlueprints_basic] at h1
    obtain ⟨R, hR⟩ := Option.isSome_iff_exists.1 h1
    rw [hR, h2 R hR]
  refine ⟨fun hU => ⟨fun All => SearchWithParameters.filterStage_unknown SearchParams All hU,
    (hunk SearchParams hU).1, (hunk SearchParams hU).2, hbasic SearchParams hU⟩,
    ?_, fun _ => rfl, ?_, ?_⟩
  · intro SearchType Query hK
    have hK' := hK
    unfold KnownKey at hK'
    simp only [not_or, Bool.not_eq_true] at hK'
    obtain ⟨h1, h2, h3, h4, _⟩ := hK'
    have hlow : ∀ a b : String, FString.lower a = FString.lower b →
        FString.EqualsIgnoreCase SearchType a = FString.EqualsIgnoreCase SearchType b := by
      intro a b hab
      unfold FString.EqualsIgnoreCase
      rw [hab]
    unfold HandleSearchBlueprints.search
    rw [hlow "name" "Name" (by decide), hlow "parentClass" "ParentClass" (by decide),
      hlow "function" "Function" (by decide), hlow "variable" "Variable" (by decide),
      h1, h2, h3, h4]
    simp only [Bool.false_eq_true, if_false]
    apply hbasic
    · exact ⟨(SearchType, Query), by simp [TMap.Add], hK⟩
    · simp [SearchWithParameters.searchLevel, TMap.Add, h3, h4]
  · unfold SearchWithParameters
    simp only []
    have hL : SearchWithParameters.searchLevel [] = .Basic := rfl
    rw [hL, GetAllBlueprints_basic]
    simp [EBlueprintDetailLevel.toNat, SearchWithParameters.filterStage]
  · intro Results h
    unfold SearchWithParameters at h
    simp only [] at h
    have hL : SearchWithParameters.searchLevel [] = .Basic := rfl
    rw [hL, GetAllBlueprints_basic] at h
    simp only [SearchWithParameters.filterStage, List.foldl_nil] at h
    split at h
    · have hF := upgradeResults_forall₂ W DetailLevel _ Results h
      rw [List.forall₂_map_left_iff] at hF
      refine hF.imp ?_
      intro Asset View hv
      rcases hv with hv | ⟨_, hv⟩
      · exact Or.inr hv
      · exact Or.inl hv
    · simp only [Option.some.injEq] at h
      subst h
      rw [List.forall₂_map_right_iff]
      exact List.forall₂_same.2 (fun _ _ => Or.inl rfl)

/-- C29 on the sample store: the key `Colour` empties the result although the
`Name` parameter matches the blueprint, a search of type `colour` is empty, and
the empty map returns the one blueprint of the store. -/
theorem searchWithParameters_unknown_key_empty_witness :
    SearchWithParameters sampleWorld [("Name", "Enemy"), ("Colour", "red")] .Basic = some [] ∧
    (SearchWithParameters sampleWorld [("Name", "Enemy")] .Basic).map
      (fun l => l.map (fun View => View.Path)) = some ["/Game/Enemy"] ∧
    HandleSearchBlueprints.search sampleWorld "colour" "red" .Basic = some [] ∧
    (SearchWithParameters sampleWorld [] .Basic).map
      (fun l => l.map (fun View => View.Path)) = some ["/Game/Enemy"] := by
  have h := searchWithParameters_unknown_key_empty sampleWorld
    [("Name", "Enemy"), ("Colour", "red")] .Basic
  refine ⟨(h.1 ⟨("Colour", "red"), by simp, by decide⟩).2.2.2 (by decide), by decide,
    h.2.1 "colour" "red" (by decide), ?_⟩
  rw [h.2.2.2.1]
  decide

/-- The index of the first element that passes a test, when nothing before it
passes. -/
theorem findIdx?_first {α : Type} (p : α → Bool) (pre post : List α) (a : α)
    (h : ∀ x ∈ pre, p x = false) (ha : p a = true) :
    List.findIdx? p (pre ++ a :: post) = some pre.length := by
  induction pre with
  | nil => simp [List.findIdx?_cons, ha]
  | cons x xs ih =>
    simp only [List.cons_append, List.findIdx?_cons, h x (List.mem_cons_self _ _)]
    simp only [Bool.false_eq_true, if_false, List.findIdx?_succ]
    rw [ih (fun y hy => h y (List.mem_cons_of_mem _ hy))]
    simp

/-- Nothing before the first element that passes a test passes it. -/
theorem findIdx?_take {α : Type} (p : α → Bool) (l : List α) (i : Nat)
    (h : List.findIdx? p l = some i) : ∀ x ∈ l.take i, p x = false := by
  induction l generalizing i with
  | nil => intro x hx; simp at hx
  | cons a as ih =>
    rw [List.findIdx?_cons] at h
    by_cases ha : p a = true
    · rw [if_pos ha] at h
      simp only [Option.some.injEq] at h
      subst h
      intro x hx
      simp at hx
    · rw [if_neg ha, List.findIdx?_succ] at h
      cases hi : List.findIdx? p as with
      | none => rw [hi] at h; cases h
      | some j =>
        rw [hi] at h
        simp only [Option.map_some', Option.some.injEq] at h
        subst h
        intro x hx
        rw [List.take_succ_cons, List.mem_cons] at hx
        rcases hx with rfl | hx
        · simpa using ha
        · exact ih j hi x hx

/-- The clean-up on a tag `Class'/Script/<Module>.<Name>'` whose module and
name hold neither a dot nor a quote returns the name. -/
theorem CleanParentClass_scriptClassTag (Module Name : String)
    (hM : PlainName Module) (hN : PlainName Name) :
    CleanParentClass (scriptClassTag Module Name) = Name := by
  have htag : (scriptClassTag Module Name).toList =
      classScriptLead.toList ++
        ((Module.toList ++ Char.ofNat 46 :: Name.toList) ++ [quoteChar]) := by
    simp only [scriptClassTag, String.toList, String.data_append, List.append_assoc]
    rfl
  have hstart : FString.startsWithChars
      ((classScriptLead.toList ++
        ((Module.toList ++ Char.ofNat 46 :: Name.toList) ++ [quoteChar])).map Char.toLower)
      (classScriptLead.toList.map Char.toLower) = true := by
    rw [List.map_append]
    exact FString.startsWithChars_append _ _
  have hq : List.indexOf? quoteChar
      ((Module.toList ++ Char.ofNat 46 :: Name.toList) ++ [quoteChar]) =
      some (Module.toList ++ Char.ofNat 46 :: Name.toList).length := by
    apply findIdx?_first
    · intro x hx
      rw [List.mem_append, List.mem_cons] at hx
      rcases hx with hx | rfl | hx
      · simp only [beq_eq_false_iff_ne, ne_eq]
        rintro rfl
        exact hM.2 hx
      · decide
      · simp only [beq_eq_false_iff_ne, ne_eq]
        rintro rfl
        exact hN.2 hx
    · simp
  have hd : List.indexOf? (Char.ofNat 46) (Module.toList ++ Char.ofNat 46 :: Name.toList) =
      some Module.toList.length := by
    apply findIdx?_first
    · intro x hx
      simp only [beq_eq_false_iff_ne, ne_eq]
      rintro rfl
      exact hM.1 hx
    · simp
  unfold CleanParentClass
  simp only []
  rw [htag, if_pos hstart, List.drop_left, hq]
  simp only []
  rw [List.take_left, hd]
  simp only []
  have hdrop : List.drop (Module.toList.length + 1)
      (Module.toList ++ Char.ofNat 46 :: Name.toList) = Name.toList := by
    rw [show Module.toList ++ Char.ofNat 46 :: Name.toList =
      (Module.toList ++ [Char.ofNat 46]) ++ Name.toList by simp]
    exact List.drop_left' (by simp)
  rw [hdrop]
  rfl

/-- The clean-up never returns a single quote: the text is cut at its first
quote. -/
theorem CleanParentClass_no_quote (ParentClassName : String) :
    quoteChar ∉ (CleanParentClass ParentClassName).toList := by
  have hcut : ∀ c1 : List Char, quoteChar ∉
      (match List.indexOf? quoteChar c1 with
        | some QuoteIndex => c1.take QuoteIndex
        | none => c1) := by
    intro c1
    cases hi : List.indexOf? quoteChar c1 with
    | none =>
      intro hmem
      have := List.findIdx?_eq_none_iff.1 hi quoteChar hmem
      simp at this
    | some i =>
      intro hmem
      have := findIdx?_take _ c1 i hi quoteChar hmem
      simp at this
  unfold CleanParentClass
  simp only []
  split
  · intro hmem
    exact hcut _ (List.mem_of_mem_drop hmem)
  · exact hcut _

/-- C30: both Basic branches build their record from the asset data by the same
clean-up (`GetBlueprintByPath` for the asset at the path, `GetAllBlueprints` for
every registry entry); on a tag `Class'/Script/<Module>.<Name>'` whose module
and name hold neither a dot nor a single quote the parent class is exactly
`<Name>`; and for every tag the parent class holds no single quote. -/
theorem basic_parent_class_cleanup (W : World) (Module Name : String)
    (hM : PlainName Module) (hN : PlainName Name) :
    (∀ Asset : FAssetData, Asset.ParentClassTag = some (scriptClassTag Module Name) →
      (BasicFromAssetData Asset).ParentClass = Name) ∧
    (∀ Asset : FAssetData, quoteChar ∉ (BasicFromAssetData Asset).ParentClass.toList) ∧
    (∀ (Path GraphName : String) (MaxGraphs MaxNodes : Int) (Asset : FAssetData),
      W.GetAssetByObjectPath Path = some Asset →
      GetBlueprintByPath W Path .Basic GraphName MaxGraphs MaxNodes =
        some (some (BasicFromAssetData Asset))) ∧
    GetAllBlueprints W .Basic = some (W.AssetRegistry.map BasicFromAssetData) := by
  refine ⟨?_, ?_, ?_, GetAllBlueprints_basic W⟩
  · intro Asset hT
    unfold BasicFromAssetData
    rw [hT]
    exact CleanParentClass_scriptClassTag Module Name hM hN
  · intro Asset
    unfold BasicFromAssetData
    cases Asset.ParentClassTag with
    | none => simp
    | some Tag => exact CleanParentClass_no_quote Tag
  · intro Path GraphName MaxGraphs MaxNodes Asset hA
    unfold GetBlueprintByPath
    rw [if_pos rfl, hA]

/-- C30 on the tag `Class'/Script/Engine.Actor'`: both Basic branches give the
parent class `Actor`. -/
theorem basic_parent_class_cleanup_witness :
    PlainName "Engine" ∧ PlainName "Actor" ∧
    scriptClassTag "Engine" "Actor" =
      "Class" ++ String.singleton quoteChar ++ "/Script/Engine.Actor" ++
        String.singleton quoteChar ∧
    (BasicFromAssetData
      { AssetName := "Hero", ObjectPath := "/Game/Hero"
        ParentClassTag := some (scriptClassTag "Engine" "Actor") }).ParentClass = "Actor" ∧
    (GetBlueprintByPath
      { AssetRegistry := [{ AssetName := "Hero", ObjectPath := "/Game/Hero"
                            ParentClassTag := some (scriptClassTag "Engine" "Actor") }] }
      "/Game/Hero" .Basic "" 0 0).map (fun o => o.map (fun View => View.ParentClass)) =
      some (some "Actor") ∧
    (GetAllBlueprints
      { AssetRegistry := [{ AssetName := "Hero", ObjectPath := "/Game/Hero"
                            ParentClassTag := some (scriptClassTag "Engine" "Actor") }] }
      .Basic).map (fun l => l.map (fun View => View.ParentClass)) = some ["Actor"] := by
  have h := basic_parent_class_cleanup
    { AssetRegistry := [{ AssetName := "Hero", ObjectPath := "/Game/Hero"
                          ParentClassTag := some (scriptClassTag "Engine" "Actor") }] }
    "Engine" "Actor" (by decide) (by decide)
  refine ⟨by decide, by decide, by decide, h.1 _ rfl, ?_, ?_⟩
  · rw [h.2.2.1 "/Game/Hero" "" 0 0 _ rfl]
    simp only [Option.map_some']
    rw [h.1 _ rfl]
  · rw [h.2.2.2]
    simp only [Option.map_some', List.map_cons, List.map_nil]
    rw [h.1 _ rfl]

/-- The set test of the node limit is membership of the id among the kept
nodes. -/
theorem HandleGetBlueprintByPath.included_iff (Nodes : List FBlueprintNodeData)
    (c : FBlueprintConnectionData) :
    ((Nodes.map (fun Node => Node.NodeId)).contains c.SourceNodeId &&
      (Nodes.map (fun Node => Node.NodeId)).contains c.TargetNodeId) =
      decide (BothEndsKept Nodes c) := by
  rw [Bool.eq_iff_iff]
  simp [BothEndsKept]

/-- C21: for a positive `MaxNodesPerGraph` the node-limit step of
`HandleGetBlueprintByPath` maps every graph to a graph with at most that many
nodes, the first ones of the original list; a graph that had more nodes keeps
exactly the original connections, in order, whose source and target node ids
both belong to kept nodes, so none of its connections names a dropped node;
a graph that had no more nodes is unchanged. -/
theorem limitNodes_keeps_first_and_closed_connections
    (Serialize : List (String × Int) → String) (M : Int) (hM : 0 < M)
    (Graphs : List FBlueprintGraphData) :
    List.Forall₂ (fun G G1 =>
      (G1.Nodes.length : Int) ≤ M ∧ G1.Nodes = G.Nodes.take M.toNat ∧
      G1.Name = G.Name ∧ G1.GraphType = G.GraphType ∧
      (M < (G.Nodes.length : Int) →
        G1.Connections = G.Connections.filter (fun c => decide (BothEndsKept G1.Nodes c)) ∧
        ∀ c ∈ G1.Connections, BothEndsKept G1.Nodes c) ∧
      ((G.Nodes.length : Int) ≤ M → G1 = G))
      Graphs (HandleGetBlueprintByPath.limitNodes Serialize M Graphs) := by
  unfold HandleGetBlueprintByPath.limitNodes
  rw [if_pos hM, List.forall₂_map_right_iff]
  refine List.forall₂_same.2 (fun G _ => ?_)
  unfold HandleGetBlueprintByPath.limitGraph
  simp only []
  by_cases hlt : (G.Nodes.length : Int) > M
  · rw [if_pos hlt]
    have hfil : G.Connections.filter (fun Connection =>
        ((G.Nodes.take M.toNat).map (fun Node => Node.NodeId)).contains
            Connection.SourceNodeId &&
          ((G.Nodes.take M.toNat).map (fun Node => Node.NodeId)).contains
            Connection.TargetNodeId) =
        G.Connections.filter (fun c => decide (BothEndsKept (G.Nodes.take M.toNat) c)) := by
      congr 1
      funext c
      exact HandleGetBlueprintByPath.included_iff _ c
    refine ⟨?_, rfl, rfl, rfl, fun _ => ⟨hfil, ?_⟩, fun hle => absurd hlt (not_lt.2 hle)⟩
    · rw [List.length_take]
      omega
    · intro c hc
      rw [hfil, List.mem_filter] at hc
      exact of_decide_eq_true hc.2
  · rw [if_neg hlt]
    have hle : G.Nodes.length ≤ M.toNat := by omega
    exact ⟨not_lt.1 hlt, (List.take_of_length_le hle).symm, rfl, rfl,
      fun h => absurd h hlt, fun _ => rfl⟩

/-- C21 on the graphs of `BP_Hero` with a limit of two nodes: the event graph
keeps nodes 3 and 4 of its four nodes and the two connection entries between
them; the function graphs, with at most two nodes, are unchanged. -/
theorem limitNodes_keeps_first_and_closed_connections_witness :
    (HandleGetBlueprintByPath.limitNodes (fun _ => "") 2
      (ExtractGraphs graphWorld (some 0) "" 0 0)).map (fun G =>
        (G.Name, G.Nodes.map (fun n => n.NodeId),
          G.Connections.map (fun c => (c.SourceNodeId, c.TargetNodeId)))) =
      [("Fire", [0, 1], [(0, 1), (0, 1)]), ("Reload", [2], []),
       ("EventGraph", [3, 4], [(3, 4), (3, 4)])] ∧
    List.Forall₂ (fun G G1 =>
      (G1.Nodes.length : Int) ≤ 2 ∧ G1.Nodes = G.Nodes.take (2 : Int).toNat ∧
      G1.Name = G.Name ∧ G1.GraphType = G.GraphType ∧
      ((2 : Int) < (G.Nodes.length : Int) →
        G1.Connections = G.Connections.filter (fun c => decide (BothEndsKept G1.Nodes c)) ∧
        ∀ c ∈ G1.Connections, BothEndsKept G1.Nodes c) ∧
      ((G.Nodes.length : Int) ≤ 2 → G1 = G))
      (ExtractGraphs graphWorld (some 0) "" 0 0)
      (HandleGetBlueprintByPath.limitNodes (fun _ => "") 2
        (ExtractGraphs graphWorld (some 0) "" 0 0)) :=
  ⟨by decide, limitNodes_keeps_first_and_closed_connections (fun _ => "") 2 (by decide)
    (ExtractGraphs graphWorld (some 0) "" 0 0)⟩

/-- The link loop of the traversal, in closed form: it appends one connection and
one queue entry per followed link. -/
theorem GetEventGraph.linkStep_foldl_eq (W : World) (PinAddr : Nat)
    (links : List (Option Nat)) (v : GetEventGraph.Visit) :
    links.foldl (GetEventGraph.linkStep W PinAddr) v =
      { NodeData := v.NodeData
        Connections := v.Connections ++
          (GetEventGraph.linksOfPin W PinAddr links).map
            (GetEventGraph.connOf v.NodeData.NodeId)
        NodesToProcess := v.NodesToProcess ++
          (GetEventGraph.linksOfPin W PinAddr links).map GetEventGraph.ownerOf } := by
  induction links generalizing v with
  | nil => simp [GetEventGraph.linksOfPin]
  | cons l ls ih =>
    rw [List.foldl_cons, ih]
    unfold GetEventGraph.linkStep GetEventGraph.linksOfPin
    cases hp : W.pinAt l with
    | none => simp [hp]
    | some x =>
      obtain ⟨la, LP⟩ := x
      cases hn : W.nodeAt LP.OwningNode with
      | none => simp [hp, hn]
      | some y =>
        obtain ⟨oa, Owner⟩ := y
        simp [hp, hn, GetEventGraph.connOf, GetEventGraph.ownerOf]

/-- The pin loop of the traversal, in closed form for the node id, the
connections and the queue. -/
theorem GetEventGraph.pinStep_foldl_eq (W : World) (pins : List (Option Nat))
    (v : GetEventGraph.Visit) :
    (pins.foldl (GetEventGraph.pinStep W) v).NodeData.NodeId = v.NodeData.NodeId ∧
    (pins.foldl (GetEventGraph.pinStep W) v).Connections =
      v.Connections ++ (GetEventGraph.linksOfPins W pins).map
        (GetEventGraph.connOf v.NodeData.NodeId) ∧
    (pins.foldl (GetEventGraph.pinStep W) v).NodesToProcess =
      v.NodesToProcess ++ (GetEventGraph.linksOfPins W pins).map GetEventGraph.ownerOf := by
  induction pins generalizing v with
  | nil => simp [GetEventGraph.linksOfPins]
  | cons p ps ih =>
    rw [List.foldl_cons]
    obtain ⟨h1, h2, h3⟩ := ih (GetEventGraph.pinStep W v p)
    rw [h1, h2, h3]
    have hcons : GetEventGraph.linksOfPins W (p :: ps) =
        (match W.pinAt p with
          | none => []
          | some (PinAddr, Pin) =>
            if FName.Equals Pin.PinCategory PC_Exec then
              GetEventGraph.linksOfPin W PinAddr Pin.LinkedTo
            else []) ++ GetEventGraph.linksOfPins W ps := by
      simp [GetEventGraph.linksOfPins]
    rw [hcons]
    unfold GetEventGraph.pinStep
    cases hp : W.pinAt p with
    | none => simp
    | some x =>
      obtain ⟨pa, Pin⟩ := x
      simp only []
      by_cases hx : FName.Equals Pin.PinCategory PC_Exec = true
      · rw [if_pos hx, if_pos hx, GetEventGraph.linkStep_foldl_eq]
        by_cases hd : Pin.Direction = .EGPD_Input
        · simp [hd]
        · simp [hd]
      · rw [if_neg hx, if_neg hx]
        by_cases hd : Pin.Direction = .EGPD_Input
        · simp [hd]
        · simp [hd]

/-- One visit, in closed form: one node record with the visited address is
appended, the address is marked processed, and one connection and one queue
entry are appended per link followed from the node's pins. -/
theorem GetEventGraph.visit_eq (W : World) (st : GetEventGraph.State) (c : Nat)
    (C : UEdGraphNode) :
    (∃ nd, (GetEventGraph.visit W st c C).GraphData.Nodes = st.GraphData.Nodes ++ [nd] ∧
      nd.NodeId = c) ∧
    (GetEventGraph.visit W st c C).GraphData.Connections =
      st.GraphData.Connections ++
        (GetEventGraph.linksOfPins W C.Pins).map (GetEventGraph.connOf c) ∧
    (GetEventGraph.visit W st c C).NodesToProcess =
      st.NodesToProcess ++ (GetEventGraph.linksOfPins W C.Pins).map GetEventGraph.ownerOf ∧
    (GetEventGraph.visit W st c C).ProcessedNodes = c :: st.ProcessedNodes ∧
    (GetEventGraph.visit W st c C).NodesAdded = st.NodesAdded + 1 ∧
    (GetEventGraph.visit W st c C).GraphData.Metadata = st.GraphData.Metadata ∧
    (GetEventGraph.visit W st c C).GraphData.Name = st.GraphData.Name ∧
    (GetEventGraph.visit W st c C).GraphData.GraphType = st.GraphData.GraphType := by
  unfold GetEventGraph.visit
  obtain ⟨h1, h2, h3⟩ := GetEventGraph.pinStep_foldl_eq W C.Pins
    { NodeData :=
        { NodeId := c
          NodeType := C.ClassName
          Title := C.Title
          PositionX := C.NodePosX
          PositionY := C.NodePosY
          Comment := if C.NodeComment.length > 0 then C.NodeComment else "" }
      Connections := st.GraphData.Connections
      NodesToProcess := st.NodesToProcess }
  exact ⟨⟨_, rfl, h1⟩, h2, h3, rfl, rfl, rfl, rfl, rfl⟩

/-- The pages loop of `GetEventGraph` is the traversal loop run from the start
state. -/
theorem GetEventGraph.pages_eq (W : World) (EventName : String) (MaxNodes : Int)
    (pages : List (Option UEdGraph)) :
    GetEventGraph.pages W EventName MaxNodes pages =
      (GetEventGraph.startPages W EventName pages).bind
        (GetEventGraph.loop W MaxNodes (GetEventGraph.fuel W)) := by
  induction pages with
  | nil => rfl
  | cons g rest ih =>
    cases g with
    | none => rw [GetEventGraph.pages, GetEventGraph.startPages, ih]
    | some EventGraph =>
      rw [GetEventGraph.pages, GetEventGraph.startPages]
      cases GetEventGraph.findEvent W EventName EventGraph.Nodes with
      | none => exact ih
      | some T => rfl

/-- Function `GetEventGraph` is the traversal loop run from the start state. -/
theorem GetEventGraph_eq (W : World) (Blueprint : Option Nat) (EventName : String)
    (MaxNodes : Int) :
    GetEventGraph W Blueprint EventName MaxNodes =
      (GetEventGraph.start W Blueprint EventName).bind
        (GetEventGraph.loop W MaxNodes (GetEventGraph.fuel W)) := by
  unfold GetEventGraph GetEventGraph.start
  cases W.blueprint Blueprint with
  | none => rfl
  | some BP =>
    simp only []
    split
    · rfl
    · exact GetEventGraph.pages_eq W EventName MaxNodes BP.UbergraphPages

/-- The start state: nothing emitted or processed, and the queue holds the
event node alone, a node of the table whose event name is the requested one. -/
theorem GetEventGraph.startPages_spec (W : World) (EventName : String)
    (pages : List (Option UEdGraph)) (st : GetEventGraph.State)
    (h : GetEventGraph.startPages W EventName pages = some st) :
    ∃ a N GraphName, W.Nodes[a]? = some N ∧
      (∃ name scope, N.Kind = .Event name scope ∧
        FString.EqualsIgnoreCase name EventName = true) ∧
      st = { GraphData := { Name := EventName, GraphType := "Event"
                            Metadata := TMap.Add [] "GraphName" GraphName }
             ProcessedNodes := []
             NodesToProcess := [(a, N)]
             NodesAdded := 0 } := by
  induction pages with
  | nil => cases h
  | cons g rest ih =>
    cases g with
    | none => exact ih (by rwa [GetEventGraph.startPages] at h)
    | some EventGraph =>
      rw [GetEventGraph.startPages] at h
      split at h
      · rename_i T hT
        obtain ⟨a, N⟩ := T
        simp only [Option.some.injEq] at h
        obtain ⟨hN, hK⟩ := GetEventGraph.findEvent_spec W EventName _ a N hT
        exact ⟨a, N, EventGraph.Name, hN, hK, h.symm⟩
      · exact ih h

/-- The start state of `GetEventGraph`, when there is one. -/
theorem GetEventGraph.start_spec (W : World) (Blueprint : Option Nat) (EventName : String)
    (st : GetEventGraph.State) (h : GetEventGraph.start W Blueprint EventName = some st) :
    ∃ a N GraphName, W.Nodes[a]? = some N ∧
      (∃ name scope, N.Kind = .Event name scope ∧
        FString.EqualsIgnoreCase name EventName = true) ∧
      st = { GraphData := { Name := EventName, GraphType := "Event"
                            Metadata := TMap.Add [] "GraphName" GraphName }
             ProcessedNodes := []
             NodesToProcess := [(a, N)]
             NodesAdded := 0 } := by
  unfold GetEventGraph.start at h
  split at h
  · cases h
  · split at h
    · cases h
    · exact GetEventGraph.startPages_spec W EventName _ st h

/-- A pin the pointer denotes is found with its address. -/
theorem World.pinAt_of_pin (W : World) (p : Option Nat) (P : UEdGraphPin)
    (h : W.pin p = some P) : ∃ a, W.pinAt p = some (a, P) := by
  cases p with
  | none => simp [World.pin] at h
  | some b =>
    refine ⟨b, ?_⟩
    simp only [World.pin] at h
    simp [World.pinAt, h]

/-- A node of the table is found with its address. -/
theorem World.nodeAt_of_getElem? (W : World) (b : Nat) (N : UEdGraphNode)
    (h : W.Nodes[b]? = some N) : W.nodeAt (some b) = some (b, N) := by
  simp [World.nodeAt, h]

/-- The links followed from a list of pins: an execution-type pin of the list,
one of its linked pins, and the node that owns the linked pin. -/
theorem GetEventGraph.mem_linksOfPins (W : World) (pins : List (Option Nat))
    (x : Nat × Nat × Nat × UEdGraphNode) :
    x ∈ GetEventGraph.linksOfPins W pins ↔
      ∃ p ∈ pins, ∃ P, W.pinAt p = some (x.1, P) ∧
        FName.Equals P.PinCategory PC_Exec = true ∧
        ∃ l ∈ P.LinkedTo, ∃ LP, W.pinAt l = some (x.2.1, LP) ∧
          W.nodeAt LP.OwningNode = some (x.2.2.1, x.2.2.2) := by
  obtain ⟨pa, la, oa, Owner⟩ := x
  unfold GetEventGraph.linksOfPins GetEventGraph.linksOfPin
  rw [List.mem_flatMap]
  constructor
  · rintro ⟨p, hp, hx⟩
    cases hpin : W.pinAt p with
    | none => rw [hpin] at hx; cases hx
    | some y =>
      obtain ⟨a, P⟩ := y
      rw [hpin] at hx
      simp only [] at hx
      split at hx
      · rename_i hexec
        rw [List.mem_filterMap] at hx
        obtain ⟨l, hl, hx⟩ := hx
        cases hlp : W.pinAt l with
        | none => rw [hlp] at hx; cases hx
        | some z =>
          obtain ⟨b, LP⟩ := z
          rw [hlp] at hx
          simp only [] at hx
          cases hn : W.nodeAt LP.OwningNode with
          | none => rw [hn] at hx; cases hx
          | some w =>
            obtain ⟨o, O⟩ := w
            rw [hn] at hx
            simp only [Option.some.injEq, Prod.mk.injEq] at hx
            obtain ⟨rfl, rfl, rfl, rfl⟩ := hx
            exact ⟨p, hp, P, hpin, hexec, l, hl, LP, hlp, hn⟩
      · cases hx
  · rintro ⟨p, hp, P, hpin, hexec, l, hl, LP, hlp, hn⟩
    refine ⟨p, hp, ?_⟩
    rw [hpin]
    simp only []
    rw [if_pos hexec, List.mem_filterMap]
    refine ⟨l, hl, ?_⟩
    rw [hlp]
    simp only []
    rw [hn]

/-- The owner of a followed link is a node of the table at its address. -/
theorem GetEventGraph.linksOfPins_valid (W : World) (pins : List (Option Nat))
    (x : Nat × Nat × Nat × UEdGraphNode) (h : x ∈ GetEventGraph.linksOfPins W pins) :
    W.Nodes[(GetEventGraph.ownerOf x).1]? = some (GetEventGraph.ownerOf x).2 := by
  obtain ⟨p, _, P, _, _, l, _, LP, _, hn⟩ := (GetEventGraph.mem_linksOfPins W pins x).1 h
  exact (W.nodeAt_eq _ _ _ hn).2

/-- A link followed from the pins of a node is an execution link from it. -/
theorem GetEventGraph.execLink_of_mem (W : World) (c : Nat) (C : UEdGraphNode)
    (hC : W.Nodes[c]? = some C) (x : Nat × Nat × Nat × UEdGraphNode)
    (h : x ∈ GetEventGraph.linksOfPins W C.Pins) : ExecLink W c (GetEventGraph.ownerOf x).1 := by
  obtain ⟨p, hp, P, hpin, hexec, l, hl, LP, hlp, hn⟩ :=
    (GetEventGraph.mem_linksOfPins W C.Pins x).1 h
  exact ⟨C, hC, p, hp, P, W.pin_of_pinAt _ _ _ hpin, hexec, l, hl, LP,
    W.pin_of_pinAt _ _ _ hlp, (W.nodeAt_eq _ _ _ hn).1⟩

/-- An execution link to a node of the table is one of the links followed from
the pins of its source. -/
theorem GetEventGraph.mem_of_execLink (W : World) (c b : Nat) (C B : UEdGraphNode)
    (hC : W.Nodes[c]? = some C) (hB : W.Nodes[b]? = some B) (h : ExecLink W c b) :
    ∃ x ∈ GetEventGraph.linksOfPins W C.Pins, GetEventGraph.ownerOf x = (b, B) := by
  obtain ⟨C1, hC1, p, hp, P, hpin, hexec, l, hl, LP, hlp, hO⟩ := h
  rw [hC] at hC1
  cases hC1
  obtain ⟨pa, hpa⟩ := W.pinAt_of_pin p P hpin
  obtain ⟨la, hla⟩ := W.pinAt_of_pin l LP hlp
  refine ⟨(pa, la, b, B), ?_, rfl⟩
  rw [GetEventGraph.mem_linksOfPins]
  refine ⟨p, hp, P, hpa, hexec, l, hl, LP, hla, ?_⟩
  rw [hO]
  exact W.nodeAt_of_getElem? b B hB

/-- Induction over the traversal loop: an invariant kept by the two kinds of
iteration (skip of a processed node, visit of a new one) gives, for the graph
the loop returns, what it gives at the two exits (empty queue, node budget
reached). -/
theorem GetEventGraph.loop_induction (W : World) (MaxNodes : Int)
    (Inv : GetEventGraph.State → Prop) (Post : FBlueprintGraphData → Prop)
    (hdone : ∀ st, Inv st → st.NodesToProcess = [] → Post st.GraphData)
    (hcut : ∀ st, Inv st → st.NodesToProcess ≠ [] →
      MaxNodes > 0 ∧ (st.NodesAdded : Int) ≥ MaxNodes →
      Post { st.GraphData with
        Metadata := ((st.GraphData.Metadata.Add "Paginated" "true").Add "NodesShown"
          (FString.FromInt st.NodesAdded)).Add "MaxNodes" (FString.FromInt MaxNodes) })
    (hskip : ∀ st c C rest, Inv st → st.NodesToProcess = (c, C) :: rest →
      ¬ (MaxNodes > 0 ∧ (st.NodesAdded : Int) ≥ MaxNodes) → c ∈ st.ProcessedNodes →
      Inv { st with NodesToProcess := rest })
    (hvisit : ∀ st c C rest, Inv st → st.NodesToProcess = (c, C) :: rest →
      ¬ (MaxNodes > 0 ∧ (st.NodesAdded : Int) ≥ MaxNodes) → c ∉ st.ProcessedNodes →
      Inv (GetEventGraph.visit W { st with NodesToProcess := rest } c C))
    (fuel : Nat) (st : GetEventGraph.State) (G : FBlueprintGraphData) (h0 : Inv st)
    (h : GetEventGraph.loop W MaxNodes fuel st = some G) : Post G := by
  induction fuel generalizing st with
  | zero => simp [GetEventGraph.loop] at h
  | succ k ih =>
    rw [GetEventGraph.loop] at h
    cases hq : st.NodesToProcess with
    | nil =>
      simp only [hq, Option.some.injEq] at h
      subst h
      exact hdone st h0 hq
    | cons e rest =>
      obtain ⟨c, C⟩ := e
      simp only [hq] at h
      split at h
      · rename_i hc
        simp only [Option.some.injEq] at h
        subst h
        exact hcut st h0 (by rw [hq]; exact List.cons_ne_nil _ _) hc
      · rename_i hc
        split at h
        · rename_i hp
          exact ih _ (hskip st c C rest h0 hq hc hp) h
        · rename_i hp
          exact ih _ (hvisit st c C rest h0 hq hc hp) h

/-- The start state satisfies the bookkeeping invariant. -/
theorem GetEventGraph.BaseInv_start (W : World) (GraphData : FBlueprintGraphData) (a : Nat)
    (N : UEdGraphNode) (hN : W.Nodes[a]? = some N) (hE : GraphData.Nodes = []) :
    GetEventGraph.BaseInv W
      { GraphData := GraphData, ProcessedNodes := [], NodesToProcess := [(a, N)]
        NodesAdded := 0 } := by
  refine ⟨?_, by simp [hE], List.nodup_nil, by simp [hE]⟩
  intro e he
  rw [List.mem_singleton] at he
  subst he
  exact hN

/-- Skipping a queue entry keeps the bookkeeping invariant. -/
theorem GetEventGraph.BaseInv_skip (W : World) (st : GetEventGraph.State) (c : Nat)
    (C : UEdGraphNode) (rest : List (Nat × UEdGraphNode))
    (h : GetEventGraph.BaseInv W st) (hq : st.NodesToProcess = (c, C) :: rest) :
    GetEventGraph.BaseInv W { st with NodesToProcess := rest } :=
  ⟨fun e he => h.queue_valid e (by rw [hq]; exact List.mem_cons_of_mem _ he),
    h.ids, h.nodup, h.count⟩

/-- Visiting a node that was not processed keeps the bookkeeping invariant. -/
theorem GetEventGraph.BaseInv_visit (W : World) (st : GetEventGraph.State) (c : Nat)
    (C : UEdGraphNode) (rest : List (Nat × UEdGraphNode))
    (h : GetEventGraph.BaseInv W st) (hq : st.NodesToProcess = (c, C) :: rest)
    (hp : c ∉ st.ProcessedNodes) :
    GetEventGraph.BaseInv W (GetEventGraph.visit W { st with NodesToProcess := rest } c C) := by
  obtain ⟨⟨nd, hn, hid⟩, _, hQ, hP, hA, _, _, _⟩ :=
    GetEventGraph.visit_eq W { st with NodesToProcess := rest } c C
  refine ⟨?_, ?_, ?_, ?_⟩
  · intro e he
    rw [hQ, List.mem_append] at he
    rcases he with he | he
    · exact h.queue_valid e (by rw [hq]; exact List.mem_cons_of_mem _ he)
    · rw [List.mem_map] at he
      obtain ⟨x, hx, rfl⟩ := he
      exact GetEventGraph.linksOfPins_valid W C.Pins x hx
  · rw [hn, hP, List.map_append, h.ids, List.reverse_cons, List.map_singleton, hid]
  · rw [hP]
    exact List.nodup_cons.2 ⟨hp, h.nodup⟩
  · rw [hA, hn, List.length_append, List.length_singleton]
    exact congrArg (· + 1) h.count

/-- The traversal emits no node twice: from a state that satisfies the
bookkeeping invariant, the node ids of the returned graph are pairwise
distinct. -/
theorem GetEventGraph.loop_nodup (W : World) (MaxNodes : Int) (fuel : Nat)
    (st : GetEventGraph.State) (G : FBlueprintGraphData) (h0 : GetEventGraph.BaseInv W st)
    (h : GetEventGraph.loop W MaxNodes fuel st = some G) :
    (G.Nodes.map (fun n => n.NodeId)).Nodup := by
  refine GetEventGraph.loop_induction W MaxNodes (GetEventGraph.BaseInv W)
    (fun G => (G.Nodes.map (fun n => n.NodeId)).Nodup) ?_ ?_ ?_ ?_ fuel st G h0 h
  · intro st hI _
    rw [hI.ids]
    exact List.nodup_reverse.2 hI.nodup
  · intro st hI _ _
    show (st.GraphData.Nodes.map (fun n => n.NodeId)).Nodup
    rw [hI.ids]
    exact List.nodup_reverse.2 hI.nodup
  · intro st c C rest hI hq _ _
    exact GetEventGraph.BaseInv_skip W st c C rest hI hq
  · intro st c C rest hI hq _ hp
    exact GetEventGraph.BaseInv_visit W st c C rest hI hq hp

/-- A larger iteration budget does not change what the traversal returns. -/
theorem GetEventGraph.loop_fuel_mono (W : World) (MaxNodes : Int) (fuel extra : Nat)
    (st : GetEventGraph.State) (G : FBlueprintGraphData)
    (h : GetEventGraph.loop W MaxNodes fuel st = some G) :
    GetEventGraph.loop W MaxNodes (fuel + extra) st = some G := by
  induction fuel generalizing st with
  | zero => simp [GetEventGraph.loop] at h
  | succ k ih =>
    rw [Nat.add_right_comm, GetEventGraph.loop]
    rw [GetEventGraph.loop] at h
    cases hq : st.NodesToProcess with
    | nil => simpa [hq] using h
    | cons e rest =>
      obtain ⟨c, C⟩ := e
      simp only [hq] at h ⊢
      split
      · rename_i hc
        rw [if_pos hc] at h
        exact h
      · rename_i hc
        rw [if_neg hc] at h
        split
        · rename_i hp
          rw [if_pos hp] at h
          exact ih _ h
        · rename_i hp
          rw [if_neg hp] at h
          exact ih _ h

/-- C23: for every world (cyclic execution links and self-loops included) and
every `MaxNodes`, `GetEventGraph` returns a graph exactly when it enters its
traversal loop (non-null blueprint, non-empty name, event found): the loop
terminates within its iteration budget, any larger budget gives the same graph,
and the node ids of the returned graph are pairwise distinct. -/
theorem getEventGraph_terminates_without_repeats (W : World) (Blueprint : Option Nat)
    (EventName : String) (MaxNodes : Int) :
    (GetEventGraph W Blueprint EventName MaxNodes).isSome =
      (GetEventGraph.start W Blueprint EventName).isSome ∧
    (∀ st, GetEventGraph.start W Blueprint EventName = some st →
      ∃ G, GetEventGraph W Blueprint EventName MaxNodes = some G ∧
        ∀ extra, GetEventGraph.loop W MaxNodes (GetEventGraph.fuel W + extra) st = some G) ∧
    ∀ G, GetEventGraph W Blueprint EventName MaxNodes = some G →
      (G.Nodes.map (fun n => n.NodeId)).Nodup := by
  have hret : ∀ st, GetEventGraph.start W Blueprint EventName = some st →
      ∃ G, GetEventGraph.loop W MaxNodes (GetEventGraph.fuel W) st = some G ∧
        GetEventGraph.BaseInv W st := by
    intro st hst
    obtain ⟨a, N, GraphName, hN, _, rfl⟩ := GetEventGraph.start_spec W Blueprint EventName st hst
    obtain ⟨G, hG⟩ := GetEventGraph.loop_returns_initial W MaxNodes
      { Name := EventName, GraphType := "Event"
        Metadata := TMap.Add [] "GraphName" GraphName } a N hN
    exact ⟨G, hG, GetEventGraph.BaseInv_start W _ a N hN rfl⟩
  rw [GetEventGraph_eq]
  cases hst : GetEventGraph.start W Blueprint EventName with
  | none => exact ⟨rfl, fun st h => (by cases h), fun G h => (by cases h)⟩
  | some st =>
    obtain ⟨G, hG, hB⟩ := hret st hst
    simp only [Option.some_bind, Option.isSome_some]
    refine ⟨by rw [hG]; rfl, ?_, ?_⟩
    · intro st1 h1
      cases h1
      exact ⟨G, hG, fun extra => GetEventGraph.loop_fuel_mono W MaxNodes _ extra st G hG⟩
    · intro G1 h1
      exact GetEventGraph.loop_nodup W MaxNodes _ st G1 hB h1

/-- C23 on an event graph with a cycle and a self-loop: the traversal returns
the three nodes, each once. -/
theorem getEventGraph_terminates_without_repeats_witness :
    ∃ G, GetEventGraph cycleWorld (some 0) "Tick" 0 = some G ∧
      G.Nodes.map (fun n => n.NodeId) = [0, 1, 2] ∧
      (G.Nodes.map (fun n => n.NodeId)).Nodup := by
  have hE : (GetEventGraph cycleWorld (some 0) "Tick" 0).isSome = true := by decide
  obtain ⟨G, hG⟩ := Option.isSome_iff_exists.1 hE
  refine ⟨G, hG, ?_,
    (getEventGraph_terminates_without_repeats cycleWorld (some 0) "Tick" 0).2.2 G hG⟩
  have h2 : (GetEventGraph cycleWorld (some 0) "Tick" 0).map
      (fun G => G.Nodes.map (fun n => n.NodeId)) = some [0, 1, 2] := by decide
  rw [hG] at h2
  simpa using h2

/-- The traversal keeps the connection invariant, and with no node budget the
two node ids of every returned connection belong to returned nodes. -/
theorem GetEventGraph.loop_connections_closed (W : World) (MaxNodes : Int)
    (hM : MaxNodes ≤ 0) (fuel : Nat) (st : GetEventGraph.State) (G : FBlueprintGraphData)
    (h0 : GetEventGraph.ConnInv W st)
    (h : GetEventGraph.loop W MaxNodes fuel st = some G) :
    ∀ c ∈ G.Connections, BothEndsKept G.Nodes c := by
  have hmem : ∀ (st : GetEventGraph.State), GetEventGraph.BaseInv W st → ∀ a,
      a ∈ st.ProcessedNodes → ∃ n ∈ st.GraphData.Nodes, n.NodeId = a := by
    intro st hB a ha
    have : a ∈ st.GraphData.Nodes.map (fun n => n.NodeId) := by
      rw [hB.ids]
      exact List.mem_reverse.2 ha
    rw [List.mem_map] at this
    exact this
  refine GetEventGraph.loop_induction W MaxNodes (GetEventGraph.ConnInv W)
    (fun G => ∀ c ∈ G.Connections, BothEndsKept G.Nodes c) ?_ ?_ ?_ ?_ fuel st G h0 h
  · intro st hI hq c hc
    obtain ⟨hs, ht⟩ := hI.2 c hc
    rw [hq] at ht
    simp only [List.map_nil, List.not_mem_nil, or_false] at ht
    exact ⟨hmem st hI.1 _ hs, hmem st hI.1 _ ht⟩
  · intro st _ _ hc
    omega
  · intro st c C rest hI hq _ hp
    refine ⟨GetEventGraph.BaseInv_skip W st c C rest hI.1 hq, ?_⟩
    intro x hx
    obtain ⟨hs, ht⟩ := hI.2 x hx
    refine ⟨hs, ?_⟩
    rcases ht with ht | ht
    · exact Or.inl ht
    · rw [hq, List.map_cons, List.mem_cons] at ht
      rcases ht with ht | ht
      · exact Or.inl (by rw [ht]; exact hp)
      · exact Or.inr ht
  · intro st c C rest hI hq _ hp
    refine ⟨GetEventGraph.BaseInv_visit W st c C rest hI.1 hq hp, ?_⟩
    obtain ⟨_, hC, hQ, hP, _, _, _, _⟩ :=
      GetEventGraph.visit_eq W { st with NodesToProcess := rest } c C
    intro x hx
    rw [hC, List.mem_append] at hx
    rw [hP, hQ]
    rcases hx with hx | hx
    · obtain ⟨hs, ht⟩ := hI.2 x hx
      refine ⟨List.mem_cons_of_mem _ hs, ?_⟩
      rcases ht with ht | ht
      · exact Or.inl (List.mem_cons_of_mem _ ht)
      · rw [hq, List.map_cons, List.mem_cons] at ht
        rcases ht with ht | ht
        · exact Or.inl (by rw [ht]; exact List.mem_cons_self _ _)
        · exact Or.inr (by
            rw [List.map_append]
            exact List.mem_append_left _ ht)
    · rw [List.mem_map] at hx
      obtain ⟨y, hy, rfl⟩ := hx
      refine ⟨List.mem_cons_self _ _, Or.inr ?_⟩
      rw [List.map_append]
      apply List.mem_append_right
      rw [List.map_map, List.mem_map]
      exact ⟨y, hy, rfl⟩

/-- C27: with no node budget (`MaxNodes = 0`, or negative), every connection of
the graph `GetEventGraph` returns has its source node id and its target node id
among the ids of the returned nodes. -/
theorem getEventGraph_connections_closed (W : World) (Blueprint : Option Nat)
    (EventName : String) (MaxNodes : Int) (G : FBlueprintGraphData) (hM : MaxNodes ≤ 0)
    (h : GetEventGraph W Blueprint EventName MaxNodes = some G) :
    ∀ c ∈ G.Connections, BothEndsKept G.Nodes c := by
  rw [GetEventGraph_eq] at h
  cases hst : GetEventGraph.start W Blueprint EventName with
  | none => rw [hst] at h; cases h
  | some st =>
    rw [hst] at h
    obtain ⟨a, N, GraphName, hN, _, rfl⟩ := GetEventGraph.start_spec W Blueprint EventName st hst
    refine GetEventGraph.loop_connections_closed W MaxNodes hM _ _ G
      ⟨GetEventGraph.BaseInv_start W _ a N hN rfl, ?_⟩ h
    intro c hc
    cases hc

/-- C27 on the event graph of `BP_Hero`: the four connections returned for
`ReceiveBeginPlay` join the returned nodes 3, 4 and 5. -/
theorem getEventGraph_connections_closed_witness :
    ∃ G, GetEventGraph graphWorld (some 0) "ReceiveBeginPlay" 0 = some G ∧
      G.Nodes.map (fun n => n.NodeId) = [3, 4, 5] ∧
      G.Connections.map (fun c => (c.SourceNodeId, c.TargetNodeId)) =
        [(3, 4), (4, 3), (4, 5), (5, 4)] ∧
      ∀ c ∈ G.Connections, BothEndsKept G.Nodes c := by
  have hE : (GetEventGraph graphWorld (some 0) "ReceiveBeginPlay" 0).isSome = true := by decide
  obtain ⟨G, hG⟩ := Option.isSome_iff_exists.1 hE
  have h2 : (GetEventGraph graphWorld (some 0) "ReceiveBeginPlay" 0).map
      (fun G => (G.Nodes.map (fun n => n.NodeId),
        G.Connections.map (fun c => (c.SourceNodeId, c.TargetNodeId)))) =
      some ([3, 4, 5], [(3, 4), (4, 3), (4, 5), (5, 4)]) := by decide
  rw [hG] at h2
  simp only [Option.map_some', Option.some.injEq, Prod.mk.injEq] at h2
  exact ⟨G, hG, h2.1, h2.2,
    getEventGraph_connections_closed graphWorld (some 0) "ReceiveBeginPlay" 0 G (by decide) hG⟩

/-- C22, counterexample: the traversal of `GetEventGraph` follows the links of
every pin of execution type, input pins included.  On the event graph of `BP_Hero`
(`ReceiveBeginPlay` → node 4 → node 5, two wires) it returns four connections:
each wire once from its output pin and once, reversed, from its input pin; the
connection from node 4 to node 3 has as source pin the input pin 3 of node 4. -/
theorem getEventGraph_emits_from_input_pins :
    (GetEventGraph graphWorld (some 0) "ReceiveBeginPlay" 0).map (fun G =>
      G.Connections.map (fun c =>
        (c.SourceNodeId, c.SourcePinId, c.TargetNodeId, c.TargetPinId))) =
      some [(3, 2, 4, 3), (4, 3, 3, 2), (4, 4, 5, 5), (5, 5, 4, 4)] ∧
    (GetEventGraph graphWorld (some 0) "ReceiveBeginPlay" 0).map (fun G =>
      G.Nodes.map (fun n =>
        (n.NodeId, n.InputPins.map (fun p => p.PinId),
          n.OutputPins.map (fun p => p.PinId)))) =
      some [(3, [], [2]), (4, [3, 6], [4]), (5, [5], [])] ∧
    ¬ (∀ G, GetEventGraph graphWorld (some 0) "ReceiveBeginPlay" 0 = some G →
        ∀ c ∈ G.Connections, ∃ n ∈ G.Nodes, n.NodeId = c.SourceNodeId ∧
          ∃ p ∈ n.OutputPins, p.PinId = c.SourcePinId) := by
  refine ⟨by decide, by decide, ?_⟩
  intro hall
  have hE : (GetEventGraph graphWorld (some 0) "ReceiveBeginPlay" 0).isSome = true := by decide
  obtain ⟨G, hG⟩ := Option.isSome_iff_exists.1 hE
  have h2 : (GetEventGraph graphWorld (some 0) "ReceiveBeginPlay" 0).map (fun G =>
      G.Connections.all (fun c => G.Nodes.any (fun n =>
        decide (n.NodeId = c.SourceNodeId) &&
          n.OutputPins.any (fun p => decide (p.PinId = c.SourcePinId))))) =
      some false := by decide
  rw [hG] at h2
  simp only [Option.map_some', Option.some.injEq] at h2
  have h3 : G.Connections.all (fun c => G.Nodes.any (fun n =>
      decide (n.NodeId = c.SourceNodeId) &&
        n.OutputPins.any (fun p => decide (p.PinId = c.SourcePinId)))) = true := by
    simp only [List.all_eq_true, List.any_eq_true, Bool.and_eq_true, decide_eq_true_eq]
    exact hall G hG
  rw [h3] at h2
  cases h2

/-- The traversal only appends to the node list of its state. -/
theorem GetEventGraph.loop_nodes_append (W : World) (MaxNodes : Int) (fuel : Nat)
    (st : GetEventGraph.State) (G : FBlueprintGraphData)
    (h : GetEventGraph.loop W MaxNodes fuel st = some G) :
    ∃ extra, G.Nodes = st.GraphData.Nodes ++ extra := by
  refine GetEventGraph.loop_induction W MaxNodes
    (fun st1 => ∃ extra, st1.GraphData.Nodes = st.GraphData.Nodes ++ extra)
    (fun G => ∃ extra, G.Nodes = st.GraphData.Nodes ++ extra) ?_ ?_ ?_ ?_ fuel st G
    ⟨[], (List.append_nil _).symm⟩ h
  · intro st1 hI _
    exact hI
  · intro st1 hI _ _
    exact hI
  · intro st1 c C rest hI _ _ _
    exact hI
  · intro st1 c C rest hI _ _ _
    obtain ⟨extra, he⟩ := hI
    obtain ⟨⟨nd, hn, _⟩, _⟩ := GetEventGraph.visit_eq W { st1 with NodesToProcess := rest } c C
    refine ⟨extra ++ [nd], ?_⟩
    rw [hn]
    show st1.GraphData.Nodes ++ [nd] = _
    rw [he, List.append_assoc]

/-- The traversal with a positive node budget `N` and the traversal without a
budget, run from the same state: the first returns the first `N` nodes of what
the second returns. -/
theorem GetEventGraph.loop_take (W : World) (N : Int) (hN : 0 < N) (fuel : Nat)
    (st : GetEventGraph.State) (G G0 : FBlueprintGraphData)
    (hc : st.NodesAdded = st.GraphData.Nodes.length) (hle : (st.NodesAdded : Int) ≤ N)
    (h : GetEventGraph.loop W N fuel st = some G)
    (h0 : GetEventGraph.loop W 0 fuel st = some G0) :
    G.Nodes = G0.Nodes.take N.toNat := by
  induction fuel generalizing st with
  | zero => simp [GetEventGraph.loop] at h
  | succ k ih =>
    have happ := GetEventGraph.loop_nodes_append W 0 (k + 1) st G0 h0
    rw [GetEventGraph.loop] at h h0
    cases hq : st.NodesToProcess with
    | nil =>
      simp only [hq, Option.some.injEq] at h h0
      subst h
      subst h0
      rw [List.take_of_length_le]
      omega
    | cons e rest =>
      obtain ⟨c, C⟩ := e
      simp only [hq] at h h0
      rw [if_neg (by omega)] at h0
      split at h
      · rename_i hcut
        simp only [Option.some.injEq] at h
        subst h
        obtain ⟨extra, he⟩ := happ
        show st.GraphData.Nodes = _
        rw [he, List.take_left']
        omega
      · rename_i hcut
        split at h
        · rename_i hp
          rw [if_pos hp] at h0
          exact ih { st with NodesToProcess := rest } hc hle h h0
        · rename_i hp
          rw [if_neg hp] at h0
          obtain ⟨⟨nd, hn, _⟩, _, _, _, hA, _⟩ :=
            GetEventGraph.visit_eq W { st with NodesToProcess := rest } c C
          refine ih _ ?_ ?_ h h0
          · rw [hA, hn, List.length_append, List.length_singleton]
            exact congrArg (· + 1) hc
          · rw [hA]
            have : ¬ (st.NodesAdded : Int) ≥ N := fun hge => hcut ⟨hN, hge⟩
            show ((st.NodesAdded + 1 : Nat) : Int) ≤ N
            omega

/-- The metadata the traversal returns under a positive node budget `N`: the
metadata it started with, or that metadata with `Paginated`, `NodesShown = N`
and `MaxNodes = N` added, and then the node list has exactly `N` entries. -/
theorem GetEventGraph.loop_metadata (W : World) (N : Int) (hN : 0 < N) (fuel : Nat)
    (st : GetEventGraph.State) (G : FBlueprintGraphData)
    (hc : st.NodesAdded = st.GraphData.Nodes.length) (hle : (st.NodesAdded : Int) ≤ N)
    (h : GetEventGraph.loop W N fuel st = some G) :
    G.Metadata = st.GraphData.Metadata ∨
    (G.Metadata = ((st.GraphData.Metadata.Add "Paginated" "true").Add "NodesShown"
        (FString.FromInt N)).Add "MaxNodes" (FString.FromInt N) ∧
      (G.Nodes.length : Int) = N) := by
  refine GetEventGraph.loop_induction W N
    (fun st1 => st1.GraphData.Metadata = st.GraphData.Metadata ∧
      st1.NodesAdded = st1.GraphData.Nodes.length ∧ (st1.NodesAdded : Int) ≤ N)
    (fun G => G.Metadata = st.GraphData.Metadata ∨
      (G.Metadata = ((st.GraphData.Metadata.Add "Paginated" "true").Add "NodesShown"
          (FString.FromInt N)).Add "MaxNodes" (FString.FromInt N) ∧
        (G.Nodes.length : Int) = N)) ?_ ?_ ?_ ?_ fuel st G ⟨rfl, hc, hle⟩ h
  · intro st1 hI _
    exact Or.inl hI.1
  · intro st1 hI _ hcut
    obtain ⟨hm, hc1, hle1⟩ := hI
    have hEq : (st1.NodesAdded : Int) = N := le_antisymm hle1 hcut.2
    refine Or.inr ⟨?_, ?_⟩
    · show ((st1.GraphData.Metadata.Add "Paginated" "true").Add "NodesShown"
        (FString.FromInt st1.NodesAdded)).Add "MaxNodes" (FString.FromInt N) = _
      rw [hm, hEq]
    · show (st1.GraphData.Nodes.length : Int) = N
      rw [← hc1, hEq]
  · intro st1 c C rest hI _ _ _
    exact hI
  · intro st1 c C rest hI _ hcut _
    obtain ⟨hm, hc1, hle1⟩ := hI
    obtain ⟨⟨nd, hn, _⟩, _, _, _, hA, hM, _⟩ :=
      GetEventGraph.visit_eq W { st1 with NodesToProcess := rest } c C
    refine ⟨by rw [hM]; exact hm, ?_, ?_⟩
    · rw [hA, hn, List.length_append, List.length_singleton]
      exact congrArg (· + 1) hc1
    · rw [hA]
      have : ¬ (st1.NodesAdded : Int) ≥ N := fun hge => hcut ⟨hN, hge⟩
      show ((st1.NodesAdded + 1 : Nat) : Int) ≤ N
      omega

/-- What the metadata of a traversal result holds, with and without the
pagination entries. -/
theorem GetEventGraph.metadata_find (g s m : String) :
    TMap.Find (TMap.Add [] "GraphName" g) "Paginated" = none ∧
    TMap.Find ((((TMap.Add [] "GraphName" g).Add "Paginated" "true").Add "NodesShown" s).Add
      "MaxNodes" m) "NodesShown" = some s ∧
    TMap.Find ((((TMap.Add [] "GraphName" g).Add "Paginated" "true").Add "NodesShown" s).Add
      "MaxNodes" m) "MaxNodes" = some m := by
  have e1 : FString.EqualsIgnoreCase "GraphName" "Paginated" = false := by decide
  have e2 : FString.EqualsIgnoreCase "GraphName" "NodesShown" = false := by decide
  have e3 : FString.EqualsIgnoreCase "GraphName" "MaxNodes" = false := by decide
  have e4 : FString.EqualsIgnoreCase "Paginated" "NodesShown" = false := by decide
  have e5 : FString.EqualsIgnoreCase "Paginated" "MaxNodes" = false := by decide
  have e6 : FString.EqualsIgnoreCase "NodesShown" "MaxNodes" = false := by decide
  have e7 : FString.EqualsIgnoreCase "NodesShown" "NodesShown" = true := by decide
  have e8 : FString.EqualsIgnoreCase "MaxNodes" "MaxNodes" = true := by decide
  simp [TMap.Add, TMap.Find, e1, e2, e3, e4, e5, e6, e7, e8]

/-- C25: for a positive node budget `N`, `GetEventGraph(A, e, N)` returns a graph
exactly when `GetEventGraph(A, e, 0)` does, and its node list is the first
`min(N, k)` nodes of the unlimited one, `k` being the unlimited node count;
when its metadata holds `Paginated = true` it holds `NodesShown` and `MaxNodes`,
both the decimal rendering of `N`, and the node list has exactly `N` entries. -/
theorem getEventGraph_truncation_keeps_first_nodes (W : World) (Blueprint : Option Nat)
    (EventName : String) (N : Int) (hN : 0 < N) :
    (GetEventGraph W Blueprint EventName N).isSome =
      (GetEventGraph W Blueprint EventName 0).isSome ∧
    ∀ G, GetEventGraph W Blueprint EventName N = some G →
      ∃ G0, GetEventGraph W Blueprint EventName 0 = some G0 ∧
        G.Nodes = G0.Nodes.take (min N.toNat G0.Nodes.length) ∧
        (TMap.Find G.Metadata "Paginated" = some "true" →
          TMap.Find G.Metadata "NodesShown" = some (FString.FromInt N) ∧
          TMap.Find G.Metadata "MaxNodes" = some (FString.FromInt N) ∧
          (G.Nodes.length : Int) = N) := by
  rw [GetEventGraph_eq, GetEventGraph_eq]
  cases hst : GetEventGraph.start W Blueprint EventName with
  | none => exact ⟨rfl, fun G h => (by cases h)⟩
  | some st =>
    obtain ⟨a, R, GraphName, hR, _, rfl⟩ :=
      GetEventGraph.start_spec W Blueprint EventName st hst
    obtain ⟨G1, hG1⟩ := GetEventGraph.loop_returns_initial W N
      { Name := EventName, GraphType := "Event"
        Metadata := TMap.Add [] "GraphName" GraphName } a R hR
    obtain ⟨G0, hG0⟩ := GetEventGraph.loop_returns_initial W 0
      { Name := EventName, GraphType := "Event"
        Metadata := TMap.Add [] "GraphName" GraphName } a R hR
    simp only [Option.some_bind]
    refine ⟨by rw [hG1, hG0]; rfl, ?_⟩
    intro G hG
    refine ⟨G0, hG0, ?_, ?_⟩
    · rw [GetEventGraph.loop_take W N hN _ _ G G0 rfl (by simpa using hN.le) hG hG0]
      by_cases hk : N.toNat ≤ G0.Nodes.length
      · rw [Nat.min_eq_left hk]
      · rw [Nat.min_eq_right (by omega), List.take_of_length_le (by omega),
          List.take_of_length_le (le_refl _)]
    · intro hP
      obtain ⟨f1, f2, f3⟩ := GetEventGraph.metadata_find GraphName (FString.FromInt N)
        (FString.FromInt N)
      rcases GetEventGraph.loop_metadata W N hN _ _ G rfl (by simpa using hN.le) hG with
        hm | ⟨hm, hlen⟩
      · rw [hm] at hP
        rw [f1] at hP
        cases hP
      · rw [hm]
        exact ⟨f2, f3, hlen⟩

/-- C25 on the event graph of `BP_Hero` with a budget of two nodes: the result
holds nodes 3 and 4, the first two of the unlimited result 3, 4, 5, and is
marked `Paginated` with `NodesShown = MaxNodes = 2`. -/
theorem getEventGraph_truncation_keeps_first_nodes_witness :
    ∃ G G0, GetEventGraph graphWorld (some 0) "ReceiveBeginPlay" 2 = some G ∧
      GetEventGraph graphWorld (some 0) "ReceiveBeginPlay" 0 = some G0 ∧
      G.Nodes.map (fun n => n.NodeId) = [3, 4] ∧
      G0.Nodes.map (fun n => n.NodeId) = [3, 4, 5] ∧
      G.Nodes = G0.Nodes.take (min (2 : Int).toNat G0.Nodes.length) ∧
      TMap.Find G.Metadata "Paginated" = some "true" ∧
      TMap.Find G.Metadata "NodesShown" = some "2" ∧
      TMap.Find G.Metadata "MaxNodes" = some "2" := by
  have hE : (GetEventGraph graphWorld (some 0) "ReceiveBeginPlay" 2).isSome = true := by decide
  obtain ⟨G, hG⟩ := Option.isSome_iff_exists.1 hE
  obtain ⟨G0, hG0, hpre, hmeta⟩ :=
    (getEventGraph_truncation_keeps_first_nodes graphWorld (some 0) "ReceiveBeginPlay" 2
      (by decide)).2 G hG
  have h2 : (GetEventGraph graphWorld (some 0) "ReceiveBeginPlay" 2).map (fun G =>
      (G.Nodes.map (fun n => n.NodeId), TMap.Find G.Metadata "Paginated")) =
      some ([3, 4], some "true") := by decide
  have h3 : (GetEventGraph graphWorld (some 0) "ReceiveBeginPlay" 0).map (fun G =>
      G.Nodes.map (fun n => n.NodeId)) = some [3, 4, 5] := by decide
  rw [hG] at h2
  rw [hG0] at h3
  simp only [Option.map_some', Option.some.injEq, Prod.mk.injEq] at h2 h3
  obtain ⟨m1, m2, _⟩ := hmeta h2.2
  exact ⟨G, G0, hG, hG0, h2.1, h3, hpre, h2.2, m1, m2⟩

/-- A node has at most one distance. -/
theorem ExecDist.unique {W : World} {root b d1 d2 : Nat} (h1 : ExecDist W root b d1)
    (h2 : ExecDist W root b d2) : d1 = d2 :=
  le_antisymm (h1.2 d2 h2.1) (h2.2 d1 h1.1)

/-- Under the breadth-first invariant, every node of the table that has a
chain shorter than all levels in the queue is processed. -/
theorem GetEventGraph.LevelInv.reached {W : World} {root : Nat} {st : GetEventGraph.State}
    {LQ : List ((Nat × UEdGraphNode) × Nat)} (inv : GetEventGraph.LevelInv W root st LQ)
    (w d : Nat) (hch : ExecChain W root w d) :
    ∀ Wn, W.Nodes[w]? = some Wn → (∀ q ∈ LQ, d < q.2) → w ∈ st.ProcessedNodes := by
  induction hch with
  | zero =>
    intro Wn _ hlt
    rcases inv.root with h | ⟨q, hq, _, h0⟩
    · exact h
    · have := hlt q hq
      omega
  | step hprev hlink ih =>
    rename_i a b d
    intro Wn hWn hlt
    have ⟨A, hA, _⟩ := hlink
    have haP : a ∈ st.ProcessedNodes := ih A hA (fun q hq => by have := hlt q hq; omega)
    obtain ⟨da, hda, _⟩ := inv.dist a haP
    have hle : da ≤ d := hda.2 d hprev
    rcases inv.complete a haP da hda b Wn hlink hWn with h | ⟨q, hq, _, hq2⟩
    · exact h
    · have := hlt q hq
      omega

/-- The start state satisfies the breadth-first invariant, the event node
being queued at level 0. -/
theorem GetEventGraph.LevelInv_start (W : World) (GraphData : FBlueprintGraphData) (a : Nat)
    (N : UEdGraphNode) (hN : W.Nodes[a]? = some N) (hE : GraphData.Nodes = []) :
    GetEventGraph.LevelInv W a
      { GraphData := GraphData, ProcessedNodes := [], NodesToProcess := [(a, N)]
        NodesAdded := 0 } [((a, N), 0)] := by
  refine ⟨GetEventGraph.BaseInv_start W GraphData a N hN hE, rfl, ?_, ?_, ?_, ?_, ?_, ?_, ?_⟩
  · intro q hq
    rw [List.mem_singleton] at hq
    subst hq
    exact ExecChain.zero
  · exact List.pairwise_singleton _ _
  · intro p hp q hq
    rw [List.mem_singleton] at hp hq
    subst hp
    subst hq
    exact Nat.le_succ _
  · intro x hx
    cases hx
  · exact List.Pairwise.nil
  · intro x hx
    cases hx
  · exact Or.inr ⟨((a, N), 0), List.mem_singleton.2 rfl, rfl, rfl⟩

/-- Skipping a processed queue entry keeps the breadth-first invariant. -/
theorem GetEventGraph.LevelInv_skip (W : World) (root : Nat) (st : GetEventGraph.State)
    (LQ : List ((Nat × UEdGraphNode) × Nat)) (c : Nat) (C : UEdGraphNode)
    (rest : List (Nat × UEdGraphNode)) (inv : GetEventGraph.LevelInv W root st LQ)
    (hq : st.NodesToProcess = (c, C) :: rest) (hp : c ∈ st.ProcessedNodes) :
    ∃ LQ1, GetEventGraph.LevelInv W root { st with NodesToProcess := rest } LQ1 := by
  cases LQ with
  | nil =>
    have := inv.queue
    rw [hq] at this
    cases this
  | cons q0 LQ1 =>
    have hQ := inv.queue
    rw [hq, List.map_cons, List.cons.injEq] at hQ
    obtain ⟨hq0, hrest⟩ := hQ
    refine ⟨LQ1, GetEventGraph.BaseInv_skip W st c C rest inv.base hq, hrest,
      fun q hm => inv.chain q (List.mem_cons_of_mem _ hm), (List.pairwise_cons.1 inv.sorted).2,
      fun p hm q hm2 => inv.close p (List.mem_cons_of_mem _ hm) q (List.mem_cons_of_mem _ hm2),
      ?_, inv.order, ?_, ?_⟩
    · intro a ha
      obtain ⟨d, hd, hle⟩ := inv.dist a ha
      exact ⟨d, hd, fun q hm => hle q (List.mem_cons_of_mem _ hm)⟩
    · intro a ha d hd b B hl hB
      rcases inv.complete a ha d hd b B hl hB with h | ⟨q, hm, hb, hle⟩
      · exact Or.inl h
      · rw [List.mem_cons] at hm
        rcases hm with rfl | hm
        · left
          rw [← hb, hq0]
          exact hp
        · exact Or.inr ⟨q, hm, hb, hle⟩
    · rcases inv.root with h | ⟨q, hm, hb, h0⟩
      · exact Or.inl h
      · rw [List.mem_cons] at hm
        rcases hm with rfl | hm
        · left
          rw [← hb, hq0]
          exact hp
        · exact Or.inr ⟨q, hm, hb, h0⟩

/-- Visiting the head of the queue, when it is not processed yet, keeps the
breadth-first invariant: the level of the head is the distance of its node, and
the nodes it links to are queued one level further. -/
theorem GetEventGraph.LevelInv_visit (W : World) (root : Nat) (st : GetEventGraph.State)
    (LQ : List ((Nat × UEdGraphNode) × Nat)) (c : Nat) (C : UEdGraphNode)
    (rest : List (Nat × UEdGraphNode)) (inv : GetEventGraph.LevelInv W root st LQ)
    (hq : st.NodesToProcess = (c, C) :: rest) (hp : c ∉ st.ProcessedNodes) :
    ∃ LQ1, GetEventGraph.LevelInv W root
      (GetEventGraph.visit W { st with NodesToProcess := rest } c C) LQ1 := by
  cases LQ with
  | nil =>
    have := inv.queue
    rw [hq] at this
    cases this
  | cons q0 LQ1 =>
    have hQ0 := inv.queue
    rw [hq, List.map_cons, List.cons.injEq] at hQ0
    obtain ⟨hq0, hrest⟩ := hQ0
    have hq0c : q0.1.1 = c := by rw [hq0]
    have hC : W.Nodes[c]? = some C :=
      inv.base.queue_valid (c, C) (by rw [hq]; exact List.mem_cons_self _ _)
    have hhead : ∀ q ∈ q0 :: LQ1, q0.2 ≤ q.2 := by
      intro q hm
      rw [List.mem_cons] at hm
      rcases hm with rfl | hm
      · exact le_refl _
      · exact (List.pairwise_cons.1 inv.sorted).1 q hm
    have hchain : ExecChain W root c q0.2 := by
      have := inv.chain q0 (List.mem_cons_self _ _)
      rwa [hq0c] at this
    have hdist : ExecDist W root c q0.2 := by
      refine ⟨hchain, ?_⟩
      intro d1 h1
      by_contra hlt
      exact hp (inv.reached c d1 h1 C hC
        (fun q hm => lt_of_lt_of_le (not_le.1 hlt) (hhead q hm)))
    obtain ⟨⟨nd, hn, hid⟩, _, hQ, hP, _, _⟩ :=
      GetEventGraph.visit_eq W { st with NodesToProcess := rest } c C
    have hrange : ∀ q ∈ LQ1 ++ (GetEventGraph.linksOfPins W C.Pins).map
        (fun x => (GetEventGraph.ownerOf x, q0.2 + 1)), q0.2 ≤ q.2 ∧ q.2 ≤ q0.2 + 1 := by
      intro q hm
      rw [List.mem_append] at hm
      rcases hm with hm | hm
      · exact ⟨hhead q (List.mem_cons_of_mem _ hm),
          inv.close q0 (List.mem_cons_self _ _) q (List.mem_cons_of_mem _ hm)⟩
      · rw [List.mem_map] at hm
        obtain ⟨x, _, rfl⟩ := hm
        exact ⟨Nat.le_succ _, le_refl _⟩
    refine ⟨LQ1 ++ (GetEventGraph.linksOfPins W C.Pins).map
        (fun x => (GetEventGraph.ownerOf x, q0.2 + 1)),
      GetEventGraph.BaseInv_visit W st c C rest inv.base hq hp, ?_, ?_, ?_, ?_, ?_, ?_, ?_, ?_⟩
    · rw [hQ, List.map_append, hrest, List.map_map]
      rfl
    · intro q hm
      rw [List.mem_append] at hm
      rcases hm with hm | hm
      · exact inv.chain q (List.mem_cons_of_mem _ hm)
      · rw [List.mem_map] at hm
        obtain ⟨x, hx, rfl⟩ := hm
        exact ExecChain.step hchain (GetEventGraph.execLink_of_mem W c C hC x hx)
    · rw [List.pairwise_append]
      refine ⟨(List.pairwise_cons.1 inv.sorted).2, ?_, ?_⟩
      · rw [List.pairwise_map]
        exact List.pairwise_of_forall (fun _ _ => le_refl _)
      · intro a ha b hb
        rw [List.mem_map] at hb
        obtain ⟨x, _, rfl⟩ := hb
        exact inv.close q0 (List.mem_cons_self _ _) a (List.mem_cons_of_mem _ ha)
    · intro p hpm q hqm
      have h1 := hrange p hpm
      have h2 := hrange q hqm
      omega
    · intro a ha
      rw [hP, List.mem_cons] at ha
      rcases ha with rfl | ha
      · exact ⟨q0.2, hdist, fun q hm => (hrange q hm).1⟩
      · obtain ⟨d, hd, hle⟩ := inv.dist a ha
        exact ⟨d, hd, fun q hm =>
          le_trans (hle q0 (List.mem_cons_self _ _)) (hrange q hm).1⟩
    · rw [hP, List.reverse_cons, List.pairwise_append]
      refine ⟨inv.order, List.pairwise_singleton _ _, ?_⟩
      intro x hx y hy
      rw [List.mem_singleton] at hy
      subst hy
      rw [List.mem_reverse] at hx
      obtain ⟨d, hd, hle⟩ := inv.dist x hx
      intro dx dy hdx hdy
      rw [← ExecDist.unique hd hdx, ← ExecDist.unique hdist hdy]
      exact hle q0 (List.mem_cons_self _ _)
    · intro a ha d hd b B hl hB
      rw [hP]
      rw [hP, List.mem_cons] at ha
      rcases ha with rfl | ha
      · obtain ⟨x, hx, hox⟩ := GetEventGraph.mem_of_execLink W a b C B hC hB hl
        refine Or.inr ⟨(GetEventGraph.ownerOf x, q0.2 + 1), ?_, ?_, ?_⟩
        · exact List.mem_append_right _ (List.mem_map.2 ⟨x, hx, rfl⟩)
        · rw [hox]
        · rw [ExecDist.unique hd hdist]
      · rcases inv.complete a ha d hd b B hl hB with h | ⟨q, hm, hb, hle⟩
        · exact Or.inl (List.mem_cons_of_mem _ h)
        · rw [List.mem_cons] at hm
          rcases hm with rfl | hm
          · left
            rw [← hb, hq0c]
            exact List.mem_cons_self _ _
          · exact Or.inr ⟨q, List.mem_append_left _ hm, hb, hle⟩
    · rw [hP]
      rcases inv.root with h | ⟨q, hm, hb, h0⟩
      · exact Or.inl (List.mem_cons_of_mem _ h)
      · rw [List.mem_cons] at hm
        rcases hm with rfl | hm
        · left
          rw [← hb, hq0c]
          exact List.mem_cons_self _ _
        · exact Or.inr ⟨q, List.mem_append_left _ hm, hb, h0⟩

/-- The traversal keeps the breadth-first invariant: every node of the returned
graph has a distance from the event node, and the nodes are returned in order
of distance. -/
theorem GetEventGraph.loop_breadth_first (W : World) (MaxNodes : Int) (root : Nat)
    (fuel : Nat) (st : GetEventGraph.State) (G : FBlueprintGraphData)
    (LQ : List ((Nat × UEdGraphNode) × Nat)) (h0 : GetEventGraph.LevelInv W root st LQ)
    (h : GetEventGraph.loop W MaxNodes fuel st = some G) :
    (∀ n ∈ G.Nodes, ∃ d, ExecDist W root n.NodeId d) ∧
    G.Nodes.Pairwise (fun x y => DistOrdered W root x.NodeId y.NodeId) := by
  have hpost : ∀ (st : GetEventGraph.State) (LQ : List ((Nat × UEdGraphNode) × Nat)),
      GetEventGraph.LevelInv W root st LQ →
      (∀ n ∈ st.GraphData.Nodes, ∃ d, ExecDist W root n.NodeId d) ∧
      st.GraphData.Nodes.Pairwise (fun x y => DistOrdered W root x.NodeId y.NodeId) := by
    intro st LQ inv
    constructor
    · intro n hn
      have hm : n.NodeId ∈ st.ProcessedNodes := by
        rw [← List.mem_reverse, ← inv.base.ids]
        exact List.mem_map.2 ⟨n, hn, rfl⟩
      obtain ⟨d, hd, _⟩ := inv.dist _ hm
      exact ⟨d, hd⟩
    · have := inv.order
      rw [← inv.base.ids, List.pairwise_map] at this
      exact this
  refine GetEventGraph.loop_induction W MaxNodes
    (fun st => ∃ LQ, GetEventGraph.LevelInv W root st LQ)
    (fun G => (∀ n ∈ G.Nodes, ∃ d, ExecDist W root n.NodeId d) ∧
      G.Nodes.Pairwise (fun x y => DistOrdered W root x.NodeId y.NodeId))
    ?_ ?_ ?_ ?_ fuel st G ⟨LQ, h0⟩ h
  · rintro st ⟨LQ, inv⟩ _
    exact hpost st LQ inv
  · rintro st ⟨LQ, inv⟩ _ _
    exact hpost st LQ inv
  · rintro st c C rest ⟨LQ, inv⟩ hq _ hp
    exact GetEventGraph.LevelInv_skip W root st LQ c C rest inv hq hp
  · rintro st c C rest ⟨LQ, inv⟩ hq _ hp
    exact GetEventGraph.LevelInv_visit W root st LQ c C rest inv hq hp

/-- C24: the node list returned by `GetEventGraph` (for `MaxNodes = 0`, and for
every other budget) is in breadth-first order.  It starts with the event node;
every returned node has a distance from it, the length of a shortest chain of
execution-pin links; and whenever `x` precedes `y` in the list, the distance of
`x` is at most the distance of `y`. -/
theorem getEventGraph_breadth_first_order (W : World) (Blueprint : Option Nat)
    (EventName : String) (MaxNodes : Int) (G : FBlueprintGraphData)
    (h : GetEventGraph W Blueprint EventName MaxNodes = some G) :
    ∃ root, (G.Nodes.head?).map (fun n => n.NodeId) = some root ∧
      (∀ n ∈ G.Nodes, ∃ d, ExecDist W root n.NodeId d) ∧
      G.Nodes.Pairwise (fun x y =>
        ∀ dx dy, ExecDist W root x.NodeId dx → ExecDist W root y.NodeId dy → dx ≤ dy) := by
  rw [GetEventGraph_eq] at h
  cases hst : GetEventGraph.start W Blueprint EventName with
  | none => rw [hst] at h; cases h
  | some st =>
    rw [hst] at h
    obtain ⟨a, N, GraphName, hN, _, rfl⟩ := GetEventGraph.start_spec W Blueprint EventName st hst
    simp only [Option.some_bind] at h
    obtain ⟨h1, h2⟩ := GetEventGraph.loop_breadth_first W MaxNodes a _ _ G _
      (GetEventGraph.LevelInv_start W _ a N hN rfl) h
    exact ⟨a, GetEventGraph.loop_head W MaxNodes _ _ a N G rfl hN h, h1, h2⟩

/-- C24 on a branching event graph: the sequence node 1 leads to nodes 2 and 3,
and node 2 to node 4; the traversal returns 0, 1, 2, 3, 4, node 3 (distance 2)
before node 4 (distance 3), where a depth-first walk would return 4 first. -/
theorem getEventGraph_breadth_first_order_witness :
    ∃ G, GetEventGraph branchWorld (some 0) "Tick" 0 = some G ∧
      G.Nodes.map (fun n => n.NodeId) = [0, 1, 2, 3, 4] ∧
      ∃ root, (G.Nodes.head?).map (fun n => n.NodeId) = some root ∧
        (∀ n ∈ G.Nodes, ∃ d, ExecDist branchWorld root n.NodeId d) ∧
        G.Nodes.Pairwise (fun x y =>
          ∀ dx dy, ExecDist branchWorld root x.NodeId dx →
            ExecDist branchWorld root y.NodeId dy → dx ≤ dy) := by
  have hE : (GetEventGraph branchWorld (some 0) "Tick" 0).isSome = true := by decide
  obtain ⟨G, hG⟩ := Option.isSome_iff_exists.1 hE
  have h2 : (GetEventGraph branchWorld (some 0) "Tick" 0).map
      (fun G => G.Nodes.map (fun n => n.NodeId)) = some [0, 1, 2, 3, 4] := by decide
  rw [hG] at h2
  simp only [Option.map_some', Option.some.injEq] at h2
  exact ⟨G, hG, h2, getEventGraph_breadth_first_order branchWorld (some 0) "Tick" 0 G hG⟩

/-- The `LinkedTo` loop of `ExtractGraphs`, in closed form. -/
theorem ExtractGraphs.linkStep_foldl_records (W : World) (NodeId PinId : Nat)
    (Direction : EEdGraphPinDirection) (links : List (Option Nat))
    (Connections : List FBlueprintConnectionData) :
    links.foldl (ExtractGraphs.linkStep W NodeId PinId Direction) Connections =
      Connections ++ links.filterMap (ExtractGraphs.linkRecord W NodeId PinId Direction) := by
  induction links generalizing Connections with
  | nil => simp
  | cons l ls ih =>
    rw [List.foldl_cons, ih]
    unfold ExtractGraphs.linkStep ExtractGraphs.linkRecord
    cases hp : W.pinAt l with
    | none => simp [hp]
    | some x =>
      obtain ⟨la, LP⟩ := x
      cases hn : W.nodeAt LP.OwningNode with
      | none => simp [hp, hn]
      | some y =>
        obtain ⟨oa, Owner⟩ := y
        by_cases hd : Direction = .EGPD_Output
        · simp [hp, hn, hd]
        · simp [hp, hn, hd]

/-- The pin loop of `ExtractGraphs`, in closed form for the node id and the
connections. -/
theorem ExtractGraphs.pinStep_foldl_records (W : World) (pins : List (Option Nat))
    (st : FBlueprintNodeData × List FBlueprintConnectionData) :
    (pins.foldl (ExtractGraphs.pinStep W) st).1.NodeId = st.1.NodeId ∧
    (pins.foldl (ExtractGraphs.pinStep W) st).2 =
      st.2 ++ ((pins.filterMap W.pinAt).map (fun p => (st.1.NodeId, p.1, p.2))).flatMap
        (ExtractGraphs.pinRecords W) := by
  induction pins generalizing st with
  | nil => simp
  | cons p ps ih =>
    rw [List.foldl_cons]
    obtain ⟨h1, h2⟩ := ih (ExtractGraphs.pinStep W st p)
    rw [h1, h2]
    unfold ExtractGraphs.pinStep
    cases hp : W.pinAt p with
    | none => simp [hp]
    | some x =>
      obtain ⟨pa, Pin⟩ := x
      simp only []
      rw [ExtractGraphs.linkStep_foldl_records]
      rw [List.filterMap_cons_some hp]
      by_cases hd : Pin.Direction = .EGPD_Input
      · simp [hd, ExtractGraphs.pinRecords]
      · simp [hd, ExtractGraphs.pinRecords]

/-- One node of `ExtractGraphs`, in closed form for the connections: the
entries of its pins are appended. -/
theorem ExtractGraphs.addNode_connections (W : World) (withEvent : Bool)
    (GraphData : FBlueprintGraphData) (NodeAddr : Nat) (Node : UEdGraphNode) :
    (ExtractGraphs.addNode W withEvent GraphData NodeAddr Node).Connections =
      GraphData.Connections ++
        ((Node.Pins.filterMap W.pinAt).map (fun p => (NodeAddr, p.1, p.2))).flatMap
          (ExtractGraphs.pinRecords W) := by
  unfold ExtractGraphs.addNode
  exact (ExtractGraphs.pinStep_foldl_records W Node.Pins _).2

/-- The node loop of a function graph without a node limit, in closed form for
the connections: the entries of the pins of the graph, in order. -/
theorem ExtractGraphs.functionNodes_connections (W : World) (MaxNodes : Int)
    (hM : MaxNodes ≤ 0) (nodes : List (Option Nat)) (GraphData : FBlueprintGraphData)
    (NodesAdded : Nat) :
    (ExtractGraphs.functionNodes W MaxNodes nodes GraphData NodesAdded).Connections =
      GraphData.Connections ++ (graphPins W nodes).flatMap (ExtractGraphs.pinRecords W) := by
  induction nodes generalizing GraphData NodesAdded with
  | nil => simp [ExtractGraphs.functionNodes, graphPins]
  | cons n ns ih =>
    rw [ExtractGraphs.functionNodes, if_neg (by omega)]
    cases hn : W.nodeAt n with
    | none =>
      simp only []
      rw [ih]
      simp [graphPins, hn]
    | some x =>
      obtain ⟨na, N⟩ := x
      simp only []
      rw [ih, ExtractGraphs.addNode_connections]
      simp [graphPins, hn, List.append_assoc]

/-- The record of a function graph extracted without a node limit holds, as
connections, the entries of the pins of the graph, in order. -/
theorem ExtractGraphs.functionGraph_connections (W : World) (TotalGraphs : Nat)
    (MaxGraphs MaxNodes : Int) (hM : MaxNodes ≤ 0) (Graph : UEdGraph) :
    (ExtractGraphs.functionGraph W TotalGraphs MaxGraphs MaxNodes Graph).Connections =
      (graphPins W Graph.Nodes).flatMap (ExtractGraphs.pinRecords W) := by
  unfold ExtractGraphs.functionGraph
  simp only []
  rw [ExtractGraphs.functionNodes_connections W MaxNodes hM]
  rfl

/-- A pin found with its address: the pointer is that address, and the pin
table holds the pin there. -/
theorem World.pinAt_eq (W : World) (p : Option Nat) (a : Nat) (P : UEdGraphPin)
    (h : W.pinAt p = some (a, P)) : p = some a ∧ W.Pins[a]? = some P := by
  cases p with
  | none => simp [World.pinAt] at h
  | some b =>
    simp only [World.pinAt, Option.map_eq_some', Prod.mk.injEq] at h
    obtain ⟨Q, hQ, rfl, rfl⟩ := h
    exact ⟨rfl, hQ⟩

/-- A pin of a graph is the pin of the table at its address, and its node is a
node of the table. -/
theorem graphPins_mem (W : World) (nodes : List (Option Nat)) (x : Nat × Nat × UEdGraphPin)
    (h : x ∈ graphPins W nodes) :
    W.pinAt (some x.2.1) = some (x.2.1, x.2.2) ∧
    ∃ N, W.nodeAt (some x.1) = some (x.1, N) := by
  unfold graphPins at h
  rw [List.mem_flatMap] at h
  obtain ⟨n, hn, hx⟩ := h
  rw [List.mem_filterMap] at hn
  obtain ⟨np, _, hnp⟩ := hn
  rw [List.mem_map] at hx
  obtain ⟨p, hp, rfl⟩ := hx
  rw [List.mem_filterMap] at hp
  obtain ⟨pp, _, hpp⟩ := hp
  obtain ⟨na, N⟩ := n
  obtain ⟨pa, P⟩ := p
  obtain ⟨_, hN⟩ := W.nodeAt_eq _ _ _ hnp
  obtain ⟨_, hP⟩ := W.pinAt_eq _ _ _ hpp
  exact ⟨by simp [World.pinAt, hP], N, W.nodeAt_of_getElem? na N hN⟩

/-- The entry emitted for a link to a pin of the graph that is owned by its
node. -/
theorem ExtractGraphs.linkRecord_of_mem (W : World) (nodes : List (Option Nat))
    (y : Nat × Nat × UEdGraphPin) (hy : y ∈ graphPins W nodes)
    (hO : y.2.2.OwningNode = some y.1) (n p : Nat) (d : EEdGraphPinDirection) :
    ExtractGraphs.linkRecord W n p d (some y.2.1) =
      some (if d = .EGPD_Output then
          { SourceNodeId := n, SourcePinId := p, TargetNodeId := y.1, TargetPinId := y.2.1 }
        else
          { SourceNodeId := y.1, SourcePinId := y.2.1, TargetNodeId := n, TargetPinId := p }) := by
  obtain ⟨hP, N, hN⟩ := graphPins_mem W nodes y hy
  unfold ExtractGraphs.linkRecord
  rw [hP]
  simp only []
  rw [hO, hN]

/-- What an emitted entry tells about the link it was emitted for: the linked
pin is the pin on the other side of the entry. -/
theorem ExtractGraphs.linkRecord_sides (W : World) (n p : Nat) (d : EEdGraphPinDirection)
    (l : Option Nat) (c : FBlueprintConnectionData)
    (h : ExtractGraphs.linkRecord W n p d l = some c) :
    (d = .EGPD_Output → c.SourcePinId = p ∧ l = some c.TargetPinId) ∧
    (d ≠ .EGPD_Output → c.TargetPinId = p ∧ l = some c.SourcePinId) := by
  unfold ExtractGraphs.linkRecord at h
  cases hp : W.pinAt l with
  | none => rw [hp] at h; cases h
  | some x =>
    obtain ⟨la, LP⟩ := x
    rw [hp] at h
    simp only [] at h
    cases hn : W.nodeAt LP.OwningNode with
    | none => rw [hn] at h; cases h
    | some y =>
      obtain ⟨oa, O⟩ := y
      rw [hn] at h
      simp only [Option.some.injEq] at h
      obtain ⟨hl, _⟩ := W.pinAt_eq _ _ _ hp
      constructor
      · intro hd
        rw [if_pos hd] at h
        subst h
        exact ⟨rfl, hl⟩
      · intro hd
        rw [if_neg hd] at h
        subst h
        exact ⟨rfl, hl⟩

/-- On a well-formed graph, each wire has one entry in the list of wires. -/
theorem graphWires_nodup (W : World) (Graph : UEdGraph) (hW : WellFormedPins W Graph) :
    (graphWires W Graph).Nodup := by
  unfold graphWires
  rw [List.nodup_flatMap]
  constructor
  · intro x hx
    rw [List.mem_filter] at hx
    refine List.Nodup.filterMap ?_ (hW.2 x hx.1).2
    intro a a1 b hb hb1
    have h1 := (ExtractGraphs.linkRecord_sides W _ _ _ a b (Option.mem_def.1 hb)).1 rfl
    have h2 := (ExtractGraphs.linkRecord_sides W _ _ _ a1 b (Option.mem_def.1 hb1)).1 rfl
    rw [h1.2, h2.2]
  · have hp : (graphPins W Graph.Nodes).Pairwise (fun a b => a.2.1 ≠ b.2.1) := by
      have := hW.1
      unfold List.Nodup at this
      rwa [List.pairwise_map] at this
    refine (hp.filter _).imp ?_
    intro a b hab c hca hcb
    rw [List.mem_filterMap] at hca hcb
    obtain ⟨l, _, hl⟩ := hca
    obtain ⟨l1, _, hl1⟩ := hcb
    have h1 := (ExtractGraphs.linkRecord_sides W _ _ _ l c hl).1 rfl
    have h2 := (ExtractGraphs.linkRecord_sides W _ _ _ l1 c hl1).1 rfl
    exact hab (h1.1.symm.trans h2.1)

/-- On a well-formed graph, the entries emitted from the pins that are not
output pins are pairwise distinct. -/
theorem ExtractGraphs.inputRecords_nodup (W : World) (Graph : UEdGraph)
    (hW : WellFormedPins W Graph) :
    (((graphPins W Graph.Nodes).filter
      (fun x => !decide (x.2.2.Direction = .EGPD_Output))).flatMap
        (ExtractGraphs.pinRecords W)).Nodup := by
  rw [List.nodup_flatMap]
  constructor
  · intro x hx
    rw [List.mem_filter] at hx
    have hd : x.2.2.Direction ≠ .EGPD_Output := by simpa using hx.2
    refine List.Nodup.filterMap ?_ (hW.2 x hx.1).2
    intro a a1 b hb hb1
    have h1 := (ExtractGraphs.linkRecord_sides W _ _ _ a b (Option.mem_def.1 hb)).2 hd
    have h2 := (ExtractGraphs.linkRecord_sides W _ _ _ a1 b (Option.mem_def.1 hb1)).2 hd
    rw [h1.2, h2.2]
  · have hp : (graphPins W Graph.Nodes).Pairwise (fun a b => a.2.1 ≠ b.2.1) := by
      have := hW.1
      unfold List.Nodup at this
      rwa [List.pairwise_map] at this
    have hp2 : ((graphPins W Graph.Nodes).filter
        (fun x => !decide (x.2.2.Direction = .EGPD_Output))).Pairwise
        (fun a b => (a.2.1 ≠ b.2.1 ∧ a.2.2.Direction ≠ .EGPD_Output) ∧
          b.2.2.Direction ≠ .EGPD_Output) := by
      refine ((List.Pairwise.and_mem.1 (hp.filter _)).imp ?_)
      rintro a b ⟨ha, hb, hab⟩
      rw [List.mem_filter] at ha hb
      exact ⟨⟨hab, by simpa using ha.2⟩, by simpa using hb.2⟩
    refine hp2.imp ?_
    rintro a b ⟨⟨hab, hda⟩, hdb⟩ c hca hcb
    unfold ExtractGraphs.pinRecords at hca hcb
    rw [List.mem_filterMap] at hca hcb
    obtain ⟨l, _, hl⟩ := hca
    obtain ⟨l1, _, hl1⟩ := hcb
    have h1 := (ExtractGraphs.linkRecord_sides W _ _ _ l c hl).2 hda
    have h2 := (ExtractGraphs.linkRecord_sides W _ _ _ l1 c hl1).2 hdb
    exact hab (h1.1.symm.trans h2.1)

/-- On a well-formed graph with symmetric links between output and input pins
of the graph, the entries emitted from the input side are the wires, each
once. -/
theorem ExtractGraphs.inputRecords_perm (W : World) (Graph : UEdGraph)
    (hW : WellFormedPins W Graph) (hL : LinksSymmetric W Graph) :
    List.Perm
      (((graphPins W Graph.Nodes).filter
        (fun x => !decide (x.2.2.Direction = .EGPD_Output))).flatMap
          (ExtractGraphs.pinRecords W))
      (graphWires W Graph) := by
  rw [List.perm_ext_iff_of_nodup (ExtractGraphs.inputRecords_nodup W Graph hW)
    (graphWires_nodup W Graph hW)]
  intro c
  unfold graphWires
  simp only [List.mem_flatMap, List.mem_filter, ExtractGraphs.pinRecords,
    List.mem_filterMap]
  constructor
  · rintro ⟨y, ⟨hy, hdy⟩, l, hl, hrec⟩
    have hd : y.2.2.Direction ≠ .EGPD_Output := by simpa using hdy
    obtain ⟨x, hx, rfl, hdir, hback⟩ := hL y hy l hl
    rw [ExtractGraphs.linkRecord_of_mem W _ x hx (hW.2 x hx).1, if_neg hd] at hrec
    simp only [Option.some.injEq] at hrec
    have hxo : x.2.2.Direction = .EGPD_Output := by
      cases hxd : x.2.2.Direction with
      | EGPD_Output => rfl
      | EGPD_Input =>
        cases hyd : y.2.2.Direction with
        | EGPD_Output => exact absurd hyd hd
        | EGPD_Input => exact absurd (hxd.trans hyd.symm) hdir
    refine ⟨x, ⟨hx, by simpa using hxo⟩, some y.2.1, hback, ?_⟩
    rw [ExtractGraphs.linkRecord_of_mem W _ y hy (hW.2 y hy).1, if_pos rfl, ← hrec]
  · rintro ⟨x, ⟨hx, hdx⟩, l, hl, hrec⟩
    have hxo : x.2.2.Direction = .EGPD_Output := by simpa using hdx
    obtain ⟨y, hy, rfl, hdir, hback⟩ := hL x hx l hl
    rw [ExtractGraphs.linkRecord_of_mem W _ y hy (hW.2 y hy).1, if_pos rfl] at hrec
    simp only [Option.some.injEq] at hrec
    have hd : y.2.2.Direction ≠ .EGPD_Output := by
      intro h
      exact hdir (h.trans hxo.symm)
    refine ⟨y, ⟨hy, by simpa using hd⟩, some x.2.1, hback, ?_⟩
    rw [ExtractGraphs.linkRecord_of_mem W _ x hx (hW.2 x hx).1, if_neg hd, ← hrec]

/-- The entries emitted from the output pins of a graph are its wires. -/
theorem ExtractGraphs.outputRecords_eq (W : World) (Graph : UEdGraph) :
    ((graphPins W Graph.Nodes).filter
      (fun x => decide (x.2.2.Direction = .EGPD_Output))).flatMap
        (ExtractGraphs.pinRecords W) = graphWires W Graph := by
  unfold graphWires
  apply List.flatMap_congr
  intro x hx
  rw [List.mem_filter] at hx
  have hxo : x.2.2.Direction = .EGPD_Output := by simpa using hx.2
  unfold ExtractGraphs.pinRecords
  rw [hxo]

/-- The record `ExtractGraphs` builds for a function graph without a node limit,
when the pins of the graph are well formed and its links are symmetric, join an
output pin to an input pin and stay in the graph: the connections are the
wires of the graph, each entered exactly twice. -/
theorem ExtractGraphs.functionGraph_wires_twice (W : World) (Graph : UEdGraph)
    (TotalGraphs : Nat) (MaxGraphs MaxNodes : Int) (hM : MaxNodes ≤ 0)
    (hW : WellFormedPins W Graph) (hL : LinksSymmetric W Graph) :
    List.Perm (ExtractGraphs.functionGraph W TotalGraphs MaxGraphs MaxNodes Graph).Connections
      (graphWires W Graph ++ graphWires W Graph) ∧
    (graphWires W Graph).Nodup ∧
    (∀ c, c ∈ (ExtractGraphs.functionGraph W TotalGraphs MaxGraphs MaxNodes Graph).Connections ↔
      c ∈ graphWires W Graph) ∧
    (∀ c ∈ graphWires W Graph,
      (ExtractGraphs.functionGraph W TotalGraphs MaxGraphs MaxNodes Graph).Connections.count c
        = 2) ∧
    (ExtractGraphs.functionGraph W TotalGraphs MaxGraphs MaxNodes Graph).Connections.length =
      2 * (graphWires W Graph).length := by
  have hperm : List.Perm
      (ExtractGraphs.functionGraph W TotalGraphs MaxGraphs MaxNodes Graph).Connections
      (graphWires W Graph ++ graphWires W Graph) := by
    rw [ExtractGraphs.functionGraph_connections W TotalGraphs MaxGraphs MaxNodes hM]
    have h1 := (List.filter_append_perm
      (fun x : Nat × Nat × UEdGraphPin => decide (x.2.2.Direction = .EGPD_Output))
      (graphPins W Graph.Nodes)).symm
    have h2 := h1.flatMap_right (ExtractGraphs.pinRecords W)
    rw [List.flatMap_append, ExtractGraphs.outputRecords_eq] at h2
    exact h2.trans (List.Perm.append_left _ (ExtractGraphs.inputRecords_perm W Graph hW hL))
  have hnd := graphWires_nodup W Graph hW
  refine ⟨hperm, hnd, ?_, ?_, ?_⟩
  · intro c
    rw [hperm.mem_iff, List.mem_append, or_self]
  · intro c hc
    rw [hperm.count_eq, List.count_append, List.count_eq_one_of_mem hnd hc]
  · rw [hperm.length_eq, List.length_append]
    omega

/-- The graphs the function-graph loop of `ExtractGraphs` adds are records of
function graphs of the list: what holds of the graphs it starts with and of
these records holds of all the graphs it returns. -/
theorem ExtractGraphs.functionGraphs_mem (W : World) (GraphName : String) (TotalGraphs : Nat)
    (MaxGraphs MaxNodes : Int) (GraphsAdded : Nat) (Q : FBlueprintGraphData → Prop)
    (graphs : List (Option UEdGraph)) (Graphs : List FBlueprintGraphData)
    (hG : ∀ G ∈ Graphs, Q G)
    (hF : ∀ Graph, some Graph ∈ graphs →
      Q (ExtractGraphs.functionGraph W TotalGraphs MaxGraphs MaxNodes Graph)) :
    ∀ G ∈ ExtractGraphs.functionGraphs W GraphName TotalGraphs MaxGraphs MaxNodes GraphsAdded
        graphs Graphs, Q G := by
  induction graphs generalizing Graphs with
  | nil => exact hG
  | cons g gs ih =>
    unfold ExtractGraphs.functionGraphs
    split
    · exact hG
    · cases g with
      | none => exact ih Graphs hG (fun Graph hm => hF Graph (List.mem_cons_of_mem _ hm))
      | some Graph =>
        simp only []
        split
        · exact ih Graphs hG (fun Graph hm => hF Graph (List.mem_cons_of_mem _ hm))
        · apply ih
          · intro G hGm
            rcases List.mem_append.1 hGm with h | h
            · exact hG G h
            · rw [List.mem_singleton] at h
              subst h
              exact hF Graph (List.mem_cons_self _ _)
          · exact fun Graph hm => hF Graph (List.mem_cons_of_mem _ hm)

/-- The node loop of a function graph keeps the graph type of the record. -/
theorem ExtractGraphs.functionGraph_type (W : World) (TotalGraphs : Nat)
    (MaxGraphs MaxNodes : Int) (Graph : UEdGraph) :
    (ExtractGraphs.functionGraph W TotalGraphs MaxGraphs MaxNodes Graph).GraphType =
        "Function" ∧
    (ExtractGraphs.functionGraph W TotalGraphs MaxGraphs MaxNodes Graph).Name = Graph.Name := by
  have h : ∀ (nodes : List (Option Nat)) (GD : FBlueprintGraphData) (k : Nat),
      (ExtractGraphs.functionNodes W MaxNodes nodes GD k).GraphType = GD.GraphType ∧
      (ExtractGraphs.functionNodes W MaxNodes nodes GD k).Name = GD.Name := by
    intro nodes
    induction nodes with
    | nil => intro GD k; exact ⟨rfl, rfl⟩
    | cons n ns ih =>
      intro GD k
      rw [ExtractGraphs.functionNodes]
      split
      · exact ⟨rfl, rfl⟩
      · split
        · exact ih GD k
        · rename_i na N _
          obtain ⟨h1, h2⟩ := ih (ExtractGraphs.addNode W false GD na N) (k + 1)
          exact ⟨h1, h2⟩
  unfold ExtractGraphs.functionGraph
  exact h _ _ _

/-- C26, amended: every graph of type `Function` that `ExtractGraphs` returns
without a node limit is the record of a function graph of the blueprint, under
its name; when every pin of that graph is held once, by its owning node, and
lists no pin twice, and the links are symmetric, join an output pin to an input
pin and stay in the graph, the connections of the record are the wires of the
graph, each entered exactly twice with source the output side and target the
input side (once from each of its two pins), so there are twice as many
connections as wires. -/
theorem extractGraphs_emits_each_wire_twice (W : World) (Blueprint : Option Nat)
    (BP : UBlueprint) (GraphName : String) (MaxGraphs MaxNodes : Int)
    (hB : W.blueprint Blueprint = some BP) (hM : MaxNodes ≤ 0) :
    ∀ G ∈ ExtractGraphs W Blueprint GraphName MaxGraphs MaxNodes, G.GraphType = "Function" →
      ∃ Graph, some Graph ∈ BP.FunctionGraphs ∧ G.Name = Graph.Name ∧
        (WellFormedPins W Graph → LinksSymmetric W Graph →
          List.Perm G.Connections (graphWires W Graph ++ graphWires W Graph) ∧
          (graphWires W Graph).Nodup ∧
          (∀ c, c ∈ G.Connections ↔ c ∈ graphWires W Graph) ∧
          (∀ c ∈ graphWires W Graph, G.Connections.count c = 2) ∧
          G.Connections.length = 2 * (graphWires W Graph).length) := by
  intro G hG hT
  unfold ExtractGraphs at hG
  rw [hB] at hG
  simp only [List.mem_append] at hG
  rcases hG with hG | hG
  · obtain ⟨Graph, hm, rfl⟩ := ExtractGraphs.functionGraphs_mem W GraphName _ MaxGraphs
      MaxNodes 0 (fun G => ∃ Graph, some Graph ∈ BP.FunctionGraphs ∧
        G = ExtractGraphs.functionGraph W
          (BP.FunctionGraphs.length + BP.UbergraphPages.length) MaxGraphs MaxNodes Graph)
      BP.FunctionGraphs [] (fun G h => (by cases h)) (fun Graph hm => ⟨Graph, hm, rfl⟩) G hG
    exact ⟨Graph, hm, (ExtractGraphs.functionGraph_type W _ MaxGraphs MaxNodes Graph).2,
      fun hW hL =>
        ExtractGraphs.functionGraph_wires_twice W Graph _ MaxGraphs MaxNodes hM hW hL⟩
  · exfalso
    unfold ExtractGraphs.eventGraph at hG
    split at hG
    · cases hG
    · cases hG
    · rename_i EventGraph _ _
      rw [List.mem_singleton] at hG
      have hty : ∀ (nodes : List (Option Nat)) (GD : FBlueprintGraphData),
          (nodes.foldl (ExtractGraphs.eventNodeStep W) GD).GraphType = GD.GraphType := by
        intro nodes
        induction nodes with
        | nil => intro GD; rfl
        | cons n ns ih =>
          intro GD
          rw [List.foldl_cons, ih]
          unfold ExtractGraphs.eventNodeStep
          split <;> rfl
      rw [hG, hty] at hT
      have hne : ("EventGraph" : String) ≠ "Function" := by decide
      exact hne hT

/-- C26 amended, on `BP_Hero`: the function graph `Fire` has one wire, from the entry
node to the call node, and its record holds the wire twice. -/
theorem extractGraphs_emits_each_wire_twice_witness :
    (ExtractGraphs graphWorld (some 0) "" 0 0).map (fun G =>
      (G.Name, G.Connections.map (fun c =>
        (c.SourceNodeId, c.SourcePinId, c.TargetNodeId, c.TargetPinId)))) =
      [("Fire", [(0, 0, 1, 1), (0, 0, 1, 1)]), ("Reload", []),
       ("EventGraph",
        [(3, 2, 4, 3), (3, 2, 4, 3), (4, 4, 5, 5), (6, 7, 4, 6), (4, 4, 5, 5), (6, 7, 4, 6)])] ∧
    (graphWires graphWorld { Name := "Fire", Nodes := [some 0, some 1] }).map
      (fun c => (c.SourceNodeId, c.SourcePinId, c.TargetNodeId, c.TargetPinId)) =
      [(0, 0, 1, 1)] ∧
    WellFormedPins graphWorld { Name := "Fire", Nodes := [some 0, some 1] } ∧
    LinksSymmetric graphWorld { Name := "Fire", Nodes := [some 0, some 1] } ∧
    ∀ G ∈ ExtractGraphs graphWorld (some 0) "" 0 0, G.GraphType = "Function" →
      ∃ Graph, some Graph ∈
          [some { Name := "Fire", Nodes := [some 0, some 1] },
           some ({ Name := "Reload", Nodes := [some 2] } : UEdGraph)] ∧
        G.Name = Graph.Name ∧
        (WellFormedPins graphWorld Graph → LinksSymmetric graphWorld Graph →
          List.Perm G.Connections (graphWires graphWorld Graph ++ graphWires graphWorld Graph) ∧
          (graphWires graphWorld Graph).Nodup ∧
          (∀ c, c ∈ G.Connections ↔ c ∈ graphWires graphWorld Graph) ∧
          (∀ c ∈ graphWires graphWorld Graph, G.Connections.count c = 2) ∧
          G.Connections.length = 2 * (graphWires graphWorld Graph).length) :=
  ⟨by decide, by decide, by decide, by decide,
    extractGraphs_emits_each_wire_twice graphWorld (some 0) _ "" 0 0 rfl (by decide)⟩


/-- C26, counterexample: in `dupWorld` the links of the function graph `Twice`
are symmetric, join an output pin to an input pin and stay in the graph, and
the graph has one wire, between pin 0 and pin 1; but pin 0 lists pin 1 twice,
so the record extracted without a node limit holds the entry of that wire
three times, not twice, and three is not twice a number of wires. -/
theorem extractGraphs_repeated_link_three_entries :
    LinksSymmetric dupWorld { Name := "Twice", Nodes := [some 0, some 1] } ∧
    ((graphWires dupWorld { Name := "Twice", Nodes := [some 0, some 1] }).dedup).map
      (fun c => (c.SourceNodeId, c.SourcePinId, c.TargetNodeId, c.TargetPinId)) =
      [(0, 0, 1, 1)] ∧
    (ExtractGraphs dupWorld (some 0) "" 0 0).map (fun G =>
      (G.Name, G.Connections.map (fun c =>
        (c.SourceNodeId, c.SourcePinId, c.TargetNodeId, c.TargetPinId)))) =
      [("Twice", [(0, 0, 1, 1), (0, 0, 1, 1), (0, 0, 1, 1)])] ∧
    (ExtractGraphs dupWorld (some 0) "" 0 0).map (fun G => G.GraphType) = ["Function"] ∧
    (∀ G ∈ ExtractGraphs dupWorld (some 0) "" 0 0, ∀ c ∈ G.Connections,
      G.Connections.count c = 3) ∧
    (∀ G ∈ ExtractGraphs dupWorld (some 0) "" 0 0, ∀ k, G.Connections.length ≠ 2 * k) ∧
    ¬ WellFormedPins dupWorld { Name := "Twice", Nodes := [some 0, some 1] } := by
  refine ⟨by decide, by decide, by decide, by decide, by decide, ?_, by decide⟩
  have h3 : ∀ G ∈ ExtractGraphs dupWorld (some 0) "" 0 0, G.Connections.length = 3 := by decide
  intro G hG k hk
  rw [h3 G hG] at hk
  omega

/-- The link loop of the traversal leaves the node record as it is. -/
theorem GetEventGraph.linkStep_foldl_node (W : World) (PinAddr : Nat)
    (links : List (Option Nat)) (v : GetEventGraph.Visit) :
    (links.foldl (GetEventGraph.linkStep W PinAddr) v).NodeData = v.NodeData := by
  rw [GetEventGraph.linkStep_foldl_eq]

/-- One step of the pin loop on a non-null pin appends the record of the pin to
the input pins or to the output pins of the node record, by its direction. -/
theorem GetEventGraph.pinStep_nodeData (W : World) (v : GetEventGraph.Visit) (p : Option Nat)
    (pa : Nat) (Pin : UEdGraphPin) (hp : W.pinAt p = some (pa, Pin)) :
    (GetEventGraph.pinStep W v p).NodeData =
      if Pin.Direction = .EGPD_Input then
        { v.NodeData with
          InputPins := v.NodeData.InputPins ++ [GetEventGraph.pinData (pa, Pin)] }
      else
        { v.NodeData with
          OutputPins := v.NodeData.OutputPins ++ [GetEventGraph.pinData (pa, Pin)] } := by
  unfold GetEventGraph.pinStep
  rw [hp]
  simp only []
  by_cases hexec : FName.Equals Pin.PinCategory PC_Exec = true
  · rw [if_pos hexec, GetEventGraph.linkStep_foldl_node]
    by_cases hdir : Pin.Direction = .EGPD_Input
    · rw [if_pos hdir, if_pos hdir]
      rfl
    · rw [if_neg hdir, if_neg hdir]
      rfl
  · rw [if_neg hexec]
    by_cases hdir : Pin.Direction = .EGPD_Input
    · rw [if_pos hdir, if_pos hdir]
      rfl
    · rw [if_neg hdir, if_neg hdir]
      rfl

/-- One step of the pin loop keeps the pin records of the node record and, for
a non-null pin, adds the record of that pin. -/
theorem GetEventGraph.pinStep_node (W : World) (v : GetEventGraph.Visit) (p : Option Nat) :
    (∀ pd ∈ v.NodeData.InputPins ++ v.NodeData.OutputPins,
      pd ∈ (GetEventGraph.pinStep W v p).NodeData.InputPins ++
        (GetEventGraph.pinStep W v p).NodeData.OutputPins) ∧
    ∀ x, W.pinAt p = some x →
      GetEventGraph.pinData x ∈ (GetEventGraph.pinStep W v p).NodeData.InputPins ++
        (GetEventGraph.pinStep W v p).NodeData.OutputPins := by
  cases hp : W.pinAt p with
  | none =>
    have hv : GetEventGraph.pinStep W v p = v := by
      unfold GetEventGraph.pinStep
      rw [hp]
    rw [hv]
    refine ⟨fun pd h => h, ?_⟩
    intro x hx
    cases hx
  | some y =>
    obtain ⟨pa, Pin⟩ := y
    rw [GetEventGraph.pinStep_nodeData W v p pa Pin hp]
    by_cases hdir : Pin.Direction = .EGPD_Input
    · rw [if_pos hdir]
      refine ⟨?_, ?_⟩
      · intro pd h
        simp only [List.mem_append] at h ⊢
        rcases h with h | h
        · exact Or.inl (Or.inl h)
        · exact Or.inr h
      · intro x hx
        cases hx
        simp
    · rw [if_neg hdir]
      refine ⟨?_, ?_⟩
      · intro pd h
        simp only [List.mem_append] at h ⊢
        rcases h with h | h
        · exact Or.inl h
        · exact Or.inr (Or.inl h)
      · intro x hx
        cases hx
        simp

/-- The pin loop of the traversal keeps the pin records of the node record and
adds the record of every non-null pin of the list. -/
theorem GetEventGraph.pinStep_foldl_node (W : World) (pins : List (Option Nat))
    (v : GetEventGraph.Visit) :
    (∀ pd ∈ v.NodeData.InputPins ++ v.NodeData.OutputPins,
      pd ∈ (pins.foldl (GetEventGraph.pinStep W) v).NodeData.InputPins ++
        (pins.foldl (GetEventGraph.pinStep W) v).NodeData.OutputPins) ∧
    ∀ p ∈ pins, ∀ x, W.pinAt p = some x →
      GetEventGraph.pinData x ∈ (pins.foldl (GetEventGraph.pinStep W) v).NodeData.InputPins ++
        (pins.foldl (GetEventGraph.pinStep W) v).NodeData.OutputPins := by
  induction pins generalizing v with
  | nil =>
    refine ⟨fun pd h => h, ?_⟩
    intro p hp
    cases hp
  | cons q qs ih =>
    rw [List.foldl_cons]
    obtain ⟨h1, h2⟩ := ih (GetEventGraph.pinStep W v q)
    obtain ⟨k1, k2⟩ := GetEventGraph.pinStep_node W v q
    refine ⟨fun pd h => h1 pd (k1 pd h), ?_⟩
    intro p hp x hx
    rcases List.mem_cons.1 hp with hp | hp
    · subst hp
      exact h1 _ (k2 x hx)
    · exact h2 p hp x hx

/-- The node record one visit appends holds the record of every non-null pin of
the visited node. -/
theorem GetEventGraph.visit_node (W : World) (st : GetEventGraph.State) (c : Nat)
    (C : UEdGraphNode) :
    ∃ nd, (GetEventGraph.visit W st c C).GraphData.Nodes = st.GraphData.Nodes ++ [nd] ∧
      nd.NodeId = c ∧
      ∀ p ∈ C.Pins, ∀ x, W.pinAt p = some x →
        GetEventGraph.pinData x ∈ nd.InputPins ++ nd.OutputPins := by
  unfold GetEventGraph.visit
  exact ⟨_, rfl, (GetEventGraph.pinStep_foldl_eq W C.Pins _).1,
    (GetEventGraph.pinStep_foldl_node W C.Pins _).2⟩

/-- The traversal keeps the origin invariant: the connections of the returned
graph are those of the visits of its nodes, in order, and every returned node
record holds the record of each pin of its node. -/
theorem GetEventGraph.loop_origin (W : World) (MaxNodes : Int) (fuel : Nat)
    (st : GetEventGraph.State) (G : FBlueprintGraphData)
    (h0 : GetEventGraph.OriginInv W st)
    (h : GetEventGraph.loop W MaxNodes fuel st = some G) :
    G.Connections = G.Nodes.flatMap (fun n => GetEventGraph.nodeConnections W n.NodeId) ∧
    ∀ n ∈ G.Nodes, ∃ C, W.Nodes[n.NodeId]? = some C ∧
      ∀ p ∈ C.Pins, ∀ x, W.pinAt p = some x →
        GetEventGraph.pinData x ∈ n.InputPins ++ n.OutputPins := by
  refine GetEventGraph.loop_induction W MaxNodes (GetEventGraph.OriginInv W)
    (fun G => G.Connections =
        G.Nodes.flatMap (fun n => GetEventGraph.nodeConnections W n.NodeId) ∧
      ∀ n ∈ G.Nodes, ∃ C, W.Nodes[n.NodeId]? = some C ∧
        ∀ p ∈ C.Pins, ∀ x, W.pinAt p = some x →
          GetEventGraph.pinData x ∈ n.InputPins ++ n.OutputPins)
    ?_ ?_ ?_ ?_ fuel st G h0 h
  · intro st hI _
    exact hI.2
  · intro st hI _ _
    exact hI.2
  · intro st c C rest hI hq _ _
    exact ⟨GetEventGraph.BaseInv_skip W st c C rest hI.1 hq, hI.2⟩
  · intro st c C rest hI hq _ hp
    have hC : W.Nodes[c]? = some C :=
      hI.1.queue_valid (c, C) (by rw [hq]; exact List.mem_cons_self _ _)
    obtain ⟨nd, hn, hid, hpins⟩ :=
      GetEventGraph.visit_node W { st with NodesToProcess := rest } c C
    obtain ⟨_, hconn, _⟩ := GetEventGraph.visit_eq W { st with NodesToProcess := rest } c C
    refine ⟨GetEventGraph.BaseInv_visit W st c C rest hI.1 hq hp, ?_, ?_⟩
    · rw [hconn, hn, List.flatMap_append, List.flatMap_singleton, hid]
      have hnc : GetEventGraph.nodeConnections W c =
          (GetEventGraph.linksOfPins W C.Pins).map (GetEventGraph.connOf c) := by
        unfold GetEventGraph.nodeConnections
        rw [hC]
      rw [hnc]
      exact congrArg (· ++ _) hI.2.1
    · intro n hnmem
      rw [hn, List.mem_append, List.mem_singleton] at hnmem
      rcases hnmem with hnmem | hnmem
      · exact hI.2.2 n hnmem
      · subst hnmem
        exact ⟨C, by rw [hid]; exact hC, hpins⟩

/-- C22, amended: the traversal of `GetEventGraph` emits connections from every
execution-type pin of a returned node, input pins as well as output pins.  The
connections of the returned graph are, for each returned node in order, one
entry per link followed from the execution-type pins of that node.  So the
source pin of every connection is recorded as an execution-type pin, input or
output, on the returned node that is its source node; and every link from an
execution-type pin of a returned node, whatever the direction of the pin, to a
pin with an owning node has its entry, from that pin to the linked pin.
Without a node budget the owner of the linked pin is returned too. -/
theorem getEventGraph_connections_from_every_exec_pin (W : World) (Blueprint : Option Nat)
    (EventName : String) (MaxNodes : Int) (G : FBlueprintGraphData)
    (h : GetEventGraph W Blueprint EventName MaxNodes = some G) :
    G.Connections = G.Nodes.flatMap (fun n => GetEventGraph.nodeConnections W n.NodeId) ∧
    (∀ c ∈ G.Connections, ∃ n ∈ G.Nodes, n.NodeId = c.SourceNodeId ∧
      ∃ pd ∈ n.InputPins ++ n.OutputPins, pd.PinId = c.SourcePinId ∧
        pd.IsExecution = true) ∧
    (∀ n ∈ G.Nodes, ∃ N, W.Nodes[n.NodeId]? = some N ∧
      ∀ p ∈ N.Pins, ∀ pa P, W.pinAt p = some (pa, P) →
        FName.Equals P.PinCategory PC_Exec = true →
        ∀ l ∈ P.LinkedTo, ∀ la LP, W.pinAt l = some (la, LP) →
        ∀ oa Owner, W.nodeAt LP.OwningNode = some (oa, Owner) →
          ({ SourceNodeId := n.NodeId, SourcePinId := pa
             TargetNodeId := oa, TargetPinId := la } : FBlueprintConnectionData) ∈
            G.Connections) ∧
    (MaxNodes ≤ 0 → ∀ c ∈ G.Connections, ∃ m ∈ G.Nodes, m.NodeId = c.TargetNodeId) := by
  rw [GetEventGraph_eq] at h
  cases hst : GetEventGraph.start W Blueprint EventName with
  | none => rw [hst] at h; cases h
  | some st =>
    rw [hst] at h
    obtain ⟨a, N, GraphName, hN, _, rfl⟩ := GetEventGraph.start_spec W Blueprint EventName st hst
    have hB := GetEventGraph.BaseInv_start W
      { Name := EventName, GraphType := "Event"
        Metadata := TMap.Add [] "GraphName" GraphName } a N hN rfl
    obtain ⟨hconn, hnodes⟩ := GetEventGraph.loop_origin W MaxNodes _ _ G
      ⟨hB, rfl, fun n hn => (by cases hn)⟩ h
    refine ⟨hconn, ?_, ?_, ?_⟩
    · intro c hc
      rw [hconn, List.mem_flatMap] at hc
      obtain ⟨n, hn, hcn⟩ := hc
      obtain ⟨C, hC, hpins⟩ := hnodes n hn
      unfold GetEventGraph.nodeConnections at hcn
      rw [hC] at hcn
      simp only [List.mem_map] at hcn
      obtain ⟨x, hx, rfl⟩ := hcn
      obtain ⟨p, hp, P, hP, hexec, _⟩ := (GetEventGraph.mem_linksOfPins W C.Pins x).1 hx
      exact ⟨n, hn, rfl, GetEventGraph.pinData (x.1, P), hpins p hp _ hP, rfl, hexec⟩
    · intro n hn
      obtain ⟨C, hC, _⟩ := hnodes n hn
      refine ⟨C, hC, ?_⟩
      intro p hp pa P hP hexec l hl la LP hLP oa Owner hO
      rw [hconn, List.mem_flatMap]
      refine ⟨n, hn, ?_⟩
      unfold GetEventGraph.nodeConnections
      rw [hC]
      simp only [List.mem_map]
      exact ⟨(pa, la, oa, Owner),
        (GetEventGraph.mem_linksOfPins W C.Pins _).2 ⟨p, hp, P, hP, hexec, l, hl, LP, hLP, hO⟩,
        rfl⟩
    · intro hM c hc
      exact (GetEventGraph.loop_connections_closed W MaxNodes hM _ _ G
        ⟨hB, fun c hc => (by cases hc)⟩ h c hc).2

/-- C22 amended, on the event graph of `BP_Hero`: the walk from
`ReceiveBeginPlay` returns nodes 3, 4 and 5; node 4 gives the connection from
its execution input pin 3 back to node 3 and the connection from its execution
output pin 4 to node 5, and node 5 the connection from its execution input pin
5 back to node 4. -/
theorem getEventGraph_connections_from_every_exec_pin_witness :
    ∃ G, GetEventGraph graphWorld (some 0) "ReceiveBeginPlay" 0 = some G ∧
      G.Nodes.map (fun n => (n.NodeId,
        (n.InputPins.filter (fun p => p.IsExecution)).map (fun p => p.PinId),
        (n.OutputPins.filter (fun p => p.IsExecution)).map (fun p => p.PinId))) =
        [(3, [], [2]), (4, [3], [4]), (5, [5], [])] ∧
      G.Connections.map (fun c =>
        (c.SourceNodeId, c.SourcePinId, c.TargetNodeId, c.TargetPinId)) =
        [(3, 2, 4, 3), (4, 3, 3, 2), (4, 4, 5, 5), (5, 5, 4, 4)] ∧
      G.Connections =
        G.Nodes.flatMap (fun n => GetEventGraph.nodeConnections graphWorld n.NodeId) ∧
      (∀ c ∈ G.Connections, ∃ n ∈ G.Nodes, n.NodeId = c.SourceNodeId ∧
        ∃ pd ∈ n.InputPins ++ n.OutputPins, pd.PinId = c.SourcePinId ∧
          pd.IsExecution = true) ∧
      (∀ n ∈ G.Nodes, ∃ N, graphWorld.Nodes[n.NodeId]? = some N ∧
        ∀ p ∈ N.Pins, ∀ pa P, graphWorld.pinAt p = some (pa, P) →
          FName.Equals P.PinCategory PC_Exec = true →
          ∀ l ∈ P.LinkedTo, ∀ la LP, graphWorld.pinAt l = some (la, LP) →
          ∀ oa Owner, graphWorld.nodeAt LP.OwningNode = some (oa, Owner) →
            ({ SourceNodeId := n.NodeId, SourcePinId := pa
               TargetNodeId := oa, TargetPinId := la } : FBlueprintConnectionData) ∈
              G.Connections) ∧
      ((0 : Int) ≤ 0 → ∀ c ∈ G.Connections, ∃ m ∈ G.Nodes, m.NodeId = c.TargetNodeId) := by
  have hE : (GetEventGraph graphWorld (some 0) "ReceiveBeginPlay" 0).isSome = true := by decide
  obtain ⟨G, hG⟩ := Option.isSome_iff_exists.1 hE
  have h2 : (GetEventGraph graphWorld (some 0) "ReceiveBeginPlay" 0).map
      (fun G => G.Nodes.map (fun n => (n.NodeId,
          (n.InputPins.filter (fun p => p.IsExecution)).map (fun p => p.PinId),
          (n.OutputPins.filter (fun p => p.IsExecution)).map (fun p => p.PinId)))) =
      some [(3, [], [2]), (4, [3], [4]), (5, [5], [])] := by decide
  have h3 : (GetEventGraph graphWorld (some 0) "ReceiveBeginPlay" 0).map
      (fun G => G.Connections.map (fun c =>
          (c.SourceNodeId, c.SourcePinId, c.TargetNodeId, c.TargetPinId))) =
      some [(3, 2, 4, 3), (4, 3, 3, 2), (4, 4, 5, 5), (5, 5, 4, 4)] := by decide
  rw [hG] at h2 h3
  simp only [Option.map_some', Option.some.injEq] at h2 h3
  exact ⟨G, hG, h2, h3,
    getEventGraph_connections_from_every_exec_pin graphWorld (some 0) "ReceiveBeginPlay" 0 G hG⟩

end BlueprintAnalyzer
